import Mathlib

/-! # Execution core of the GraphQL runtime (`executor.go`)

A shallow embedding of the executor: the response values, the parsed
operation, the schema as a name-indexed table, and the functions of
`executor.go` as state-passing definitions.  An abort (`panic`) is an explicit
outcome, `recover` is an explicit handler, and recursion that the source
bounds only by the shape of the data is bounded here by a fuel argument.

Conventions of the embedding:

* a resolve delegate may read and change a shared state, return an error or
  abort; the other delegates (`Serialize`, `IsTypeOf`, `ResolveType`) are
  total functions;
* a map is a list of entries read through the first entry of a key; the
  order in which `range` visits a map is picked by a seed, one per loop;
* the maps and lists of the response tree are not shared between positions,
  so that a queued dethunk task is the position of the map or list it
  processes;
* the state of an execution carries, besides the errors list, the events of
  the execution (failures raised, delegates called, producers invoked), which
  no function reads.
-/

namespace Graphql

/-! ## Response paths and errors -/

/-- A key of a response path: a response name or a list index. -/
inductive PathKey where
  | key (name : String)
  | index (i : Nat)
deriving DecidableEq, Repr

/-- Modelled from the spec: the `responsePath` type is not part of the
sources at hand.  It is the immutable cons-list `nil | Path{prev, key}`. -/
inductive responsePath where
  | root
  | cons (prev : responsePath) (key : PathKey)
deriving DecidableEq, Repr

/-- Modelled from the spec: `WithKey(k)` returns a child path. -/
def responsePath.WithKey (p : responsePath) (k : PathKey) : responsePath :=
  .cons p k

/-- Modelled from the spec: `AsArray()` materialises the path in root-to-leaf
order. -/
def responsePath.AsArray : responsePath → List PathKey
  | .root => []
  | .cons prev k => prev.AsArray ++ [k]

/-- Modelled from the spec: a formatted error is
`{Message, Locations, Path}`; a location is the source position of a field
node. -/
structure FormattedError where
  Message : String
  Locations : List Nat
  Path : List PathKey
deriving DecidableEq, Repr

/-- The payload of an abort.  `located` is `none` for an error that no field
boundary has seen yet (an error returned by a delegate, a runtime error) and
holds the node locations and the path once the error has been located. -/
structure PanicValue where
  message : String
  located : Option (List Nat × List PathKey)
deriving DecidableEq, Repr

/-! ## The parsed operation -/

/-- A literal of the operation document (`ast.Value`). -/
inductive AstValue where
  | variable (name : String)
  | intValue (v : String)
  | floatValue (v : String)
  | stringValue (v : String)
  | booleanValue (b : Bool)
  | enumValue (v : String)
  | listValue (values : List AstValue)
  | objectValue (fields : List (Option String × AstValue))

/-- An argument node (`ast.Argument`). -/
structure Argument where
  Name : Option String
  Value : AstValue

/-- A directive node (`ast.Directive`). -/
structure Directive where
  Name : Option String
  Arguments : List Argument

/-- The members of a field node (`ast.Field`), over the type of selections. -/
structure FieldNode (σ : Type) where
  Alias : Option String
  Name : Option String
  Arguments : List Argument
  Directives : List Directive
  SelectionSet : Option (List σ)
  Loc : Nat

/-- A selection (`ast.Selection`): a field, an inline fragment or a fragment
spread.  A type condition is the name of the named type it refers to. -/
inductive Selection where
  | field (f : FieldNode Selection)
  | inlineFragment (TypeCondition : Option String) (Directives : List Directive)
      (SelectionSet : Option (List Selection))
  | fragmentSpread (Name : Option String) (Directives : List Directive)

/-- A field node (`*ast.Field`). -/
abbrev Field := FieldNode Selection

/-- A selection set (`*ast.SelectionSet`); a nil set is `none`. -/
abbrev SelectionSet := Option (List Selection)

/-- The kind of an operation (`ast.OperationType...`). -/
inductive OperationType where
  | query
  | mutation
  | subscription
  | other (name : String)
deriving DecidableEq, Repr

/-- An operation definition (`*ast.OperationDefinition`). -/
structure OperationDefinition where
  Operation : OperationType
  Name : Option String
  SelectionSet : SelectionSet

/-- A fragment definition (`*ast.FragmentDefinition`). -/
structure FragmentDefinition where
  Name : Option String
  TypeCondition : Option String
  SelectionSet : SelectionSet

/-- A definition of a document (`ast.Definition`). -/
inductive Definition where
  | operation (d : OperationDefinition)
  | fragment (d : FragmentDefinition)
  | other (kind : String)

/-! ## Types of the schema -/

/-- A type of the schema (`Type`), by name: object types refer to each other
and to themselves, so a reference is the name of the type. -/
inductive Ty where
  | scalar (name : String)
  | enum (name : String)
  | object (name : String)
  | interface (name : String)
  | union (name : String)
  | inputObject (name : String)
  | list (OfType : Ty)
  | nonNull (OfType : Ty)
deriving DecidableEq, Repr

/-- The rendering of a type by the `%v` verb. -/
def Ty.toString : Ty → String
  | .scalar n => n
  | .enum n => n
  | .object n => n
  | .interface n => n
  | .union n => n
  | .inputObject n => n
  | .list t => "[" ++ t.toString ++ "]"
  | .nonNull t => t.toString ++ "!"

/-- The `Name()` of a type. -/
def Ty.Name : Ty → String := Ty.toString

/-- The part of `ResolveInfo` that a completion closure keeps: the field
name, the merged field nodes, the return type and the name of the parent
type. -/
structure ResolveInfo where
  FieldName : String
  FieldASTs : List Field
  ReturnType : Ty
  ParentType : String

/-! ## Values -/

/-- A value of the host language (`interface{}`): resolver results, sources
and the nodes of the response tree.

* `func body` is a zero-argument producer `func() interface{}` that returns
  `body`; `panicFunc msg` is one that aborts;
* `otherFunc` is a function value of any other signature;
* `struct` is a structured record, each member with its declared name, its
  `json` tag, its `graphql` tag (empty when absent) and its value; `ptr` and
  `nilPtr` are pointers;
* `completion` is the closure that `completeValue` returns for a producer:
  it keeps the return type, the field nodes, the resolve info, the path and
  the producer. -/
inductive Value where
  | null
  | nan
  | int (n : Int)
  | str (s : String)
  | bool (b : Bool)
  | list (xs : List Value)
  | map (kvs : List (String × Value))
  | struct (typeName : String) (members : List (String × String × String × Value))
  | ptr (target : Value)
  | nilPtr
  | func (body : Value)
  | panicFunc (msg : String)
  | otherFunc (signature : String)
  | completion (returnType : Ty) (fieldASTs : List Field) (info : ResolveInfo)
      (path : responsePath) (result : Value)

instance : Inhabited Value := ⟨.null⟩

/-- Modelled from the spec: `isNullish` is not part of the sources at hand.
A value is nullish iff it is absent/nil, undefined, or a floating-point NaN. -/
def isNullish : Value → Bool
  | .null => true
  | .nilPtr => true
  | .nan => true
  | _ => false

/-- Modelled from the spec: `isIterable` is not part of the sources at hand.
The result must be an iterable sequence: a list, or a pointer to one. -/
def isIterable : Value → Bool
  | .list _ => true
  | .ptr (.list _) => true
  | _ => false

/-- The test `resultVal.IsValid() && resultVal.Kind() == reflect.Func` of
`completeValue`: the value is a function, of the producer signature or of any
other one. -/
def isFunc : Value → Bool
  | .func _ => true
  | .panicFunc _ => true
  | .otherFunc _ => true
  | .completion _ _ _ _ _ => true
  | _ => false

/-- The type assertion `v.(func() interface{})`. -/
def isThunk : Value → Bool
  | .func _ => true
  | .panicFunc _ => true
  | .completion _ _ _ _ _ => true
  | _ => false

/-- Reading `m[k]` of a `map[string]interface{}`; an absent key reads nil. -/
def mapGet (kvs : List (String × Value)) (k : String) : Value :=
  (kvs.lookup k).getD .null

/-- Writing `m[k] = v`: the entry of an existing key is replaced in place, a
new key is added. -/
def mapSet {α : Type} : List (String × α) → String → α → List (String × α)
  | [], k, v => [(k, v)]
  | (k', v') :: rest, k, v =>
    if k' = k then (k, v) :: rest else (k', v') :: mapSet rest k v

/-- One order in which `range` may visit the entries of a map: the entry at
index `seed % n` comes first, and the rest follow in the order that
`seed / n` picks among the remaining ones.  Seed `0` is the stored order. -/
def rangeOrder {α : Type} : Nat → Nat → List α → List α
  | 0, _, _ => []
  | fuel + 1, seed, xs =>
    match xs.get? (seed % xs.length) with
    | none => []
    | some x => x :: rangeOrder fuel (seed / xs.length) (xs.eraseIdx (seed % xs.length))

/-- The entries that a map holds: a key has one entry, the first in the
stored list, which is the one that reading the key finds. -/
def mapEntries {α : Type} : List (String × α) → List (String × α)
  | [] => []
  | (k, v) :: rest => (k, v) :: (mapEntries rest).filter (fun e => e.1 != k)

/-- The entries of a map in the order picked by `seed`: `range` visits every
key once. -/
def mapRange {α : Type} (seed : Nat) (xs : List (String × α)) : List (String × α) :=
  rangeOrder (mapEntries xs).length seed (mapEntries xs)

/-! ## The schema -/

/-- An argument definition of a field or directive (`*Argument`). -/
structure ArgumentDef where
  PrivateName : String
  Type_ : Ty
  DefaultValue : Value

/-- The parameters of a resolve delegate (`ResolveParams`); the root value
and the variable values of the resolve info travel here. -/
structure ResolveParams where
  Source : Value
  Args : List (String × Value)
  Info : ResolveInfo
  RootValue : Value
  VariableValues : List (String × Value)

/-- What a resolve delegate does: it returns `(value, error)` or aborts. -/
inductive ResolveOutcome where
  | returns (value : Value) (err : Option String)
  | aborts (msg : String)

/-- The state that resolve delegates share and may change. -/
abbrev World := Value

/-- A resolve delegate (`FieldResolveFn`). -/
abbrev FieldResolveFn := ResolveParams → World → ResolveOutcome × World

/-- A field definition (`*FieldDefinition`). -/
structure FieldDefinition where
  Name : String
  Type_ : Ty
  Args : List ArgumentDef
  Resolve : Option FieldResolveFn

/-- The parameters of `IsTypeOf`. -/
structure IsTypeOfParams where
  Value : Value
  Info : ResolveInfo

/-- An object type (`*Object`): a pointer, that is the address `Addr` of the
object and what the object holds.  Two pointers are the same pointer iff
their addresses are equal. -/
structure Object where
  Addr : Nat
  PrivateName : String
  Fields : List (String × FieldDefinition)
  IsTypeOf : Option (IsTypeOfParams → Bool)

/-- The `Name()` of an object type. -/
def Object.Name (o : Object) : String := o.PrivateName

/-- The parameters of `ResolveType`. -/
structure ResolveTypeParams where
  Value : Value
  Info : ResolveInfo

/-- An abstract type (`*Interface` or `*Union`). -/
structure Abstract where
  PrivateName : String
  isUnion : Bool
  ResolveType : Option (ResolveTypeParams → Option Object)

/-- A directive definition (`*Directive`). -/
structure DirectiveDef where
  Name : String
  Args : List ArgumentDef
  OnOperation : Bool
  OnFragment : Bool
  OnField : Bool

/-- The schema (`Schema`), an external collaborator: the root types, the
types by name, and the possible types of abstract types.  `MutationType()`
and `SubscriptionType()` return a nil pointer, `none`, for a schema without
that root type. -/
structure Schema where
  QueryType : Object
  MutationType : Option Object
  SubscriptionType : Option Object
  ObjectType : String → Object
  AbstractType : String → Abstract
  Serialize : String → Value → Value
  IsPossibleType : String → String → Bool
  PossibleTypes : String → List Object

/-- The execution context (`executionContext`), without its errors list,
which is part of the state. -/
structure executionContext where
  Schema : Schema
  Fragments : List (String × Definition)
  Root : Value
  Operation : Option OperationDefinition
  VariableValues : List (String × Value)

/-- The collaborators of the executor that are not part of the sources at
hand, taken as parameters: argument coercion, `typeFromAST`, variable
coercion, the three meta-field definitions, the two directives, the
`FieldResolver` capability of a source, the `%v` and `%T` renderings of a
value, the seeds of the orders in which maps are iterated, `strings.EqualFold`
and whether the name of a member of a record is an exported name.
`typeFromAST` returns `(type, error)`: an error is `.error`, and `.ok none` is
the nil type that it returns without error for a name that the schema does
not know. -/
structure Runtime where
  getArgumentValues : List ArgumentDef → List Argument → List (String × Value) →
    List (String × Value)
  typeFromAST : Schema → String → Except String (Option Ty)
  getVariableValues : Schema → OperationDefinition → List (String × Value) →
    Except String (List (String × Value))
  SchemaMetaFieldDef : FieldDefinition
  TypeMetaFieldDef : FieldDefinition
  TypeNameMetaFieldDef : FieldDefinition
  SkipDirective : DirectiveDef
  IncludeDirective : DirectiveDef
  fieldResolver : Value → Option FieldResolveFn
  formatValue : Value → String
  formatType : Value → String
  rangeSeed : Nat → Nat
  EqualFold : String → String → Bool
  isExported : String → Bool

/-! ## State, aborts and handlers -/

/-- An event of an execution, kept for stating properties: an abort was
raised (not re-raised), a resolve delegate was called, a producer in the
response tree was invoked at a position. -/
inductive Event where
  | raised (message : String)
  | resolved (path : List PathKey)
  | invoked (position : List PathKey)
deriving DecidableEq, Repr

/-- The state of an execution: the errors list of the execution context, the
state shared by the resolve delegates, the number of map iterations started
so far, and the events so far. -/
structure ExecState where
  Errors : List FormattedError
  world : World
  ranges : Nat
  trace : List Event

/-- How a call ends: it returns, it aborts, or the fuel did not suffice. -/
inductive Outcome (α : Type) where
  | ok (a : α)
  | panic (r : PanicValue)
  | outOfFuel

/-- A computation of the executor. -/
abbrev Exec (α : Type) := ExecState → Outcome α × ExecState

/-- Returning a value. -/
def Exec.pure {α : Type} (a : α) : Exec α := fun s => (.ok a, s)

/-- Sequencing: an abort or a lack of fuel ends the sequence. -/
def Exec.bind {α β : Type} (m : Exec α) (f : α → Exec β) : Exec β := fun s =>
  match m s with
  | (.ok a, s') => f a s'
  | (.panic r, s') => (.panic r, s')
  | (.outOfFuel, s') => (.outOfFuel, s')

instance : Monad Exec where
  pure := Exec.pure
  bind := Exec.bind

/-- Raising an abort: `panic(r)` at the place where a failure originates. -/
def raise {α : Type} (r : PanicValue) : Exec α := fun s =>
  (.panic r, { s with trace := s.trace ++ [.raised r.message] })

/-- Raising an abort again from a handler. -/
def reraise {α : Type} (r : PanicValue) : Exec α := fun s => (.panic r, s)

/-- Running out of fuel. -/
def outOfFuel {α : Type} : Exec α := fun s => (.outOfFuel, s)

/-- Sequencing of calls that touch no state: an abort or a lack of fuel ends
the sequence. -/
def Outcome.bind {α β : Type} (m : Outcome α) (f : α → Outcome β) : Outcome β :=
  match m with
  | .ok a => f a
  | .panic r => .panic r
  | .outOfFuel => .outOfFuel

instance : Monad Outcome where
  pure := Outcome.ok
  bind := Outcome.bind

/-- The abort of the Go runtime at a method call or a member access through
a nil pointer or a nil interface. -/
def nilDereference : PanicValue :=
  ⟨"runtime error: invalid memory address or nil pointer dereference", none⟩

/-- A deferred `recover()`: the handler runs when the body aborts. -/
def recoverWith {α : Type} (body : Exec α) (handler : PanicValue → Exec α) : Exec α :=
  fun s =>
    match body s with
    | (.panic r, s') => handler r s'
    | other => other

/-- The seed of the next map iteration. -/
def nextRange (rt : Runtime) : Exec Nat := fun s =>
  (.ok (rt.rangeSeed s.ranges), { s with ranges := s.ranges + 1 })

/-- Appending to the errors list of the execution context. -/
def appendError (e : FormattedError) : Exec Unit := fun s =>
  (.ok (), { s with Errors := s.Errors ++ [e] })

/-- Recording an event. -/
def record (e : Event) : Exec Unit := fun s =>
  (.ok (), { s with trace := s.trace ++ [e] })

/-- `FieldASTsToNodeASTs`, followed by reading the locations of the nodes. -/
def FieldASTsToNodeASTs (fieldASTs : List Field) : List Nat :=
  fieldASTs.map (fun f => f.Loc)

/-- Modelled from the spec: `NewLocatedErrorWithPath` is not part of the
sources at hand.  A located error records the message, the path array and the
locations of the nodes; an error that is located already keeps its location
(the tests expect the location of the field that failed). -/
def NewLocatedErrorWithPath (r : PanicValue) (nodes : List Nat) (path : List PathKey) :
    PanicValue :=
  match r.located with
  | some _ => r
  | none => { message := r.message, located := some (nodes, path) }

/-- Modelled from the spec: `gqlerrors.FormatError` is not part of the
sources at hand.  It renders an error as `{Message, Locations, Path}`. -/
def FormatError (r : PanicValue) : FormattedError :=
  match r.located with
  | some (nodes, path) => { Message := r.message, Locations := nodes, Path := path }
  | none => { Message := r.message, Locations := [], Path := [] }

/-- Whether a return type, possibly not known yet, is `*NonNull`. -/
def isNonNull : Option Ty → Bool
  | some (.nonNull _) => true
  | _ => false

/-- `handleFieldError`: locate the error, send it upstream when the return
type is non-null, append it to the errors list otherwise. -/
def handleFieldError (r : PanicValue) (fieldNodes : List Nat) (path : responsePath)
    (returnType : Option Ty) : Exec Unit :=
  let err := NewLocatedErrorWithPath r fieldNodes path.AsArray
  if isNonNull returnType then reraise err
  else appendError (FormatError err)

/-! ## Field collection -/

/-- The scan of `shouldIncludeNode` over the directives: the last `@skip`
and the last `@include` are kept; a directive without a name is passed by. -/
def findSkipInclude (rt : Runtime) (directives : List Directive) :
    Option Directive × Option Directive :=
  directives.foldl (fun found directive =>
    match directive.Name with
    | none => found
    | some name =>
      if name = rt.SkipDirective.Name then (some directive, found.2)
      else if name = rt.IncludeDirective.Name then (found.1, some directive)
      else found) (none, none)

/-- The test `v, ok := argValues["if"].(bool); ok && v == b`. -/
def ifArgIs (argValues : List (String × Value)) (b : Bool) : Bool :=
  match argValues.lookup "if" with
  | some (.bool v) => v == b
  | _ => false

/-- `shouldIncludeNode`: `@skip` has higher precedence than `@include`. -/
def shouldIncludeNode (rt : Runtime) (eCtx : executionContext)
    (directives : List Directive) : Bool :=
  let found := findSkipInclude rt directives
  let skipped :=
    match found.1 with
    | some skipAST =>
      ifArgIs (rt.getArgumentValues rt.SkipDirective.Args skipAST.Arguments
        eCtx.VariableValues) true
    | none => false
  if skipped then false
  else
    match found.2 with
    | some includeAST =>
      !(ifArgIs (rt.getArgumentValues rt.IncludeDirective.Args includeAST.Arguments
        eCtx.VariableValues) false)
    | none => true

/-- The node handed to `doesFragmentConditionMatch`. -/
inductive FragmentNode where
  | definition (TypeCondition : Option String)
  | inline (TypeCondition : Option String)
  | otherNode

/-- The body of each of the two cases of `doesFragmentConditionMatch`, which
are the same text.  When `typeFromAST` returns the nil type without error,
`conditionalType == ttype` is false and the call `conditionalType.Name()`
aborts.  A type that is the runtime type itself has its name, so that the
test of identity and the test of the names amount to the test of the
names. -/
def typeConditionMatches (rt : Runtime) (eCtx : executionContext)
    (typeConditionAST : Option String) (ttype : Object) : Outcome Bool :=
  match typeConditionAST with
  | none => .ok true
  | some named =>
    match rt.typeFromAST eCtx.Schema named with
    | .error _ => .ok false
    | .ok none => .panic nilDereference
    | .ok (some conditionalType) =>
      if conditionalType = Ty.object ttype.PrivateName then .ok true
      else if conditionalType.Name = ttype.Name then .ok true
      else
        match conditionalType with
        | .interface n => .ok (eCtx.Schema.IsPossibleType n ttype.PrivateName)
        | .union n => .ok (eCtx.Schema.IsPossibleType n ttype.PrivateName)
        | _ => .ok false

/-- `doesFragmentConditionMatch`: whether a fragment applies to the type. -/
def doesFragmentConditionMatch (rt : Runtime) (eCtx : executionContext)
    (fragment : FragmentNode) (ttype : Object) : Outcome Bool :=
  match fragment with
  | .definition tc => typeConditionMatches rt eCtx tc ttype
  | .inline tc => typeConditionMatches rt eCtx tc ttype
  | .otherNode => .ok false

/-- `getFieldEntryKey`: the alias when present and not empty, else the name. -/
def getFieldEntryKey (node : Field) : String :=
  match node.Alias with
  | some a => if a ≠ "" then a else node.Name.getD ""
  | none => node.Name.getD ""

/-- The accumulator of `collectFields`: the field map and the visited
fragment names, both shared by the nested calls. -/
abbrev Collected := List (String × List Field) × List (String × Bool)

/-- `collectFields`: adds the fields of a selection set to the field map.
The fuel bounds the nesting of inline fragments and fragment spreads.  The
call aborts when `doesFragmentConditionMatch` does; the test of the
directives comes first and spares the call of `doesFragmentConditionMatch`
when it rejects. -/
def collectFields (rt : Runtime) (eCtx : executionContext) :
    Nat → Object → SelectionSet → Collected → Outcome Collected
  | _, _, none, acc => .ok acc
  | 0, _, some _, _ => .outOfFuel
  | fuel + 1, runtimeType, some selections, acc =>
    selections.foldlM (fun (acc : Collected) iSelection =>
      match iSelection with
      | .field selection =>
        if !shouldIncludeNode rt eCtx selection.Directives then .ok acc
        else
          let name := getFieldEntryKey selection
          let fields := if (acc.1.lookup name).isNone then mapSet acc.1 name [] else acc.1
          .ok (mapSet fields name ((fields.lookup name).getD [] ++ [selection]), acc.2)
      | .inlineFragment typeCondition directives selectionSet =>
        if !shouldIncludeNode rt eCtx directives then .ok acc
        else
          match doesFragmentConditionMatch rt eCtx (.inline typeCondition) runtimeType with
          | .ok true => collectFields rt eCtx fuel runtimeType selectionSet acc
          | .ok false => .ok acc
          | .panic r => .panic r
          | .outOfFuel => .outOfFuel
      | .fragmentSpread name directives =>
        let fragName := name.getD ""
        if acc.2.lookup fragName == some true || !shouldIncludeNode rt eCtx directives then
          .ok acc
        else
          let visited := mapSet acc.2 fragName true
          match eCtx.Fragments.lookup fragName with
          | none => .ok (acc.1, visited)
          | some (.fragment fragment) =>
            match doesFragmentConditionMatch rt eCtx (.definition fragment.TypeCondition)
                runtimeType with
            | .ok true =>
              collectFields rt eCtx fuel runtimeType fragment.SelectionSet (acc.1, visited)
            | .ok false => .ok (acc.1, visited)
            | .panic r => .panic r
            | .outOfFuel => .outOfFuel
          | some _ => .ok (acc.1, visited)) acc

/-! ## Field lookup and the default resolver -/

/-- `getFieldDef`: the three meta-fields, else the field of the parent type.
`schema.QueryType() == parentType` compares two pointers, that is the
addresses of the two objects. -/
def getFieldDef (rt : Runtime) (schema : Schema) (parentType : Option Object)
    (fieldName : String) : Option FieldDefinition :=
  match parentType with
  | none => none
  | some parentType =>
    if fieldName = rt.SchemaMetaFieldDef.Name ∧
        schema.QueryType.Addr = parentType.Addr then
      some rt.SchemaMetaFieldDef
    else if fieldName = rt.TypeMetaFieldDef.Name ∧
        schema.QueryType.Addr = parentType.Addr then
      some rt.TypeMetaFieldDef
    else if fieldName = rt.TypeNameMetaFieldDef.Name then
      some rt.TypeNameMetaFieldDef
    else parentType.Fields.lookup fieldName

/-- The closure `checkTag` of `DefaultResolveFn`: the first comma-separated
component of the tag is the field name. -/
def checkTag (tag : String) (fieldName : String) : Bool :=
  String.mk (tag.data.takeWhile (fun c => c != ',')) == fieldName

/-- The call `valueField.Interface()` on a member of a record: the value of
a member whose name is exported; for a member whose name is not exported the
call aborts. -/
def memberInterface (rt : Runtime) (name : String) (value : Value) : Except String Value :=
  if rt.isExported name then .ok value
  else .error "reflect.Value.Interface: cannot return value obtained from unexported field or method"

/-- The loop of `DefaultResolveFn` over the members of a record, in
declaration order; nil when no member matches. -/
def resolveMember (rt : Runtime) (fieldName : String) :
    List (String × String × String × Value) → Except String Value
  | [] => .ok .null
  | (name, json, graphql, value) :: rest =>
    if rt.EqualFold name fieldName then memberInterface rt name value
    else if checkTag json fieldName || checkTag graphql fieldName then
      memberInterface rt name value
    else resolveMember rt fieldName rest

/-- What `DefaultResolveFn` returns for a record. -/
def resolveRecord (rt : Runtime) (fieldName : String)
    (members : List (String × String × String × Value))
    (world : World) : ResolveOutcome × World :=
  match resolveMember rt fieldName members with
  | .ok value => (.returns value none, world)
  | .error msg => (.aborts msg, world)

/-- `DefaultResolveFn`: the default resolve behaviour.  `reflect.ValueOf` of
a nil source is the zero `reflect.Value`, on which `Interface()` aborts.  A
property that is a producer is invoked; completion closures live in the
response tree only and do not occur in a source. -/
def DefaultResolveFn (rt : Runtime) : FieldResolveFn := fun p world =>
  match p.Source with
  | .null => (.aborts "reflect: call of reflect.Value.Interface on zero Value", world)
  | source =>
    match rt.fieldResolver source with
    | some resolver => resolver p world
    | none =>
      match source with
      | .nilPtr => (.returns .null none, world)
      | .ptr (.struct _ members) => resolveRecord rt p.Info.FieldName members world
      | .struct _ members => resolveRecord rt p.Info.FieldName members world
      | .map sourceMap =>
        match mapGet sourceMap p.Info.FieldName with
        | .func body => (.returns body none, world)
        | .panicFunc msg => (.aborts msg, world)
        | property => (.returns property none, world)
      | _ => (.returns .null none, world)

/-! ## Resolution and completion

`completeValueCatchingError` is the one function that is recursive in the
fuel; the others receive it, at the fuel that is left, as `self`. -/

/-- The signature of `completeValueCatchingError`. -/
abbrev Completer := Ty → List Field → ResolveInfo → responsePath → Value → Exec Value

/-- Internal `resolveField` state (`resolveFieldResultState`). -/
structure resolveFieldResultState where
  hasNoFieldDefs : Bool
deriving DecidableEq, Repr

/-- The variables of `resolveField` that its deferred handler reads: the two
named results and `returnType`, as they stand when the body ends. -/
structure resolveFieldVars where
  result : Value
  resultState : resolveFieldResultState
  returnType : Option Ty

/-- The body of `resolveField`, up to its deferred handler: it ends normally
or by an abort, and in both cases leaves its variables as assigned so far. -/
def resolveFieldBody (self : Completer) (rt : Runtime) (eCtx : executionContext)
    (parentType : Object) (source : Value) (fieldASTs : List Field) (path : responsePath) :
    ExecState → (Outcome Unit × resolveFieldVars) × ExecState := fun s =>
  match fieldASTs with
  | [] =>
    let out := raise (α := Unit) ⟨"runtime error: index out of range", none⟩ s
    ((out.1, ⟨.null, ⟨false⟩, none⟩), out.2)
  | fieldAST :: _ =>
    let fieldName := fieldAST.Name.getD ""
    match getFieldDef rt eCtx.Schema (some parentType) fieldName with
    | none => ((.ok (), ⟨.null, ⟨true⟩, none⟩), s)
    | some fieldDef =>
      let returnType := fieldDef.Type_
      let resolveFn := fieldDef.Resolve.getD (DefaultResolveFn rt)
      let args := rt.getArgumentValues fieldDef.Args fieldAST.Arguments eCtx.VariableValues
      let info : ResolveInfo :=
        { FieldName := fieldName, FieldASTs := fieldASTs, ReturnType := returnType,
          ParentType := parentType.Name }
      let called := resolveFn
        { Source := source, Args := args, Info := info, RootValue := eCtx.Root,
          VariableValues := eCtx.VariableValues } s.world
      let s1 : ExecState :=
        { s with world := called.2, trace := s.trace ++ [.resolved path.AsArray] }
      match called.1 with
      | .aborts msg =>
        let out := raise (α := Unit) ⟨msg, none⟩ s1
        ((out.1, ⟨.null, ⟨false⟩, some returnType⟩), out.2)
      | .returns result (some resolveFnError) =>
        let out := raise (α := Unit) ⟨resolveFnError, none⟩ s1
        ((out.1, ⟨result, ⟨false⟩, some returnType⟩), out.2)
      | .returns result none =>
        match self returnType fieldASTs info path result s1 with
        | (.ok completed, s2) => ((.ok (), ⟨completed, ⟨false⟩, some returnType⟩), s2)
        | (.panic r, s2) => ((.panic r, ⟨result, ⟨false⟩, some returnType⟩), s2)
        | (.outOfFuel, s2) => ((.outOfFuel, ⟨result, ⟨false⟩, some returnType⟩), s2)

/-- `resolveField`: resolves the field on the source object and completes
the result.  When the body aborts, the deferred handler calls
`handleFieldError`; if that returns, the function returns its named results
as they stand. -/
def resolveField (self : Completer) (rt : Runtime) (eCtx : executionContext)
    (parentType : Object) (source : Value) (fieldASTs : List Field) (path : responsePath) :
    Exec (Value × resolveFieldResultState) := fun s =>
  match resolveFieldBody self rt eCtx parentType source fieldASTs path s with
  | ((.ok (), vars), s') => (.ok (vars.result, vars.resultState), s')
  | ((.outOfFuel, _), s') => (.outOfFuel, s')
  | ((.panic r, vars), s') =>
    match handleFieldError r (FieldASTsToNodeASTs fieldASTs) path vars.returnType s' with
    | (.ok (), s'') => (.ok (vars.result, vars.resultState), s'')
    | (.panic r', s'') => (.panic r', s'')
    | (.outOfFuel, s'') => (.outOfFuel, s'')

/-- The loop of `executeSubFields` and of `executeFieldsSerially` over the
entries of the field map, in the order of the iteration. -/
def executeFieldsLoop (self : Completer) (rt : Runtime) (eCtx : executionContext)
    (parentType : Object) (source : Value) (path : responsePath) :
    List (String × List Field) → List (String × Value) → Exec (List (String × Value))
  | [], finalResults => pure finalResults
  | (responseName, fieldASTs) :: rest, finalResults => do
    let fieldPath := path.WithKey (.key responseName)
    let (resolved, state) ← resolveField self rt eCtx parentType source fieldASTs fieldPath
    if state.hasNoFieldDefs then
      executeFieldsLoop self rt eCtx parentType source path rest finalResults
    else
      executeFieldsLoop self rt eCtx parentType source path rest
        (mapSet finalResults responseName resolved)

/-- The parameters of `executeFields` (`executeFieldsParams`). -/
structure executeFieldsParams where
  ParentType : Object
  Source : Value
  Fields : List (String × List Field)
  Path : responsePath

/-- The replacement of a nil source by an empty map. -/
def sourceOrEmpty : Value → Value
  | .null => .map []
  | v => v

/-- `executeSubFields`: resolves every entry of the field map. -/
def executeSubFields (self : Completer) (rt : Runtime) (eCtx : executionContext)
    (p : executeFieldsParams) : Exec (List (String × Value)) := do
  let seed ← nextRange rt
  executeFieldsLoop self rt eCtx p.ParentType (sourceOrEmpty p.Source) p.Path
    (mapRange seed p.Fields) []

/-- The loop of `completeObjectValue` over the merged field nodes. -/
def collectSubFields (fuel : Nat) (rt : Runtime) (eCtx : executionContext)
    (returnType : Object) : List Field → Collected → Outcome Collected
  | [], acc => .ok acc
  | fieldAST :: rest, acc =>
    match fieldAST.SelectionSet with
    | none => collectSubFields fuel rt eCtx returnType rest acc
    | some selectionSet =>
      match collectFields rt eCtx fuel returnType (some selectionSet) acc with
      | .ok acc' => collectSubFields fuel rt eCtx returnType rest acc'
      | .panic r => .panic r
      | .outOfFuel => .outOfFuel

/-- `completeObjectValue`: completes an object value by executing all
sub-selections. -/
def completeObjectValue (fuel : Nat) (self : Completer) (rt : Runtime)
    (eCtx : executionContext) (returnType : Object) (fieldASTs : List Field)
    (info : ResolveInfo) (path : responsePath) (result : Value) : Exec Value :=
  let rejected :=
    match returnType.IsTypeOf with
    | some isTypeOf => !isTypeOf { Value := result, Info := info }
    | none => false
  if rejected then
    raise ⟨"Expected value of type \"" ++ returnType.Name ++ "\" but got: " ++
      rt.formatType result ++ ".", none⟩
  else
    match collectSubFields fuel rt eCtx returnType fieldASTs ([], []) with
    | .outOfFuel => outOfFuel
    | .panic r => raise r
    | .ok (subFieldASTs, _) => do
      let finalResults ← executeSubFields self rt eCtx
        { ParentType := returnType, Source := result, Fields := subFieldASTs, Path := path }
      pure (.map finalResults)

/-- `defaultResolveTypeFn`: the first possible type that defines `IsTypeOf`
and whose `IsTypeOf` accepts the value. -/
def defaultResolveTypeFn (eCtx : executionContext) (p : ResolveTypeParams)
    (abstractType : String) : Option Object :=
  (eCtx.Schema.PossibleTypes abstractType).find? (fun possibleType =>
    match possibleType.IsTypeOf with
    | none => false
    | some isTypeOf => isTypeOf { Value := p.Value, Info := p.Info })

/-- The choice of `completeAbstractValue` between the `ResolveType` of the
abstract type, when it has one, and `defaultResolveTypeFn`. -/
def resolveRuntimeType (eCtx : executionContext) (abstractType : Abstract)
    (resolveTypeParams : ResolveTypeParams) : Option Object :=
  match abstractType.ResolveType with
  | some resolveType => resolveType resolveTypeParams
  | none => defaultResolveTypeFn eCtx resolveTypeParams abstractType.PrivateName

/-- `completeAbstractValue`: determines the runtime type of a value of an
interface or union type, then completes the value for that type. -/
def completeAbstractValue (fuel : Nat) (self : Completer) (rt : Runtime)
    (eCtx : executionContext) (returnType : Ty) (abstractType : Abstract)
    (fieldASTs : List Field) (info : ResolveInfo) (path : responsePath) (result : Value) :
    Exec Value :=
  let resolveTypeParams : ResolveTypeParams := { Value := result, Info := info }
  match resolveRuntimeType eCtx abstractType resolveTypeParams with
  | none =>
    raise ⟨"Abstract type " ++ returnType.toString ++
      " must resolve to an Object type at runtime for field " ++ info.ParentType ++ "." ++
      info.FieldName ++ " with value \"" ++ rt.formatValue result ++
      "\", received \"<nil>\".", none⟩
  | some runtimeType =>
    if !eCtx.Schema.IsPossibleType abstractType.PrivateName runtimeType.PrivateName then
      raise ⟨"Runtime Object type \"" ++ runtimeType.Name ++
        "\" is not a possible type for \"" ++ returnType.toString ++ "\".", none⟩
    else completeObjectValue fuel self rt eCtx runtimeType fieldASTs info path result

/-- `completeLeafValue`: serialises a leaf value, nil if the serialised value
is nullish. -/
def completeLeafValue (schema : Schema) (returnType : String) (result : Value) : Value :=
  let serializedResult := schema.Serialize returnType result
  if isNullish serializedResult then .null else serializedResult

/-- The loop of `completeListValue` over the items, from index `i` on. -/
def completeListItems (self : Completer) (itemType : Ty) (fieldASTs : List Field)
    (info : ResolveInfo) (path : responsePath) :
    Nat → List Value → List Value → Exec (List Value)
  | _, [], completedResults => pure completedResults
  | i, val :: rest, completedResults => do
    let fieldPath := path.WithKey (.index i)
    let completedItem ← self itemType fieldASTs info fieldPath val
    completeListItems self itemType fieldASTs info path (i + 1) rest
      (completedResults ++ [completedItem])

/-- The items of an iterable result, a pointer being followed. -/
def listItems : Value → List Value
  | .list xs => xs
  | .ptr (.list xs) => xs
  | _ => []

/-- `completeListValue`: completes each item of the list with the inner
type. -/
def completeListValue (self : Completer) (itemType : Ty) (fieldASTs : List Field)
    (info : ResolveInfo) (path : responsePath) (result : Value) : Exec Value :=
  if !isIterable result then
    raise ⟨"User Error: expected iterable, but did not find one for field " ++
      info.ParentType ++ "." ++ info.FieldName ++ ".", none⟩
  else do
    let completedResults ←
      completeListItems self itemType fieldASTs info path 0 (listItems result) []
    pure (.list completedResults)

/-- `completeValue`: completes a resolved value for its return type. -/
def completeValue (fuel : Nat) (self : Completer) (rt : Runtime) (eCtx : executionContext) :
    Ty → List Field → ResolveInfo → responsePath → Value → Exec Value
  | .nonNull ofType, fieldASTs, info, path, result =>
    if isFunc result then
      pure (.completion (.nonNull ofType) fieldASTs info path result)
    else do
      let completed ← completeValue fuel self rt eCtx ofType fieldASTs info path result
      match completed with
      | .null =>
        raise ⟨"Cannot return null for non-nullable field " ++ info.ParentType ++ "." ++
          info.FieldName ++ ".", some (FieldASTsToNodeASTs fieldASTs, path.AsArray)⟩
      | _ => pure completed
  | returnType, fieldASTs, info, path, result =>
    if isFunc result then pure (.completion returnType fieldASTs info path result)
    else if isNullish result then pure .null
    else
      match returnType with
      | .list ofType => completeListValue self ofType fieldASTs info path result
      | .scalar name => pure (completeLeafValue eCtx.Schema name result)
      | .enum name => pure (completeLeafValue eCtx.Schema name result)
      | .union name =>
        completeAbstractValue fuel self rt eCtx returnType (eCtx.Schema.AbstractType name)
          fieldASTs info path result
      | .interface name =>
        completeAbstractValue fuel self rt eCtx returnType (eCtx.Schema.AbstractType name)
          fieldASTs info path result
      | .object name =>
        completeObjectValue fuel self rt eCtx (eCtx.Schema.ObjectType name) fieldASTs info
          path result
      | _ =>
        raise ⟨"Cannot complete value of unexpected type \"" ++ returnType.toString ++
          ".\"", none⟩

/-- `completeValueCatchingError`: completes the value; an abort of the
completion is handed to `handleFieldError`, and if that returns, the named
result is returned as it stands, which is nil. -/
def completeValueCatchingError (rt : Runtime) (eCtx : executionContext) : Nat → Completer
  | 0 => fun _ _ _ _ _ => outOfFuel
  | fuel + 1 => fun returnType fieldASTs info path result =>
    recoverWith
      (completeValue fuel (completeValueCatchingError rt eCtx fuel) rt eCtx returnType
        fieldASTs info path result)
      (fun r => do
        handleFieldError r (FieldASTsToNodeASTs fieldASTs) path (some returnType)
        pure .null)

/-- `completeThunkValueCatchingError`: invokes the producer and completes
what it produced; an abort is handed to `handleFieldError`.  A producer that
is itself a completion closure runs that closure. -/
def completeThunkValueCatchingError (fuel : Nat) (rt : Runtime) (eCtx : executionContext) :
    Ty → List Field → ResolveInfo → responsePath → Value → Exec Value
  | returnType, fieldASTs, info, path, result =>
    recoverWith
      (match result with
        | .func body =>
          completeValue fuel (completeValueCatchingError rt eCtx fuel) rt eCtx returnType
            fieldASTs info path body
        | .panicFunc msg => raise ⟨msg, none⟩
        | .completion returnType' fieldASTs' info' path' result' => do
          let produced ← completeThunkValueCatchingError fuel rt eCtx returnType' fieldASTs'
            info' path' result'
          completeValue fuel (completeValueCatchingError rt eCtx fuel) rt eCtx returnType
            fieldASTs info path produced
        | _ =>
          raise ⟨"Error resolving func. Expected `func() interface\x7b\x7d` signature",
            none⟩)
      (fun r => do
        handleFieldError r (FieldASTsToNodeASTs fieldASTs) path (some returnType)
        pure .null)

/-! ## The dethunk scheduler

The response tree is changed in place by the source; here it is a value, and
a queued task names the map or list it will process by its position below
the top-level map. -/

/-- The child of a map or list node at a key or index. -/
def Value.child : Value → PathKey → Option Value
  | .map kvs, .key k => kvs.lookup k
  | .list xs, .index i => xs.get? i
  | _, _ => none

/-- The node with one child replaced. -/
def Value.setChild : Value → PathKey → Value → Value
  | .map kvs, .key k, v => .map (mapSet kvs k v)
  | .list xs, .index i, v => .list (xs.set i v)
  | node, _, _ => node

/-- The node at a position below a node. -/
def Value.getAt : Value → List PathKey → Option Value
  | v, [] => some v
  | v, k :: rest =>
    match v.child k with
    | some c => c.getAt rest
    | none => none

/-- The tree with the node at a position replaced. -/
def Value.setAt : Value → List PathKey → Value → Value
  | _, [], new => new
  | v, k :: rest, new =>
    match v.child k with
    | some c => v.setChild k (c.setAt rest new)
    | none => v

/-- A task of the queue: the position of a map, or of a list, to dethunk. -/
inductive DethunkTask where
  | map (position : List PathKey)
  | list (position : List PathKey)
deriving DecidableEq, Repr

/-- The response tree and the queue (`dethunkQueue`). -/
structure DethunkState where
  root : Value
  DethunkFuncs : List DethunkTask

/-- `push` of the queue. -/
def DethunkState.push (d : DethunkState) (f : DethunkTask) : DethunkState :=
  { d with DethunkFuncs := d.DethunkFuncs ++ [f] }

/-- The call `f()` of a producer found in the response tree at a position: a
producer of the host program returns its value or aborts, a completion
closure runs `completeThunkValueCatchingError`. -/
def invokeThunk (fuel : Nat) (rt : Runtime) (eCtx : executionContext)
    (position : List PathKey) (f : Value) : Exec Value := do
  record (.invoked position)
  match f with
  | .func body => pure body
  | .panicFunc msg => raise ⟨msg, none⟩
  | .completion returnType fieldASTs info path result =>
    completeThunkValueCatchingError fuel rt eCtx returnType fieldASTs info path result
  | v => pure v

/-- The first loop of `dethunkMap`: every value that is a producer is called
and replaced by what the call returns. -/
def dethunkMapCalls (fuel : Nat) (rt : Runtime) (eCtx : executionContext)
    (position : List PathKey) :
    List (String × Value) → List (String × Value) → Exec (List (String × Value))
  | [], m => pure m
  | (k, v) :: rest, m =>
    if isThunk v then do
      let produced ← invokeThunk fuel rt eCtx (position ++ [.key k]) v
      dethunkMapCalls fuel rt eCtx position rest (mapSet m k produced)
    else dethunkMapCalls fuel rt eCtx position rest m

/-- The second loop of `dethunkMap`: a task is pushed for every value that is
a map or a list. -/
def dethunkMapPushes (position : List PathKey) :
    List (String × Value) → List DethunkTask
  | [] => []
  | (k, .map _) :: rest => .map (position ++ [.key k]) :: dethunkMapPushes position rest
  | (k, .list _) :: rest => .list (position ++ [.key k]) :: dethunkMapPushes position rest
  | _ :: rest => dethunkMapPushes position rest

/-- `dethunkMap`: calls the producers among the values of the map at the
position, then queues its maps and lists. -/
def dethunkMap (fuel : Nat) (rt : Runtime) (eCtx : executionContext)
    (position : List PathKey) (d : DethunkState) : Exec DethunkState :=
  match d.root.getAt position with
  | some (.map m) => do
    let seed ← nextRange rt
    let m' ← dethunkMapCalls fuel rt eCtx position (mapRange seed m) m
    let seed' ← nextRange rt
    pure { root := d.root.setAt position (.map m'),
           DethunkFuncs := d.DethunkFuncs ++ dethunkMapPushes position (mapRange seed' m') }
  | _ => pure d

/-- The first loop of `dethunkList`, from index `i` on. -/
def dethunkListCalls (fuel : Nat) (rt : Runtime) (eCtx : executionContext)
    (position : List PathKey) : Nat → List Value → Exec (List Value)
  | _, [] => pure []
  | i, v :: rest =>
    if isThunk v then do
      let produced ← invokeThunk fuel rt eCtx (position ++ [.index i]) v
      let rest' ← dethunkListCalls fuel rt eCtx position (i + 1) rest
      pure (produced :: rest')
    else do
      let rest' ← dethunkListCalls fuel rt eCtx position (i + 1) rest
      pure (v :: rest')

/-- The second loop of `dethunkList`, from index `i` on. -/
def dethunkListPushes (position : List PathKey) : Nat → List Value → List DethunkTask
  | _, [] => []
  | i, .map _ :: rest => .map (position ++ [.index i]) :: dethunkListPushes position (i + 1) rest
  | i, .list _ :: rest =>
    .list (position ++ [.index i]) :: dethunkListPushes position (i + 1) rest
  | i, _ :: rest => dethunkListPushes position (i + 1) rest

/-- `dethunkList`: calls the producers among the items of the list at the
position, then queues its maps and lists. -/
def dethunkList (fuel : Nat) (rt : Runtime) (eCtx : executionContext)
    (position : List PathKey) (d : DethunkState) : Exec DethunkState :=
  match d.root.getAt position with
  | some (.list xs) => do
    let xs' ← dethunkListCalls fuel rt eCtx position 0 xs
    pure { root := d.root.setAt position (.list xs'),
           DethunkFuncs := d.DethunkFuncs ++ dethunkListPushes position 0 xs' }
  | _ => pure d

/-- Running a task of the queue. -/
def runTask (fuel : Nat) (rt : Runtime) (eCtx : executionContext) :
    DethunkTask → DethunkState → Exec DethunkState
  | .map position, d => dethunkMap fuel rt eCtx position d
  | .list position, d => dethunkList fuel rt eCtx position d

/-- The loop of `dethunkWithBreadthFirstSearch`: while the queue is not
empty, shift a task and run it.  `steps` bounds the number of iterations. -/
def dethunkLoop (fuel : Nat) (rt : Runtime) (eCtx : executionContext) :
    Nat → DethunkState → Exec DethunkState
  | steps, d =>
    match d.DethunkFuncs with
    | [] => pure d
    | f :: rest =>
      match steps with
      | 0 => outOfFuel
      | steps + 1 => do
        let d' ← runTask fuel rt eCtx f { d with DethunkFuncs := rest }
        dethunkLoop fuel rt eCtx steps d'

/-- `dethunkWithBreadthFirstSearch`: the breadth-first flush of the producers
of the response tree. -/
def dethunkWithBreadthFirstSearch (fuel : Nat) (rt : Runtime) (eCtx : executionContext)
    (finalResults : List (String × Value)) : Exec (List (String × Value)) := do
  let d ← dethunkMap fuel rt eCtx [] { root := .map finalResults, DethunkFuncs := [] }
  let d' ← dethunkLoop fuel rt eCtx fuel d
  match d'.root with
  | .map m => pure m
  | _ => pure finalResults

/-! ## The execution driver -/

/-- The result of an execution (`Result`); absent data is nil. -/
structure Result where
  Data : Value
  Errors : List FormattedError

/-- Reading `p.ExecutionContext.Errors` when the result is built. -/
def resultOf (finalResults : List (String × Value)) : Exec Result := fun s =>
  (.ok { Data := .map finalResults, Errors := s.Errors }, s)

/-- `executeFields`: the "read" mode of evaluating a selection set. -/
def executeFields (fuel : Nat) (rt : Runtime) (eCtx : executionContext)
    (p : executeFieldsParams) : Exec Result := do
  let finalResults ← executeSubFields (completeValueCatchingError rt eCtx fuel) rt eCtx p
  let finalResults ← dethunkWithBreadthFirstSearch fuel rt eCtx finalResults
  resultOf finalResults

/-- `executeFieldsSerially`: the "write" mode of evaluating a selection
set. -/
def executeFieldsSerially (fuel : Nat) (rt : Runtime) (eCtx : executionContext)
    (p : executeFieldsParams) : Exec Result := do
  let seed ← nextRange rt
  let finalResults ← executeFieldsLoop (completeValueCatchingError rt eCtx fuel) rt eCtx
    p.ParentType (sourceOrEmpty p.Source) p.Path (mapRange seed p.Fields) []
  let finalResults ← dethunkWithBreadthFirstSearch fuel rt eCtx finalResults
  resultOf finalResults

/-- `getOperationRootType`: the root type of the operation.  The call
returns `(type, error)`, here `.ok (.ok type)` or `.ok (.error err)`, or it
aborts: `mutationType.PrivateName` and `subscriptionType.PrivateName` are
read through the pointer that the schema returns, which is nil for a schema
without that root type. -/
def getOperationRootType (schema : Schema) (operation : Option OperationDefinition) :
    Outcome (Except String Object) :=
  match operation with
  | none => .ok (.error "Can only execute queries and mutations")
  | some operation =>
    match operation.Operation with
    | .query => .ok (.ok schema.QueryType)
    | .mutation =>
      match schema.MutationType with
      | none => .panic nilDereference
      | some mutationType =>
        if mutationType.PrivateName = "" then
          .ok (.error "Schema is not configured for mutations")
        else .ok (.ok mutationType)
    | .subscription =>
      match schema.SubscriptionType with
      | none => .panic nilDereference
      | some subscriptionType =>
        if subscriptionType.PrivateName = "" then
          .ok (.error "Schema is not configured for subscriptions")
        else .ok (.ok subscriptionType)
    | .other _ => .ok (.error "Can only execute queries, mutations and subscription")

/-- `executeOperation`: collects the top-level fields and evaluates them,
serially for a mutation. -/
def executeOperation (fuel : Nat) (rt : Runtime) (eCtx : executionContext) (root : Value)
    (operation : Option OperationDefinition) : Exec Result :=
  match getOperationRootType eCtx.Schema operation with
  | .outOfFuel => outOfFuel
  | .panic r => raise r
  | .ok (.error err) => pure { Data := .null, Errors := [FormatError ⟨err, none⟩] }
  | .ok (.ok operationType) =>
    let selectionSet : SelectionSet :=
      match operation with
      | some op => op.SelectionSet
      | none => none
    match collectFields rt eCtx fuel operationType selectionSet ([], []) with
    | .outOfFuel => outOfFuel
    | .panic r => raise r
    | .ok (fields, _) =>
      let params : executeFieldsParams :=
        { ParentType := operationType, Source := root, Fields := fields, Path := .root }
      if (operation.map (fun op => op.Operation)) = some .mutation then
        executeFieldsSerially fuel rt eCtx params
      else executeFields fuel rt eCtx params

/-- The parameters of `Execute` (`ExecuteParams`), without the ambient
token. -/
structure ExecuteParams where
  Schema : Schema
  Root : Value
  AST : List Definition
  OperationName : String
  Args : List (String × Value)

/-- The loop of `buildExecutionContext` over the definitions of the
document. -/
def scanDefinitions (operationName : String) :
    List Definition → Option OperationDefinition → List (String × Definition) →
      Except String (Option OperationDefinition × List (String × Definition))
  | [], operation, fragments => .ok (operation, fragments)
  | .operation definition :: rest, operation, fragments =>
    if operationName = "" ∧ operation.isSome then
      .error "Must provide operation name if query contains multiple operations."
    else if operationName = "" ∨ definition.Name = some operationName then
      scanDefinitions operationName rest (some definition) fragments
    else scanDefinitions operationName rest operation fragments
  | .fragment definition :: rest, operation, fragments =>
    let key :=
      match definition.Name with
      | some name => name
      | none => ""
    scanDefinitions operationName rest operation (mapSet fragments key (.fragment definition))
  | .other kind :: _, _, _ =>
    .error ("GraphQL cannot execute a request containing a " ++ kind)

/-- `buildExecutionContext`: selects the operation, gathers the fragments and
coerces the variables. -/
def buildExecutionContext (rt : Runtime) (p : ExecuteParams) : Except String executionContext :=
  match scanDefinitions p.OperationName p.AST none [] with
  | .error err => .error err
  | .ok (none, _) =>
    if p.OperationName ≠ "" then
      .error ("Unknown operation named \"" ++ p.OperationName ++ "\".")
    else .error "Must provide an operation."
  | .ok (some operation, fragments) =>
    match rt.getVariableValues p.Schema operation p.Args with
    | .error err => .error err
    | .ok variableValues =>
      .ok { Schema := p.Schema, Fragments := fragments, Root := p.Root,
            Operation := some operation, VariableValues := variableValues }

/-- The state in which an execution starts. -/
def initialState (world : World) : ExecState :=
  { Errors := [], world := world, ranges := 0, trace := [] }

/-- `Execute`, for a token that never fires: the worker builds the context
and executes the operation; an abort that reaches the worker is recovered
into the errors of the initial, empty result.  The outcome is `none` when the
fuel does not suffice. -/
def Execute (fuel : Nat) (rt : Runtime) (p : ExecuteParams) (world : World) :
    Option (Result × ExecState) :=
  match buildExecutionContext rt p with
  | .error err =>
    some ({ Data := .null, Errors := [FormatError ⟨err, none⟩] }, initialState world)
  | .ok exeContext =>
    match executeOperation fuel rt exeContext p.Root exeContext.Operation (initialState world) with
    | (.ok result, s) => some (result, s)
    | (.panic r, s) => some ({ Data := .null, Errors := [FormatError r] }, s)
    | (.outOfFuel, _) => none

end Graphql

namespace Graphql

/-! ## Checks on values -/

mutual
/-- Whether two values are the same plain data (nil, NaN, numbers, strings,
booleans, lists and maps of such); the check fails on any other value. -/
def Value.same : Value → Value → Bool
  | .null, .null => true
  | .nan, .nan => true
  | .nilPtr, .nilPtr => true
  | .int a, .int b => decide (a = b)
  | .str a, .str b => decide (a = b)
  | .bool a, .bool b => decide (a = b)
  | .list xs, .list ys => Value.sameList xs ys
  | .map xs, .map ys => Value.sameEntries xs ys
  | _, _ => false
/-- The check `Value.same` on the items of two lists. -/
def Value.sameList : List Value → List Value → Bool
  | [], [] => true
  | x :: xs, y :: ys => Value.same x y && Value.sameList xs ys
  | _, _ => false
/-- The check `Value.same` on the entries of two maps. -/
def Value.sameEntries : List (String × Value) → List (String × Value) → Bool
  | [], [] => true
  | (k, x) :: xs, (k', y) :: ys => decide (k = k') && Value.same x y && Value.sameEntries xs ys
  | _, _ => false
end

mutual
/-- Whether a zero-argument producer is the value itself or is reachable from
it through maps and lists. -/
def Value.hasThunk : Value → Bool
  | .list xs => Value.anyThunk xs
  | .map kvs => Value.anyThunkEntry kvs
  | v => isThunk v
/-- The check `Value.hasThunk` on the items of a list. -/
def Value.anyThunk : List Value → Bool
  | [] => false
  | x :: xs => Value.hasThunk x || Value.anyThunk xs
/-- The check `Value.hasThunk` on the entries of a map. -/
def Value.anyThunkEntry : List (String × Value) → Bool
  | [] => false
  | (_, x) :: xs => Value.hasThunk x || Value.anyThunkEntry xs
end

/-- Whether an execution returned the given data. -/
def dataIs (o : Option (Result × ExecState)) (v : Value) : Bool :=
  match o with
  | some x => x.1.Data.same v
  | none => false

/-- The errors of the result of an execution. -/
def errorsOf (o : Option (Result × ExecState)) : Option (List FormattedError) :=
  o.map (fun x => x.1.Errors)

/-- The data of the result of an execution. -/
def dataOf (o : Option (Result × ExecState)) : Option Value :=
  o.map (fun x => x.1.Data)

/-- The messages of the failures that originated, in order. -/
def raisedMessages : List Event → List String
  | [] => []
  | .raised m :: rest => m :: raisedMessages rest
  | _ :: rest => raisedMessages rest

/-- The positions at which producers of the response tree were invoked, in
order. -/
def invokedPositions : List Event → List (List PathKey)
  | [] => []
  | .invoked p :: rest => p :: invokedPositions rest
  | _ :: rest => invokedPositions rest

/-! ## The harness of `lists_test.go` -/

/-- A meta-field definition, by name. -/
def metaFieldDef (name : String) : FieldDefinition :=
  { Name := name, Type_ := .nonNull (.scalar "String"), Args := [], Resolve := none }

/-- `strings.EqualFold` on strings of ASCII characters. -/
def asciiEqualFold (a b : String) : Bool :=
  a.data.map Char.toLower == b.data.map Char.toLower

/-- Whether a name of ASCII characters is an exported name: it starts with an
upper-case letter. -/
def asciiIsExported (name : String) : Bool :=
  match name.data with
  | c :: _ => c.isUpper
  | [] => false

/-- A runtime for the tests: no arguments and no variables, named types
resolve to object types, no source has the `FieldResolver` capability, every
map is iterated in its stored order, and the names of the members of records
are made of ASCII characters. -/
def testRuntime : Runtime where
  getArgumentValues := fun _ _ _ => []
  typeFromAST := fun _ n => .ok (some (.object n))
  getVariableValues := fun _ _ _ => .ok []
  SchemaMetaFieldDef := metaFieldDef "__schema"
  TypeMetaFieldDef := metaFieldDef "__type"
  TypeNameMetaFieldDef := metaFieldDef "__typename"
  SkipDirective :=
    { Name := "skip", Args := [], OnOperation := false, OnFragment := true, OnField := true }
  IncludeDirective :=
    { Name := "include", Args := [], OnOperation := false, OnFragment := true, OnField := true }
  fieldResolver := fun _ => none
  formatValue := fun _ => ""
  formatType := fun _ => ""
  rangeSeed := fun _ => 0
  EqualFold := asciiEqualFold
  isExported := asciiIsExported

/-- The object type `DataType` of `checkList`: a field `test` of the type
under test, without a resolve delegate, and a field `nest` of type `DataType`
whose delegate returns the data. -/
def dataType (testType : Ty) (data : Value) : Object where
  Addr := 1
  PrivateName := "DataType"
  Fields :=
    [("test", { Name := "test", Type_ := testType, Args := [], Resolve := none }),
     ("nest", { Name := "nest", Type_ := .object "DataType", Args := [],
                Resolve := some (fun _ world => (.returns data none, world)) })]
  IsTypeOf := none

/-- The schema of `checkList`: the query type is `DataType`; leaf values
serialise to themselves. -/
def listSchema (testType : Ty) (data : Value) : Schema where
  QueryType := dataType testType data
  MutationType := none
  SubscriptionType := none
  ObjectType := fun _ => dataType testType data
  AbstractType := fun n => { PrivateName := n, isUnion := false, ResolveType := none }
  Serialize := fun _ v => v
  IsPossibleType := fun _ _ => false
  PossibleTypes := fun _ => []

/-- A field node without alias, arguments or directives. -/
def fieldNode (name : String) (loc : Nat) (selectionSet : Option (List Selection)) : Field :=
  { Alias := none, Name := some name, Arguments := [], Directives := [],
    SelectionSet := selectionSet, Loc := loc }

/-- The document `{ nest { test } }`; `nest` is at column 3, `test` at
column 10. -/
def listQuery : List Definition :=
  [.operation ⟨.query, none, some [.field (fieldNode "nest" 3 (some [.field (fieldNode "test" 10 none)]))]⟩]

/-- `checkList`, for any data: executes `{ nest { test } }` with the data as
root value and as the value of `nest`. -/
def checkData (fuel : Nat) (testType : Ty) (data : Value) : Option (Result × ExecState) :=
  Execute fuel testRuntime
    { Schema := listSchema testType data, Root := data, AST := listQuery,
      OperationName := "", Args := [] } .null

/-- `checkList`: the data is the map `{"test": testData}`. -/
def checkList (fuel : Nat) (testType : Ty) (testData : Value) : Option (Result × ExecState) :=
  checkData fuel testType (.map [("test", testData)])

/-- The type `Int` of the tests. -/
def IntType : Ty := .scalar "Int"

/-- The error that the tests expect for a nil at a non-null `test`. -/
def cannotReturnNull (path : List PathKey) : FormattedError :=
  { Message := "Cannot return null for non-nullable field DataType.test.",
    Locations := [10], Path := path }

/-- The message of the abort that ends a call, if it ends so. -/
def abortMessage {α : Type} : Outcome α → Option String
  | .panic r => some r.message
  | _ => none

/-- The item completions of a list, run one after the other from index `i`
and state `s`: the item at index `j` completes against the item type, with
the path extended by `j`, to the `j`-th of `ys`; `s'` is the state after the
last one. -/
inductive CompletesItems (self : Completer) (itemType : Ty) (fieldASTs : List Field)
    (info : ResolveInfo) (path : responsePath) :
    Nat → List Value → ExecState → List Value → ExecState → Prop where
  | nil (i : Nat) (s : ExecState) : CompletesItems self itemType fieldASTs info path i [] s [] s
  | cons (i : Nat) (x y : Value) (xs ys : List Value) (s s1 s2 : ExecState)
      (head : self itemType fieldASTs info (path.WithKey (.index i)) x s = (.ok y, s1))
      (tail : CompletesItems self itemType fieldASTs info path (i + 1) xs s1 ys s2) :
      CompletesItems self itemType fieldASTs info path i (x :: xs) s (y :: ys) s2

/-- The execution context of the harness, for a document without fragments
and variables. -/
def listContext (testType : Ty) (data : Value) : executionContext :=
  { Schema := listSchema testType data, Fragments := [], Root := data, Operation := none,
    VariableValues := [] }

/-- The resolve info of the field `test` of the harness. -/
def testInfo (testType : Ty) : ResolveInfo :=
  { FieldName := "test", FieldASTs := [fieldNode "test" 10 none], ReturnType := testType,
    ParentType := "DataType" }

/-! ## A harness with one object type -/

/-- The object type `Query` with the given fields. -/
def queryType (fields : List (String × FieldDefinition)) : Object :=
  { Addr := 1, PrivateName := "Query", Fields := fields, IsTypeOf := none }

/-- The schema whose one object type is `Query`; leaf values serialise to
themselves. -/
def querySchema (fields : List (String × FieldDefinition)) : Schema where
  QueryType := queryType fields
  MutationType := none
  SubscriptionType := none
  ObjectType := fun _ => queryType fields
  AbstractType := fun n => { PrivateName := n, isUnion := false, ResolveType := none }
  Serialize := fun _ v => v
  IsPossibleType := fun _ _ => false
  PossibleTypes := fun _ => []

/-- A field definition without arguments whose resolve delegate returns the
given outcome and leaves the shared state as it is. -/
def fieldReturning (name : String) (type : Ty) (outcome : ResolveOutcome) :
    String × FieldDefinition :=
  (name, { Name := name, Type_ := type, Args := [],
           Resolve := some (fun _ world => (outcome, world)) })

/-- The query `{ f1 f2 ... }`: one field node per name, at the given
columns. -/
def queryOf (selection : List (String × Nat)) : List Definition :=
  [.operation ⟨.query, none, some (selection.map (fun f => .field (fieldNode f.1 f.2 none)))⟩]

/-- Executes `{ f1 f2 ... }` against the schema with the given fields, with a
nil root value. -/
def runQuery (fuel : Nat) (fields : List (String × FieldDefinition))
    (selection : List (String × Nat)) : Option (Result × ExecState) :=
  Execute fuel testRuntime
    { Schema := querySchema fields, Root := .null, AST := queryOf selection,
      OperationName := "", Args := [] } .null

/-- The execution context of `runQuery`. -/
def queryContext (fields : List (String × FieldDefinition)) : executionContext :=
  { Schema := querySchema fields, Fragments := [], Root := .null, Operation := none,
    VariableValues := [] }

/-- The events of an execution. -/
def traceOf (o : Option (Result × ExecState)) : Option (List Event) :=
  o.map (fun x => x.2.trace)

/-- Whether the data of an execution holds a producer. -/
def dataHasThunk (o : Option (Result × ExecState)) : Option Bool :=
  o.map (fun x => x.1.Data.hasThunk)

/-- The record `struct { Test interface{} }` of the given member. -/
def testRecord (test : Value) : Value :=
  .struct "Data" [("Test", "", "", test)]

/-! ## Accounting of failures -/

/-- What a call from state `s` to state `s'` did to the errors list and to
the events, when the call is accounted for: both lists were only extended;
the messages of the failures that originated during the call are, in order,
the messages of the errors appended during the call, followed, when the call
ends by an abort, by the message of that abort, which is the one failure not
yet absorbed.  With `quiet`, no producer of the response tree was invoked
during the call. -/
def Accounted {α : Type} (quiet : Bool) (s : ExecState) (out : Outcome α) (s' : ExecState) :
    Prop :=
  ∃ (es : List FormattedError) (tr : List Event),
    s'.Errors = s.Errors ++ es ∧ s'.trace = s.trace ++ tr ∧
    (quiet = true → invokedPositions tr = []) ∧
    match out with
    | .ok _ => raisedMessages tr = es.map (fun e => e.Message)
    | .panic r => raisedMessages tr = es.map (fun e => e.Message) ++ [r.message]
    | .outOfFuel => True

/-- A computation all of whose calls are accounted for. -/
def Exec.Accounts {α : Type} (quiet : Bool) (m : Exec α) : Prop :=
  ∀ s, Accounted quiet s (m s).1 (m s).2

/-- A computation that, when it returns, returns a result whose errors are
the errors list of the state it ends in. -/
def ReadsErrors (m : Exec Result) : Prop :=
  ∀ s r s', m s = (.ok r, s') → r.Errors = s'.Errors

/-- The parameters of `runQuery`. -/
def queryParams (fields : List (String × FieldDefinition)) (selection : List (String × Nat)) :
    ExecuteParams :=
  { Schema := querySchema fields, Root := .null, AST := queryOf selection,
    OperationName := "", Args := [] }

/-- The fields of the schema in which a nullable field fails before a
non-null field does: `a: Int`, whose delegate returns the error "boom", and
`b: Int!`, whose delegate returns nil. -/
def twoFailures : List (String × FieldDefinition) :=
  [fieldReturning "a" IntType (.returns .null (some "boom")),
   fieldReturning "b" (.nonNull IntType) (.returns .null none)]

/-! ## The order of the dethunk scheduler -/

/-- The position that a task of the queue will process. -/
def DethunkTask.position : DethunkTask → List PathKey
  | .map position => position
  | .list position => position

/-- The order of two invocations of items of one list: when the two
positions are indices `a` and `b` of the same list, `a` is below `b`. -/
def IndexBefore (x y : List PathKey) : Prop :=
  ∀ (p : List PathKey) (a b : Nat), x = p ++ [.index a] → y = p ++ [.index b] → a < b

/-- The positions invoked between the states `s` and `s'`, in order, satisfy
`P`; the events were only extended. -/
def Invokes (P : List (List PathKey) → Prop) (s s' : ExecState) : Prop :=
  ∃ tr : List Event, s'.trace = s.trace ++ tr ∧ P (invokedPositions tr)

/-- The invariant of the loop of `dethunkWithBreadthFirstSearch`, over the
positions of the tasks already run (`done`), the positions of the queued
tasks (`queue`) and the positions invoked so far (`invoked`). -/
structure BfsInvariant (done queue invoked : List (List PathKey)) : Prop where
  depth : ∃ n, (∀ x ∈ invoked, x.length ≤ n + 1) ∧
    (∀ q ∈ queue, n ≤ q.length ∧ q.length ≤ n + 1)
  queueSorted : queue.Pairwise (fun a b => a.length ≤ b.length)
  depthOrdered : invoked.Pairwise (fun a b => a.length ≤ b.length)
  indexOrdered : invoked.Pairwise IndexBefore
  parents : ∀ x ∈ invoked, ∃ p k, x = p ++ [k] ∧ p ∈ done
  distinct : (queue ++ done).Nodup
  rooted : ∀ q ∈ queue ++ done, q = [] ∨ ∃ p k, q = p ++ [k] ∧ p ∈ done

/-- The document `{ nest { test } test }`. -/
def nestThenTestQuery : List Definition :=
  [.operation ⟨.query, none, some [.field (fieldNode "nest" 3 (some [.field (fieldNode "test" 10 none)])), .field (fieldNode "test" 17 none)]⟩]

/-- The harness of `checkList` for any data and any document. -/
def checkDocument (fuel : Nat) (testType : Ty) (data : Value) (document : List Definition) :
    Option (Result × ExecState) :=
  Execute fuel testRuntime
    { Schema := listSchema testType data, Root := data, AST := document,
      OperationName := "", Args := [] } .null

/-- The value at a position of the given type is completed as an object of
the type `parent`: the position has the object type `parent`, or an interface
or union type whose runtime type for the value is `parent`, a possible type
of it. -/
def CompletesAs (eCtx : executionContext) (returnType : Ty) (info : ResolveInfo)
    (result : Value) (parent : Object) : Prop :=
  (∃ name, returnType = .object name ∧ parent = eCtx.Schema.ObjectType name) ∨
  (∃ name, (returnType = .interface name ∨ returnType = .union name) ∧
    resolveRuntimeType eCtx (eCtx.Schema.AbstractType name) { Value := result, Info := info } =
      some parent ∧
    eCtx.Schema.IsPossibleType (eCtx.Schema.AbstractType name).PrivateName
      parent.PrivateName = true)

end Graphql

namespace Graphql

/-! ## Runtime types of abstract positions -/

/-- Whether an object type defines `IsTypeOf` and its `IsTypeOf` returns true
for the value. -/
def Object.accepts (t : Object) (result : Value) (info : ResolveInfo) : Bool :=
  match t.IsTypeOf with
  | some isTypeOf => isTypeOf { Value := result, Info := info }
  | none => false

/-- The runtime type is the first of the types that defines `IsTypeOf` and
whose `IsTypeOf` returns true for the value; it is nil when there is no such
type. -/
def FirstAccepting (types : List Object) (result : Value) (info : ResolveInfo)
    (runtimeType : Option Object) : Prop :=
  (∀ t, runtimeType = some t →
    ∃ pre post, types = pre ++ t :: post ∧ t.accepts result info = true ∧
      ∀ u ∈ pre, u.accepts result info = false) ∧
  (runtimeType = none → ∀ u ∈ types, u.accepts result info = false)

/-- An object type with the given name, without fields, whose `IsTypeOf`
accepts the integers when `ints` holds and the strings otherwise; the one that
accepts the integers is at the address 2 and the other one at 3. -/
def pickyType (name : String) (ints : Bool) : Object :=
  { Addr := if ints then 2 else 3, PrivateName := name, Fields := [],
    IsTypeOf := some (fun p =>
      match p.Value with
      | .int _ => ints
      | .str _ => !ints
      | _ => false) }

/-- A schema with the union `Pet` of the object types `Dog`, which accepts
the integers, and `Cat`, which accepts the strings, and without a
`ResolveType` for the union. -/
def petSchema : Schema where
  QueryType := queryType []
  MutationType := none
  SubscriptionType := none
  ObjectType := fun n => if n = "Dog" then pickyType "Dog" true else pickyType "Cat" false
  AbstractType := fun n => { PrivateName := n, isUnion := true, ResolveType := none }
  Serialize := fun _ v => v
  IsPossibleType := fun a t => a == "Pet" && (t == "Dog" || t == "Cat")
  PossibleTypes := fun a => if a = "Pet" then [pickyType "Dog" true, pickyType "Cat" false] else []

/-- The execution context of the schema with the union `Pet`. -/
def petContext : executionContext :=
  { Schema := petSchema, Fragments := [], Root := .null, Operation := none,
    VariableValues := [] }

/-- The resolve info of a field `pet: Pet` of `Query`. -/
def petInfo : ResolveInfo :=
  { FieldName := "pet", FieldASTs := [fieldNode "pet" 3 none], ReturnType := .union "Pet",
    ParentType := "Query" }

/-! ## Operation selection -/

/-- The operations of a document, in document order. -/
def operationsOf : List Definition → List OperationDefinition
  | [] => []
  | .operation d :: rest => d :: operationsOf rest
  | _ :: rest => operationsOf rest

/-- The error of a failed call. -/
def errorOf {α : Type} : Except String α → Option String
  | .error err => some err
  | .ok _ => none

/-- `buildExecutionContext` selects the operation: what it returns is decided
by the coercion of the variable values for that operation.  It fails with the
error of the coercion when the coercion fails, and succeeds with a context
whose operation is the selected one when the coercion succeeds. -/
def SelectsOperation (rt : Runtime) (p : ExecuteParams) (operation : OperationDefinition) :
    Prop :=
  (∀ err, rt.getVariableValues p.Schema operation p.Args = .error err →
    buildExecutionContext rt p = .error err) ∧
  (∀ variableValues, rt.getVariableValues p.Schema operation p.Args = .ok variableValues →
    ∃ fragments, buildExecutionContext rt p =
      .ok { Schema := p.Schema, Fragments := fragments, Root := p.Root,
            Operation := some operation, VariableValues := variableValues })

/-- A runtime for operations that declare a variable `$x: Int!`: the coercion
of the variable values fails when no value is provided for `x`. -/
def requiredVariableRuntime : Runtime :=
  { testRuntime with
    getVariableValues := fun _ _ args =>
      if (args.lookup "x").isNone then
        .error "Variable \"$x\" of required type \"Int!\" was not provided."
      else .ok args }

/-- The fields `a: Int` and `b: Int`, whose delegates return 1 and 2. -/
def oneAndTwo : List (String × FieldDefinition) :=
  [fieldReturning "a" IntType (.returns (.int 1) none),
   fieldReturning "b" IntType (.returns (.int 2) none)]

/-! ## Directives -/

/-- Modelled from the spec: the coercion of an argument literal, which is
not part of the sources at hand, for boolean literals and variable
references; a variable reads the variable values in context. -/
def literalValue (variableValues : List (String × Value)) : AstValue → Value
  | .booleanValue b => .bool b
  | .variable name => mapGet variableValues name
  | _ => .null

/-- Modelled from the spec: `getArgumentValues`, which is not part of the
sources at hand.  Every defined argument gets the coerced literal of the
argument node of its name, or its default value when there is no such
node. -/
def coerceArguments (argDefs : List ArgumentDef) (argASTs : List Argument)
    (variableValues : List (String × Value)) : List (String × Value) :=
  argDefs.map (fun argDef =>
    (argDef.PrivateName,
      match argASTs.find? (fun argAST => argAST.Name == some argDef.PrivateName) with
      | some argAST => literalValue variableValues argAST.Value
      | none => argDef.DefaultValue))

/-- The argument `if: Boolean!` of `@skip` and `@include`. -/
def ifArgument : ArgumentDef :=
  { PrivateName := "if", Type_ := .nonNull (.scalar "Boolean"), DefaultValue := .null }

/-- A runtime with argument coercion and the directives `@skip` and
`@include`, each with its argument `if`. -/
def directiveRuntime : Runtime :=
  { testRuntime with
    getArgumentValues := coerceArguments
    SkipDirective :=
      { Name := "skip", Args := [ifArgument], OnOperation := false, OnFragment := true,
        OnField := true }
    IncludeDirective :=
      { Name := "include", Args := [ifArgument], OnOperation := false, OnFragment := true,
        OnField := true } }

/-- The directive `@name(if: b)`. -/
def ifDirective (name : String) (b : Bool) : Directive :=
  { Name := some name, Arguments := [{ Name := some "if", Value := .booleanValue b }] }

/-- The document `{ a @skip(if: true) b }`. -/
def skipQuery : List Definition :=
  [.operation ⟨.query, none, some [.field { fieldNode "a" 3 none with Directives := [ifDirective "skip" true] }, .field (fieldNode "b" 21 none)]⟩]

/-! ## The keys of the response -/

/-- The keys of a map value; another value has none. -/
def Value.keys : Value → List String
  | .map kvs => kvs.map Prod.fst
  | _ => []

/-- The keys of the map `m` are the response names of the field map whose
field has a definition on the parent type: every key is a response name of
the field map, and the response name of an entry is a key iff `getFieldDef`
finds a definition for the field that the first node of the entry names. -/
def KeysOfDefined (rt : Runtime) (schema : Schema) (parentType : Object)
    (fields : List (String × List Field)) (m : List (String × Value)) : Prop :=
  (∀ name ∈ m.map Prod.fst, (fields.lookup name).isSome = true) ∧
  (∀ name fieldAST rest, fields.lookup name = some (fieldAST :: rest) →
    (name ∈ m.map Prod.fst ↔
      getFieldDef rt schema (some parentType) (fieldAST.Name.getD "") ≠ none))

/-! ## A harness for mutations -/

/-- The fields of the mutation type: the delegate of `first` writes into the
shared state and returns "done"; the delegate of `second` returns the shared
state as it finds it. -/
def mutationFields : List (String × FieldDefinition) :=
  [("first", { Name := "first", Type_ := .scalar "String", Args := [],
               Resolve := some (fun _ _ => (.returns (.str "done") none, .str "written by first")) }),
   ("second", { Name := "second", Type_ := .scalar "String", Args := [],
                Resolve := some (fun _ world => (.returns world none, world)) })]

/-- A schema with the mutation type `Mutation`. -/
def mutationSchema : Schema :=
  { querySchema [] with
    MutationType :=
      some { Addr := 2, PrivateName := "Mutation", Fields := mutationFields, IsTypeOf := none } }

/-- The document `mutation { first second }`. -/
def mutationDocument : List Definition :=
  [.operation ⟨.mutation, none, some [.field (fieldNode "first" 12 none), .field (fieldNode "second" 18 none)]⟩]

/-- A runtime in which every iteration of a map starts at the second entry:
a map of two entries is visited second entry first. -/
def secondFirstRuntime : Runtime :=
  { testRuntime with rangeSeed := fun _ => 1 }

/-- Executes `mutation { first second }` with the shared state "initial". -/
def runMutation (rt : Runtime) : Option (Result × ExecState) :=
  Execute 3 rt
    { Schema := mutationSchema, Root := .null, AST := mutationDocument, OperationName := "",
      Args := [] } (.str "initial")

/-! ## The traversal of the field collector -/

/-- The traversal of the field collector as the design describes it, without
the field map: the field nodes that a collection includes, in document
order.  For each selection in document order: a field is included if its
directives pass; an inline fragment is entered if its directives pass and its
type condition matches the runtime type; a fragment spread is passed by if
its name has been visited in this collection or its directives reject it, and
is otherwise marked visited and entered if the named fragment exists and its
type condition matches.  The accumulator holds the nodes included so far and
the visited names; the fuel bounds the nesting.  There is no traversal when
the test of a type condition aborts. -/
def includedFields (rt : Runtime) (eCtx : executionContext) :
    Nat → Object → SelectionSet → List Field × List (String × Bool) →
      Option (List Field × List (String × Bool))
  | _, _, none, acc => some acc
  | 0, _, some _, _ => none
  | fuel + 1, runtimeType, some selections, acc =>
    selections.foldlM (fun (acc : List Field × List (String × Bool)) iSelection =>
      match iSelection with
      | .field selection =>
        if shouldIncludeNode rt eCtx selection.Directives then
          some (acc.1 ++ [selection], acc.2)
        else some acc
      | .inlineFragment typeCondition directives selectionSet =>
        if !shouldIncludeNode rt eCtx directives then some acc
        else
          match doesFragmentConditionMatch rt eCtx (.inline typeCondition) runtimeType with
          | .ok true => includedFields rt eCtx fuel runtimeType selectionSet acc
          | .ok false => some acc
          | _ => none
      | .fragmentSpread name directives =>
        let fragName := name.getD ""
        if acc.2.lookup fragName == some true || !shouldIncludeNode rt eCtx directives then
          some acc
        else
          let visited := mapSet acc.2 fragName true
          match eCtx.Fragments.lookup fragName with
          | some (.fragment fragment) =>
            match doesFragmentConditionMatch rt eCtx (.definition fragment.TypeCondition)
                runtimeType with
            | .ok true =>
              includedFields rt eCtx fuel runtimeType fragment.SelectionSet (acc.1, visited)
            | .ok false => some (acc.1, visited)
            | _ => none
          | _ => some (acc.1, visited)) acc

/-- The field map holds the included field nodes, each in the list of its
response name and in their order: the keys are distinct, the list of a key is
not empty and is made of the included nodes with that response name, in the
order in which they were included, and a response name without a key has no
included node. -/
def Collects (fields : List (String × List Field)) (included : List Field) : Prop :=
  (fields.map Prod.fst).Nodup ∧
  (∀ name fieldASTs, fields.lookup name = some fieldASTs →
    fieldASTs ≠ [] ∧
      fieldASTs = included.filter (fun f => getFieldEntryKey f = name)) ∧
  (∀ name, fields.lookup name = none →
    included.filter (fun f => getFieldEntryKey f = name) = [])

/-- The field node `x: name`, with the alias `x`. -/
def aliasedX (name : String) (loc : Nat) : Field :=
  { fieldNode name loc none with Alias := some "x" }

/-- The execution context of `Query` with the fields `a: Int` and `b: Int`
and the fragment `fragment F on Query { x: b }`. -/
def fragmentContext : executionContext :=
  { queryContext oneAndTwo with
    Fragments := [("F", .fragment ⟨some "F", some "Query", some [.field (aliasedX "b" 40)]⟩)] }

/-- The selection set `{ x: a ...F a ...F }`. -/
def spreadSelections : List Selection :=
  [.field (aliasedX "a" 3), .fragmentSpread (some "F") [], .field (fieldNode "a" 14 none),
   .fragmentSpread (some "F") []]

/-- The response names of a collection that returned. -/
def collectedNames (c : Outcome Collected) : Option (List String) :=
  match c with
  | .ok c => some (c.1.map Prod.fst)
  | _ => none

end Graphql

/-! # Validation rules (`rules.go`)

The literal check `isValidLiteralValue` and the rules of `rules.go` that the
properties below are about.  A rule is the function that its visitor runs on
a node of the kind it is registered for; it returns the error it reports, if
any (the action it returns is always `visitor.ActionNoChange`).
-/

namespace Graphql

/-! ## Nodes and the validation context -/

/-- Modelled from the spec: the constants of package `kinds` are not part of
the sources at hand.  The kind of a node is the name of its node type. -/
def kinds.OperationDefinition : String := "OperationDefinition"

/-- Modelled from the spec: the kind of a field node. -/
def kinds.Field : String := "Field"

/-- Modelled from the spec: the kind of a fragment spread. -/
def kinds.FragmentSpread : String := "FragmentSpread"

/-- Modelled from the spec: the kind of an inline fragment. -/
def kinds.InlineFragment : String := "InlineFragment"

/-- Modelled from the spec: the kind of a fragment definition. -/
def kinds.FragmentDefinition : String := "FragmentDefinition"

/-- Modelled from the spec: the kind of a directive node. -/
def kinds.Directive : String := "Directive"

/-- Modelled from the spec: the kind of an argument node. -/
def kinds.Argument : String := "Argument"

/-- Modelled from the spec: the kind of a variable definition. -/
def kinds.VariableDefinition : String := "VariableDefinition"

/-- A variable definition node (`*ast.VariableDefinition`): its variable,
when it has one, with the name of the variable, when it has one, and its
default value, when it has one. -/
structure VariableDefinition where
  Variable : Option (Option String)
  DefaultValue : Option AstValue

/-- A node as a rule sees it (`ast.Node`): an argument, a directive, a
variable definition, a value, or a node of another type, of which the rules
read the kind only. -/
inductive Node where
  | argument (node : Argument)
  | directive (node : Directive)
  | variableDefinition (node : VariableDefinition)
  | value (node : AstValue)
  | other (kind : String)

/-- The kind of a node (`GetKind`). -/
def Node.GetKind : Node → String
  | .argument _ => kinds.Argument
  | .directive _ => kinds.Directive
  | .variableDefinition _ => kinds.VariableDefinition
  | .value _ => "Value"
  | .other kind => kind

/-- The parameters of a visit (`visitor.VisitFuncParams`): the node and its
ancestors, the nearest one last. -/
structure VisitFuncParams where
  Node : Node
  Ancestors : List Graphql.Node

/-- The error that a rule reports (`newValidationRuleError`): the message and
the nodes it is reported at. -/
structure RuleError where
  Message : String
  Nodes : List Node

/-- Modelled from the spec: `ValidationContext` is not part of the sources at
hand.  A rule reads through it the type information at the node being
visited (the input type, the parent type, the field definition and the
directive, each absent when unknown) and the directives that the schema
registers. -/
structure ValidationContext where
  GetInputType : Option Ty
  GetParentType : Option Ty
  GetFieldDef : Option FieldDefinition
  GetDirective : Option DirectiveDef
  GetDirectives : List DirectiveDef

/-- The collaborators of the literal check that are not part of the sources
at hand, taken as parameters: the fields of the input object types and
`ParseLiteral` of the scalar and enum types, by the name of the type, and the
printer of literals. -/
structure Validation where
  GetFields : String → List (String × Ty)
  ParseLiteral : String → AstValue → Value
  Print : AstValue → String

/-! ## The literal check -/

/-- `isValidLiteralValue`: whether a literal, absent when `none`, is valid for
an input type.  A type that is not an input type takes none of the branches,
as the nil that the assertion `.(Input)` makes of it.  The map `fieldASTMap`
keeps, for a name, the last field of the literal with that name. -/
def isValidLiteralValue (v : Validation) : Ty → Option AstValue → Bool
  | .nonNull ofType, valueAST =>
    match valueAST with
    | none => false
    | some value => isValidLiteralValue v ofType (some value)
  | _, none => true
  | _, some (.variable _) => true
  | .list itemType, some (.listValue values) =>
    values.attach.all (fun value => isValidLiteralValue v itemType (some value.1))
  | .list itemType, some valueAST => isValidLiteralValue v itemType (some valueAST)
  | .inputObject name, some (.objectValue fieldASTs) =>
    let fields := v.GetFields name
    let fieldASTMap := fieldASTs.attach.foldl
      (fun m fieldAST => mapSet m (fieldAST.1.1.getD "") fieldAST) []
    fieldASTs.all (fun fieldAST => (fields.lookup (fieldAST.1.getD "")).isSome) &&
    (mapEntries fields).all (fun field =>
      match fieldASTMap.lookup field.1 with
      | some fieldAST => isValidLiteralValue v field.2 (some fieldAST.1.2)
      | none => isValidLiteralValue v field.2 none)
  | .inputObject _, some _ => false
  | .scalar name, some valueAST => !isNullish (v.ParseLiteral name valueAST)
  | .enum name, some valueAST => !isNullish (v.ParseLiteral name valueAST)
  | _, some _ => false
termination_by ttype valueAST => (sizeOf valueAST, sizeOf ttype)
decreasing_by
  all_goals simp_wf
  · exact Prod.Lex.right _ (by omega)
  · exact Prod.Lex.left _ _ (by have := List.sizeOf_lt_of_mem value.2; omega)
  · exact Prod.Lex.right _ (by omega)
  · refine Prod.Lex.left _ _ ?_
    have h := List.sizeOf_lt_of_mem fieldAST.2
    obtain ⟨⟨a, b⟩, hm⟩ := fieldAST
    simp only [Prod.mk.sizeOf_spec] at h
    simp only
    omega
  · exact Prod.Lex.left _ _ (by omega)

/-! ## The rules -/

/-- The visit function of `DefaultValuesOfCorrectTypeRule`, registered for
variable definitions: the default value of a variable must be of the type of
the variable. -/
def DefaultValuesOfCorrectTypeRule (v : Validation) (context : ValidationContext)
    (p : VisitFuncParams) : Option RuleError :=
  match p.Node with
  | .variableDefinition varDefAST =>
    let name :=
      match varDefAST.Variable with
      | some (some value) => value
      | _ => ""
    let defaultValue := varDefAST.DefaultValue
    let ttype := context.GetInputType
    match ttype, defaultValue with
    | some (.nonNull ofType), some defaultValue =>
      some { Message := "Variable \"$" ++ name ++ "\" of type \"" ++ (Ty.nonNull ofType).toString ++
               "\" is required and will not use the default value. Perhaps you meant to use type \"" ++
               ofType.toString ++ "\".",
             Nodes := [.value defaultValue] }
    | some ttype, some defaultValue =>
      if !isValidLiteralValue v ttype (some defaultValue) then
        some { Message := "Variable \"$" ++ name ++ "\" of type \"" ++ ttype.toString ++
                 "\" has invalid default value: " ++ v.Print defaultValue ++ ".",
               Nodes := [.value defaultValue] }
      else none
    | _, _ => none
  | _ => none

/-- The loop `for _, arg := range args { if arg.Name == nodeName { ... } }`:
the last argument definition of that name. -/
def findArgument (args : List ArgumentDef) (nodeName : String) : Option ArgumentDef :=
  args.foldl (fun found arg => if arg.PrivateName = nodeName then some arg else found) none

/-- The visit function of `KnownArgumentNamesRule`, registered for arguments:
an argument of a field or of a directive must be defined by it. -/
def KnownArgumentNamesRule (context : ValidationContext) (p : VisitFuncParams) :
    Option RuleError :=
  match p.Node with
  | .argument node =>
    match p.Ancestors.getLast? with
    | none => none
    | some argumentOf =>
      if argumentOf.GetKind = "Field" then
        match context.GetFieldDef with
        | none => none
        | some fieldDef =>
          let nodeName := node.Name.getD ""
          match findArgument fieldDef.Args nodeName with
          | none =>
            let parentTypeName :=
              match context.GetParentType with
              | some parentType => parentType.Name
              | none => ""
            some { Message := "Unknown argument \"" ++ nodeName ++ "\" on field \"" ++
                     fieldDef.Name ++ "\" of type \"" ++ parentTypeName ++ "\".",
                   Nodes := [.argument node] }
          | some _ => none
      else if argumentOf.GetKind = "Directive" then
        match context.GetDirective with
        | none => none
        | some directive =>
          let nodeName := node.Name.getD ""
          match findArgument directive.Args nodeName with
          | none =>
            some { Message := "Unknown argument \"" ++ nodeName ++ "\" on directive \"@" ++
                     directive.Name ++ "\".",
                   Nodes := [.argument node] }
          | some _ => none
      else none
  | _ => none

/-- The loop `for _, def := range GetDirectives() { if def.Name == nodeName
{ ... } }`: the last registered directive of that name. -/
def findDirective (directives : List DirectiveDef) (nodeName : String) : Option DirectiveDef :=
  directives.foldl (fun found d => if d.Name = nodeName then some d else found) none

/-- The visit function of `KnownDirectivesRule`, registered for directives: a
directive must be known by the schema and legally positioned. -/
def KnownDirectivesRule (context : ValidationContext) (p : VisitFuncParams) :
    Option RuleError :=
  match p.Node with
  | .directive node =>
    let nodeName := node.Name.getD ""
    match findDirective context.GetDirectives nodeName with
    | none =>
      some { Message := "Unknown directive \"" ++ nodeName ++ "\".", Nodes := [.directive node] }
    | some directiveDef =>
      match p.Ancestors.getLast? with
      | none => none
      | some appliedTo =>
        if appliedTo.GetKind = kinds.OperationDefinition ∧ directiveDef.OnOperation = false then
          some { Message := "Directive \"" ++ nodeName ++ "\" may not be used on \"operation\".",
                 Nodes := [.directive node] }
        else if appliedTo.GetKind = kinds.Field ∧ directiveDef.OnField = false then
          some { Message := "Directive \"" ++ nodeName ++ "\" may not be used on \"field\".",
                 Nodes := [.directive node] }
        else if (appliedTo.GetKind = kinds.FragmentSpread ∨
            appliedTo.GetKind = kinds.InlineFragment ∨
            appliedTo.GetKind = kinds.FragmentDefinition) ∧ directiveDef.OnFragment = false then
          some { Message := "Directive \"" ++ nodeName ++ "\" may not be used on \"fragment\".",
                 Nodes := [.directive node] }
        else none
  | _ => none

end Graphql

namespace Graphql

/-! ## The default resolver -/

/-- Whether a member of a record matches a field name: its declared name
equals the field name case-insensitively, or its `json` tag or its `graphql`
tag has the field name as its first comma-separated component. -/
def memberMatches (rt : Runtime) (fieldName : String)
    (member : String × String × String × Value) : Bool :=
  rt.EqualFold member.1 fieldName || checkTag member.2.1 fieldName ||
    checkTag member.2.2.1 fieldName

/-- The parameters of a resolve delegate for a source and a field name. -/
def paramsOf (source : Value) (fieldName : String) : ResolveParams :=
  { Source := source, Args := [],
    Info := { FieldName := fieldName, FieldASTs := [], ReturnType := IntType,
              ParentType := "Query" },
    RootValue := .null, VariableValues := [] }

/-- The abort of `Interface()` on a member that is not exported. -/
def unexportedMessage : String :=
  "reflect.Value.Interface: cannot return value obtained from unexported field or method"

/-- What a resolve delegate did. -/
def outcomeOf (r : ResolveOutcome × World) : ResolveOutcome := r.1

/-! ## The errors list -/

/-- A computation that only appends to the errors list: whatever the state
it starts in and however it ends, the errors list it starts with is a prefix
of the errors list it ends with. -/
def AppendOnly {α : Type} (m : Exec α) : Prop :=
  ∀ s, s.Errors <+: (m s).2.Errors

/-! ## Validation -/

/-- The name of the variable of a variable definition, empty when the
definition has no variable or the variable has no name. -/
def VariableDefinition.name (varDefAST : VariableDefinition) : String :=
  match varDefAST.Variable with
  | some (some value) => value
  | _ => ""

/-- The name of the parent type at the node being visited, empty when the
parent type is unknown. -/
def ValidationContext.parentTypeName (context : ValidationContext) : String :=
  match context.GetParentType with
  | some parentType => parentType.Name
  | none => ""

/-- The message of the error that a rule reports, if it reports one. -/
def messageOf (e : Option RuleError) : Option String :=
  e.map (fun e => e.Message)

/-- The value that an object literal provides for a field: the value of its
first field of that name, absent when it has none. -/
def providedValue (fieldASTs : List (Option String × AstValue)) (fieldName : String) :
    Option AstValue :=
  (fieldASTs.find? (fun fieldAST => fieldAST.1.getD "" == fieldName)).map (fun f => f.2)

/-- A validation harness: the input object type `Point` with the fields
`x: Int!` and `y: Int`; `ParseLiteral` of a leaf type takes the integer
literals and makes nil of every other literal; the printer prints the text of
an integer literal and `?` for every other literal. -/
def testValidation : Validation where
  GetFields := fun n =>
    if n = "Point" then [("x", .nonNull IntType), ("y", IntType)] else []
  ParseLiteral := fun _ valueAST =>
    match valueAST with
    | .intValue s => .str s
    | _ => .null
  Print := fun valueAST =>
    match valueAST with
    | .intValue s => s
    | _ => "?"

/-- A validation context in which nothing is known, for a schema with the
directives `@skip` and `@include`. -/
def emptyValidationContext : ValidationContext :=
  { GetInputType := none, GetParentType := none, GetFieldDef := none, GetDirective := none,
    GetDirectives := [directiveRuntime.SkipDirective, directiveRuntime.IncludeDirective] }

/-- The field definition `f(known: Int): Int`. -/
def fieldWithArgument : FieldDefinition :=
  { Name := "f", Type_ := IntType,
    Args := [{ PrivateName := "known", Type_ := IntType, DefaultValue := .null }],
    Resolve := none }

/-- The argument node `name: 1`. -/
def argumentNode (name : String) : Argument :=
  { Name := some name, Value := .intValue "1" }

end Graphql

namespace Graphql

/-! ## Aborts that reach the driver -/

/-- The errors list of the execution context at the end of an execution. -/
def contextErrorsOf (o : Option (Result × ExecState)) : Option (List FormattedError) :=
  o.map (fun x => x.2.Errors)

/-- The fields of the schema in which a nullable field fails before the
producer of a non-null field produces nil: `a: Int`, whose delegate returns
the error "boom", and `b: Int!`, whose delegate returns a producer of nil. -/
def failureThenProducer : List (String × FieldDefinition) :=
  [fieldReturning "a" IntType (.returns .null (some "boom")),
   fieldReturning "b" (.nonNull IntType) (.returns (.func .null) none)]

/-! ## Termination of the collection -/

/-- The names of the fragment map that a collection has not visited. -/
def unvisitedFragments (eCtx : executionContext) (visited : List (String × Bool)) :
    List String :=
  (eCtx.Fragments.map Prod.fst).filter (fun name => !(visited.lookup name == some true))

/-- The visited names only grow: every name visited in `visited` is visited
in `visited'`. -/
def VisitedGrows (visited visited' : List (String × Bool)) : Prop :=
  ∀ name, visited.lookup name = some true → visited'.lookup name = some true

/-- The execution context of `Query` with the fields `a: Int` and `b: Int`
and three fragments on `Query`: `A { a ...B }`, `B { b ...A }`, which spread
each other, and `S { a ...S }`, which spreads itself. -/
def cyclicContext : executionContext :=
  { queryContext oneAndTwo with
    Fragments :=
      [("A", .fragment ⟨some "A", some "Query",
          some [.field (fieldNode "a" 30 none), .fragmentSpread (some "B") []]⟩),
       ("B", .fragment ⟨some "B", some "Query",
          some [.field (fieldNode "b" 60 none), .fragmentSpread (some "A") []]⟩),
       ("S", .fragment ⟨some "S", some "Query",
          some [.field (fieldNode "a" 90 none), .fragmentSpread (some "S") []]⟩)] }

/-! ## The expansions of a collection -/

/-- The traversal of `collectFields` with the list of the expanded fragments
in place of the field map: the names of the fragment definitions whose
selection set a collection enters, in order.  A fragment spread is passed by
if its name has been visited in this collection or its directives reject it,
and is otherwise marked visited; the selection set of the named fragment is
entered if the fragment exists and its type condition matches.  There is no
traversal when the test of a type condition aborts. -/
def expandedFragments (rt : Runtime) (eCtx : executionContext) :
    Nat → Object → SelectionSet → List String × List (String × Bool) →
      Option (List String × List (String × Bool))
  | _, _, none, acc => some acc
  | 0, _, some _, _ => none
  | fuel + 1, runtimeType, some selections, acc =>
    selections.foldlM (fun (acc : List String × List (String × Bool)) iSelection =>
      match iSelection with
      | .field _ => some acc
      | .inlineFragment typeCondition directives selectionSet =>
        if !shouldIncludeNode rt eCtx directives then some acc
        else
          match doesFragmentConditionMatch rt eCtx (.inline typeCondition) runtimeType with
          | .ok true => expandedFragments rt eCtx fuel runtimeType selectionSet acc
          | .ok false => some acc
          | _ => none
      | .fragmentSpread name directives =>
        let fragName := name.getD ""
        if acc.2.lookup fragName == some true || !shouldIncludeNode rt eCtx directives then
          some acc
        else
          let visited := mapSet acc.2 fragName true
          match eCtx.Fragments.lookup fragName with
          | some (.fragment fragment) =>
            match doesFragmentConditionMatch rt eCtx (.definition fragment.TypeCondition)
                runtimeType with
            | .ok true =>
              expandedFragments rt eCtx fuel runtimeType fragment.SelectionSet
                (acc.1 ++ [fragName], visited)
            | .ok false => some (acc.1, visited)
            | _ => none
          | _ => some (acc.1, visited)) acc

/-- The expansions of the loop of `completeObjectValue` over the merged field
nodes: those of the selection set of each node, one after the other, with the
visited names handed on. -/
def expandedSubFragments (fuel : Nat) (rt : Runtime) (eCtx : executionContext)
    (returnType : Object) :
    List Field → List String × List (String × Bool) →
      Option (List String × List (String × Bool))
  | [], acc => some acc
  | fieldAST :: rest, acc =>
    match fieldAST.SelectionSet with
    | none => expandedSubFragments fuel rt eCtx returnType rest acc
    | some selectionSet =>
      match expandedFragments rt eCtx fuel returnType (some selectionSet) acc with
      | none => none
      | some acc' => expandedSubFragments fuel rt eCtx returnType rest acc'

/-- The expansions so far are distinct and each of them is a visited name. -/
def ExpandedOnce (expanded : List String) (visited : List (String × Bool)) : Prop :=
  expanded.Nodup ∧ ∀ name ∈ expanded, visited.lookup name = some true

/-- What a part of a collection does to the expansions: from the expansions
`expanded0` and the visited names `visited0` it gets to `expanded` and
`visited`, where the expansions are distinct visited names, the visited names
have only grown, and the expansions are those before followed by new ones,
none of which was a visited name before. -/
def Expands (expanded0 : List String) (visited0 : List (String × Bool))
    (expanded : List String) (visited : List (String × Bool)) : Prop :=
  ExpandedOnce expanded visited ∧ VisitedGrows visited0 visited ∧
  ∃ new, expanded = expanded0 ++ new ∧ ∀ name ∈ new, visited0.lookup name ≠ some true

/-- The spread `...F` with the given directives. -/
def spreadOf (directives : List Directive) : Selection :=
  .fragmentSpread (some "F") directives

/-! ## Type conditions -/

/-- A runtime for the schema with the union `Pet`: the name `Pet` resolves to
the union, for the name `Unknown` `typeFromAST` returns the nil type without
error, for the empty name it returns an error, and every other name resolves
to an object type; the `%T` rendering of a string is `string` and that of an
integer is `int`. -/
def petRuntime : Runtime :=
  { testRuntime with
    typeFromAST := fun _ n =>
      if n = "Pet" then .ok (some (.union "Pet"))
      else if n = "Unknown" then .ok none
      else if n = "" then .error "Must be a named type."
      else .ok (some (.object n))
    formatType := fun value =>
      match value with
      | .str _ => "string"
      | .int _ => "int"
      | _ => "" }

/-! ## Object values -/

/-- The message of the abort of `completeObjectValue` for a value that the
type does not take. -/
def expectedValueOfType (rt : Runtime) (returnType : Object) (result : Value) : String :=
  "Expected value of type \"" ++ returnType.Name ++ "\" but got: " ++ rt.formatType result ++ "."

/-! ## Literals that repeat a field name -/

/-- The value that an object literal provides last for a field: the value of
its last field of that name, absent when it has none. -/
def lastProvidedValue (fieldASTs : List (Option String × AstValue)) (fieldName : String) :
    Option AstValue :=
  (fieldASTs.reverse.find? (fun fieldAST => fieldAST.1.getD "" == fieldName)).map (fun f => f.2)

/-- A validation harness with two input object types: `A` with the field
`a: Int`, and `Node` with the fields `value: Int` and `next: Node`, which
refers to itself; `ParseLiteral` of a leaf type takes the integer literals
and makes nil of every other literal. -/
def nodeValidation : Validation where
  GetFields := fun n =>
    if n = "A" then [("a", IntType)]
    else if n = "Node" then [("value", IntType), ("next", .inputObject "Node")]
    else []
  ParseLiteral := fun _ valueAST =>
    match valueAST with
    | .intValue s => .str s
    | _ => .null
  Print := fun _ => ""

end Graphql

namespace Graphql

/-! ## Sequencing -/

theorem Exec.bind_apply {α β : Type} (m : Exec α) (f : α → Exec β) (s : ExecState) :
    (m >>= f) s = match m s with
      | (.ok a, s') => f a s'
      | (.panic r, s') => (.panic r, s')
      | (.outOfFuel, s') => (.outOfFuel, s') := rfl

theorem Exec.pure_apply {α : Type} (a : α) (s : ExecState) :
    (pure a : Exec α) s = (.ok a, s) := rfl

theorem Exec.bind_ok {α β : Type} (m : Exec α) (f : α → Exec β) (s s' : ExecState) (a : α)
    (h : m s = (.ok a, s')) : (m >>= f) s = f a s' := by
  rw [Exec.bind_apply, h]

theorem Exec.bind_panic {α β : Type} (m : Exec α) (f : α → Exec β) (s s' : ExecState)
    (r : PanicValue) (h : m s = (.panic r, s')) : (m >>= f) s = (.panic r, s') := by
  rw [Exec.bind_apply, h]

theorem Exec.bind_outOfFuel {α β : Type} (m : Exec α) (f : α → Exec β) (s s' : ExecState)
    (h : m s = (.outOfFuel, s')) : (m >>= f) s = (.outOfFuel, s') := by
  rw [Exec.bind_apply, h]

/-! ## Soundness of the checks -/

mutual
theorem Value.eq_of_same : ∀ (a b : Value), Value.same a b = true → a = b
  | .null, b, h => by cases b <;> simp [Value.same] at h; rfl
  | .nan, b, h => by cases b <;> simp [Value.same] at h; rfl
  | .nilPtr, b, h => by cases b <;> simp [Value.same] at h; rfl
  | .int a, b, h => by cases b <;> simp [Value.same] at h; rw [h]
  | .str a, b, h => by cases b <;> simp [Value.same] at h; rw [h]
  | .bool a, b, h => by cases b <;> simp [Value.same] at h; rw [h]
  | .list xs, b, h => by
    cases b <;> simp only [Value.same] at h <;> try exact absurd h (by decide)
    rw [Value.eq_of_sameList xs _ h]
  | .map xs, b, h => by
    cases b <;> simp only [Value.same] at h <;> try exact absurd h (by decide)
    rw [Value.eq_of_sameEntries xs _ h]
  | .struct _ _, b, h => by cases b <;> simp [Value.same] at h
  | .ptr _, b, h => by cases b <;> simp [Value.same] at h
  | .func _, b, h => by cases b <;> simp [Value.same] at h
  | .panicFunc _, b, h => by cases b <;> simp [Value.same] at h
  | .otherFunc _, b, h => by cases b <;> simp [Value.same] at h
  | .completion _ _ _ _ _, b, h => by cases b <;> simp [Value.same] at h
theorem Value.eq_of_sameList :
    ∀ (xs ys : List Value), Value.sameList xs ys = true → xs = ys
  | [], [], _ => rfl
  | x :: xs, y :: ys, h => by
    simp only [Value.sameList, Bool.and_eq_true] at h
    rw [Value.eq_of_same x y h.1, Value.eq_of_sameList xs ys h.2]
  | [], _ :: _, h => by simp [Value.sameList] at h
  | _ :: _, [], h => by simp [Value.sameList] at h
theorem Value.eq_of_sameEntries :
    ∀ (xs ys : List (String × Value)), Value.sameEntries xs ys = true → xs = ys
  | [], [], _ => rfl
  | (k, x) :: xs, (k', y) :: ys, h => by
    simp only [Value.sameEntries, Bool.and_eq_true, decide_eq_true_eq] at h
    rw [h.1.1, Value.eq_of_same x y h.1.2, Value.eq_of_sameEntries xs ys h.2]
  | [], _ :: _, h => by simp [Value.sameEntries] at h
  | _ :: _, [], h => by simp [Value.sameEntries] at h
end

theorem dataOf_eq_of_dataIs (o : Option (Result × ExecState)) (v : Value)
    (h : dataIs o v = true) : dataOf o = some v := by
  cases o with
  | none => simp [dataIs] at h
  | some x =>
    simp only [dataIs] at h
    simp [dataOf, Value.eq_of_same _ _ h]

/-! ## Completion of one value -/

theorem isFunc_of_isNullish (v : Value) (h : isNullish v = true) : isFunc v = false := by
  cases v <;> simp [isNullish] at h <;> rfl

theorem completeValue_nonNull (fuel : Nat) (self : Completer) (rt : Runtime)
    (eCtx : executionContext) (ofType : Ty) (fieldASTs : List Field) (info : ResolveInfo)
    (path : responsePath) (result : Value) (hf : isFunc result = false) :
    completeValue fuel self rt eCtx (.nonNull ofType) fieldASTs info path result =
      (completeValue fuel self rt eCtx ofType fieldASTs info path result >>= fun completed =>
        match completed with
        | .null =>
          raise ⟨"Cannot return null for non-nullable field " ++ info.ParentType ++ "." ++
            info.FieldName ++ ".", some (FieldASTsToNodeASTs fieldASTs, path.AsArray)⟩
        | _ => pure completed) := by
  rw [completeValue]
  simp only [hf, Bool.false_eq_true, if_false]
  try rfl

theorem completeValue_nonNull_nil (fuel : Nat) (self : Completer) (rt : Runtime)
    (eCtx : executionContext) (ofType : Ty) (fieldASTs : List Field) (info : ResolveInfo)
    (path : responsePath) (result : Value) (s s' : ExecState) (hf : isFunc result = false)
    (h : completeValue fuel self rt eCtx ofType fieldASTs info path result s = (.ok .null, s')) :
    completeValue fuel self rt eCtx (.nonNull ofType) fieldASTs info path result s =
      raise ⟨"Cannot return null for non-nullable field " ++ info.ParentType ++ "." ++
        info.FieldName ++ ".", some (FieldASTsToNodeASTs fieldASTs, path.AsArray)⟩ s' := by
  rw [completeValue_nonNull _ _ _ _ _ _ _ _ _ hf, Exec.bind_ok _ _ _ _ _ h]

theorem completeValue_nonNull_value (fuel : Nat) (self : Completer) (rt : Runtime)
    (eCtx : executionContext) (ofType : Ty) (fieldASTs : List Field) (info : ResolveInfo)
    (path : responsePath) (result v : Value) (s s' : ExecState) (hf : isFunc result = false)
    (hv : v ≠ .null)
    (h : completeValue fuel self rt eCtx ofType fieldASTs info path result s = (.ok v, s')) :
    completeValue fuel self rt eCtx (.nonNull ofType) fieldASTs info path result s =
      (.ok v, s') := by
  rw [completeValue_nonNull _ _ _ _ _ _ _ _ _ hf, Exec.bind_ok _ _ _ _ _ h]
  cases v <;> first | rfl | exact absurd rfl hv

theorem completeValue_nonNull_panic (fuel : Nat) (self : Completer) (rt : Runtime)
    (eCtx : executionContext) (ofType : Ty) (fieldASTs : List Field) (info : ResolveInfo)
    (path : responsePath) (result : Value) (r : PanicValue) (s s' : ExecState)
    (hf : isFunc result = false)
    (h : completeValue fuel self rt eCtx ofType fieldASTs info path result s = (.panic r, s')) :
    completeValue fuel self rt eCtx (.nonNull ofType) fieldASTs info path result s =
      (.panic r, s') := by
  rw [completeValue_nonNull _ _ _ _ _ _ _ _ _ hf, Exec.bind_panic _ _ _ _ _ h]

theorem completeValue_nonNull_outOfFuel (fuel : Nat) (self : Completer) (rt : Runtime)
    (eCtx : executionContext) (ofType : Ty) (fieldASTs : List Field) (info : ResolveInfo)
    (path : responsePath) (result : Value) (s s' : ExecState) (hf : isFunc result = false)
    (h : completeValue fuel self rt eCtx ofType fieldASTs info path result s =
      (.outOfFuel, s')) :
    completeValue fuel self rt eCtx (.nonNull ofType) fieldASTs info path result s =
      (.outOfFuel, s') := by
  rw [completeValue_nonNull _ _ _ _ _ _ _ _ _ hf, Exec.bind_outOfFuel _ _ _ _ h]

theorem completeValue_thunk (fuel : Nat) (self : Completer) (rt : Runtime)
    (eCtx : executionContext) (returnType : Ty) (fieldASTs : List Field) (info : ResolveInfo)
    (path : responsePath) (result : Value) (s : ExecState) (hf : isFunc result = true) :
    completeValue fuel self rt eCtx returnType fieldASTs info path result s =
      (.ok (.completion returnType fieldASTs info path result), s) := by
  cases returnType <;> (simp [completeValue, hf]; rfl)

theorem completeValue_nullish (fuel : Nat) (self : Completer) (rt : Runtime)
    (eCtx : executionContext) (returnType : Ty) (fieldASTs : List Field) (info : ResolveInfo)
    (path : responsePath) (result : Value) (s : ExecState)
    (hty : ∀ t, returnType ≠ .nonNull t) (hnull : isNullish result = true) :
    completeValue fuel self rt eCtx returnType fieldASTs info path result s = (.ok .null, s) := by
  have hf := isFunc_of_isNullish result hnull
  cases returnType with
  | nonNull t => exact absurd rfl (hty t)
  | _ => simp [completeValue, hf, hnull]; rfl

theorem completeValueCatchingError_succ (rt : Runtime) (eCtx : executionContext) (fuel : Nat)
    (returnType : Ty) (fieldASTs : List Field) (info : ResolveInfo) (path : responsePath)
    (result : Value) :
    completeValueCatchingError rt eCtx (fuel + 1) returnType fieldASTs info path result =
      recoverWith
        (completeValue fuel (completeValueCatchingError rt eCtx fuel) rt eCtx returnType
          fieldASTs info path result)
        (fun r => do
          handleFieldError r (FieldASTsToNodeASTs fieldASTs) path (some returnType)
          pure .null) := rfl

theorem recoverWith_ok {α : Type} (body : Exec α) (handler : PanicValue → Exec α)
    (s s' : ExecState) (a : α) (h : body s = (.ok a, s')) :
    recoverWith body handler s = (.ok a, s') := by
  simp [recoverWith, h]

theorem recoverWith_panic {α : Type} (body : Exec α) (handler : PanicValue → Exec α)
    (s s' : ExecState) (r : PanicValue) (h : body s = (.panic r, s')) :
    recoverWith body handler s = handler r s' := by
  simp [recoverWith, h]

theorem recoverWith_outOfFuel {α : Type} (body : Exec α) (handler : PanicValue → Exec α)
    (s s' : ExecState) (h : body s = (.outOfFuel, s')) :
    recoverWith body handler s = (.outOfFuel, s') := by
  simp [recoverWith, h]

theorem completeValueCatchingError_nullish (rt : Runtime) (eCtx : executionContext)
    (fuel : Nat) (returnType : Ty) (fieldASTs : List Field) (info : ResolveInfo)
    (path : responsePath) (result : Value) (s : ExecState)
    (hty : ∀ t, returnType ≠ .nonNull t) (hnull : isNullish result = true) :
    completeValueCatchingError rt eCtx (fuel + 1) returnType fieldASTs info path result s =
      (.ok .null, s) := by
  rw [completeValueCatchingError_succ]
  exact recoverWith_ok _ _ _ _ _
    (completeValue_nullish fuel _ rt eCtx returnType fieldASTs info path result s hty hnull)

end Graphql

namespace Graphql

/-- C6: for every return type that is not `NonNull` and every nullish result
(nil, a nil pointer, NaN; none of them a function), `completeValue` returns
nil and leaves the state, so the errors list, as it was; so does
`completeValueCatchingError` one level up. -/
theorem completeValue_nullable_nullish (fuel : Nat) (self : Completer) (rt : Runtime)
    (eCtx : executionContext) (returnType : Ty) (fieldASTs : List Field) (info : ResolveInfo)
    (path : responsePath) (result : Value) (s : ExecState)
    (hty : ∀ t, returnType ≠ .nonNull t) (hnull : isNullish result = true) :
    completeValue fuel self rt eCtx returnType fieldASTs info path result s = (.ok .null, s) ∧
    completeValueCatchingError rt eCtx (fuel + 1) returnType fieldASTs info path result s =
      (.ok .null, s) := by
  exact ⟨completeValue_nullish fuel self rt eCtx returnType fieldASTs info path result s
    hty hnull,
    completeValueCatchingError_nullish rt eCtx fuel returnType fieldASTs info path result s
      hty hnull⟩

/-- C6, at a concrete input: a nil result for the types `[Int]` and `[Int!]`
completes to nil with the state unchanged, and `{ nest { test } }` then
returns `{nest: {test: nil}}` with no error, so without an 'expected
iterable' error. -/
theorem completeValue_nullable_nullish_witness :
    ((∀ t, Ty.list IntType ≠ .nonNull t) ∧ isNullish .null = true ∧
      completeValue 0 (completeValueCatchingError testRuntime (listContext (.list IntType) .null) 0)
        testRuntime (listContext (.list IntType) .null) (.list IntType)
        [fieldNode "test" 10 none] (testInfo (.list IntType)) .root .null (initialState .null) =
          (.ok .null, initialState .null)) ∧
    dataOf (checkList 5 (.list IntType) .null) =
      some (.map [("nest", .map [("test", .null)])]) ∧
    errorsOf (checkList 5 (.list IntType) .null) = some [] ∧
    dataOf (checkList 5 (.list (.nonNull IntType)) .null) =
      some (.map [("nest", .map [("test", .null)])]) ∧
    errorsOf (checkList 5 (.list (.nonNull IntType)) .null) = some [] :=
  ⟨⟨(by intro t h; cases h), rfl,
    (completeValue_nullable_nullish 0 _ testRuntime (listContext (.list IntType) .null)
      (.list IntType) [fieldNode "test" 10 none] (testInfo (.list IntType)) .root .null
      (initialState .null) (by intro t h; cases h) rfl).1⟩,
   dataOf_eq_of_dataIs _ _ (by decide!), (by decide!),
   dataOf_eq_of_dataIs _ _ (by decide!), (by decide!)⟩

/-- C7: for every scalar or enum type and every result that is neither
nullish nor a function, `completeValue` returns the serialised result when
that is not nullish and nil when it is; the state, so the errors list, is left
as it was. -/
theorem completeValue_leaf (fuel : Nat) (self : Completer) (rt : Runtime)
    (eCtx : executionContext) (name : String) (fieldASTs : List Field) (info : ResolveInfo)
    (path : responsePath) (x : Value) (s : ExecState)
    (hfunc : isFunc x = false) (hnull : isNullish x = false) :
    completeValue fuel self rt eCtx (.scalar name) fieldASTs info path x s =
      (.ok (if isNullish (eCtx.Schema.Serialize name x) then .null
            else eCtx.Schema.Serialize name x), s) ∧
    completeValue fuel self rt eCtx (.enum name) fieldASTs info path x s =
      (.ok (if isNullish (eCtx.Schema.Serialize name x) then .null
            else eCtx.Schema.Serialize name x), s) := by
  constructor <;> (simp [completeValue, hfunc, hnull, completeLeafValue]; rfl)

/-- C7, at a concrete input: the result `1` for the type `Int` of the
harness, whose `Serialize` is the identity, completes to `1`. -/
theorem completeValue_leaf_witness :
    isFunc (.int 1) = false ∧ isNullish (.int 1) = false ∧
    completeValue 0 (completeValueCatchingError testRuntime (listContext IntType .null) 0)
      testRuntime (listContext IntType .null) (.scalar "Int") [fieldNode "test" 10 none]
      (testInfo IntType) .root (.int 1) (initialState .null) =
        (.ok (if isNullish ((listContext IntType .null).Schema.Serialize "Int" (.int 1)) then .null
              else (listContext IntType .null).Schema.Serialize "Int" (.int 1)),
          initialState .null) :=
  ⟨rfl, rfl,
    (completeValue_leaf 0 _ testRuntime (listContext IntType .null) "Int"
      [fieldNode "test" 10 none] (testInfo IntType) .root (.int 1) (initialState .null)
      rfl rfl).1⟩

end Graphql

namespace Graphql

/-- C4, as stated, fails: for the non-null type `[Int]!` and the result `5`,
which is not a function, `completeValue` aborts, and the message of the abort
is not 'Cannot return null for non-nullable field DataType.test.' but the one
of the list completion, which found no iterable. -/
theorem completeValue_nonNull_other_abort :
    isFunc (.int 5) = false ∧
    abortMessage
      (completeValue 0 (completeValueCatchingError testRuntime (listContext IntType .null) 0)
        testRuntime (listContext IntType .null) (.nonNull (.list IntType))
        [fieldNode "test" 10 none] (testInfo (.nonNull (.list IntType))) .root (.int 5)
        (initialState .null)).1 =
      some "User Error: expected iterable, but did not find one for field DataType.test." ∧
    "User Error: expected iterable, but did not find one for field DataType.test." ≠
      "Cannot return null for non-nullable field DataType.test." :=
  ⟨rfl, by decide!, by decide⟩

/-- C4, amended: for every return type `NonNull(T)` and every result that is
not a function, `completeValue` never returns nil.  With the completion of
the result against `T`: it returns that completion when it is not nil; it
aborts with 'Cannot return null for non-nullable field P.f.', located at the
field nodes and the path, when that completion is nil; and it aborts with the
abort of that completion when that completion itself aborts. -/
theorem completeValue_nonNull_never_nil (fuel : Nat) (self : Completer) (rt : Runtime)
    (eCtx : executionContext) (T : Ty) (fieldASTs : List Field) (info : ResolveInfo)
    (path : responsePath) (result : Value) (s : ExecState) (hfunc : isFunc result = false) :
    (completeValue fuel self rt eCtx (.nonNull T) fieldASTs info path result s).1 ≠ .ok .null ∧
    ((∃ v s', v ≠ .null ∧
        completeValue fuel self rt eCtx T fieldASTs info path result s = (.ok v, s') ∧
        completeValue fuel self rt eCtx (.nonNull T) fieldASTs info path result s = (.ok v, s')) ∨
     (∃ s',
        completeValue fuel self rt eCtx T fieldASTs info path result s = (.ok .null, s') ∧
        completeValue fuel self rt eCtx (.nonNull T) fieldASTs info path result s =
          (.panic ⟨"Cannot return null for non-nullable field " ++ info.ParentType ++ "." ++
              info.FieldName ++ ".", some (FieldASTsToNodeASTs fieldASTs, path.AsArray)⟩,
            { s' with trace := s'.trace ++ [.raised ("Cannot return null for non-nullable field "
              ++ info.ParentType ++ "." ++ info.FieldName ++ ".")] })) ∨
     (∃ r s',
        completeValue fuel self rt eCtx T fieldASTs info path result s = (.panic r, s') ∧
        completeValue fuel self rt eCtx (.nonNull T) fieldASTs info path result s =
          (.panic r, s')) ∨
     (∃ s',
        completeValue fuel self rt eCtx T fieldASTs info path result s = (.outOfFuel, s') ∧
        completeValue fuel self rt eCtx (.nonNull T) fieldASTs info path result s =
          (.outOfFuel, s'))) := by
  rcases h : completeValue fuel self rt eCtx T fieldASTs info path result s with ⟨o, s'⟩
  cases o with
  | ok v =>
    by_cases hv : v = .null
    · subst hv
      rw [completeValue_nonNull_nil _ _ _ _ _ _ _ _ _ _ _ hfunc h]
      exact ⟨by simp [raise], Or.inr (Or.inl ⟨s', rfl, rfl⟩)⟩
    · rw [completeValue_nonNull_value _ _ _ _ _ _ _ _ _ _ _ _ hfunc hv h]
      refine ⟨?_, Or.inl ⟨v, s', hv, rfl, rfl⟩⟩
      intro h'
      simp only [Outcome.ok.injEq] at h'
      exact hv h'
  | panic r =>
    rw [completeValue_nonNull_panic _ _ _ _ _ _ _ _ _ _ _ _ hfunc h]
    exact ⟨by simp, Or.inr (Or.inr (Or.inl ⟨r, s', rfl, rfl⟩))⟩
  | outOfFuel =>
    rw [completeValue_nonNull_outOfFuel _ _ _ _ _ _ _ _ _ _ _ hfunc h]
    exact ⟨by simp, Or.inr (Or.inr (Or.inr ⟨s', rfl, rfl⟩))⟩

/-- C4, at a concrete input: the result nil for the type `Int!` is not a
function, and `completeValue` does not return nil for it. -/
theorem completeValue_nonNull_never_nil_witness :
    isFunc .null = false ∧
    (completeValue 0 (completeValueCatchingError testRuntime (listContext IntType .null) 0)
      testRuntime (listContext IntType .null) (.nonNull IntType) [fieldNode "test" 10 none]
      (testInfo (.nonNull IntType)) .root .null (initialState .null)).1 ≠ .ok .null :=
  ⟨rfl,
    (completeValue_nonNull_never_nil 0 _ testRuntime (listContext IntType .null) IntType
      [fieldNode "test" 10 none] (testInfo (.nonNull IntType)) .root .null (initialState .null)
      rfl).1⟩

end Graphql

namespace Graphql

/-! ## Completion of a list -/

theorem CompletesItems.loop {self : Completer} {itemType : Ty} {fieldASTs : List Field}
    {info : ResolveInfo} {path : responsePath} {i : Nat} {xs ys : List Value}
    {s s' : ExecState} (h : CompletesItems self itemType fieldASTs info path i xs s ys s') :
    ∀ completedResults, completeListItems self itemType fieldASTs info path i xs
      completedResults s = (.ok (completedResults ++ ys), s') := by
  induction h with
  | nil i s => intro acc; simp [completeListItems]; rfl
  | cons i x y xs ys s s1 s2 head _ ih =>
    intro acc
    rw [completeListItems, Exec.bind_ok _ _ _ _ _ head, ih]
    simp

theorem CompletesItems.length_eq {self : Completer} {itemType : Ty} {fieldASTs : List Field}
    {info : ResolveInfo} {path : responsePath} {i : Nat} {xs ys : List Value}
    {s s' : ExecState} (h : CompletesItems self itemType fieldASTs info path i xs s ys s') :
    ys.length = xs.length := by
  induction h with
  | nil => rfl
  | cons _ _ _ _ _ _ _ _ _ _ ih => simp [ih]

theorem CompletesItems.nil_in_place {rt : Runtime} {eCtx : executionContext} {fuel : Nat}
    {itemType : Ty} {fieldASTs : List Field} {info : ResolveInfo} {path : responsePath}
    {i : Nat} {xs ys : List Value} {s s' : ExecState}
    (h : CompletesItems (completeValueCatchingError rt eCtx fuel) itemType fieldASTs info path
      i xs s ys s')
    (hty : ∀ t, itemType ≠ .nonNull t) :
    ∀ (j : Nat) (x : Value), xs.get? j = some x → isNullish x = true →
      ys.get? j = some .null := by
  induction h with
  | nil => intro j x hx; simp at hx
  | cons i x y xs ys s s1 s2 head _ ih =>
    intro j x' hx hnull
    cases j with
    | zero =>
      simp only [List.get?_cons_zero, Option.some.injEq] at hx
      subst hx
      cases fuel with
      | zero => simp [completeValueCatchingError, outOfFuel] at head
      | succ n =>
        rw [completeValueCatchingError_nullish rt eCtx n itemType fieldASTs info _ x s hty
          hnull] at head
        simp only [Prod.mk.injEq, Outcome.ok.injEq] at head
        simp [head.1]
    | succ j => simpa using ih j x' (by simpa using hx) hnull

theorem completeListValue_list (self : Completer) (itemType : Ty) (fieldASTs : List Field)
    (info : ResolveInfo) (path : responsePath) (xs : List Value) :
    completeListValue self itemType fieldASTs info path (.list xs) =
      (completeListItems self itemType fieldASTs info path 0 xs [] >>= fun completedResults =>
        pure (.list completedResults)) := by
  simp [completeListValue, isIterable, listItems]

theorem completeValue_list (fuel : Nat) (self : Completer) (rt : Runtime)
    (eCtx : executionContext) (itemType : Ty) (fieldASTs : List Field) (info : ResolveInfo)
    (path : responsePath) (xs : List Value) :
    completeValue fuel self rt eCtx (.list itemType) fieldASTs info path (.list xs) =
      completeListValue self itemType fieldASTs info path (.list xs) := by
  simp [completeValue, isFunc, isNullish]

/-- C5: for every return type `List(T)` and every result that is a list of
`n` items whose completions, run in order, return, `completeListValue` (and
`completeValue` at the list type) returns a list of exactly `n` elements whose
`i`-th element is the completion of the `i`-th item against `T` with the path
extended by index `i`, in the order of the input, and ends in the state after
the last item.  For a nullable `T` a nullish item becomes nil in place, and
completing it leaves the state, so the errors list, as it was. -/
theorem completeListValue_in_order (rt : Runtime) (eCtx : executionContext) (fuel : Nat)
    (itemType : Ty) (fieldASTs : List Field) (info : ResolveInfo) (path : responsePath)
    (xs ys : List Value) (s s' : ExecState)
    (h : CompletesItems (completeValueCatchingError rt eCtx fuel) itemType fieldASTs info path
      0 xs s ys s') :
    completeListValue (completeValueCatchingError rt eCtx fuel) itemType fieldASTs info path
      (.list xs) s = (.ok (.list ys), s') ∧
    completeValue fuel (completeValueCatchingError rt eCtx fuel) rt eCtx (.list itemType)
      fieldASTs info path (.list xs) s = (.ok (.list ys), s') ∧
    ys.length = xs.length ∧
    ((∀ t, itemType ≠ .nonNull t) →
      (∀ (j : Nat) (x : Value), xs.get? j = some x → isNullish x = true →
        ys.get? j = some .null) ∧
      (∀ (x : Value) (p : responsePath) (s0 : ExecState), isNullish x = true →
        completeValueCatchingError rt eCtx (fuel + 1) itemType fieldASTs info p x s0 =
          (.ok .null, s0))) := by
  have hlist : completeListValue (completeValueCatchingError rt eCtx fuel) itemType fieldASTs
      info path (.list xs) s = (.ok (.list ys), s') := by
    rw [completeListValue_list, Exec.bind_ok _ _ _ _ _ (h.loop [])]
    rfl
  refine ⟨hlist, ?_, h.length_eq, fun hty => ⟨h.nil_in_place hty, ?_⟩⟩
  · rw [completeValue_list, hlist]
  · intro x p s0 hnull
    exact completeValueCatchingError_nullish rt eCtx fuel itemType fieldASTs info p x s0 hty
      hnull

/-- C5, at a concrete input: the payload `[1, nil, 2]` for the type `[Int]`
completes item by item to `[1, nil, 2]` with the state unchanged, and
`{ nest { test } }` returns `{nest: {test: [1, nil, 2]}}` with no error. -/
theorem completeListValue_in_order_witness :
    (CompletesItems (completeValueCatchingError testRuntime (listContext (.list IntType) .null) 1)
        IntType [fieldNode "test" 10 none] (testInfo (.list IntType)) .root 0
        [.int 1, .null, .int 2] (initialState .null) [.int 1, .null, .int 2]
        (initialState .null) ∧
      completeListValue
        (completeValueCatchingError testRuntime (listContext (.list IntType) .null) 1) IntType
        [fieldNode "test" 10 none] (testInfo (.list IntType)) .root
        (.list [.int 1, .null, .int 2]) (initialState .null) =
          (.ok (.list [.int 1, .null, .int 2]), initialState .null)) ∧
    dataOf (checkList 5 (.list IntType) (.list [.int 1, .null, .int 2])) =
      some (.map [("nest", .map [("test", .list [.int 1, .null, .int 2])])]) ∧
    errorsOf (checkList 5 (.list IntType) (.list [.int 1, .null, .int 2])) = some [] :=
  have chain : CompletesItems
      (completeValueCatchingError testRuntime (listContext (.list IntType) .null) 1)
      IntType [fieldNode "test" 10 none] (testInfo (.list IntType)) .root 0
      [.int 1, .null, .int 2] (initialState .null) [.int 1, .null, .int 2]
      (initialState .null) :=
    .cons 0 _ _ _ _ _ _ _ rfl (.cons 1 _ _ _ _ _ _ _ rfl (.cons 2 _ _ _ _ _ _ _ rfl (.nil 3 _)))
  ⟨⟨chain,
    (completeListValue_in_order testRuntime (listContext (.list IntType) .null) 1 IntType
      [fieldNode "test" 10 none] (testInfo (.list IntType)) .root _ _ _ _ chain).1⟩,
   dataOf_eq_of_dataIs _ _ (by decide!), (by decide!)⟩

end Graphql

namespace Graphql

/-! ## Field errors -/

theorem handleFieldError_nonNull (message : String) (loc : List Nat × List PathKey)
    (fieldNodes : List Nat) (path : responsePath) (T : Ty) (s : ExecState) :
    handleFieldError ⟨message, some loc⟩ fieldNodes path (some (.nonNull T)) s =
      (.panic ⟨message, some loc⟩, s) := rfl

theorem handleFieldError_nullable (r : PanicValue) (fieldNodes : List Nat)
    (path : responsePath) (returnType : Option Ty) (s : ExecState)
    (hty : isNonNull returnType = false) :
    handleFieldError r fieldNodes path returnType s =
      (.ok (), { s with Errors := s.Errors ++
        [FormatError (NewLocatedErrorWithPath r fieldNodes path.AsArray)] }) := by
  simp [handleFieldError, hty, appendError]

theorem isNonNull_of_nullable (returnType : Ty) (hty : ∀ t, returnType ≠ .nonNull t) :
    isNonNull (some returnType) = false := by
  cases returnType <;> first | rfl | exact absurd rfl (hty _)

/-- An abort of the completion at a nullable type is absorbed: the value is
nil and exactly the located error is appended. -/
theorem completeValueCatchingError_absorbs (rt : Runtime) (eCtx : executionContext)
    (fuel : Nat) (returnType : Ty) (fieldASTs : List Field) (info : ResolveInfo)
    (path : responsePath) (result : Value) (s s' : ExecState) (r : PanicValue)
    (hty : ∀ t, returnType ≠ .nonNull t)
    (h : completeValue fuel (completeValueCatchingError rt eCtx fuel) rt eCtx returnType
      fieldASTs info path result s = (.panic r, s')) :
    completeValueCatchingError rt eCtx (fuel + 1) returnType fieldASTs info path result s =
      (.ok .null, { s' with Errors := s'.Errors ++
        [FormatError (NewLocatedErrorWithPath r (FieldASTsToNodeASTs fieldASTs)
          path.AsArray)] }) := by
  rw [completeValueCatchingError_succ, recoverWith_panic _ _ _ _ _ h,
    Exec.bind_ok _ _ _ _ _ (handleFieldError_nullable r _ path (some returnType) s'
      (isNonNull_of_nullable returnType hty))]
  rfl

/-- An abort of the completion at a non-null type is sent upstream, located. -/
theorem completeValueCatchingError_reraises (rt : Runtime) (eCtx : executionContext)
    (fuel : Nat) (T : Ty) (fieldASTs : List Field) (info : ResolveInfo)
    (path : responsePath) (result : Value) (s s' : ExecState) (r : PanicValue)
    (h : completeValue fuel (completeValueCatchingError rt eCtx fuel) rt eCtx (.nonNull T)
      fieldASTs info path result s = (.panic r, s')) :
    completeValueCatchingError rt eCtx (fuel + 1) (.nonNull T) fieldASTs info path result s =
      (.panic (NewLocatedErrorWithPath r (FieldASTsToNodeASTs fieldASTs) path.AsArray), s') := by
  rw [completeValueCatchingError_succ, recoverWith_panic _ _ _ _ _ h]
  simp [handleFieldError, isNonNull, reraise, Exec.bind_apply]

/-! ## The loop over the field map -/

theorem executeFieldsLoop_append (self : Completer) (rt : Runtime) (eCtx : executionContext)
    (parentType : Object) (source : Value) (path : responsePath)
    (pre rest : List (String × List Field)) :
    ∀ finalResults, executeFieldsLoop self rt eCtx parentType source path (pre ++ rest)
      finalResults =
        (executeFieldsLoop self rt eCtx parentType source path pre finalResults >>=
          fun finalResults' =>
            executeFieldsLoop self rt eCtx parentType source path rest finalResults') := by
  induction pre with
  | nil => intro acc; funext s; rfl
  | cons entry pre ih =>
    intro acc
    obtain ⟨responseName, fieldASTs⟩ := entry
    funext s
    simp only [List.cons_append, executeFieldsLoop, Exec.bind_apply]
    rcases resolveField self rt eCtx parentType source fieldASTs
      (path.WithKey (.key responseName)) s with ⟨o, s1⟩
    cases o with
    | ok a =>
      obtain ⟨resolved, state⟩ := a
      by_cases hs : state.hasNoFieldDefs = true
      · simp only [hs, if_true]
        exact congrFun (ih acc) s1
      · simp only [hs, if_false]
        exact congrFun (ih _) s1
    | panic r => rfl
    | outOfFuel => rfl

theorem executeFieldsLoop_panic (self : Completer) (rt : Runtime) (eCtx : executionContext)
    (parentType : Object) (source : Value) (path : responsePath) (responseName : String)
    (fieldASTs : List Field) (rest : List (String × List Field))
    (finalResults : List (String × Value)) (s s' : ExecState) (r : PanicValue)
    (h : resolveField self rt eCtx parentType source fieldASTs
      (path.WithKey (.key responseName)) s = (.panic r, s')) :
    executeFieldsLoop self rt eCtx parentType source path ((responseName, fieldASTs) :: rest)
      finalResults s = (.panic r, s') := by
  rw [executeFieldsLoop, Exec.bind_panic _ _ _ _ _ h]

end Graphql

namespace Graphql

/-! ## Non-null propagation -/

/-- The completer sends a nil at a non-null type upstream as the located
error 'Cannot return null for non-nullable field P.f.'. -/
theorem completeValueCatchingError_nonNull_nil (rt : Runtime) (eCtx : executionContext)
    (fuel : Nat) (T : Ty) (fieldASTs : List Field) (info : ResolveInfo)
    (path : responsePath) (result : Value) (s s' : ExecState)
    (hfunc : isFunc result = false)
    (h : completeValue fuel (completeValueCatchingError rt eCtx fuel) rt eCtx T fieldASTs info
      path result s = (.ok .null, s')) :
    completeValueCatchingError rt eCtx (fuel + 1) (.nonNull T) fieldASTs info path result s =
      (.panic ⟨"Cannot return null for non-nullable field " ++ info.ParentType ++ "." ++
          info.FieldName ++ ".", some (FieldASTsToNodeASTs fieldASTs, path.AsArray)⟩,
        { s' with trace := s'.trace ++ [.raised ("Cannot return null for non-nullable field " ++
          info.ParentType ++ "." ++ info.FieldName ++ ".")] }) := by
  rw [completeValueCatchingError_reraises rt eCtx fuel T fieldASTs info path result s _ _
    (completeValue_nonNull_nil _ _ _ _ _ _ _ _ _ _ _ hfunc h)]
  rfl

/-- A field of non-null type whose resolved value completes to nil makes
`resolveField` abort with the located error, and nothing is appended. -/
theorem resolveField_nonNull_nil (rt : Runtime) (eCtx : executionContext) (fuel : Nat)
    (parentType : Object) (source : Value) (fieldAST : Field) (restASTs : List Field)
    (path : responsePath) (fieldDef : FieldDefinition) (T : Ty) (r : Value) (w : World)
    (s s2 : ExecState)
    (hdef : getFieldDef rt eCtx.Schema (some parentType) (fieldAST.Name.getD "") =
      some fieldDef)
    (hty : fieldDef.Type_ = .nonNull T)
    (hres : (fieldDef.Resolve.getD (DefaultResolveFn rt))
      { Source := source,
        Args := rt.getArgumentValues fieldDef.Args fieldAST.Arguments eCtx.VariableValues,
        Info := { FieldName := fieldAST.Name.getD "", FieldASTs := fieldAST :: restASTs,
                  ReturnType := fieldDef.Type_, ParentType := parentType.Name },
        RootValue := eCtx.Root, VariableValues := eCtx.VariableValues } s.world =
      (.returns r none, w))
    (hfunc : isFunc r = false)
    (hnil : completeValue fuel (completeValueCatchingError rt eCtx fuel) rt eCtx T
      (fieldAST :: restASTs)
      { FieldName := fieldAST.Name.getD "", FieldASTs := fieldAST :: restASTs,
        ReturnType := fieldDef.Type_, ParentType := parentType.Name }
      path r { s with world := w, trace := s.trace ++ [.resolved path.AsArray] } =
        (.ok .null, s2)) :
    resolveField (completeValueCatchingError rt eCtx (fuel + 1)) rt eCtx parentType source
      (fieldAST :: restASTs) path s =
      (.panic ⟨"Cannot return null for non-nullable field " ++ parentType.Name ++ "." ++
          fieldAST.Name.getD "" ++ ".",
          some (FieldASTsToNodeASTs (fieldAST :: restASTs), path.AsArray)⟩,
        { s2 with trace := s2.trace ++ [.raised ("Cannot return null for non-nullable field " ++
          parentType.Name ++ "." ++ fieldAST.Name.getD "" ++ ".")] }) := by
  have hself := completeValueCatchingError_nonNull_nil rt eCtx fuel T (fieldAST :: restASTs)
    { FieldName := fieldAST.Name.getD "", FieldASTs := fieldAST :: restASTs,
      ReturnType := fieldDef.Type_, ParentType := parentType.Name }
    path r _ s2 hfunc hnil
  rw [← hty] at hself
  simp only [resolveField, resolveFieldBody, hdef, hres, hself]
  rw [hty]
  rfl

end Graphql

namespace Graphql

theorem completeObjectValue_accepted (fuel : Nat) (self : Completer) (rt : Runtime)
    (eCtx : executionContext) (returnType : Object) (fieldASTs : List Field)
    (info : ResolveInfo) (path : responsePath) (result : Value)
    (subFieldASTs : List (String × List Field)) (visited : List (String × Bool))
    (hType : ∀ isTypeOf, returnType.IsTypeOf = some isTypeOf →
      isTypeOf { Value := result, Info := info } = true)
    (hcollect : collectSubFields fuel rt eCtx returnType fieldASTs ([], []) =
      .ok (subFieldASTs, visited)) :
    completeObjectValue fuel self rt eCtx returnType fieldASTs info path result =
      (executeSubFields self rt eCtx
        { ParentType := returnType, Source := result, Fields := subFieldASTs, Path := path } >>=
        fun finalResults => pure (.map finalResults)) := by
  unfold completeObjectValue
  cases h : returnType.IsTypeOf with
  | none => simp only [hcollect]; rfl
  | some f => simp only [hType f h, hcollect]; rfl

/-- A position where the value is completed as an object of type `parent`
is not a non-null position. -/
theorem CompletesAs.nullable {eCtx : executionContext} {returnType : Ty} {info : ResolveInfo}
    {result : Value} {parent : Object} (h : CompletesAs eCtx returnType info result parent) :
    ∀ t, returnType ≠ .nonNull t := by
  intro t ht
  rcases h with ⟨name, h1, _⟩ | ⟨name, h1 | h1, _⟩ <;> rw [h1] at ht <;> cases ht

/-- At a position where the value is completed as an object of type
`parent`, `completeValue` of a value that is neither a function nor nullish
is `completeObjectValue` for `parent`. -/
theorem completeValue_completesAs (fuel : Nat) (self : Completer) (rt : Runtime)
    (eCtx : executionContext) (returnType : Ty) (fieldASTs : List Field) (info : ResolveInfo)
    (path : responsePath) (result : Value) (parent : Object)
    (hfunc : isFunc result = false) (hnn : isNullish result = false)
    (h : CompletesAs eCtx returnType info result parent) :
    completeValue fuel self rt eCtx returnType fieldASTs info path result =
      completeObjectValue fuel self rt eCtx parent fieldASTs info path result := by
  rcases h with ⟨name, h1, h2⟩ | ⟨name, h1 | h1, h2, h3⟩
  · subst h1 h2
    simp only [completeValue, hfunc, hnn, Bool.false_eq_true, if_false]
  · subst h1
    simp only [completeValue, hfunc, hnn, Bool.false_eq_true, if_false, completeAbstractValue,
      h2, h3, Bool.not_true]
  · subst h1
    simp only [completeValue, hfunc, hnn, Bool.false_eq_true, if_false, completeAbstractValue,
      h2, h3, Bool.not_true]

/-- C1: non-null propagation reaches the nearest nullable ancestor.  Take an
object value at a nullable position, completed by `completeValueCatchingError`
as an object of type `P` (the position has the object type `P`, or an
interface or union type whose runtime type for the value is `P`), and among
the sub-fields of `P`, in the order of the iteration, a field of type
`NonNull(T)` whose resolve delegate returns,
without error, a result that is not a function and that completes against `T`
to nil; the fields before it have been resolved without abort.  Then the
value at the position of the object is nil (not merely the field), the state
is the one left by the fields resolved so far, and exactly one error is
appended to it: 'Cannot return null for non-nullable field P.f.', located at
the nodes and the path of the field.

In the harness, with `Query.nest: DataType`: `test: [Int]!` resolving to nil
gives `{nest: nil}`; `test: [Int!]!` with payload `[1, nil, 2]` gives
`{nest: nil}`; `test: [Int!]` with payload `[1, nil, 2]` gives
`{nest: {test: nil}}`; each with the one error. -/
theorem nonNull_nil_reaches_nullable_ancestor :
    (dataOf (checkList 5 (.nonNull (.list IntType)) .null) = some (.map [("nest", .null)]) ∧
     errorsOf (checkList 5 (.nonNull (.list IntType)) .null) =
       some [cannotReturnNull [.key "nest", .key "test"]]) ∧
    (dataOf (checkList 5 (.nonNull (.list (.nonNull IntType))) (.list [.int 1, .null, .int 2])) =
       some (.map [("nest", .null)]) ∧
     errorsOf (checkList 5 (.nonNull (.list (.nonNull IntType)))
       (.list [.int 1, .null, .int 2])) =
       some [cannotReturnNull [.key "nest", .key "test", .index 1]]) ∧
    (dataOf (checkList 5 (.list (.nonNull IntType)) (.list [.int 1, .null, .int 2])) =
       some (.map [("nest", .map [("test", .null)])]) ∧
     errorsOf (checkList 5 (.list (.nonNull IntType)) (.list [.int 1, .null, .int 2])) =
       some [cannotReturnNull [.key "nest", .key "test", .index 1]]) ∧
    ∀ (rt : Runtime) (eCtx : executionContext) (fuel : Nat) (returnType : Ty) (parent : Object)
      (fieldASTs : List Field) (info : ResolveInfo) (path : responsePath) (result : Value)
      (s s1 s2 : ExecState) (subFieldASTs : List (String × List Field))
      (visited : List (String × Bool)) (pre post : List (String × List Field))
      (responseName : String) (fieldAST : Field) (restASTs : List Field)
      (finalResults : List (String × Value)) (fieldDef : FieldDefinition) (T : Ty)
      (r : Value) (w : World),
      isFunc result = false → isNullish result = false →
      CompletesAs eCtx returnType info result parent →
      (∀ isTypeOf, parent.IsTypeOf = some isTypeOf →
        isTypeOf { Value := result, Info := info } = true) →
      collectSubFields (fuel + 1) rt eCtx parent fieldASTs ([], []) =
        .ok (subFieldASTs, visited) →
      mapRange (rt.rangeSeed s.ranges) subFieldASTs =
        pre ++ (responseName, fieldAST :: restASTs) :: post →
      executeFieldsLoop (completeValueCatchingError rt eCtx (fuel + 1)) rt eCtx
        parent (sourceOrEmpty result) path pre []
        { s with ranges := s.ranges + 1 } = (.ok finalResults, s1) →
      getFieldDef rt eCtx.Schema (some parent)
        (fieldAST.Name.getD "") = some fieldDef →
      fieldDef.Type_ = .nonNull T →
      (fieldDef.Resolve.getD (DefaultResolveFn rt))
        { Source := sourceOrEmpty result,
          Args := rt.getArgumentValues fieldDef.Args fieldAST.Arguments eCtx.VariableValues,
          Info := { FieldName := fieldAST.Name.getD "", FieldASTs := fieldAST :: restASTs,
                    ReturnType := fieldDef.Type_,
                    ParentType := parent.Name },
          RootValue := eCtx.Root, VariableValues := eCtx.VariableValues } s1.world =
        (.returns r none, w) →
      isFunc r = false →
      completeValue fuel (completeValueCatchingError rt eCtx fuel) rt eCtx T
        (fieldAST :: restASTs)
        { FieldName := fieldAST.Name.getD "", FieldASTs := fieldAST :: restASTs,
          ReturnType := fieldDef.Type_, ParentType := parent.Name }
        (path.WithKey (.key responseName)) r
        { s1 with world := w,
                  trace := s1.trace ++ [.resolved (path.WithKey (.key responseName)).AsArray] } =
          (.ok .null, s2) →
      completeValueCatchingError rt eCtx (fuel + 2) returnType fieldASTs info path result s =
        (.ok .null,
          { s2 with
            Errors := s2.Errors ++
              [{ Message := "Cannot return null for non-nullable field " ++
                   parent.Name ++ "." ++ fieldAST.Name.getD "" ++ ".",
                 Locations := FieldASTsToNodeASTs (fieldAST :: restASTs),
                 Path := (path.WithKey (.key responseName)).AsArray }],
            trace := s2.trace ++ [.raised ("Cannot return null for non-nullable field " ++
              parent.Name ++ "." ++ fieldAST.Name.getD "" ++ ".")] }) := by
  refine ⟨⟨dataOf_eq_of_dataIs _ _ (by decide!), by decide!⟩,
    ⟨dataOf_eq_of_dataIs _ _ (by decide!), by decide!⟩,
    ⟨dataOf_eq_of_dataIs _ _ (by decide!), by decide!⟩, ?_⟩
  intro rt eCtx fuel returnType parent fieldASTs info path result s s1 s2 subFieldASTs visited pre post
    responseName fieldAST restASTs finalResults fieldDef T r w hfunc hnn hpos hType hcollect horder
    hpre hdef hty hres hrfunc hnil
  have hfield := resolveField_nonNull_nil rt eCtx fuel parent
    (sourceOrEmpty result) fieldAST restASTs (path.WithKey (.key responseName)) fieldDef T r w
    s1 s2 hdef hty hres hrfunc hnil
  have hloop := executeFieldsLoop_panic _ rt eCtx parent
    (sourceOrEmpty result) path responseName (fieldAST :: restASTs) post finalResults s1 _ _
    hfield
  have hpanic : completeValue (fuel + 1) (completeValueCatchingError rt eCtx (fuel + 1)) rt eCtx
      returnType fieldASTs info path result s =
      (.panic ⟨"Cannot return null for non-nullable field " ++
          parent.Name ++ "." ++ fieldAST.Name.getD "" ++ ".",
          some (FieldASTsToNodeASTs (fieldAST :: restASTs),
            (path.WithKey (.key responseName)).AsArray)⟩,
        { s2 with trace := s2.trace ++ [.raised ("Cannot return null for non-nullable field " ++
          parent.Name ++ "." ++ fieldAST.Name.getD "" ++ ".")] }) := by
    rw [completeValue_completesAs _ _ _ _ _ _ _ _ _ _ hfunc hnn hpos]
    rw [completeObjectValue_accepted _ _ _ _ _ _ _ _ _ _ _ hType hcollect]
    simp only [executeSubFields, Exec.bind_apply, nextRange, horder]
    rw [executeFieldsLoop_append, Exec.bind_ok _ _ _ _ _ hpre, hloop]
  rw [completeValueCatchingError_absorbs rt eCtx (fuel + 1) returnType fieldASTs info path
    result s _ _ hpos.nullable hpanic]
  rfl

/-- C1, at a concrete input: the position `nest` of the harness, with
`test: Int!` resolving to nil by the default resolver. -/
theorem nonNull_nil_reaches_nullable_ancestor_witness :
    completeValueCatchingError testRuntime
      (listContext (.nonNull IntType) (.map [("test", .null)])) 2 (.object "DataType")
      [fieldNode "nest" 3 (some [.field (fieldNode "test" 10 none)])]
      { FieldName := "nest",
        FieldASTs := [fieldNode "nest" 3 (some [.field (fieldNode "test" 10 none)])],
        ReturnType := .object "DataType", ParentType := "DataType" }
      (responsePath.root.WithKey (.key "nest")) (.map [("test", .null)]) (initialState .null) =
      (.ok .null,
        { Errors := [cannotReturnNull [.key "nest", .key "test"]], world := .null, ranges := 1,
          trace := [.resolved [.key "nest", .key "test"],
            .raised "Cannot return null for non-nullable field DataType.test."] }) :=
  nonNull_nil_reaches_nullable_ancestor.2.2.2 testRuntime
    (listContext (.nonNull IntType) (.map [("test", .null)])) 0 (.object "DataType")
    (dataType (.nonNull IntType) (.map [("test", .null)]))
    [fieldNode "nest" 3 (some [.field (fieldNode "test" 10 none)])] _
    (responsePath.root.WithKey (.key "nest")) (.map [("test", .null)]) (initialState .null)
    { initialState .null with ranges := 1 }
    { initialState .null with ranges := 1, trace := [.resolved [.key "nest", .key "test"]] }
    [("test", [fieldNode "test" 10 none])] [] [] [] "test" (fieldNode "test" 10 none) [] []
    { Name := "test", Type_ := .nonNull IntType, Args := [], Resolve := none } IntType .null .null
    rfl rfl (Or.inl ⟨"DataType", rfl, rfl⟩) (by intro f h; cases h) rfl rfl rfl rfl rfl rfl rfl rfl

end Graphql

namespace Graphql

/-! ## Behaviour at the inputs where the code departs from the contract -/

/-- C2 (code bug): the field `f: Int` is nullable and its resolve delegate
returns the value `42` together with the error "boom".  `resolveField` appends
exactly one error, but the value it yields is `42`, the value returned
alongside the error, not nil: the named result was assigned before the abort
and the deferred handler returns it as it stands.  The response is
`{f: 42}`. -/
theorem resolveField_keeps_value_returned_with_error :
    resolveField (completeValueCatchingError testRuntime
        (queryContext [fieldReturning "f" IntType (.returns (.int 42) (some "boom"))]) 1)
      testRuntime (queryContext [fieldReturning "f" IntType (.returns (.int 42) (some "boom"))])
      (queryType [fieldReturning "f" IntType (.returns (.int 42) (some "boom"))]) (.map [])
      [fieldNode "f" 3 none] (responsePath.root.WithKey (.key "f")) (initialState .null) =
      (.ok (.int 42, ⟨false⟩),
        { Errors := [{ Message := "boom", Locations := [3], Path := [.key "f"] }],
          world := .null, ranges := 0,
          trace := [.resolved [.key "f"], .raised "boom"] }) ∧
    dataOf (runQuery 3 [fieldReturning "f" IntType (.returns (.int 42) (some "boom"))]
      [("f", 3)]) = some (.map [("f", .int 42)]) ∧
    errorsOf (runQuery 3 [fieldReturning "f" IntType (.returns (.int 42) (some "boom"))]
      [("f", 3)]) = some [{ Message := "boom", Locations := [3], Path := [.key "f"] }] :=
  ⟨rfl, dataOf_eq_of_dataIs _ _ (by decide!), by decide!⟩

/-- C8 (code bug): the resolve delegate of `f: Int` returns a producer whose
product is again a producer (of `1`).  After `dethunkWithBreadthFirstSearch`
has returned, the data map of the response still holds a zero-argument
producer at `f`: the producer was invoked once and what it returned, the
completion closure of the inner producer, was put in its place and never
invoked. -/
theorem producer_of_producer_remains :
    dataHasThunk (runQuery 3
      [fieldReturning "f" IntType (.returns (.func (.func (.int 1))) none)] [("f", 3)]) =
      some true ∧
    errorsOf (runQuery 3
      [fieldReturning "f" IntType (.returns (.func (.func (.int 1))) none)] [("f", 3)]) =
      some [] ∧
    traceOf (runQuery 3
      [fieldReturning "f" IntType (.returns (.func (.func (.int 1))) none)] [("f", 3)]) =
      some [.resolved [.key "f"], .invoked [.key "f"]] ∧
    dataOf (runQuery 3
      [fieldReturning "f" IntType (.returns (.func (.int 1)) none)] [("f", 3)]) =
      some (.map [("f", .int 1)]) :=
  ⟨by decide!, by decide!, by decide!, dataOf_eq_of_dataIs _ _ (by decide!)⟩

/-- C10 (code bug): `Query.nest: DataType`, `DataType.test: Int!`, and the
source of `test` is a record, so that the default resolver returns its member
as it is.  When the member is nil the response is `{nest: nil}` with one
error; when the member is the producer of nil the response has no data at
all, with one error: the abort of the deferred completion passes every field
boundary and reaches the driver.  The two responses differ. -/
theorem producer_of_nil_at_nonNull_differs :
    dataOf (checkData 5 (.nonNull IntType) (testRecord .null)) =
      some (.map [("nest", .null)]) ∧
    errorsOf (checkData 5 (.nonNull IntType) (testRecord .null)) =
      some [cannotReturnNull [.key "nest", .key "test"]] ∧
    dataOf (checkData 5 (.nonNull IntType) (testRecord (.func .null))) = some .null ∧
    errorsOf (checkData 5 (.nonNull IntType) (testRecord (.func .null))) =
      some [cannotReturnNull [.key "nest", .key "test"]] ∧
    dataOf (checkData 5 (.nonNull IntType) (testRecord .null)) ≠
      dataOf (checkData 5 (.nonNull IntType) (testRecord (.func .null))) := by
  have h1 : dataOf (checkData 5 (.nonNull IntType) (testRecord .null)) =
      some (.map [("nest", .null)]) := dataOf_eq_of_dataIs _ _ (by decide!)
  have h2 : dataOf (checkData 5 (.nonNull IntType) (testRecord (.func .null))) = some .null :=
    dataOf_eq_of_dataIs _ _ (by decide!)
  refine ⟨h1, by decide!, h2, by decide!, ?_⟩
  rw [h1, h2]
  intro h
  cases h

end Graphql

namespace Graphql

/-! ## Accounting: the basic steps -/

theorem raisedMessages_append (a b : List Event) :
    raisedMessages (a ++ b) = raisedMessages a ++ raisedMessages b := by
  induction a with
  | nil => rfl
  | cons e a ih => cases e <;> simp [raisedMessages, ih]

theorem invokedPositions_append (a b : List Event) :
    invokedPositions (a ++ b) = invokedPositions a ++ invokedPositions b := by
  induction a with
  | nil => rfl
  | cons e a ih => cases e <;> simp [invokedPositions, ih]

theorem Accounted.loud {α : Type} {quiet : Bool} {s s' : ExecState} {out : Outcome α}
    (h : Accounted quiet s out s') : Accounted false s out s' := by
  obtain ⟨es, tr, he, ht, _, hm⟩ := h
  exact ⟨es, tr, he, ht, by simp, hm⟩

theorem Accounted.unchanged {α : Type} (quiet : Bool) (s : ExecState) (a : α) :
    Accounted quiet s (.ok a) s :=
  ⟨[], [], by simp, by simp, fun _ => rfl, rfl⟩

theorem Accounted.fuel {α : Type} (quiet : Bool) (s : ExecState) :
    Accounted quiet s (.outOfFuel : Outcome α) s :=
  ⟨[], [], by simp, by simp, fun _ => rfl, trivial⟩

theorem Accounted.followed {α β : Type} {quiet : Bool} {s s1 s2 : ExecState} {a : α}
    {out : Outcome β} (h1 : Accounted quiet s (.ok a) s1) (h2 : Accounted quiet s1 out s2) :
    Accounted quiet s out s2 := by
  obtain ⟨es1, tr1, he1, ht1, hq1, hm1⟩ := h1
  obtain ⟨es2, tr2, he2, ht2, hq2, hm2⟩ := h2
  refine ⟨es1 ++ es2, tr1 ++ tr2, by rw [he2, he1, List.append_assoc],
    by rw [ht2, ht1, List.append_assoc], ?_, ?_⟩
  · intro hq
    rw [invokedPositions_append, hq1 hq, hq2 hq]
    rfl
  · simp only at hm1
    cases out with
    | ok b =>
      simp only at hm2 ⊢
      rw [raisedMessages_append, hm1, hm2, List.map_append]
    | panic r =>
      simp only at hm2 ⊢
      rw [raisedMessages_append, hm1, hm2, List.map_append, List.append_assoc]
    | outOfFuel => trivial

theorem Accounted.of_panic {α β : Type} {quiet : Bool} {s s' : ExecState} {r : PanicValue}
    (h : Accounted quiet s (.panic r : Outcome α) s') :
    Accounted quiet s (.panic r : Outcome β) s' := h

theorem Accounted.of_outOfFuel {α β : Type} {quiet : Bool} {s s' : ExecState}
    (h : Accounted quiet s (.outOfFuel : Outcome α) s') :
    Accounted quiet s (.outOfFuel : Outcome β) s' := by
  obtain ⟨es, tr, he, ht, hq, _⟩ := h
  exact ⟨es, tr, he, ht, hq, trivial⟩

theorem Exec.Accounts.pure {α : Type} (quiet : Bool) (a : α) :
    Exec.Accounts quiet (Pure.pure a : Exec α) :=
  fun s => Accounted.unchanged quiet s a

theorem Exec.Accounts.outOfFuel {α : Type} (quiet : Bool) :
    Exec.Accounts quiet (Graphql.outOfFuel : Exec α) :=
  fun s => Accounted.fuel quiet s

theorem Exec.Accounts.seq {α β : Type} {quiet : Bool} {m : Exec α} {f : α → Exec β}
    (hm : Exec.Accounts quiet m) (hf : ∀ a, Exec.Accounts quiet (f a)) :
    Exec.Accounts quiet (m >>= f) := by
  intro s
  have h := hm s
  rw [Exec.bind_apply]
  rcases hms : m s with ⟨o, s1⟩
  rw [hms] at h
  cases o with
  | ok a => exact Accounted.followed h (hf a s1)
  | panic r => exact h.of_panic
  | outOfFuel => exact h.of_outOfFuel

theorem Exec.Accounts.raise {α : Type} (quiet : Bool) (r : PanicValue) :
    Exec.Accounts quiet (Graphql.raise r : Exec α) :=
  fun s => ⟨[], [.raised r.message], by simp [Graphql.raise], rfl, fun _ => rfl, rfl⟩

theorem Exec.Accounts.nextRange (quiet : Bool) (rt : Runtime) :
    Exec.Accounts quiet (Graphql.nextRange rt) :=
  fun s => ⟨[], [], by simp [Graphql.nextRange], by simp [Graphql.nextRange], fun _ => rfl, rfl⟩

theorem NewLocatedErrorWithPath_message (r : PanicValue) (nodes : List Nat)
    (path : List PathKey) : (NewLocatedErrorWithPath r nodes path).message = r.message := by
  unfold NewLocatedErrorWithPath
  cases r.located <;> rfl

theorem FormatError_message (r : PanicValue) : (FormatError r).Message = r.message := by
  unfold FormatError
  rcases r.located with _ | ⟨nodes, path⟩ <;> rfl

/-- The handler of the three catching functions: after an abort that is
accounted for, `handleFieldError` followed by the return of the named result
is accounted for. -/
theorem Accounted.handled {α β : Type} {quiet : Bool} {s s1 : ExecState} {r : PanicValue}
    (h : Accounted quiet s (.panic r : Outcome β) s1) (fieldNodes : List Nat)
    (path : responsePath) (returnType : Option Ty) (a : α) :
    Accounted quiet s
      ((handleFieldError r fieldNodes path returnType >>= fun _ => (Pure.pure a : Exec α)) s1).1
      ((handleFieldError r fieldNodes path returnType >>= fun _ => (Pure.pure a : Exec α)) s1).2 := by
  obtain ⟨es, tr, he, ht, hq, hm⟩ := h
  simp only at hm
  by_cases hnn : isNonNull returnType = true
  · have hstep : (handleFieldError r fieldNodes path returnType >>= fun _ =>
        (Pure.pure a : Exec α)) s1 =
        (.panic (NewLocatedErrorWithPath r fieldNodes path.AsArray), s1) := by
      simp [handleFieldError, hnn, reraise, Exec.bind_apply]
    rw [hstep]
    exact ⟨es, tr, he, ht, hq, by simp only [NewLocatedErrorWithPath_message]; exact hm⟩
  · have hnn' : isNonNull returnType = false := by simpa using hnn
    have hstep : (handleFieldError r fieldNodes path returnType >>= fun _ =>
        (Pure.pure a : Exec α)) s1 =
        (.ok a, { s1 with Errors := s1.Errors ++
          [FormatError (NewLocatedErrorWithPath r fieldNodes path.AsArray)] }) := by
      rw [Exec.bind_ok _ _ _ _ _ (handleFieldError_nullable r fieldNodes path returnType s1 hnn')]
      rfl
    rw [hstep]
    refine ⟨es ++ [FormatError (NewLocatedErrorWithPath r fieldNodes path.AsArray)], tr,
      by simp [he], ht, hq, ?_⟩
    simp only [List.map_append, List.map_cons, List.map_nil, FormatError_message,
      NewLocatedErrorWithPath_message]
    exact hm

theorem Exec.Accounts.recoverWith {α : Type} {quiet : Bool} {body : Exec α}
    (hbody : Exec.Accounts quiet body) (fieldNodes : List Nat) (path : responsePath)
    (returnType : Option Ty) (a : α) :
    Exec.Accounts quiet (Graphql.recoverWith body (fun r => do
      handleFieldError r fieldNodes path returnType
      Pure.pure a)) := by
  intro s
  have h := hbody s
  rcases hb : body s with ⟨o, s1⟩
  rw [hb] at h
  cases o with
  | ok v => rw [recoverWith_ok _ _ _ _ _ hb]; exact h
  | panic r =>
    rw [recoverWith_panic _ _ _ _ _ hb]
    exact h.handled fieldNodes path returnType a
  | outOfFuel => rw [recoverWith_outOfFuel _ _ _ _ hb]; exact h

end Graphql

namespace Graphql

/-! ## Accounting: resolution and completion -/

theorem resolveFieldBody_accounted {self : Completer} (hself : ∀ t f i p r,
    Exec.Accounts true (self t f i p r)) (rt : Runtime) (eCtx : executionContext)
    (parentType : Object) (source : Value) (fieldASTs : List Field) (path : responsePath)
    (s : ExecState) :
    Accounted true s (resolveFieldBody self rt eCtx parentType source fieldASTs path s).1.1
      (resolveFieldBody self rt eCtx parentType source fieldASTs path s).2 := by
  unfold resolveFieldBody
  cases fieldASTs with
  | nil => exact Exec.Accounts.raise true _ s
  | cons fieldAST rest =>
    simp only
    cases hdef : getFieldDef rt eCtx.Schema (some parentType) (fieldAST.Name.getD "") with
    | none => exact Accounted.unchanged true s ()
    | some fieldDef =>
      simp only
      have hcall : ∀ (w : World), Accounted true s (.ok ())
          { s with world := w, trace := s.trace ++ [.resolved path.AsArray] } :=
        fun w => ⟨[], [.resolved path.AsArray], by simp, rfl, fun _ => rfl, rfl⟩
      rcases hres : (fieldDef.Resolve.getD (DefaultResolveFn rt))
        { Source := source,
          Args := rt.getArgumentValues fieldDef.Args fieldAST.Arguments eCtx.VariableValues,
          Info := { FieldName := fieldAST.Name.getD "", FieldASTs := fieldAST :: rest,
                    ReturnType := fieldDef.Type_, ParentType := parentType.Name },
          RootValue := eCtx.Root, VariableValues := eCtx.VariableValues } s.world with ⟨o, w⟩
      cases o with
      | aborts msg => exact Accounted.followed (hcall w) (Exec.Accounts.raise true _ _)
      | returns result err =>
        cases err with
        | some e => exact Accounted.followed (hcall w) (Exec.Accounts.raise true _ _)
        | none =>
          simp only
          have h := hself fieldDef.Type_ (fieldAST :: rest)
            { FieldName := fieldAST.Name.getD "", FieldASTs := fieldAST :: rest,
              ReturnType := fieldDef.Type_, ParentType := parentType.Name } path result
            { s with world := w, trace := s.trace ++ [.resolved path.AsArray] }
          rcases hs : self fieldDef.Type_ (fieldAST :: rest)
            { FieldName := fieldAST.Name.getD "", FieldASTs := fieldAST :: rest,
              ReturnType := fieldDef.Type_, ParentType := parentType.Name } path result
            { s with world := w, trace := s.trace ++ [.resolved path.AsArray] } with ⟨o2, s2⟩
          rw [hs] at h
          cases o2 with
          | ok completed => exact Accounted.followed (hcall w) h
          | panic r => exact Accounted.followed (hcall w) h
          | outOfFuel => exact Accounted.followed (hcall w) h

theorem resolveField_accounts {self : Completer} (hself : ∀ t f i p r,
    Exec.Accounts true (self t f i p r)) (rt : Runtime) (eCtx : executionContext)
    (parentType : Object) (source : Value) (fieldASTs : List Field) (path : responsePath) :
    Exec.Accounts true (resolveField self rt eCtx parentType source fieldASTs path) := by
  intro s
  have hbody := resolveFieldBody_accounted hself rt eCtx parentType source fieldASTs path s
  unfold resolveField
  rcases hb : resolveFieldBody self rt eCtx parentType source fieldASTs path s with
    ⟨⟨o, vars⟩, s1⟩
  rw [hb] at hbody
  cases o with
  | ok u => exact hbody
  | outOfFuel => exact hbody.of_outOfFuel
  | panic r =>
    have h := Accounted.handled (α := Value × resolveFieldResultState) hbody
      (FieldASTsToNodeASTs fieldASTs) path vars.returnType (vars.result, vars.resultState)
    simp only
    rw [Exec.bind_apply] at h
    rcases hh : handleFieldError r (FieldASTsToNodeASTs fieldASTs) path vars.returnType s1 with
      ⟨o3, s3⟩
    rw [hh] at h
    cases o3 with
    | ok u => exact h
    | panic r' => exact h
    | outOfFuel => exact h

theorem executeFieldsLoop_accounts {self : Completer} (hself : ∀ t f i p r,
    Exec.Accounts true (self t f i p r)) (rt : Runtime) (eCtx : executionContext)
    (parentType : Object) (source : Value) (path : responsePath)
    (fields : List (String × List Field)) :
    ∀ finalResults, Exec.Accounts true
      (executeFieldsLoop self rt eCtx parentType source path fields finalResults) := by
  induction fields with
  | nil => intro acc; exact Exec.Accounts.pure true acc
  | cons entry rest ih =>
    intro acc
    obtain ⟨responseName, fieldASTs⟩ := entry
    unfold executeFieldsLoop
    refine Exec.Accounts.seq (resolveField_accounts hself rt eCtx parentType source fieldASTs _)
      ?_
    rintro ⟨resolved, state⟩
    simp only
    split
    · exact ih acc
    · exact ih _

theorem executeSubFields_accounts {self : Completer} (hself : ∀ t f i p r,
    Exec.Accounts true (self t f i p r)) (rt : Runtime) (eCtx : executionContext)
    (p : executeFieldsParams) :
    Exec.Accounts true (executeSubFields self rt eCtx p) := by
  unfold executeSubFields
  exact Exec.Accounts.seq (Exec.Accounts.nextRange true rt)
    (fun seed => executeFieldsLoop_accounts hself rt eCtx _ _ _ _ _)

theorem completeObjectValue_accounts (fuel : Nat) {self : Completer} (hself : ∀ t f i p r,
    Exec.Accounts true (self t f i p r)) (rt : Runtime) (eCtx : executionContext)
    (returnType : Object) (fieldASTs : List Field) (info : ResolveInfo) (path : responsePath)
    (result : Value) :
    Exec.Accounts true
      (completeObjectValue fuel self rt eCtx returnType fieldASTs info path result) := by
  unfold completeObjectValue
  simp only
  split
  · exact Exec.Accounts.raise true _
  · split
    · exact Exec.Accounts.outOfFuel true
    · exact Exec.Accounts.raise true _
    · exact Exec.Accounts.seq (executeSubFields_accounts hself rt eCtx _)
        (fun finalResults => Exec.Accounts.pure true _)

theorem completeAbstractValue_accounts (fuel : Nat) {self : Completer} (hself : ∀ t f i p r,
    Exec.Accounts true (self t f i p r)) (rt : Runtime) (eCtx : executionContext)
    (returnType : Ty) (abstractType : Abstract) (fieldASTs : List Field) (info : ResolveInfo)
    (path : responsePath) (result : Value) :
    Exec.Accounts true
      (completeAbstractValue fuel self rt eCtx returnType abstractType fieldASTs info path
        result) := by
  unfold completeAbstractValue
  simp only
  split
  · exact Exec.Accounts.raise true _
  · split
    · exact Exec.Accounts.raise true _
    · exact completeObjectValue_accounts fuel hself rt eCtx _ _ _ _ _

theorem completeListItems_accounts {self : Completer} (hself : ∀ t f i p r,
    Exec.Accounts true (self t f i p r)) (itemType : Ty) (fieldASTs : List Field)
    (info : ResolveInfo) (path : responsePath) (xs : List Value) :
    ∀ i completedResults, Exec.Accounts true
      (completeListItems self itemType fieldASTs info path i xs completedResults) := by
  induction xs with
  | nil => intro i acc; exact Exec.Accounts.pure true acc
  | cons x xs ih =>
    intro i acc
    unfold completeListItems
    exact Exec.Accounts.seq (hself _ _ _ _ _) (fun completedItem => ih _ _)

theorem completeListValue_accounts {self : Completer} (hself : ∀ t f i p r,
    Exec.Accounts true (self t f i p r)) (itemType : Ty) (fieldASTs : List Field)
    (info : ResolveInfo) (path : responsePath) (result : Value) :
    Exec.Accounts true (completeListValue self itemType fieldASTs info path result) := by
  unfold completeListValue
  split
  · exact Exec.Accounts.raise true _
  · exact Exec.Accounts.seq (completeListItems_accounts hself _ _ _ _ _ _ _)
      (fun completedResults => Exec.Accounts.pure true _)

theorem completeValue_accounts (fuel : Nat) {self : Completer} (hself : ∀ t f i p r,
    Exec.Accounts true (self t f i p r)) (rt : Runtime) (eCtx : executionContext)
    (returnType : Ty) (fieldASTs : List Field) (info : ResolveInfo) (path : responsePath)
    (result : Value) :
    Exec.Accounts true (completeValue fuel self rt eCtx returnType fieldASTs info path result) := by
  by_cases hf : isFunc result = true
  · intro s
    rw [completeValue_thunk _ _ _ _ _ _ _ _ _ _ hf]
    exact Accounted.unchanged true s _
  · have hf' : isFunc result = false := by simpa using hf
    induction returnType with
    | nonNull T ih =>
      rw [completeValue_nonNull _ _ _ _ _ _ _ _ _ hf']
      refine Exec.Accounts.seq ih ?_
      intro completed
      split
      · exact Exec.Accounts.raise true _
      · exact Exec.Accounts.pure true _
    | list T _ =>
      by_cases hn : isNullish result = true
      · simp only [completeValue, hf', hn, if_true, Bool.false_eq_true, if_false]
        exact Exec.Accounts.pure true _
      · simp only [completeValue, hf', hn, Bool.false_eq_true, if_false]
        exact completeListValue_accounts hself _ _ _ _ _
    | scalar name =>
      by_cases hn : isNullish result = true
      · simp only [completeValue, hf', hn, if_true, Bool.false_eq_true, if_false]
        exact Exec.Accounts.pure true _
      · simp only [completeValue, hf', hn, Bool.false_eq_true, if_false]
        exact Exec.Accounts.pure true _
    | enum name =>
      by_cases hn : isNullish result = true
      · simp only [completeValue, hf', hn, if_true, Bool.false_eq_true, if_false]
        exact Exec.Accounts.pure true _
      · simp only [completeValue, hf', hn, Bool.false_eq_true, if_false]
        exact Exec.Accounts.pure true _
    | object name =>
      by_cases hn : isNullish result = true
      · simp only [completeValue, hf', hn, if_true, Bool.false_eq_true, if_false]
        exact Exec.Accounts.pure true _
      · simp only [completeValue, hf', hn, Bool.false_eq_true, if_false]
        exact completeObjectValue_accounts fuel hself rt eCtx _ _ _ _ _
    | interface name =>
      by_cases hn : isNullish result = true
      · simp only [completeValue, hf', hn, if_true, Bool.false_eq_true, if_false]
        exact Exec.Accounts.pure true _
      · simp only [completeValue, hf', hn, Bool.false_eq_true, if_false]
        exact completeAbstractValue_accounts fuel hself rt eCtx _ _ _ _ _ _
    | union name =>
      by_cases hn : isNullish result = true
      · simp only [completeValue, hf', hn, if_true, Bool.false_eq_true, if_false]
        exact Exec.Accounts.pure true _
      · simp only [completeValue, hf', hn, Bool.false_eq_true, if_false]
        exact completeAbstractValue_accounts fuel hself rt eCtx _ _ _ _ _ _
    | inputObject name =>
      by_cases hn : isNullish result = true
      · simp only [completeValue, hf', hn, if_true, Bool.false_eq_true, if_false]
        exact Exec.Accounts.pure true _
      · simp only [completeValue, hf', hn, Bool.false_eq_true, if_false]
        exact Exec.Accounts.raise true _

theorem completeValueCatchingError_accounts (rt : Runtime) (eCtx : executionContext) :
    ∀ (fuel : Nat) (returnType : Ty) (fieldASTs : List Field) (info : ResolveInfo)
      (path : responsePath) (result : Value),
      Exec.Accounts true
        (completeValueCatchingError rt eCtx fuel returnType fieldASTs info path result) := by
  intro fuel
  induction fuel with
  | zero => intro _ _ _ _ _; exact Exec.Accounts.outOfFuel true
  | succ n ih =>
    intro returnType fieldASTs info path result
    rw [completeValueCatchingError_succ]
    exact Exec.Accounts.recoverWith
      (completeValue_accounts n ih rt eCtx returnType fieldASTs info path result) _ _ _ _

end Graphql

namespace Graphql

/-! ## Accounting: deferred completion and the dethunk scheduler -/

theorem Exec.Accounts.loudly {α : Type} {quiet : Bool} {m : Exec α}
    (h : Exec.Accounts quiet m) : Exec.Accounts false m :=
  fun s => (h s).loud

theorem completeThunkValueCatchingError_unfold (fuel : Nat) (rt : Runtime)
    (eCtx : executionContext) (returnType : Ty) (fieldASTs : List Field) (info : ResolveInfo)
    (path : responsePath) (result : Value) :
    completeThunkValueCatchingError fuel rt eCtx returnType fieldASTs info path result =
      recoverWith
        (match result with
          | .func body =>
            completeValue fuel (completeValueCatchingError rt eCtx fuel) rt eCtx returnType
              fieldASTs info path body
          | .panicFunc msg => raise ⟨msg, none⟩
          | .completion returnType' fieldASTs' info' path' result' => do
            let produced ← completeThunkValueCatchingError fuel rt eCtx returnType' fieldASTs'
              info' path' result'
            completeValue fuel (completeValueCatchingError rt eCtx fuel) rt eCtx returnType
              fieldASTs info path produced
          | _ =>
            raise ⟨"Error resolving func. Expected `func() interface\x7b\x7d` signature",
              none⟩)
        (fun r => do
          handleFieldError r (FieldASTsToNodeASTs fieldASTs) path (some returnType)
          pure .null) := by
  cases result <;> rfl

theorem completeThunkValueCatchingError_accounts (fuel : Nat) (rt : Runtime)
    (eCtx : executionContext) :
    ∀ (result : Value) (returnType : Ty) (fieldASTs : List Field) (info : ResolveInfo)
      (path : responsePath),
      Exec.Accounts true
        (completeThunkValueCatchingError fuel rt eCtx returnType fieldASTs info path result)
  | .func body, returnType, fieldASTs, info, path => by
    rw [completeThunkValueCatchingError_unfold]
    exact Exec.Accounts.recoverWith
      (completeValue_accounts fuel (completeValueCatchingError_accounts rt eCtx fuel) rt eCtx
        returnType fieldASTs info path body) _ _ _ _
  | .panicFunc msg, returnType, fieldASTs, info, path => by
    rw [completeThunkValueCatchingError_unfold]
    exact Exec.Accounts.recoverWith (Exec.Accounts.raise true _) _ _ _ _
  | .completion returnType' fieldASTs' info' path' result', returnType, fieldASTs, info,
      path => by
    rw [completeThunkValueCatchingError_unfold]
    exact Exec.Accounts.recoverWith
      (Exec.Accounts.seq
        (completeThunkValueCatchingError_accounts fuel rt eCtx result' returnType' fieldASTs'
          info' path')
        (fun produced => completeValue_accounts fuel
          (completeValueCatchingError_accounts rt eCtx fuel) rt eCtx returnType fieldASTs info
          path produced)) _ _ _ _
  | .null, returnType, fieldASTs, info, path => by
    rw [completeThunkValueCatchingError_unfold]
    exact Exec.Accounts.recoverWith (Exec.Accounts.raise true _) _ _ _ _
  | .nan, returnType, fieldASTs, info, path => by
    rw [completeThunkValueCatchingError_unfold]
    exact Exec.Accounts.recoverWith (Exec.Accounts.raise true _) _ _ _ _
  | .int _, returnType, fieldASTs, info, path => by
    rw [completeThunkValueCatchingError_unfold]
    exact Exec.Accounts.recoverWith (Exec.Accounts.raise true _) _ _ _ _
  | .str _, returnType, fieldASTs, info, path => by
    rw [completeThunkValueCatchingError_unfold]
    exact Exec.Accounts.recoverWith (Exec.Accounts.raise true _) _ _ _ _
  | .bool _, returnType, fieldASTs, info, path => by
    rw [completeThunkValueCatchingError_unfold]
    exact Exec.Accounts.recoverWith (Exec.Accounts.raise true _) _ _ _ _
  | .list _, returnType, fieldASTs, info, path => by
    rw [completeThunkValueCatchingError_unfold]
    exact Exec.Accounts.recoverWith (Exec.Accounts.raise true _) _ _ _ _
  | .map _, returnType, fieldASTs, info, path => by
    rw [completeThunkValueCatchingError_unfold]
    exact Exec.Accounts.recoverWith (Exec.Accounts.raise true _) _ _ _ _
  | .struct _ _, returnType, fieldASTs, info, path => by
    rw [completeThunkValueCatchingError_unfold]
    exact Exec.Accounts.recoverWith (Exec.Accounts.raise true _) _ _ _ _
  | .ptr _, returnType, fieldASTs, info, path => by
    rw [completeThunkValueCatchingError_unfold]
    exact Exec.Accounts.recoverWith (Exec.Accounts.raise true _) _ _ _ _
  | .nilPtr, returnType, fieldASTs, info, path => by
    rw [completeThunkValueCatchingError_unfold]
    exact Exec.Accounts.recoverWith (Exec.Accounts.raise true _) _ _ _ _
  | .otherFunc _, returnType, fieldASTs, info, path => by
    rw [completeThunkValueCatchingError_unfold]
    exact Exec.Accounts.recoverWith (Exec.Accounts.raise true _) _ _ _ _

theorem Exec.Accounts.record_invoked (position : List PathKey) :
    Exec.Accounts false (record (.invoked position)) :=
  fun s => ⟨[], [.invoked position], by simp [record], rfl, by simp, rfl⟩

theorem invokeThunk_accounts (fuel : Nat) (rt : Runtime) (eCtx : executionContext)
    (position : List PathKey) (f : Value) :
    Exec.Accounts false (invokeThunk fuel rt eCtx position f) := by
  unfold invokeThunk
  refine Exec.Accounts.seq (Exec.Accounts.record_invoked position) (fun _ => ?_)
  split
  · exact Exec.Accounts.pure false _
  · exact Exec.Accounts.raise false _
  · exact (completeThunkValueCatchingError_accounts fuel rt eCtx _ _ _ _ _).loudly
  · exact Exec.Accounts.pure false _

theorem dethunkMapCalls_accounts (fuel : Nat) (rt : Runtime) (eCtx : executionContext)
    (position : List PathKey) (entries : List (String × Value)) :
    ∀ m, Exec.Accounts false (dethunkMapCalls fuel rt eCtx position entries m) := by
  induction entries with
  | nil => intro m; exact Exec.Accounts.pure false m
  | cons entry rest ih =>
    intro m
    obtain ⟨k, v⟩ := entry
    unfold dethunkMapCalls
    split
    · exact Exec.Accounts.seq (invokeThunk_accounts fuel rt eCtx _ v) (fun produced => ih _)
    · exact ih m

theorem dethunkMap_accounts (fuel : Nat) (rt : Runtime) (eCtx : executionContext)
    (position : List PathKey) (d : DethunkState) :
    Exec.Accounts false (dethunkMap fuel rt eCtx position d) := by
  unfold dethunkMap
  split
  · exact Exec.Accounts.seq (Exec.Accounts.nextRange false rt) (fun seed =>
      Exec.Accounts.seq (dethunkMapCalls_accounts fuel rt eCtx position _ _) (fun m' =>
        Exec.Accounts.seq (Exec.Accounts.nextRange false rt) (fun seed' =>
          Exec.Accounts.pure false _)))
  · exact Exec.Accounts.pure false d

theorem dethunkListCalls_accounts (fuel : Nat) (rt : Runtime) (eCtx : executionContext)
    (position : List PathKey) (xs : List Value) :
    ∀ i, Exec.Accounts false (dethunkListCalls fuel rt eCtx position i xs) := by
  induction xs with
  | nil => intro i; exact Exec.Accounts.pure false _
  | cons v rest ih =>
    intro i
    unfold dethunkListCalls
    split
    · exact Exec.Accounts.seq (invokeThunk_accounts fuel rt eCtx _ v) (fun produced =>
        Exec.Accounts.seq (ih _) (fun rest' => Exec.Accounts.pure false _))
    · exact Exec.Accounts.seq (ih _) (fun rest' => Exec.Accounts.pure false _)

theorem dethunkList_accounts (fuel : Nat) (rt : Runtime) (eCtx : executionContext)
    (position : List PathKey) (d : DethunkState) :
    Exec.Accounts false (dethunkList fuel rt eCtx position d) := by
  unfold dethunkList
  split
  · exact Exec.Accounts.seq (dethunkListCalls_accounts fuel rt eCtx position _ _) (fun xs' =>
      Exec.Accounts.pure false _)
  · exact Exec.Accounts.pure false d

theorem runTask_accounts (fuel : Nat) (rt : Runtime) (eCtx : executionContext)
    (task : DethunkTask) (d : DethunkState) :
    Exec.Accounts false (runTask fuel rt eCtx task d) := by
  cases task with
  | map position => exact dethunkMap_accounts fuel rt eCtx position d
  | list position => exact dethunkList_accounts fuel rt eCtx position d

theorem dethunkLoop_accounts (fuel : Nat) (rt : Runtime) (eCtx : executionContext) :
    ∀ (steps : Nat) (d : DethunkState), Exec.Accounts false (dethunkLoop fuel rt eCtx steps d) := by
  intro steps
  induction steps with
  | zero =>
    intro d
    unfold dethunkLoop
    split
    · exact Exec.Accounts.pure false d
    · exact Exec.Accounts.outOfFuel false
  | succ n ih =>
    intro d
    unfold dethunkLoop
    split
    · exact Exec.Accounts.pure false d
    · exact Exec.Accounts.seq (runTask_accounts fuel rt eCtx _ _) (fun d' => ih d')

theorem dethunkWithBreadthFirstSearch_accounts (fuel : Nat) (rt : Runtime)
    (eCtx : executionContext) (finalResults : List (String × Value)) :
    Exec.Accounts false (dethunkWithBreadthFirstSearch fuel rt eCtx finalResults) := by
  unfold dethunkWithBreadthFirstSearch
  refine Exec.Accounts.seq (dethunkMap_accounts fuel rt eCtx [] _) (fun d =>
    Exec.Accounts.seq (dethunkLoop_accounts fuel rt eCtx fuel d) (fun d' => ?_))
  split
  · exact Exec.Accounts.pure false _
  · exact Exec.Accounts.pure false _

end Graphql

namespace Graphql

/-! ## Accounting: the driver -/

theorem resultOf_accounts (finalResults : List (String × Value)) :
    Exec.Accounts false (resultOf finalResults) :=
  fun s => Accounted.unchanged false s _

theorem executeFields_accounts (fuel : Nat) (rt : Runtime) (eCtx : executionContext)
    (p : executeFieldsParams) : Exec.Accounts false (executeFields fuel rt eCtx p) := by
  unfold executeFields
  exact Exec.Accounts.seq
    (executeSubFields_accounts (completeValueCatchingError_accounts rt eCtx fuel) rt eCtx
      p).loudly
    (fun finalResults => Exec.Accounts.seq
      (dethunkWithBreadthFirstSearch_accounts fuel rt eCtx finalResults)
      (fun finalResults' => resultOf_accounts finalResults'))

theorem executeFieldsSerially_accounts (fuel : Nat) (rt : Runtime) (eCtx : executionContext)
    (p : executeFieldsParams) : Exec.Accounts false (executeFieldsSerially fuel rt eCtx p) := by
  unfold executeFieldsSerially
  exact Exec.Accounts.seq (Exec.Accounts.nextRange false rt) (fun seed =>
    Exec.Accounts.seq
      (executeFieldsLoop_accounts (completeValueCatchingError_accounts rt eCtx fuel) rt eCtx
        _ _ _ _ _).loudly
      (fun finalResults => Exec.Accounts.seq
        (dethunkWithBreadthFirstSearch_accounts fuel rt eCtx finalResults)
        (fun finalResults' => resultOf_accounts finalResults')))

theorem ReadsErrors.after {α : Type} (m : Exec α) (f : α → Exec Result)
    (hf : ∀ a, ReadsErrors (f a)) : ReadsErrors (m >>= f) := by
  intro s r s' h
  rw [Exec.bind_apply] at h
  rcases hm : m s with ⟨o, s1⟩
  rw [hm] at h
  cases o with
  | ok a => exact hf a s1 r s' h
  | panic e => simp at h
  | outOfFuel => simp at h

theorem resultOf_readsErrors (finalResults : List (String × Value)) :
    ReadsErrors (resultOf finalResults) := by
  intro s r s' h
  simp only [resultOf, Prod.mk.injEq, Outcome.ok.injEq] at h
  rw [← h.1, ← h.2]

theorem executeFields_readsErrors (fuel : Nat) (rt : Runtime) (eCtx : executionContext)
    (p : executeFieldsParams) : ReadsErrors (executeFields fuel rt eCtx p) := by
  unfold executeFields
  exact ReadsErrors.after _ _ (fun a => ReadsErrors.after _ _ resultOf_readsErrors)

theorem executeFieldsSerially_readsErrors (fuel : Nat) (rt : Runtime)
    (eCtx : executionContext) (p : executeFieldsParams) :
    ReadsErrors (executeFieldsSerially fuel rt eCtx p) := by
  unfold executeFieldsSerially
  exact ReadsErrors.after _ _ (fun seed => ReadsErrors.after _ _
    (fun a => ReadsErrors.after _ _ resultOf_readsErrors))

theorem executeOperation_accounts (fuel : Nat) (rt : Runtime) (eCtx : executionContext)
    (root : Value) (operation : Option OperationDefinition) (operationType : Object)
    (hroot : getOperationRootType eCtx.Schema operation = .ok (.ok operationType)) :
    Exec.Accounts false (executeOperation fuel rt eCtx root operation) ∧
    ReadsErrors (executeOperation fuel rt eCtx root operation) := by
  unfold executeOperation
  simp only [hroot]
  split
  · exact ⟨Exec.Accounts.outOfFuel false, fun s r s' h => by simp [outOfFuel] at h⟩
  · exact ⟨Exec.Accounts.raise false _, fun s r s' h => by simp [raise] at h⟩
  · split
    · exact ⟨executeFieldsSerially_accounts fuel rt eCtx _,
        executeFieldsSerially_readsErrors fuel rt eCtx _⟩
    · exact ⟨executeFields_accounts fuel rt eCtx _, executeFields_readsErrors fuel rt eCtx _⟩

/-- C3 (code bug): in `{ a b }` with `a: Int` failing by the error "boom"
and then `b: Int!` resolving to nil, two failures originate, "boom" first,
but the errors list of the returned result holds one entry only, for the
failure of `b` that reached the root; the failure "boom" has no entry.  The
recover of `Execute` appends to the initial, empty result, where the normal
return hands back the errors list of the execution context. -/
theorem earlier_failure_has_no_entry :
    (traceOf (runQuery 3 twoFailures [("a", 3), ("b", 5)])).map raisedMessages =
      some ["boom", "Cannot return null for non-nullable field Query.b."] ∧
    errorsOf (runQuery 3 twoFailures [("a", 3), ("b", 5)]) =
      some [{ Message := "Cannot return null for non-nullable field Query.b.",
              Locations := [5], Path := [.key "b"] }] ∧
    dataOf (runQuery 3 twoFailures [("a", 3), ("b", 5)]) = some .null :=
  ⟨by decide!, by decide!, dataOf_eq_of_dataIs _ _ (by decide!)⟩

/-- The errors of an execution and the failures that originated in it: take
an execution whose context was built and whose root type was found, and the
failures that originated in it (resolver errors,
completion errors, non-null violations), in order.  When no abort reaches the
top-level driver, the errors list of the returned result is the errors list
of the execution context and holds exactly one entry for every failure,
with its message, in the order of the failures, however many non-null levels
a failure passed.  When an abort reaches the driver, the returned result has
no data and exactly one entry, for the failure that reached the root, which
is the last one; every earlier failure has its one entry in the errors list
of the execution context, which is not returned. -/
theorem errors_account_for_failures (fuel : Nat) (rt : Runtime) (p : ExecuteParams)
    (world : World) (eCtx : executionContext) (operationType : Object)
    (hctx : buildExecutionContext rt p = .ok eCtx)
    (hroot : getOperationRootType eCtx.Schema eCtx.Operation = .ok (.ok operationType)) :
    match Execute fuel rt p world with
    | none => True
    | some (result, s) =>
      (result.Errors = s.Errors ∧
        result.Errors.map (fun e => e.Message) = raisedMessages s.trace) ∨
      (∃ r : PanicValue, result.Data = .null ∧ result.Errors = [FormatError r] ∧
        (FormatError r).Message = r.message ∧
        raisedMessages s.trace = s.Errors.map (fun e => e.Message) ++ [r.message]) := by
  obtain ⟨hacc, hread⟩ := executeOperation_accounts fuel rt eCtx p.Root eCtx.Operation
    operationType hroot
  have h := hacc (initialState world)
  unfold Execute
  simp only [hctx]
  rcases hop : executeOperation fuel rt eCtx p.Root eCtx.Operation (initialState world) with
    ⟨o, s⟩
  rw [hop] at h
  obtain ⟨es, tr, he, ht, _, hm⟩ := h
  simp only [initialState, List.nil_append] at he ht
  cases o with
  | ok result =>
    simp only at hm ⊢
    have hr := hread _ _ _ hop
    exact Or.inl ⟨hr, by rw [hr, he, ht, hm]⟩
  | panic r =>
    simp only at hm
    exact Or.inr ⟨r, rfl, rfl, FormatError_message r, by rw [he, ht, hm]⟩
  | outOfFuel => trivial

/-- The errors of an execution, at a concrete input: the execution of
`{ a b }` above, in which the failure of `b` reaches the driver. -/
theorem errors_account_for_failures_witness :
    buildExecutionContext testRuntime (queryParams twoFailures [("a", 3), ("b", 5)]) =
      .ok { Schema := querySchema twoFailures, Fragments := [], Root := .null,
            Operation := some ⟨.query, none,
              some [.field (fieldNode "a" 3 none), .field (fieldNode "b" 5 none)]⟩,
            VariableValues := [] } ∧
    (match Execute 3 testRuntime (queryParams twoFailures [("a", 3), ("b", 5)]) .null with
      | none => True
      | some (result, s) =>
        (result.Errors = s.Errors ∧
          result.Errors.map (fun e => e.Message) = raisedMessages s.trace) ∨
        (∃ r : PanicValue, result.Data = .null ∧ result.Errors = [FormatError r] ∧
          (FormatError r).Message = r.message ∧
          raisedMessages s.trace = s.Errors.map (fun e => e.Message) ++ [r.message])) :=
  ⟨rfl, errors_account_for_failures 3 testRuntime (queryParams twoFailures [("a", 3), ("b", 5)])
    .null _ (queryType twoFailures) rfl rfl⟩

end Graphql

namespace Graphql

/-! ## The iteration of a map visits every key once -/

theorem mapEntries_keys_subset {α : Type} (xs : List (String × α)) :
    ∀ e ∈ mapEntries xs, e ∈ xs := by
  induction xs with
  | nil => intro e he; simp [mapEntries] at he
  | cons x rest ih =>
    obtain ⟨k, v⟩ := x
    intro e he
    simp only [mapEntries, List.mem_cons, List.mem_filter] at he
    rcases he with he | ⟨he, _⟩
    · exact he ▸ List.mem_cons_self _ _
    · exact List.mem_cons_of_mem _ (ih e he)

theorem mapEntries_keys_nodup {α : Type} (xs : List (String × α)) :
    ((mapEntries xs).map Prod.fst).Nodup := by
  induction xs with
  | nil => simp [mapEntries]
  | cons x rest ih =>
    obtain ⟨k, v⟩ := x
    simp only [mapEntries, List.map_cons, List.nodup_cons, List.mem_map, List.mem_filter,
      not_exists, not_and]
    constructor
    · rintro ⟨k', v'⟩ ⟨_, hne⟩ heq
      simp only at heq
      subst heq
      simp at hne
    · exact List.Nodup.sublist (List.Sublist.map _ (List.filter_sublist _)) ih

theorem key_not_mem_eraseIdx {α : Type} :
    ∀ (xs : List (String × α)) (i : Nat) (x : String × α), xs.get? i = some x →
      (xs.map Prod.fst).Nodup → x.1 ∉ (xs.eraseIdx i).map Prod.fst := by
  intro xs
  induction xs with
  | nil => intro i x hx; simp at hx
  | cons y rest ih =>
    intro i x hx hnd
    simp only [List.map_cons, List.nodup_cons] at hnd
    cases i with
    | zero =>
      simp only [List.get?_cons_zero, Option.some.injEq] at hx
      subst hx
      simpa using hnd.1
    | succ j =>
      simp only [List.get?_cons_succ] at hx
      simp only [List.eraseIdx_cons_succ, List.map_cons, List.mem_cons, not_or]
      refine ⟨?_, ih j x hx hnd.2⟩
      intro heq
      apply hnd.1
      rw [← heq]
      exact List.mem_map_of_mem _ (List.get?_mem hx)

theorem rangeOrder_keys {α : Type} :
    ∀ (n seed : Nat) (xs : List (String × α)), (xs.map Prod.fst).Nodup →
      ((rangeOrder n seed xs).map Prod.fst).Nodup ∧ ∀ e ∈ rangeOrder n seed xs, e ∈ xs := by
  intro n
  induction n with
  | zero => intro seed xs _; simp [rangeOrder]
  | succ n ih =>
    intro seed xs hnd
    unfold rangeOrder
    cases hx : xs.get? (seed % xs.length) with
    | none => simp
    | some x =>
      simp only
      have hsub : (xs.eraseIdx (seed % xs.length)).Sublist xs := List.eraseIdx_sublist _ _
      have hnd' : ((xs.eraseIdx (seed % xs.length)).map Prod.fst).Nodup :=
        List.Nodup.sublist (List.Sublist.map _ hsub) hnd
      obtain ⟨h1, h2⟩ := ih (seed / xs.length) (xs.eraseIdx (seed % xs.length)) hnd'
      refine ⟨?_, ?_⟩
      · simp only [List.map_cons, List.nodup_cons]
        refine ⟨?_, h1⟩
        intro hmem
        obtain ⟨e, he, heq⟩ := List.mem_map.1 hmem
        exact key_not_mem_eraseIdx xs _ x hx hnd
          (heq ▸ List.mem_map_of_mem _ (h2 e he))
      · intro e he
        rcases List.mem_cons.1 he with he | he
        · exact he ▸ List.get?_mem hx
        · exact hsub.subset (h2 e he)

theorem mapRange_keys_nodup {α : Type} (seed : Nat) (xs : List (String × α)) :
    ((mapRange seed xs).map Prod.fst).Nodup :=
  (rangeOrder_keys _ seed (mapEntries xs) (mapEntries_keys_nodup xs)).1

/-! ## Positions -/

theorem position_snoc_inj {p q : List PathKey} {a b : PathKey} (h : p ++ [a] = q ++ [b]) :
    p = q ∧ a = b := by
  have := List.append_inj' h rfl
  exact ⟨this.1, by simpa using this.2⟩

theorem IndexBefore.of_ne_parent {x y p q : List PathKey} {a b : PathKey}
    (hx : x = p ++ [a]) (hy : y = q ++ [b]) (hne : p ≠ q) : IndexBefore x y := by
  intro p' i j hxi hyj
  rw [hx] at hxi
  rw [hy] at hyj
  exact absurd ((position_snoc_inj hxi).1.trans (position_snoc_inj hyj).1.symm) hne

end Graphql

namespace Graphql

/-! ## One step of the breadth-first loop -/

theorem BfsInvariant.initial : BfsInvariant [] [[]] [] where
  depth := ⟨0, by simp, by simp⟩
  queueSorted := by simp
  depthOrdered := by simp
  indexOrdered := by simp
  parents := by simp
  distinct := by simp
  rooted := by simp

/-- Running the task at the head of the queue keeps the invariant: the
positions it invokes are children of its position `p`, in index order when
they are items of a list, and the tasks it pushes are distinct children of
`p`. -/
theorem BfsInvariant.run_head {done rest invoked : List (List PathKey)} {p : List PathKey}
    (h : BfsInvariant done (p :: rest) invoked) (E ts : List (List PathKey))
    (hE : ∀ x ∈ E, ∃ k, x = p ++ [k]) (hER : E.Pairwise IndexBefore)
    (hts : ∀ u ∈ ts, ∃ k, u = p ++ [k]) (htsN : ts.Nodup) :
    BfsInvariant (p :: done) (rest ++ ts) (invoked ++ E) := by
  obtain ⟨n, hLn, hQn⟩ := h.depth
  have hpn := hQn p (List.mem_cons_self _ _)
  have hsorted := List.pairwise_cons.1 h.queueSorted
  have hnd := h.distinct
  simp only [List.cons_append, List.nodup_cons, List.mem_append, not_or] at hnd
  have hp_done : p ∉ done := hnd.1.2
  have hElen : ∀ x ∈ E, x.length = p.length + 1 := by
    intro x hx
    obtain ⟨k, rfl⟩ := hE x hx
    simp
  have htslen : ∀ u ∈ ts, u.length = p.length + 1 := by
    intro u hu
    obtain ⟨k, rfl⟩ := hts u hu
    simp
  have hchild_new : ∀ u, (∃ k, u = p ++ [k]) → u ∉ rest ∧ u ∉ done ∧ u ≠ p := by
    rintro u ⟨k, rfl⟩
    have hfresh : ∀ q, q ∈ (p :: rest) ++ done → q ≠ p ++ [k] := by
      intro q hq heq
      rcases h.rooted q hq with hnil | ⟨p', k', hq', hp'⟩
      · rw [hnil] at heq
        simp at heq
      · rw [hq'] at heq
        exact hp_done ((position_snoc_inj heq).1 ▸ hp')
    refine ⟨fun hm => hfresh _ (by simp [hm]) rfl, fun hm => hfresh _ (by simp [hm]) rfl, ?_⟩
    intro heq
    have := congrArg List.length heq
    simp at this
  refine ⟨⟨p.length, ?_, ?_⟩, ?_, ?_, ?_, ?_, ?_, ?_⟩
  · intro x hx
    rcases List.mem_append.1 hx with hx | hx
    · exact (hLn x hx).trans (by omega)
    · rw [hElen x hx]
  · intro q hq
    rcases List.mem_append.1 hq with hq | hq
    · exact ⟨hsorted.1 q hq, (hQn q (List.mem_cons_of_mem _ hq)).2.trans (by omega)⟩
    · rw [htslen q hq]
      omega
  · rw [List.pairwise_append]
    refine ⟨hsorted.2, ?_, ?_⟩
    · exact List.pairwise_of_forall_mem_list (fun a ha b hb => by
        rw [htslen a ha, htslen b hb])
    · intro a ha b hb
      rw [htslen b hb]
      exact (hQn a (List.mem_cons_of_mem _ ha)).2.trans (by omega)
  · rw [List.pairwise_append]
    refine ⟨h.depthOrdered, ?_, ?_⟩
    · exact List.pairwise_of_forall_mem_list (fun a ha b hb => by
        rw [hElen a ha, hElen b hb])
    · intro a ha b hb
      rw [hElen b hb]
      exact (hLn a ha).trans (by omega)
  · rw [List.pairwise_append]
    refine ⟨h.indexOrdered, hER, ?_⟩
    intro a ha b hb
    obtain ⟨p', k', ha', hp'⟩ := h.parents a ha
    obtain ⟨k, hb'⟩ := hE b hb
    exact IndexBefore.of_ne_parent ha' hb' (fun heq => hp_done (heq ▸ hp'))
  · intro x hx
    rcases List.mem_append.1 hx with hx | hx
    · obtain ⟨p', k', hx', hp'⟩ := h.parents x hx
      exact ⟨p', k', hx', List.mem_cons_of_mem _ hp'⟩
    · obtain ⟨k, hx'⟩ := hE x hx
      exact ⟨p, k, hx', List.mem_cons_self _ _⟩
  · have hrest : (rest ++ done).Nodup := hnd.2
    rw [List.nodup_append] at hrest
    rw [List.append_assoc, List.nodup_append]
    refine ⟨hrest.1, ?_, ?_⟩
    · rw [List.nodup_append]
      refine ⟨htsN, List.nodup_cons.2 ⟨hp_done, hrest.2.1⟩, ?_⟩
      intro u hu hu'
      have := hchild_new u (hts u hu)
      rcases List.mem_cons.1 hu' with hu' | hu'
      · exact this.2.2 hu'
      · exact this.2.1 hu'
    · intro q hq hq'
      rcases List.mem_append.1 hq' with hq' | hq'
      · exact (hchild_new q (hts q hq')).1 hq
      · rcases List.mem_cons.1 hq' with hq' | hq'
        · exact hnd.1.1 (hq' ▸ hq)
        · exact hrest.2.2 hq hq'
  · intro q hq
    simp only [List.append_assoc, List.mem_append, List.mem_cons] at hq
    have hold : ∀ q, q ∈ (p :: rest) ++ done → q = [] ∨ ∃ p' k, q = p' ++ [k] ∧ p' ∈ p :: done := by
      intro q hq
      rcases h.rooted q hq with hnil | ⟨p', k', hq', hp'⟩
      · exact Or.inl hnil
      · exact Or.inr ⟨p', k', hq', List.mem_cons_of_mem _ hp'⟩
    rcases hq with hq | hq | hq | hq
    · exact hold q (by simp [hq])
    · obtain ⟨k, hq'⟩ := hts q hq
      exact Or.inr ⟨p, k, hq', List.mem_cons_self _ _⟩
    · exact hold q (by simp [hq])
    · exact hold q (by simp [hq])

end Graphql

namespace Graphql

/-! ## What one task invokes and pushes -/

theorem Invokes.none_invoked {P : List (List PathKey) → Prop} (s : ExecState) (hP : P []) :
    Invokes P s s :=
  ⟨[], by simp, hP⟩

theorem Invokes.trans {P Q R : List (List PathKey) → Prop} {s s1 s2 : ExecState}
    (h1 : Invokes P s s1) (h2 : Invokes Q s1 s2) (hR : ∀ a b, P a → Q b → R (a ++ b)) :
    Invokes R s s2 := by
  obtain ⟨tr1, ht1, hp⟩ := h1
  obtain ⟨tr2, ht2, hq⟩ := h2
  exact ⟨tr1 ++ tr2, by rw [ht2, ht1, List.append_assoc],
    by rw [invokedPositions_append]; exact hR _ _ hp hq⟩

theorem Invokes.imp {P Q : List (List PathKey) → Prop} {s s' : ExecState}
    (h : Invokes P s s') (hPQ : ∀ a, P a → Q a) : Invokes Q s s' := by
  obtain ⟨tr, ht, hp⟩ := h
  exact ⟨tr, ht, hPQ _ hp⟩

theorem Accounted.invokes {α : Type} {s s' : ExecState} {out : Outcome α}
    (h : Accounted true s out s') : Invokes (fun L => L = []) s s' := by
  obtain ⟨_, tr, _, ht, hq, _⟩ := h
  exact ⟨tr, ht, hq rfl⟩

theorem Exec.bind_invokes {α β : Type} {m : Exec α} {f : α → Exec β} {s : ExecState}
    {P Q R : List (List PathKey) → Prop} (hm : Invokes P s (m s).2)
    (hf : ∀ a s1, m s = (.ok a, s1) → Invokes Q s1 (f a s1).2)
    (hR : ∀ a b, P a → Q b → R (a ++ b)) (hP : ∀ a, P a → R a) :
    Invokes R s ((m >>= f) s).2 := by
  rw [Exec.bind_apply]
  rcases hms : m s with ⟨o, s1⟩
  rw [hms] at hm
  cases o with
  | ok a => exact hm.trans (hf a s1 hms) hR
  | panic r => exact hm.imp hP
  | outOfFuel => exact hm.imp hP

theorem invokeThunk_invokes (fuel : Nat) (rt : Runtime) (eCtx : executionContext)
    (position : List PathKey) (f : Value) (s : ExecState) :
    Invokes (fun L => L = [position]) s (invokeThunk fuel rt eCtx position f s).2 := by
  have hrec : Invokes (fun L => L = [position]) s
      { s with trace := s.trace ++ [.invoked position] } := ⟨[.invoked position], rfl, rfl⟩
  have hrest : ∀ (m : Exec Value), Exec.Accounts true m →
      Invokes (fun L => L = [position]) s
        (m { s with trace := s.trace ++ [.invoked position] }).2 :=
    fun m hm => hrec.trans (hm _).invokes (fun a b ha hb => by rw [ha, hb]; rfl)
  cases f with
  | func body => exact hrest _ (Exec.Accounts.pure true body)
  | panicFunc msg => exact hrest _ (Exec.Accounts.raise true _)
  | completion returnType fieldASTs info path result =>
    exact hrest _ (completeThunkValueCatchingError_accounts fuel rt eCtx result returnType
      fieldASTs info path)
  | null => exact hrest _ (Exec.Accounts.pure true _)
  | nan => exact hrest _ (Exec.Accounts.pure true _)
  | int n => exact hrest _ (Exec.Accounts.pure true _)
  | str v => exact hrest _ (Exec.Accounts.pure true _)
  | bool b => exact hrest _ (Exec.Accounts.pure true _)
  | list xs => exact hrest _ (Exec.Accounts.pure true _)
  | map kvs => exact hrest _ (Exec.Accounts.pure true _)
  | struct n ms => exact hrest _ (Exec.Accounts.pure true _)
  | ptr t => exact hrest _ (Exec.Accounts.pure true _)
  | nilPtr => exact hrest _ (Exec.Accounts.pure true _)
  | otherFunc g => exact hrest _ (Exec.Accounts.pure true _)

theorem dethunkMapCalls_invokes (fuel : Nat) (rt : Runtime) (eCtx : executionContext)
    (position : List PathKey) (entries : List (String × Value)) :
    ∀ (m : List (String × Value)) (s : ExecState),
      Invokes (fun L => ∀ x ∈ L, ∃ k, x = position ++ [PathKey.key k]) s
        (dethunkMapCalls fuel rt eCtx position entries m s).2 := by
  induction entries with
  | nil => intro m s; exact Invokes.none_invoked s (by simp)
  | cons entry rest ih =>
    intro m s
    obtain ⟨k, v⟩ := entry
    unfold dethunkMapCalls
    split
    · refine Exec.bind_invokes (invokeThunk_invokes fuel rt eCtx _ v s)
        (fun produced s1 _ => ih _ s1) ?_ ?_
      · intro a b ha hb x hx
        rw [ha] at hx
        rcases List.mem_append.1 hx with hx | hx
        · exact ⟨k, by simpa using hx⟩
        · exact hb x hx
      · intro a ha x hx
        rw [ha] at hx
        exact ⟨k, by simpa using hx⟩
    · exact ih m s

theorem dethunkListCalls_invokes (fuel : Nat) (rt : Runtime) (eCtx : executionContext)
    (position : List PathKey) (xs : List Value) :
    ∀ (i : Nat) (s : ExecState),
      Invokes (fun L => ∃ js : List Nat, L = js.map (fun j => position ++ [PathKey.index j]) ∧
          js.Pairwise (fun a b => a < b) ∧ ∀ j ∈ js, i ≤ j) s
        (dethunkListCalls fuel rt eCtx position i xs s).2 := by
  induction xs with
  | nil => intro i s; exact Invokes.none_invoked s ⟨[], rfl, by simp, by simp⟩
  | cons v rest ih =>
    intro i s
    unfold dethunkListCalls
    have htail : ∀ s1, Invokes (fun L => ∃ js : List Nat,
        L = js.map (fun j => position ++ [PathKey.index j]) ∧
        js.Pairwise (fun a b => a < b) ∧ ∀ j ∈ js, i + 1 ≤ j) s1
        ((dethunkListCalls fuel rt eCtx position (i + 1) rest >>= fun rest' =>
          (Pure.pure (v :: rest') : Exec (List Value))) s1).2 := by
      intro s1
      refine Exec.bind_invokes (ih (i + 1) s1)
        (fun rest' s2 _ => Invokes.none_invoked (P := fun L => L = []) s2 rfl) ?_ ?_
      · intro a b ha hb
        rw [hb, List.append_nil]
        exact ha
      · intro a ha
        exact ha
    split
    · refine Exec.bind_invokes (invokeThunk_invokes fuel rt eCtx _ v s) (fun produced s1 _ => ?_)
        (Q := fun L => ∃ js : List Nat, L = js.map (fun j => position ++ [PathKey.index j]) ∧
          js.Pairwise (fun a b => a < b) ∧ ∀ j ∈ js, i + 1 ≤ j) ?_ ?_
      · refine Exec.bind_invokes (ih (i + 1) s1)
          (fun rest' s2 _ => Invokes.none_invoked (P := fun L => L = []) s2 rfl) ?_ ?_
        · intro a b ha hb
          rw [hb, List.append_nil]
          exact ha
        · intro a ha
          exact ha
      · rintro a b ha ⟨js, hb, hjs, hge⟩
        refine ⟨i :: js, by rw [ha, hb]; rfl, ?_, ?_⟩
        · exact List.pairwise_cons.2 ⟨fun j hj => hge j hj, hjs⟩
        · intro j hj
          rcases List.mem_cons.1 hj with hj | hj
          · omega
          · exact (hge j hj).trans' (by omega)
      · intro a ha
        exact ⟨[i], by rw [ha]; rfl, by simp, by simp⟩
    · obtain ⟨tr, ht, js, hjs, hp, hge⟩ := htail s
      exact ⟨tr, ht, js, hjs, hp, fun j hj => (hge j hj).trans' (by omega)⟩

theorem pairwise_indexBefore_of_keys (p : List PathKey) (L : List (List PathKey))
    (h : ∀ x ∈ L, ∃ k, x = p ++ [PathKey.key k]) : L.Pairwise IndexBefore := by
  refine List.pairwise_of_forall_mem_list (fun x hx y _ => ?_)
  obtain ⟨k, rfl⟩ := h x hx
  intro p' a b hxa _
  have := (position_snoc_inj hxa).2
  cases this

theorem pairwise_indexBefore_of_indices (p : List PathKey) (js : List Nat)
    (h : js.Pairwise (fun a b => a < b)) :
    (js.map (fun j => p ++ [PathKey.index j])).Pairwise IndexBefore := by
  rw [List.pairwise_map]
  refine h.imp ?_
  intro a b hab p' a' b' ha hb
  have h1 := (position_snoc_inj ha).2
  have h2 := (position_snoc_inj hb).2
  simp only [PathKey.index.injEq] at h1 h2
  omega

theorem dethunkMapPushes_positions (p : List PathKey) (entries : List (String × Value)) :
    (∀ u ∈ (dethunkMapPushes p entries).map DethunkTask.position,
        ∃ k ∈ entries.map Prod.fst, u = p ++ [PathKey.key k]) ∧
    ((entries.map Prod.fst).Nodup →
      ((dethunkMapPushes p entries).map DethunkTask.position).Nodup) := by
  induction entries with
  | nil => simp [dethunkMapPushes]
  | cons entry rest ih =>
    obtain ⟨k, v⟩ := entry
    have hmem : ∀ u ∈ (dethunkMapPushes p rest).map DethunkTask.position,
        ∃ k' ∈ ((k, v) :: rest).map Prod.fst, u = p ++ [PathKey.key k'] := by
      intro u hu
      obtain ⟨k', hk', hu'⟩ := ih.1 u hu
      exact ⟨k', List.mem_cons_of_mem _ hk', hu'⟩
    have hpush : ∀ t : DethunkTask, t.position = p ++ [PathKey.key k] →
        (∀ u ∈ (t :: dethunkMapPushes p rest).map DethunkTask.position,
          ∃ k' ∈ ((k, v) :: rest).map Prod.fst, u = p ++ [PathKey.key k']) ∧
        ((((k, v) :: rest).map Prod.fst).Nodup →
          ((t :: dethunkMapPushes p rest).map DethunkTask.position).Nodup) := by
      intro t ht
      refine ⟨?_, ?_⟩
      · intro u hu
        rcases List.mem_cons.1 hu with hu | hu
        · exact ⟨k, List.mem_cons_self _ _, hu.trans ht⟩
        · exact hmem u hu
      · intro hnd
        simp only [List.map_cons, List.nodup_cons] at hnd ⊢
        refine ⟨?_, ih.2 hnd.2⟩
        intro hu
        obtain ⟨k', hk', hu'⟩ := ih.1 _ hu
        rw [ht] at hu'
        have := (position_snoc_inj hu').2
        simp only [PathKey.key.injEq] at this
        exact hnd.1 (this ▸ hk')
    have hnone : (∀ u ∈ (dethunkMapPushes p rest).map DethunkTask.position,
          ∃ k' ∈ ((k, v) :: rest).map Prod.fst, u = p ++ [PathKey.key k']) ∧
        ((((k, v) :: rest).map Prod.fst).Nodup →
          ((dethunkMapPushes p rest).map DethunkTask.position).Nodup) :=
      ⟨hmem, fun hnd => ih.2 (List.nodup_cons.1 hnd).2⟩
    cases v with
    | map kvs => exact hpush _ rfl
    | list xs => exact hpush _ rfl
    | null => exact hnone
    | nan => exact hnone
    | int n => exact hnone
    | str v => exact hnone
    | bool b => exact hnone
    | struct n ms => exact hnone
    | ptr t => exact hnone
    | nilPtr => exact hnone
    | func b => exact hnone
    | panicFunc m => exact hnone
    | otherFunc g => exact hnone
    | completion a b c d e => exact hnone

theorem dethunkListPushes_positions (p : List PathKey) (xs : List Value) :
    ∀ i, (∀ u ∈ (dethunkListPushes p i xs).map DethunkTask.position,
        ∃ j, i ≤ j ∧ u = p ++ [PathKey.index j]) ∧
      ((dethunkListPushes p i xs).map DethunkTask.position).Nodup := by
  induction xs with
  | nil => intro i; simp [dethunkListPushes]
  | cons v rest ih =>
    intro i
    have hmem : ∀ u ∈ (dethunkListPushes p (i + 1) rest).map DethunkTask.position,
        ∃ j, i ≤ j ∧ u = p ++ [PathKey.index j] := by
      intro u hu
      obtain ⟨j, hj, hu'⟩ := (ih (i + 1)).1 u hu
      exact ⟨j, by omega, hu'⟩
    have hpush : ∀ t : DethunkTask, t.position = p ++ [PathKey.index i] →
        (∀ u ∈ (t :: dethunkListPushes p (i + 1) rest).map DethunkTask.position,
          ∃ j, i ≤ j ∧ u = p ++ [PathKey.index j]) ∧
        ((t :: dethunkListPushes p (i + 1) rest).map DethunkTask.position).Nodup := by
      intro t ht
      refine ⟨?_, ?_⟩
      · intro u hu
        rcases List.mem_cons.1 hu with hu | hu
        · exact ⟨i, le_refl _, hu.trans ht⟩
        · exact hmem u hu
      · simp only [List.map_cons, List.nodup_cons]
        refine ⟨?_, (ih (i + 1)).2⟩
        intro hu
        obtain ⟨j, hj, hu'⟩ := (ih (i + 1)).1 _ hu
        rw [ht] at hu'
        have := (position_snoc_inj hu').2
        simp only [PathKey.index.injEq] at this
        omega
    cases v with
    | map kvs => exact hpush _ rfl
    | list ys => exact hpush _ rfl
    | null => exact ⟨hmem, (ih (i + 1)).2⟩
    | nan => exact ⟨hmem, (ih (i + 1)).2⟩
    | int n => exact ⟨hmem, (ih (i + 1)).2⟩
    | str v => exact ⟨hmem, (ih (i + 1)).2⟩
    | bool b => exact ⟨hmem, (ih (i + 1)).2⟩
    | struct n ms => exact ⟨hmem, (ih (i + 1)).2⟩
    | ptr t => exact ⟨hmem, (ih (i + 1)).2⟩
    | nilPtr => exact ⟨hmem, (ih (i + 1)).2⟩
    | func b => exact ⟨hmem, (ih (i + 1)).2⟩
    | panicFunc m => exact ⟨hmem, (ih (i + 1)).2⟩
    | otherFunc g => exact ⟨hmem, (ih (i + 1)).2⟩
    | completion a b c d e => exact ⟨hmem, (ih (i + 1)).2⟩

end Graphql

namespace Graphql

/-! ## The breadth-first order -/

theorem Exec.pure_eq_ok {α : Type} {a b : α} {s s' : ExecState}
    (h : (Pure.pure a : Exec α) s = (.ok b, s')) : a = b ∧ s = s' := by
  have h1 : ((Outcome.ok a, s) : Outcome α × ExecState) = (.ok b, s') := h
  simpa using h1

theorem dethunkMap_of_map (fuel : Nat) (rt : Runtime) (eCtx : executionContext)
    (position : List PathKey) (d : DethunkState) (m : List (String × Value))
    (h : d.root.getAt position = some (.map m)) :
    dethunkMap fuel rt eCtx position d = (do
      let seed ← nextRange rt
      let m' ← dethunkMapCalls fuel rt eCtx position (mapRange seed m) m
      let seed' ← nextRange rt
      pure { root := d.root.setAt position (.map m'),
             DethunkFuncs := d.DethunkFuncs ++ dethunkMapPushes position (mapRange seed' m') }) := by
  unfold dethunkMap
  rw [h]

theorem dethunkMap_of_other (fuel : Nat) (rt : Runtime) (eCtx : executionContext)
    (position : List PathKey) (d : DethunkState)
    (h : ∀ m, d.root.getAt position ≠ some (.map m)) :
    dethunkMap fuel rt eCtx position d = pure d := by
  unfold dethunkMap
  split
  · rename_i m hm
    exact absurd hm (h m)
  · rfl

theorem dethunkList_of_list (fuel : Nat) (rt : Runtime) (eCtx : executionContext)
    (position : List PathKey) (d : DethunkState) (xs : List Value)
    (h : d.root.getAt position = some (.list xs)) :
    dethunkList fuel rt eCtx position d = (do
      let xs' ← dethunkListCalls fuel rt eCtx position 0 xs
      pure { root := d.root.setAt position (.list xs'),
             DethunkFuncs := d.DethunkFuncs ++ dethunkListPushes position 0 xs' }) := by
  unfold dethunkList
  rw [h]

theorem dethunkList_of_other (fuel : Nat) (rt : Runtime) (eCtx : executionContext)
    (position : List PathKey) (d : DethunkState)
    (h : ∀ xs, d.root.getAt position ≠ some (.list xs)) :
    dethunkList fuel rt eCtx position d = pure d := by
  unfold dethunkList
  split
  · rename_i xs hxs
    exact absurd hxs (h xs)
  · rfl

theorem dethunkLoop_nil (fuel : Nat) (rt : Runtime) (eCtx : executionContext) (steps : Nat)
    (d : DethunkState) (h : d.DethunkFuncs = []) :
    dethunkLoop fuel rt eCtx steps d = pure d := by
  cases steps <;> (unfold dethunkLoop; rw [h])

theorem dethunkLoop_zero (fuel : Nat) (rt : Runtime) (eCtx : executionContext)
    (d : DethunkState) (f : DethunkTask) (rest : List DethunkTask)
    (h : d.DethunkFuncs = f :: rest) :
    dethunkLoop fuel rt eCtx 0 d = outOfFuel := by
  unfold dethunkLoop
  rw [h]

theorem dethunkLoop_succ (fuel : Nat) (rt : Runtime) (eCtx : executionContext) (steps : Nat)
    (d : DethunkState) (f : DethunkTask) (rest : List DethunkTask)
    (h : d.DethunkFuncs = f :: rest) :
    dethunkLoop fuel rt eCtx (steps + 1) d =
      (runTask fuel rt eCtx f { d with DethunkFuncs := rest } >>= fun d' =>
        dethunkLoop fuel rt eCtx steps d') := by
  rw [dethunkLoop]
  rw [h]

theorem runTask_invokes (fuel : Nat) (rt : Runtime) (eCtx : executionContext)
    (task : DethunkTask) (d : DethunkState) (s : ExecState) :
    Invokes (fun L => (∀ x ∈ L, ∃ k, x = task.position ++ [k]) ∧ L.Pairwise IndexBefore) s
      (runTask fuel rt eCtx task d s).2 := by
  cases task with
  | map position =>
    simp only [runTask, DethunkTask.position]
    by_cases hm : ∃ m, d.root.getAt position = some (.map m)
    · obtain ⟨m, hm⟩ := hm
      rw [dethunkMap_of_map _ _ _ _ _ _ hm]
      simp only [Exec.bind_apply, nextRange]
      have hc := dethunkMapCalls_invokes fuel rt eCtx position
        (mapRange (rt.rangeSeed s.ranges) m) m { s with ranges := s.ranges + 1 }
      rcases hcall : dethunkMapCalls fuel rt eCtx position
        (mapRange (rt.rangeSeed s.ranges) m) m { s with ranges := s.ranges + 1 } with ⟨o, s1⟩
      rw [hcall] at hc
      obtain ⟨tr, ht, hp⟩ := hc
      have hgoal : ∀ s2 : ExecState, s2.trace = s1.trace →
          Invokes (fun L => (∀ x ∈ L, ∃ k, x = position ++ [k]) ∧ L.Pairwise IndexBefore) s s2 :=
        fun s2 h2 => ⟨tr, by rw [h2, ht], fun x hx => (hp x hx).elim (fun k hk => ⟨.key k, hk⟩),
          pairwise_indexBefore_of_keys position _ hp⟩
      cases o with
      | ok m' => exact hgoal _ rfl
      | panic r => exact hgoal _ rfl
      | outOfFuel => exact hgoal _ rfl
    · rw [dethunkMap_of_other _ _ _ _ _ (fun m h => hm ⟨m, h⟩)]
      exact Invokes.none_invoked s ⟨by simp, by simp⟩
  | list position =>
    simp only [runTask, DethunkTask.position]
    by_cases hl : ∃ xs, d.root.getAt position = some (.list xs)
    · obtain ⟨xs, hl⟩ := hl
      rw [dethunkList_of_list _ _ _ _ _ _ hl]
      simp only [Exec.bind_apply]
      have hc := dethunkListCalls_invokes fuel rt eCtx position xs 0 s
      rcases hcall : dethunkListCalls fuel rt eCtx position 0 xs s with ⟨o, s1⟩
      rw [hcall] at hc
      obtain ⟨tr, ht, js, hjs, hlt, _⟩ := hc
      have hgoal : ∀ s2 : ExecState, s2.trace = s1.trace →
          Invokes (fun L => (∀ x ∈ L, ∃ k, x = position ++ [k]) ∧ L.Pairwise IndexBefore) s
            s2 := by
        intro s2 h2
        refine ⟨tr, by rw [h2, ht], ?_, ?_⟩
        · intro x hx
          rw [hjs] at hx
          obtain ⟨j, _, hj⟩ := List.mem_map.1 hx
          exact ⟨.index j, hj.symm⟩
        · rw [hjs]
          exact pairwise_indexBefore_of_indices position js hlt
      cases o with
      | ok xs' => exact hgoal _ rfl
      | panic r => exact hgoal _ rfl
      | outOfFuel => exact hgoal _ rfl
    · rw [dethunkList_of_other _ _ _ _ _ (fun xs h => hl ⟨xs, h⟩)]
      exact Invokes.none_invoked s ⟨by simp, by simp⟩

theorem runTask_pushes (fuel : Nat) (rt : Runtime) (eCtx : executionContext)
    (task : DethunkTask) (d d' : DethunkState) (s s' : ExecState)
    (h : runTask fuel rt eCtx task d s = (.ok d', s')) :
    ∃ ts : List DethunkTask, d'.DethunkFuncs = d.DethunkFuncs ++ ts ∧
      (∀ u ∈ ts.map DethunkTask.position, ∃ k, u = task.position ++ [k]) ∧
      (ts.map DethunkTask.position).Nodup := by
  have hnone : ∀ s0 : ExecState, (Pure.pure d : Exec DethunkState) s0 = (.ok d', s') →
      ∃ ts : List DethunkTask, d'.DethunkFuncs = d.DethunkFuncs ++ ts ∧
        (∀ u ∈ ts.map DethunkTask.position, ∃ k, u = task.position ++ [k]) ∧
        (ts.map DethunkTask.position).Nodup := by
    intro s0 h0
    have h1 := Exec.pure_eq_ok h0
    exact ⟨[], by rw [← h1.1]; simp, by simp, by simp⟩
  cases task with
  | map position =>
    simp only [runTask] at h
    by_cases hm : ∃ m, d.root.getAt position = some (.map m)
    · obtain ⟨m, hm⟩ := hm
      rw [dethunkMap_of_map _ _ _ _ _ _ hm] at h
      simp only [Exec.bind_apply, nextRange] at h
      rcases hcall : dethunkMapCalls fuel rt eCtx position
        (mapRange (rt.rangeSeed s.ranges) m) m { s with ranges := s.ranges + 1 } with ⟨o, s1⟩
      rw [hcall] at h
      cases o with
      | ok m' =>
        replace h := Exec.pure_eq_ok h
        have hpos := dethunkMapPushes_positions position (mapRange (rt.rangeSeed s1.ranges) m')
        refine ⟨dethunkMapPushes position (mapRange (rt.rangeSeed s1.ranges) m'),
          by rw [← h.1], ?_, hpos.2 (mapRange_keys_nodup _ _)⟩
        intro u hu
        obtain ⟨k, _, hk⟩ := hpos.1 u hu
        exact ⟨.key k, hk⟩
      | panic r => simp at h
      | outOfFuel => simp at h
    · rw [dethunkMap_of_other _ _ _ _ _ (fun m h => hm ⟨m, h⟩)] at h
      exact hnone s h
  | list position =>
    simp only [runTask] at h
    by_cases hl : ∃ xs, d.root.getAt position = some (.list xs)
    · obtain ⟨xs, hl⟩ := hl
      rw [dethunkList_of_list _ _ _ _ _ _ hl] at h
      simp only [Exec.bind_apply] at h
      rcases hcall : dethunkListCalls fuel rt eCtx position 0 xs s with ⟨o, s1⟩
      rw [hcall] at h
      cases o with
      | ok xs' =>
        replace h := Exec.pure_eq_ok h
        have hpos := dethunkListPushes_positions position xs' 0
        refine ⟨dethunkListPushes position 0 xs', by rw [← h.1], ?_, hpos.2⟩
        intro u hu
        obtain ⟨j, _, hj⟩ := hpos.1 u hu
        exact ⟨.index j, hj⟩
      | panic r => simp at h
      | outOfFuel => simp at h
    · rw [dethunkList_of_other _ _ _ _ _ (fun xs h => hl ⟨xs, h⟩)] at h
      exact hnone s h

/-- Running the task at the head of the queue, from a state in which the
invariant holds: the invariant holds after it, when it returns; and whether
it returns or not, the positions invoked so far are in the two orders. -/
theorem runTask_keeps (fuel : Nat) (rt : Runtime) (eCtx : executionContext)
    (task : DethunkTask) (rest : List DethunkTask) (d : DethunkState) (s : ExecState)
    (t0 tr0 : List Event) (done : List (List PathKey)) (hs : s.trace = t0 ++ tr0)
    (hinv : BfsInvariant done ((task :: rest).map DethunkTask.position)
      (invokedPositions tr0)) :
    ∃ tr1, (runTask fuel rt eCtx task { d with DethunkFuncs := rest } s).2.trace = t0 ++ tr1 ∧
      (invokedPositions tr1).Pairwise (fun a b => a.length ≤ b.length) ∧
      (invokedPositions tr1).Pairwise IndexBefore ∧
      ∀ d' s', runTask fuel rt eCtx task { d with DethunkFuncs := rest } s = (.ok d', s') →
        BfsInvariant (task.position :: done) (d'.DethunkFuncs.map DethunkTask.position)
          (invokedPositions tr1) := by
  obtain ⟨tr, ht, hE, hER⟩ := runTask_invokes fuel rt eCtx task { d with DethunkFuncs := rest } s
  simp only [List.map_cons] at hinv
  refine ⟨tr0 ++ tr, by rw [ht, hs, List.append_assoc], ?_, ?_, ?_⟩
  · rw [invokedPositions_append]
    exact (hinv.run_head _ [] hE hER (by simp) (by simp)).depthOrdered
  · rw [invokedPositions_append]
    exact (hinv.run_head _ [] hE hER (by simp) (by simp)).indexOrdered
  · intro d' s' hrun
    obtain ⟨ts, hq, hts, htsN⟩ := runTask_pushes fuel rt eCtx task _ d' s s' hrun
    rw [invokedPositions_append, hq, List.map_append]
    exact hinv.run_head _ _ hE hER hts htsN

theorem dethunkLoop_ordered (fuel : Nat) (rt : Runtime) (eCtx : executionContext) :
    ∀ (steps : Nat) (d : DethunkState) (s : ExecState) (t0 tr0 : List Event)
      (done : List (List PathKey)), s.trace = t0 ++ tr0 →
      BfsInvariant done (d.DethunkFuncs.map DethunkTask.position) (invokedPositions tr0) →
      ∃ tr1, (dethunkLoop fuel rt eCtx steps d s).2.trace = t0 ++ tr1 ∧
        (invokedPositions tr1).Pairwise (fun a b => a.length ≤ b.length) ∧
        (invokedPositions tr1).Pairwise IndexBefore := by
  intro steps
  induction steps with
  | zero =>
    intro d s t0 tr0 done hs hinv
    cases hq : d.DethunkFuncs with
    | nil =>
      rw [dethunkLoop_nil _ _ _ _ _ hq]
      exact ⟨tr0, hs, hinv.depthOrdered, hinv.indexOrdered⟩
    | cons f rest =>
      rw [dethunkLoop_zero _ _ _ _ _ _ hq]
      exact ⟨tr0, hs, hinv.depthOrdered, hinv.indexOrdered⟩
  | succ n ih =>
    intro d s t0 tr0 done hs hinv
    cases hq : d.DethunkFuncs with
    | nil =>
      rw [dethunkLoop_nil _ _ _ _ _ hq]
      exact ⟨tr0, hs, hinv.depthOrdered, hinv.indexOrdered⟩
    | cons f rest =>
      rw [dethunkLoop_succ _ _ _ _ _ _ _ hq]
      rw [hq] at hinv
      obtain ⟨tr1, ht1, hd1, hi1, hkeep⟩ :=
        runTask_keeps fuel rt eCtx f rest d s t0 tr0 done hs hinv
      simp only [Exec.bind_apply]
      rcases hrun : runTask fuel rt eCtx f { d with DethunkFuncs := rest } s with ⟨o, s1⟩
      rw [hrun] at ht1
      cases o with
      | ok d' => exact ih d' s1 t0 tr1 _ ht1 (hkeep d' s1 hrun)
      | panic r => exact ⟨tr1, ht1, hd1, hi1⟩
      | outOfFuel => exact ⟨tr1, ht1, hd1, hi1⟩

/-- C9: `dethunkWithBreadthFirstSearch` invokes the producers of the
response tree in breadth-first order.  For every response tree and every
state, the positions at which producers are invoked during the call, in the
order of the invocations (a position is the list of the keys and indices
from the top-level map down to the producer, so a producer `d` levels below
the top-level map has a position of length `d + 1`), are in the order of
their depth: no producer is invoked after one that lies deeper; so every
producer `d` levels down is invoked before any producer `d + 1` levels down.
And two producers that are items of one list are invoked in the order of
their indices.  This holds whether the call returns, aborts or runs out of
fuel.  In the harness, for `{ nest { test } test }` with a record whose
member is a list of producers, the items of `test` are invoked before those
of `nest.test`, each list in index order. -/
theorem dethunk_breadth_first :
    (∀ (fuel : Nat) (rt : Runtime) (eCtx : executionContext)
      (finalResults : List (String × Value)) (s : ExecState),
      ∃ tr, (dethunkWithBreadthFirstSearch fuel rt eCtx finalResults s).2.trace = s.trace ++ tr ∧
        (invokedPositions tr).Pairwise (fun a b => a.length ≤ b.length) ∧
        (invokedPositions tr).Pairwise IndexBefore) ∧
    (traceOf (checkDocument 5 (.list IntType)
      (testRecord (.list [.func (.int 7), .int 1, .func (.int 2)])) nestThenTestQuery)).map
        invokedPositions =
      some [[.key "test", .index 0], [.key "test", .index 2],
        [.key "nest", .key "test", .index 0], [.key "nest", .key "test", .index 2]] := by
  refine ⟨?_, by decide!⟩
  intro fuel rt eCtx finalResults s
  unfold dethunkWithBreadthFirstSearch
  obtain ⟨tr1, ht1, hd1, hi1, hkeep⟩ := runTask_keeps fuel rt eCtx (.map []) []
    { root := .map finalResults, DethunkFuncs := [] } s s.trace [] [] (by simp)
    (by simpa [DethunkTask.position, invokedPositions] using BfsInvariant.initial)
  simp only [runTask] at ht1 hkeep
  simp only [Exec.bind_apply]
  rcases hrun : dethunkMap fuel rt eCtx [] { root := .map finalResults, DethunkFuncs := [] } s
    with ⟨o, s1⟩
  rw [hrun] at ht1
  cases o with
  | panic r => exact ⟨tr1, ht1, hd1, hi1⟩
  | outOfFuel => exact ⟨tr1, ht1, hd1, hi1⟩
  | ok d =>
    obtain ⟨tr2, ht2, hd2, hi2⟩ := dethunkLoop_ordered fuel rt eCtx fuel d s1 s.trace tr1 _ ht1
      (hkeep d s1 hrun)
    simp only
    rcases hloop : dethunkLoop fuel rt eCtx fuel d s1 with ⟨o2, s2⟩
    rw [hloop] at ht2
    cases o2 with
    | panic r => exact ⟨tr2, ht2, hd2, hi2⟩
    | outOfFuel => exact ⟨tr2, ht2, hd2, hi2⟩
    | ok d' =>
      simp only
      cases d'.root <;> exact ⟨tr2, ht2, hd2, hi2⟩

end Graphql

namespace Graphql

/-! ## Root types, field definitions and runtime types -/

/-- C16 (code bug): `getOperationRootType` resolves the root type by the
kind of the operation.  For a query it returns the query type of the schema.
For a mutation it reads the name of the mutation type through the pointer
that the schema returns: it returns the type when its name is not empty and
the error 'Schema is not configured for mutations' when its name is empty,
but for a schema without a mutation type the pointer is nil and the call
aborts with the nil dereference of the runtime; the same for a subscription,
with 'Schema is not configured for subscriptions'.  For an operation of any
other kind it returns the error 'Can only execute queries, mutations and
subscription', and without an operation, 'Can only execute queries and
mutations'.  So `mutation { first second }` against a schema with a query
type only has no data and the one error of the nil dereference, not 'Schema
is not configured for mutations'. -/
theorem getOperationRootType_by_kind (schema : Schema) (operation : OperationDefinition) :
    (operation.Operation = .query →
      getOperationRootType schema (some operation) = .ok (.ok schema.QueryType)) ∧
    (operation.Operation = .mutation →
      (∀ mutationType, schema.MutationType = some mutationType →
        mutationType.PrivateName ≠ "" →
        getOperationRootType schema (some operation) = .ok (.ok mutationType)) ∧
      (∀ mutationType, schema.MutationType = some mutationType →
        mutationType.PrivateName = "" →
        getOperationRootType schema (some operation) =
          .ok (.error "Schema is not configured for mutations")) ∧
      (schema.MutationType = none →
        getOperationRootType schema (some operation) = .panic nilDereference)) ∧
    (operation.Operation = .subscription →
      (∀ subscriptionType, schema.SubscriptionType = some subscriptionType →
        subscriptionType.PrivateName ≠ "" →
        getOperationRootType schema (some operation) = .ok (.ok subscriptionType)) ∧
      (∀ subscriptionType, schema.SubscriptionType = some subscriptionType →
        subscriptionType.PrivateName = "" →
        getOperationRootType schema (some operation) =
          .ok (.error "Schema is not configured for subscriptions")) ∧
      (schema.SubscriptionType = none →
        getOperationRootType schema (some operation) = .panic nilDereference)) ∧
    (∀ kind, operation.Operation = .other kind →
      getOperationRootType schema (some operation) =
        .ok (.error "Can only execute queries, mutations and subscription")) ∧
    getOperationRootType schema none =
      .ok (.error "Can only execute queries and mutations") ∧
    (dataOf (Execute 3 testRuntime
        { Schema := querySchema oneAndTwo, Root := .null, AST := mutationDocument,
          OperationName := "", Args := [] } .null) = some .null ∧
     errorsOf (Execute 3 testRuntime
        { Schema := querySchema oneAndTwo, Root := .null, AST := mutationDocument,
          OperationName := "", Args := [] } .null) =
       some [{ Message := "runtime error: invalid memory address or nil pointer dereference",
               Locations := [], Path := [] }]) := by
  refine ⟨?_, ?_, ?_, ?_, rfl, ⟨dataOf_eq_of_dataIs _ _ (by decide!), by decide!⟩⟩
  · intro h
    simp only [getOperationRootType, h]
  · intro h
    refine ⟨?_, ?_, ?_⟩
    · intro mutationType hsome hname
      simp only [getOperationRootType, h, hsome, hname, if_false]
    · intro mutationType hsome hname
      simp only [getOperationRootType, h, hsome, hname, if_true]
    · intro hnone
      simp only [getOperationRootType, h, hnone]
  · intro h
    refine ⟨?_, ?_, ?_⟩
    · intro subscriptionType hsome hname
      simp only [getOperationRootType, h, hsome, hname, if_false]
    · intro subscriptionType hsome hname
      simp only [getOperationRootType, h, hsome, hname, if_true]
    · intro hnone
      simp only [getOperationRootType, h, hnone]
  · intro kind h
    simp only [getOperationRootType, h]

/-- C19: `getFieldDef`, for a parent object type and a field name, with the
meta-fields named `__schema`, `__type` and `__typename`.  It returns the
schema meta-field definition when the name is `__schema` and the parent is
the query root of the schema (the same pointer: the object at the address of
the query root);
the type meta-field definition when the name is `__type` and the parent is
the query root; the typename meta-field definition when the name is
`__typename`, whatever the parent; and in every other case, `__schema` and
`__type` on a parent that is not the query root included, be it another
object with the name of the query root, the field of that name among the
fields of the parent, absent when there is none. -/
theorem getFieldDef_cases (rt : Runtime) (schema : Schema) (parentType : Object)
    (fieldName : String)
    (hschema : rt.SchemaMetaFieldDef.Name = "__schema")
    (htype : rt.TypeMetaFieldDef.Name = "__type")
    (htypename : rt.TypeNameMetaFieldDef.Name = "__typename") :
    (fieldName = "__schema" → schema.QueryType.Addr = parentType.Addr →
      getFieldDef rt schema (some parentType) fieldName = some rt.SchemaMetaFieldDef) ∧
    (fieldName = "__type" → schema.QueryType.Addr = parentType.Addr →
      getFieldDef rt schema (some parentType) fieldName = some rt.TypeMetaFieldDef) ∧
    (fieldName = "__typename" →
      getFieldDef rt schema (some parentType) fieldName = some rt.TypeNameMetaFieldDef) ∧
    (fieldName ≠ "__typename" →
      ((fieldName ≠ "__schema" ∧ fieldName ≠ "__type") ∨
        schema.QueryType.Addr ≠ parentType.Addr) →
      getFieldDef rt schema (some parentType) fieldName =
        parentType.Fields.lookup fieldName) := by
  refine ⟨?_, ?_, ?_, ?_⟩
  · intro hname hroot
    simp only [getFieldDef, hschema, hname, hroot, and_self, if_true]
  · intro hname hroot
    subst hname
    simp only [getFieldDef, hschema, htype, hroot, and_true, if_true]
    rw [if_neg (by decide)]
  · intro hname
    subst hname
    simp only [getFieldDef, hschema, htype, htypename, if_true]
    rw [if_neg (by intro h; exact absurd h.1 (by decide)),
      if_neg (by intro h; exact absurd h.1 (by decide))]
  · intro hname hother
    simp only [getFieldDef, hschema, htype, htypename, hname, if_false]
    rcases hother with ⟨h1, h2⟩ | hroot
    · simp only [h1, h2, false_and, if_false]
    · simp only [hroot, and_false, if_false]

/-- C19, at a concrete input: `__typename` on the type `Query`, the query
root of its schema; `__schema` on the type `Dog`; and `__schema` on another
object named `Query`, at another address than the query root. -/
theorem getFieldDef_cases_witness :
    (getFieldDef testRuntime (querySchema [fieldReturning "a" IntType (.returns .null none)])
        (some (queryType [fieldReturning "a" IntType (.returns .null none)])) "__typename" =
      some testRuntime.TypeNameMetaFieldDef) ∧
    (getFieldDef testRuntime (querySchema [fieldReturning "a" IntType (.returns .null none)])
        (some (pickyType "Dog" true)) "__schema" =
      (pickyType "Dog" true).Fields.lookup "__schema") ∧
    (getFieldDef testRuntime (querySchema [fieldReturning "a" IntType (.returns .null none)])
        (some { Addr := 7, PrivateName := "Query", Fields := [], IsTypeOf := none })
        "__schema" = none) :=
  ⟨(getFieldDef_cases testRuntime (querySchema [fieldReturning "a" IntType (.returns .null none)])
      (queryType [fieldReturning "a" IntType (.returns .null none)]) "__typename"
      rfl rfl rfl).2.2.1 rfl,
   (getFieldDef_cases testRuntime (querySchema [fieldReturning "a" IntType (.returns .null none)])
      (pickyType "Dog" true) "__schema" rfl rfl rfl).2.2.2 (by decide) (Or.inr (by decide)),
   (getFieldDef_cases testRuntime (querySchema [fieldReturning "a" IntType (.returns .null none)])
      { Addr := 7, PrivateName := "Query", Fields := [], IsTypeOf := none } "__schema"
      rfl rfl rfl).2.2.2 (by decide) (Or.inr (by decide))⟩

end Graphql

namespace Graphql

/-! ## Completion at an abstract type -/

theorem defaultResolveTypeFn_eq_find (eCtx : executionContext) (p : ResolveTypeParams)
    (abstractType : String) :
    defaultResolveTypeFn eCtx p abstractType =
      (eCtx.Schema.PossibleTypes abstractType).find? (fun t => t.accepts p.Value p.Info) := by
  unfold defaultResolveTypeFn
  congr 1
  funext t
  unfold Object.accepts
  cases t.IsTypeOf <;> rfl

theorem FirstAccepting.of_find (types : List Object) (result : Value) (info : ResolveInfo) :
    FirstAccepting types result info (types.find? (fun t => t.accepts result info)) := by
  constructor
  · intro t ht
    obtain ⟨hacc, pre, post, htypes, hpre⟩ := List.find?_eq_some.1 ht
    refine ⟨pre, post, htypes, hacc, ?_⟩
    intro u hu
    have := hpre u hu
    simpa using this
  · intro hnone u hu
    have := List.find?_eq_none.1 hnone u hu
    simpa using this

theorem completeValue_abstract (fuel : Nat) (self : Completer) (rt : Runtime)
    (eCtx : executionContext) (returnType : Ty) (name : String) (fieldASTs : List Field)
    (info : ResolveInfo) (path : responsePath) (result : Value)
    (hty : returnType = .interface name ∨ returnType = .union name)
    (hfunc : isFunc result = false) (hnn : isNullish result = false) :
    completeValue fuel self rt eCtx returnType fieldASTs info path result =
      completeAbstractValue fuel self rt eCtx returnType (eCtx.Schema.AbstractType name)
        fieldASTs info path result := by
  rcases hty with h | h <;> subst h <;>
    simp only [completeValue, hfunc, hnn, Bool.false_eq_true, if_false]

/-- C20: completion at an interface or union type, of a result that is
neither a function nor nullish.  The runtime type is what the `ResolveType`
of the abstract type returns when the abstract type has one, and otherwise
the first of the possible types of the abstract type that defines `IsTypeOf`
and whose `IsTypeOf` returns true (nil when there is none).  When the runtime
type is nil the completion aborts with 'Abstract type ... must resolve to an
Object type at runtime ...'; when it is not a possible type of the abstract
type the completion aborts with 'Runtime Object type ... is not a possible
type for ...'; otherwise the completion is `completeObjectValue` for the
runtime type. -/
theorem completeAbstractValue_by_runtime_type (fuel : Nat) (self : Completer) (rt : Runtime)
    (eCtx : executionContext) (returnType : Ty) (name : String) (fieldASTs : List Field)
    (info : ResolveInfo) (path : responsePath) (result : Value)
    (hty : returnType = .interface name ∨ returnType = .union name)
    (hfunc : isFunc result = false) (hnn : isNullish result = false) :
    ∃ runtimeType : Option Object,
      (∀ resolveType, (eCtx.Schema.AbstractType name).ResolveType = some resolveType →
        runtimeType = resolveType { Value := result, Info := info }) ∧
      ((eCtx.Schema.AbstractType name).ResolveType = none →
        FirstAccepting (eCtx.Schema.PossibleTypes (eCtx.Schema.AbstractType name).PrivateName)
          result info runtimeType) ∧
      (runtimeType = none →
        completeValue fuel self rt eCtx returnType fieldASTs info path result =
          raise ⟨"Abstract type " ++ returnType.toString ++
            " must resolve to an Object type at runtime for field " ++ info.ParentType ++
            "." ++ info.FieldName ++ " with value \"" ++ rt.formatValue result ++
            "\", received \"<nil>\".", none⟩) ∧
      (∀ t, runtimeType = some t →
        (eCtx.Schema.IsPossibleType (eCtx.Schema.AbstractType name).PrivateName
            t.PrivateName = false →
          completeValue fuel self rt eCtx returnType fieldASTs info path result =
            raise ⟨"Runtime Object type \"" ++ t.Name ++
              "\" is not a possible type for \"" ++ returnType.toString ++ "\".", none⟩) ∧
        (eCtx.Schema.IsPossibleType (eCtx.Schema.AbstractType name).PrivateName
            t.PrivateName = true →
          completeValue fuel self rt eCtx returnType fieldASTs info path result =
            completeObjectValue fuel self rt eCtx t fieldASTs info path result)) := by
  refine ⟨resolveRuntimeType eCtx (eCtx.Schema.AbstractType name)
    { Value := result, Info := info }, ?_, ?_, ?_, ?_⟩
  · intro resolveType h
    simp only [resolveRuntimeType, h]
  · intro h
    simp only [resolveRuntimeType, h, defaultResolveTypeFn_eq_find]
    exact FirstAccepting.of_find _ _ _
  · intro h
    rw [completeValue_abstract fuel self rt eCtx returnType name fieldASTs info path result hty
      hfunc hnn]
    simp only [completeAbstractValue, h]
  · intro t h
    rw [completeValue_abstract fuel self rt eCtx returnType name fieldASTs info path result hty
      hfunc hnn]
    constructor <;> intro hp <;>
      simp only [completeAbstractValue, h, hp, Bool.not_false, Bool.not_true, if_true,
        Bool.false_eq_true, if_false]

/-- C20, at a concrete input: the string "tom" at the union `Pet`, whose
first possible type `Dog` rejects it and whose second possible type `Cat`
accepts it, completes as an object of type `Cat`. -/
theorem completeAbstractValue_by_runtime_type_witness :
    completeValue 1 (completeValueCatchingError testRuntime petContext 1) testRuntime
        petContext (.union "Pet") [fieldNode "pet" 3 none] petInfo
        (responsePath.root.WithKey (.key "pet")) (.str "tom") =
      completeObjectValue 1 (completeValueCatchingError testRuntime petContext 1) testRuntime
        petContext (pickyType "Cat" false) [fieldNode "pet" 3 none] petInfo
        (responsePath.root.WithKey (.key "pet")) (.str "tom") := by
  obtain ⟨runtimeType, _, hdefault, _, hsome⟩ :=
    completeAbstractValue_by_runtime_type 1
      (completeValueCatchingError testRuntime petContext 1) testRuntime petContext
      (.union "Pet") "Pet" [fieldNode "pet" 3 none] petInfo
      (responsePath.root.WithKey (.key "pet")) (.str "tom") (Or.inr rfl) rfl rfl
  obtain ⟨hfirst, hnone⟩ := hdefault rfl
  have hposs : petContext.Schema.PossibleTypes (petContext.Schema.AbstractType "Pet").PrivateName =
      [pickyType "Dog" true, pickyType "Cat" false] := rfl
  rw [hposs] at hfirst hnone
  cases hrt : runtimeType with
  | none =>
    have h := hnone hrt (pickyType "Cat" false) (List.mem_cons_of_mem _ (List.mem_singleton_self _))
    exact absurd h (by decide)
  | some t =>
    obtain ⟨pre, post, hsplit, hacc, hpre⟩ := hfirst t hrt
    have hmem : t ∈ [pickyType "Dog" true, pickyType "Cat" false] := by
      rw [hsplit]
      exact List.mem_append_right _ (List.mem_cons_self _ _)
    have ht : t = pickyType "Cat" false := by
      rcases List.mem_cons.1 hmem with h | h
      · rw [h] at hacc
        exact absurd hacc (by decide)
      · exact List.mem_singleton.1 h
    subst ht
    exact (hsome _ hrt).2 rfl

end Graphql

namespace Graphql

/-! ## Building the execution context -/

/-- The scan for an unnamed operation: with the operation found so far and
the operations still to come, none gives no operation, one gives that
operation, and two or more give the error. -/
theorem scanDefinitions_unnamed :
    ∀ (defs : List Definition) (found : Option OperationDefinition)
      (fragments : List (String × Definition)),
      (∀ d ∈ defs, ∀ kind, d ≠ .other kind) →
      (found.toList ++ operationsOf defs = [] →
        ∃ fragments', scanDefinitions "" defs found fragments = .ok (none, fragments')) ∧
      (∀ operation, found.toList ++ operationsOf defs = [operation] →
        ∃ fragments', scanDefinitions "" defs found fragments =
          .ok (some operation, fragments')) ∧
      (2 ≤ (found.toList ++ operationsOf defs).length →
        scanDefinitions "" defs found fragments =
          .error "Must provide operation name if query contains multiple operations.") := by
  intro defs
  induction defs with
  | nil =>
    intro found fragments _
    cases found with
    | none =>
      refine ⟨fun _ => ⟨fragments, rfl⟩, fun o h => ?_, fun h => ?_⟩
      · simp [operationsOf] at h
      · simp [operationsOf] at h
    | some o =>
      refine ⟨fun h => ?_, fun o' h => ?_, fun h => ?_⟩
      · simp [operationsOf] at h
      · simp only [Option.toList, operationsOf, List.append_nil, List.cons.injEq,
          and_true] at h
        subst h
        exact ⟨fragments, rfl⟩
      · simp [operationsOf] at h
  | cons d rest ih =>
    intro found fragments hdefs
    have hrest : ∀ d ∈ rest, ∀ kind, d ≠ .other kind :=
      fun d hd => hdefs d (List.mem_cons_of_mem _ hd)
    cases d with
    | other kind => exact absurd rfl (hdefs _ (List.mem_cons_self _ _) kind)
    | fragment definition =>
      have hscan : ∀ fr, scanDefinitions "" (.fragment definition :: rest) found fr =
          scanDefinitions "" rest found
            (mapSet fr (match definition.Name with | some name => name | none => "")
              (.fragment definition)) := fun _ => rfl
      rw [hscan]
      exact ih found _ hrest
    | operation definition =>
      cases found with
      | some o =>
        have hscan : scanDefinitions "" (.operation definition :: rest) (some o) fragments =
            .error "Must provide operation name if query contains multiple operations." := by
          simp [scanDefinitions]
        refine ⟨fun h => ?_, fun o' h => ?_, fun _ => hscan⟩
        · simp [operationsOf] at h
        · simp [operationsOf] at h
      | none =>
        have hscan : scanDefinitions "" (.operation definition :: rest) none fragments =
            scanDefinitions "" rest (some definition) fragments := by
          simp [scanDefinitions]
        rw [hscan]
        exact ih (some definition) fragments hrest

/-- The scan for a named operation: the result is the last operation of that
name, among the one found so far and those still to come. -/
theorem scanDefinitions_named (operationName : String) (hname : operationName ≠ "") :
    ∀ (defs : List Definition) (found : Option OperationDefinition)
      (fragments : List (String × Definition)),
      (∀ d ∈ defs, ∀ kind, d ≠ .other kind) →
      ∃ fragments', scanDefinitions operationName defs found fragments =
        .ok ((found.toList ++
          (operationsOf defs).filter (fun o => o.Name = some operationName)).getLast?,
          fragments') := by
  intro defs
  induction defs with
  | nil =>
    intro found fragments _
    refine ⟨fragments, ?_⟩
    cases found <;> simp [scanDefinitions, operationsOf]
  | cons d rest ih =>
    intro found fragments hdefs
    have hrest : ∀ d ∈ rest, ∀ kind, d ≠ .other kind :=
      fun d hd => hdefs d (List.mem_cons_of_mem _ hd)
    cases d with
    | other kind => exact absurd rfl (hdefs _ (List.mem_cons_self _ _) kind)
    | fragment definition =>
      have hscan : ∀ fr, scanDefinitions operationName (.fragment definition :: rest) found fr =
          scanDefinitions operationName rest found
            (mapSet fr (match definition.Name with | some name => name | none => "")
              (.fragment definition)) := fun _ => rfl
      rw [hscan]
      exact ih found _ hrest
    | operation definition =>
      by_cases hdef : definition.Name = some operationName
      · have hscan : scanDefinitions operationName (.operation definition :: rest) found
            fragments = scanDefinitions operationName rest (some definition) fragments := by
          simp [scanDefinitions, hname, hdef]
        rw [hscan]
        obtain ⟨fr, hfr⟩ := ih (some definition) fragments hrest
        refine ⟨fr, ?_⟩
        rw [hfr]
        congr 2
        cases found with
        | none => simp [operationsOf, hdef]
        | some o =>
          simp only [Option.toList, operationsOf, List.filter_cons, hdef, decide_True, if_true,
            List.singleton_append]
          rw [List.getLast?_cons_cons]
      · have hscan : scanDefinitions operationName (.operation definition :: rest) found
            fragments = scanDefinitions operationName rest found fragments := by
          simp [scanDefinitions, hname, hdef]
        rw [hscan]
        obtain ⟨fr, hfr⟩ := ih found fragments hrest
        refine ⟨fr, ?_⟩
        rw [hfr]
        simp [operationsOf, hdef]

end Graphql

namespace Graphql

/-! ## Operation selection and context errors -/

theorem buildExecutionContext_of_scan (rt : Runtime) (p : ExecuteParams)
    (operation : OperationDefinition) (fragments : List (String × Definition))
    (h : scanDefinitions p.OperationName p.AST none [] = .ok (some operation, fragments)) :
    SelectsOperation rt p operation := by
  constructor
  · intro err herr
    simp only [buildExecutionContext, h, herr]
  · intro variableValues hvv
    exact ⟨fragments, by simp only [buildExecutionContext, h, hvv]⟩

theorem buildExecutionContext_of_scan_none (rt : Runtime) (p : ExecuteParams)
    (fragments : List (String × Definition))
    (h : scanDefinitions p.OperationName p.AST none [] = .ok (none, fragments)) :
    buildExecutionContext rt p =
      if p.OperationName ≠ "" then
        .error ("Unknown operation named \"" ++ p.OperationName ++ "\".")
      else .error "Must provide an operation." := by
  simp only [buildExecutionContext, h]

/-- C14, a document for which the claim fails: `{ a }` is the one operation
of its document and no operation name is given, yet `buildExecutionContext`
does not succeed, and fails with none of the three errors of the selection,
when the coercion of the variable values fails. -/
theorem buildExecutionContext_coercion_failure :
    operationsOf (queryOf [("a", 3)]) =
      [⟨.query, none, some [.field (fieldNode "a" 3 none)]⟩] ∧
    errorOf (buildExecutionContext requiredVariableRuntime
      { Schema := querySchema oneAndTwo, Root := .null, AST := queryOf [("a", 3)],
        OperationName := "", Args := [] }) =
      some "Variable \"$x\" of required type \"Int!\" was not provided." :=
  ⟨rfl, rfl⟩

/-- C14: operation selection by `buildExecutionContext`, for a document whose
definitions are operations and fragment definitions only.  With an empty
`OperationName`: the sole operation is selected when the document has exactly
one operation, the error is 'Must provide operation name if query contains
multiple operations.' when it has two or more, and 'Must provide an
operation.' when it has none.  With a non-empty `OperationName`: an operation
of that name is selected when the document has one, and the error is 'Unknown
operation named "N".' otherwise.  When an operation is selected, the call
succeeds with that operation if the coercion of the variable values for it
succeeds, and fails with the error of the coercion otherwise. -/
theorem buildExecutionContext_selects_operation (rt : Runtime) (p : ExecuteParams)
    (hdefs : ∀ d ∈ p.AST, ∀ kind, d ≠ .other kind) :
    (p.OperationName = "" →
      (∀ operation, operationsOf p.AST = [operation] → SelectsOperation rt p operation) ∧
      (2 ≤ (operationsOf p.AST).length →
        buildExecutionContext rt p =
          .error "Must provide operation name if query contains multiple operations.") ∧
      (operationsOf p.AST = [] →
        buildExecutionContext rt p = .error "Must provide an operation.")) ∧
    (p.OperationName ≠ "" →
      ((∃ operation ∈ operationsOf p.AST, operation.Name = some p.OperationName) →
        ∃ operation ∈ operationsOf p.AST, operation.Name = some p.OperationName ∧
          SelectsOperation rt p operation) ∧
      ((∀ operation ∈ operationsOf p.AST, operation.Name ≠ some p.OperationName) →
        buildExecutionContext rt p =
          .error ("Unknown operation named \"" ++ p.OperationName ++ "\"."))) := by
  constructor
  · intro hname
    obtain ⟨h0, h1, h2⟩ := scanDefinitions_unnamed p.AST none [] hdefs
    simp only [Option.toList, List.nil_append] at h0 h1 h2
    refine ⟨fun operation hop => ?_, fun hlen => ?_, fun hnone => ?_⟩
    · obtain ⟨fragments, hscan⟩ := h1 operation hop
      rw [← hname] at hscan
      exact buildExecutionContext_of_scan rt p operation fragments hscan
    · have hscan := h2 hlen
      rw [← hname] at hscan
      simp only [buildExecutionContext, hscan]
    · obtain ⟨fragments, hscan⟩ := h0 hnone
      rw [← hname] at hscan
      rw [buildExecutionContext_of_scan_none rt p fragments hscan, if_neg (not_not.2 hname)]
  · intro hname
    obtain ⟨fragments, hscan⟩ := scanDefinitions_named p.OperationName hname p.AST none [] hdefs
    simp only [Option.toList, List.nil_append] at hscan
    refine ⟨fun _ => ?_, fun hnone => ?_⟩
    · cases hlast : ((operationsOf p.AST).filter
          (fun o => decide (o.Name = some p.OperationName))).getLast? with
      | none =>
        rename_i hex
        obtain ⟨operation, hmem, hop⟩ := hex
        rw [List.getLast?_eq_none_iff] at hlast
        have : operation ∈ (operationsOf p.AST).filter
            (fun o => decide (o.Name = some p.OperationName)) :=
          List.mem_filter.2 ⟨hmem, by simpa using hop⟩
        rw [hlast] at this
        exact absurd this (List.not_mem_nil _)
      | some operation =>
        have hmem := List.mem_of_getLast?_eq_some hlast
        obtain ⟨hmem, hop⟩ := List.mem_filter.1 hmem
        rw [hlast] at hscan
        exact ⟨operation, hmem, by simpa using hop,
          buildExecutionContext_of_scan rt p operation fragments hscan⟩
    · have hlast : ((operationsOf p.AST).filter
          (fun o => decide (o.Name = some p.OperationName))).getLast? = none := by
        rw [List.getLast?_eq_none_iff, List.filter_eq_nil_iff]
        intro o ho
        simpa using hnone o ho
      rw [hlast] at hscan
      rw [buildExecutionContext_of_scan_none rt p fragments hscan, if_pos hname]

/-- C14, at a concrete input: the document `{ a }` without an operation
name; the coercion of the variable values succeeds. -/
theorem buildExecutionContext_selects_operation_witness :
    SelectsOperation testRuntime (queryParams oneAndTwo [("a", 3)])
      ⟨.query, none, some [.field (fieldNode "a" 3 none)]⟩ :=
  (buildExecutionContext_selects_operation testRuntime (queryParams oneAndTwo [("a", 3)])
    (by
      intro d hd kind
      simp only [queryParams, queryOf, List.map_cons, List.map_nil, List.mem_singleton] at hd
      rw [hd]
      intro h
      cases h)).1 rfl |>.1 _ rfl

/-- C15: a failure of `buildExecutionContext` (no operation or an unknown
one, an ambiguous operation, a definition that is neither an operation nor a
fragment definition, a failure of the coercion of the variables) makes
`Execute` return, whatever the fuel, a result whose data is nil and whose
errors are exactly that one error; the state of the execution is the initial
one, without any event: no resolve delegate was called, no producer was
invoked, and the state shared by the delegates is untouched. -/
theorem Execute_context_error (fuel : Nat) (rt : Runtime) (p : ExecuteParams) (world : World)
    (err : String) (h : buildExecutionContext rt p = .error err) :
    Execute fuel rt p world =
      some ({ Data := .null, Errors := [{ Message := err, Locations := [], Path := [] }] },
        { Errors := [], world := world, ranges := 0, trace := [] }) := by
  simp only [Execute, h]
  rfl

/-- C15, at a concrete input: the operation name `Q` with the document
`{ a }`, which has no operation of that name. -/
theorem Execute_context_error_witness :
    Execute 0 testRuntime
      { Schema := querySchema oneAndTwo, Root := .null, AST := queryOf [("a", 3)],
        OperationName := "Q", Args := [] } (.int 7) =
      some ({ Data := .null,
              Errors := [{ Message := "Unknown operation named \"Q\".", Locations := [],
                           Path := [] }] },
        { Errors := [], world := .int 7, ranges := 0, trace := [] }) :=
  Execute_context_error 0 testRuntime _ (.int 7) "Unknown operation named \"Q\"." rfl

end Graphql

namespace Graphql

/-! ## The directive gate -/

theorem ifArgIs_iff (argValues : List (String × Value)) (b : Bool) :
    ifArgIs argValues b = true ↔ argValues.lookup "if" = some (.bool b) := by
  unfold ifArgIs
  cases h : argValues.lookup "if" with
  | none => simp
  | some v => cases v <;> simp

/-- One step of the scan of `shouldIncludeNode`. -/
theorem findSkipInclude_snoc (rt : Runtime) (pre : List Directive) (d : Directive) :
    findSkipInclude rt (pre ++ [d]) =
      match d.Name with
      | none => findSkipInclude rt pre
      | some name =>
        if name = rt.SkipDirective.Name then (some d, (findSkipInclude rt pre).2)
        else if name = rt.IncludeDirective.Name then ((findSkipInclude rt pre).1, some d)
        else findSkipInclude rt pre := by
  cases hd : d.Name <;>
    simp only [findSkipInclude, List.foldl_append, List.foldl_cons, List.foldl_nil, hd]

/-- The scan of `shouldIncludeNode` finds the last `@skip` and the last
`@include` of the directives. -/
theorem findSkipInclude_last (rt : Runtime) (hskip : rt.SkipDirective.Name = "skip")
    (hinclude : rt.IncludeDirective.Name = "include") (directives : List Directive) :
    findSkipInclude rt directives =
      ((directives.filter (fun d => d.Name = some "skip")).getLast?,
       (directives.filter (fun d => d.Name = some "include")).getLast?) := by
  induction directives using List.reverseRecOn with
  | nil => rfl
  | append_singleton pre d ih =>
    rw [findSkipInclude_snoc, ih, hskip, hinclude]
    simp only [List.filter_append, List.filter_cons, List.filter_nil]
    cases hd : d.Name with
    | none => simp
    | some name =>
      simp only [Option.some.injEq]
      by_cases h1 : name = "skip"
      · subst h1
        simp
      · by_cases h2 : name = "include"
        · subst h2
          simp
        · simp [h1, h2]

theorem eq_of_getLast?_of_length_le_one {α : Type} {xs : List α} {x y : α}
    (hlen : xs.length ≤ 1) (hx : xs.getLast? = some x) (hy : y ∈ xs) : y = x := by
  match xs, hlen with
  | [a], _ =>
    simp only [List.getLast?_singleton, Option.some.injEq] at hx
    simp only [List.mem_singleton] at hy
    rw [hy, hx]
  | [], _ => simp at hy
  | _ :: _ :: _, h => simp at h

/-- C18: the directive gate.  With the directives named `skip` and
`include`, and a directive list with at most one `@skip` and at most one
`@include`, `shouldIncludeNode` returns false iff the list has a `@skip`
whose coerced argument `if` is the boolean true, or an `@include` whose
coerced argument `if` is the boolean false; so it returns true without
directives, with other directives only, with `@skip(if: false)` and with
`@include(if: true)`.  `@skip(if: true)` excludes the selection also next to
`@include(if: true)`, and `{ a @skip(if: true) b }`, on `a: Int` and
`b: Int` whose delegates return 1 and 2, gives the data `{b: 2}` without
errors. -/
theorem shouldIncludeNode_iff :
    (∀ (rt : Runtime) (eCtx : executionContext) (directives : List Directive),
      rt.SkipDirective.Name = "skip" → rt.IncludeDirective.Name = "include" →
      (directives.filter (fun d => d.Name = some "skip")).length ≤ 1 →
      (directives.filter (fun d => d.Name = some "include")).length ≤ 1 →
      (shouldIncludeNode rt eCtx directives = false ↔
        (∃ d ∈ directives, d.Name = some "skip" ∧
          (rt.getArgumentValues rt.SkipDirective.Args d.Arguments
            eCtx.VariableValues).lookup "if" = some (.bool true)) ∨
        (∃ d ∈ directives, d.Name = some "include" ∧
          (rt.getArgumentValues rt.IncludeDirective.Args d.Arguments
            eCtx.VariableValues).lookup "if" = some (.bool false)))) ∧
    shouldIncludeNode directiveRuntime (queryContext oneAndTwo) [] = true ∧
    shouldIncludeNode directiveRuntime (queryContext oneAndTwo)
      [ifDirective "deprecated" true] = true ∧
    shouldIncludeNode directiveRuntime (queryContext oneAndTwo)
      [ifDirective "skip" false] = true ∧
    shouldIncludeNode directiveRuntime (queryContext oneAndTwo)
      [ifDirective "include" true] = true ∧
    shouldIncludeNode directiveRuntime (queryContext oneAndTwo)
      [ifDirective "skip" true, ifDirective "include" true] = false ∧
    shouldIncludeNode directiveRuntime (queryContext oneAndTwo)
      [ifDirective "include" true, ifDirective "skip" true] = false ∧
    dataOf (Execute 3 directiveRuntime
      { Schema := querySchema oneAndTwo, Root := .null, AST := skipQuery, OperationName := "",
        Args := [] } .null) = some (.map [("b", .int 2)]) ∧
    errorsOf (Execute 3 directiveRuntime
      { Schema := querySchema oneAndTwo, Root := .null, AST := skipQuery, OperationName := "",
        Args := [] } .null) = some [] := by
  refine ⟨?_, by decide, by decide, by decide, by decide, by decide, by decide,
    dataOf_eq_of_dataIs _ _ (by decide!), by decide!⟩
  intro rt eCtx directives hskipName hincludeName hskip hinclude
  have hfound := findSkipInclude_last rt hskipName hincludeName directives
  have hgate : shouldIncludeNode rt eCtx directives =
      (if (match (findSkipInclude rt directives).1 with
            | some skipAST =>
              ifArgIs (rt.getArgumentValues rt.SkipDirective.Args skipAST.Arguments
                eCtx.VariableValues) true
            | none => false) = true then false
       else
        match (findSkipInclude rt directives).2 with
        | some includeAST =>
          !(ifArgIs (rt.getArgumentValues rt.IncludeDirective.Args includeAST.Arguments
            eCtx.VariableValues) false)
        | none => true) := rfl
  rw [hgate, hfound]
  simp only
  constructor
  · intro hfalse
    cases hs : (directives.filter (fun d => decide (d.Name = some "skip"))).getLast? with
    | some skipAST =>
      have hmem := List.mem_filter.1 (List.mem_of_getLast?_eq_some hs)
      by_cases hif : ifArgIs (rt.getArgumentValues rt.SkipDirective.Args skipAST.Arguments
          eCtx.VariableValues) true = true
      · exact Or.inl ⟨skipAST, hmem.1, by simpa using hmem.2, (ifArgIs_iff _ _).1 hif⟩
      · rw [hs] at hfalse
        have hif' : ifArgIs (rt.getArgumentValues rt.SkipDirective.Args skipAST.Arguments
            eCtx.VariableValues) true = false := by simpa using hif
        simp only [hif', Bool.false_eq_true, if_false] at hfalse
        cases hi : (directives.filter (fun d => decide (d.Name = some "include"))).getLast? with
        | some includeAST =>
          have hmem' := List.mem_filter.1 (List.mem_of_getLast?_eq_some hi)
          rw [hi] at hfalse
          simp only [Bool.not_eq_false'] at hfalse
          exact Or.inr ⟨includeAST, hmem'.1, by simpa using hmem'.2, (ifArgIs_iff _ _).1 hfalse⟩
        | none =>
          rw [hi] at hfalse
          simp at hfalse
    | none =>
      rw [hs] at hfalse
      simp only [Bool.false_eq_true, if_false] at hfalse
      cases hi : (directives.filter (fun d => decide (d.Name = some "include"))).getLast? with
      | some includeAST =>
        have hmem' := List.mem_filter.1 (List.mem_of_getLast?_eq_some hi)
        rw [hi] at hfalse
        simp only [Bool.not_eq_false'] at hfalse
        exact Or.inr ⟨includeAST, hmem'.1, by simpa using hmem'.2, (ifArgIs_iff _ _).1 hfalse⟩
      | none =>
        rw [hi] at hfalse
        simp at hfalse
  · rintro (⟨d, hd, hname, hif⟩ | ⟨d, hd, hname, hif⟩)
    · have hmem : d ∈ directives.filter (fun d => decide (d.Name = some "skip")) :=
        List.mem_filter.2 ⟨hd, by simpa using hname⟩
      cases hs : (directives.filter (fun d => decide (d.Name = some "skip"))).getLast? with
      | none =>
        rw [List.getLast?_eq_none_iff] at hs
        rw [hs] at hmem
        exact absurd hmem (List.not_mem_nil _)
      | some skipAST =>
        have heq := eq_of_getLast?_of_length_le_one hskip hs hmem
        subst heq
        simp only [(ifArgIs_iff _ _).2 hif, if_true]
    · have hmem : d ∈ directives.filter (fun d => decide (d.Name = some "include")) :=
        List.mem_filter.2 ⟨hd, by simpa using hname⟩
      split
      · rfl
      · cases hi : (directives.filter (fun d => decide (d.Name = some "include"))).getLast? with
        | none =>
          rw [List.getLast?_eq_none_iff] at hi
          rw [hi] at hmem
          exact absurd hmem (List.not_mem_nil _)
        | some includeAST =>
          have heq := eq_of_getLast?_of_length_le_one hinclude hi hmem
          subst heq
          simp only [(ifArgIs_iff _ _).2 hif, Bool.not_true]

/-- C18, at a concrete input: `@skip(if: true)` next to `@include(if: true)`
excludes the selection. -/
theorem shouldIncludeNode_iff_witness :
    shouldIncludeNode directiveRuntime (queryContext oneAndTwo)
      [ifDirective "skip" true, ifDirective "include" true] = false :=
  (shouldIncludeNode_iff.1 directiveRuntime (queryContext oneAndTwo)
    [ifDirective "skip" true, ifDirective "include" true] rfl rfl (by decide) (by decide)).2
    (Or.inl ⟨ifDirective "skip" true, List.mem_cons_self _ _, rfl, rfl⟩)

end Graphql

namespace Graphql

/-! ## Reading, writing and iterating maps -/

theorem lookup_mapSet_self {α : Type} (xs : List (String × α)) (k : String) (v : α) :
    (mapSet xs k v).lookup k = some v := by
  induction xs with
  | nil => simp [mapSet, List.lookup]
  | cons x rest ih =>
    obtain ⟨k', v'⟩ := x
    by_cases h : k' = k
    · simp [mapSet, h, List.lookup]
    · have hne : (k == k') = false := by simpa using fun h' => h h'.symm
      simp only [mapSet, h, if_false, List.lookup, hne]
      exact ih

theorem lookup_mapSet_ne {α : Type} (xs : List (String × α)) (k k' : String) (v : α)
    (hne : k' ≠ k) : (mapSet xs k v).lookup k' = xs.lookup k' := by
  induction xs with
  | nil =>
    have : (k' == k) = false := by simpa using hne
    simp [mapSet, List.lookup, this]
  | cons x rest ih =>
    obtain ⟨k'', v''⟩ := x
    by_cases h : k'' = k
    · subst h
      have : (k' == k'') = false := by simpa using hne
      simp [mapSet, List.lookup, this]
    · simp only [mapSet, h, if_false, List.lookup]
      rw [ih]

theorem mem_keys_mapSet {α : Type} (xs : List (String × α)) (k : String) (v : α) (x : String) :
    x ∈ (mapSet xs k v).map Prod.fst ↔ x = k ∨ x ∈ xs.map Prod.fst := by
  induction xs with
  | nil => simp [mapSet]
  | cons y rest ih =>
    obtain ⟨k', v'⟩ := y
    by_cases h : k' = k
    · subst h
      simp [mapSet]
    · simp only [mapSet, h, if_false, List.map_cons, List.mem_cons, ih]
      tauto

theorem keys_mapSet_of_mem {α : Type} (xs : List (String × α)) (k : String) (v : α)
    (hk : k ∈ xs.map Prod.fst) : (mapSet xs k v).map Prod.fst = xs.map Prod.fst := by
  induction xs with
  | nil => simp at hk
  | cons y rest ih =>
    obtain ⟨k', v'⟩ := y
    by_cases h : k' = k
    · subst h
      simp [mapSet]
    · simp only [List.map_cons, List.mem_cons] at hk
      rcases hk with hk | hk
      · exact absurd hk.symm h
      · simp only [mapSet, h, if_false, List.map_cons, ih hk]

theorem keys_mapSet_nodup {α : Type} (xs : List (String × α)) (k : String) (v : α)
    (hnd : (xs.map Prod.fst).Nodup) : ((mapSet xs k v).map Prod.fst).Nodup := by
  induction xs with
  | nil => simp [mapSet]
  | cons y rest ih =>
    obtain ⟨k', v'⟩ := y
    simp only [List.map_cons, List.nodup_cons] at hnd
    by_cases h : k' = k
    · subst h
      simpa [mapSet] using hnd
    · simp only [mapSet, h, if_false, List.map_cons, List.nodup_cons]
      refine ⟨?_, ih hnd.2⟩
      rw [mem_keys_mapSet]
      rintro (h' | h')
      · exact h h'
      · exact hnd.1 h'

theorem lookup_isSome_iff_mem_keys {α : Type} (xs : List (String × α)) (k : String) :
    (xs.lookup k).isSome = true ↔ k ∈ xs.map Prod.fst := by
  induction xs with
  | nil => simp [List.lookup]
  | cons y rest ih =>
    obtain ⟨k', v'⟩ := y
    by_cases h : k = k'
    · subst h
      simp [List.lookup]
    · have hne : (k == k') = false := by simpa using h
      simp only [List.lookup, hne, ih, List.map_cons, List.mem_cons, h, false_or]

theorem lookup_eq_some_iff_mem_of_nodup {α : Type} (xs : List (String × α))
    (hnd : (xs.map Prod.fst).Nodup) (k : String) (v : α) :
    xs.lookup k = some v ↔ (k, v) ∈ xs := by
  induction xs with
  | nil => simp [List.lookup]
  | cons y rest ih =>
    obtain ⟨k', v'⟩ := y
    simp only [List.map_cons, List.nodup_cons] at hnd
    by_cases h : k = k'
    · subst h
      simp only [List.lookup, beq_self_eq_true, Option.some.injEq, List.mem_cons, Prod.mk.injEq,
        true_and]
      constructor
      · intro h'
        exact Or.inl h'.symm
      · rintro (h' | h')
        · exact h'.symm
        · exact absurd (List.mem_map_of_mem Prod.fst h') hnd.1
    · have hne : (k == k') = false := by simpa using h
      simp only [List.lookup, hne, ih hnd.2, List.mem_cons, Prod.mk.injEq, h, false_and,
        false_or]

/-- The entries that a map holds are those that reading finds. -/
theorem mem_mapEntries_iff {α : Type} (xs : List (String × α)) (k : String) (v : α) :
    (k, v) ∈ mapEntries xs ↔ xs.lookup k = some v := by
  induction xs with
  | nil => simp [mapEntries, List.lookup]
  | cons y rest ih =>
    obtain ⟨k', v'⟩ := y
    by_cases h : k = k'
    · subst h
      simp only [mapEntries, List.mem_cons, Prod.mk.injEq, true_and, List.mem_filter, bne_self_eq_false,
        Bool.false_eq_true, and_false, or_false, List.lookup, beq_self_eq_true, Option.some.injEq]
      exact eq_comm
    · have hne : (k == k') = false := by simpa using h
      have hne' : (k != k') = true := by simpa using h
      simp only [mapEntries, List.mem_cons, Prod.mk.injEq, h, false_and, List.mem_filter, ih,
        hne', and_true, false_or, List.lookup, hne]

theorem perm_cons_eraseIdx {α : Type} :
    ∀ (xs : List α) (i : Nat) (x : α), xs.get? i = some x → (x :: xs.eraseIdx i).Perm xs := by
  intro xs
  induction xs with
  | nil => intro i x hx; simp at hx
  | cons y rest ih =>
    intro i x hx
    cases i with
    | zero =>
      simp only [List.get?_cons_zero, Option.some.injEq] at hx
      subst hx
      simp
    | succ j =>
      simp only [List.get?_cons_succ] at hx
      simp only [List.eraseIdx_cons_succ]
      exact (List.Perm.swap y x _).trans (List.Perm.cons y (ih j x hx))

/-- An iteration visits the entries of the list it iterates, each once. -/
theorem rangeOrder_perm {α : Type} :
    ∀ (n seed : Nat) (xs : List α), xs.length ≤ n → (rangeOrder n seed xs).Perm xs := by
  intro n
  induction n with
  | zero =>
    intro seed xs hlen
    have : xs = [] := List.length_eq_zero.1 (Nat.le_zero.1 hlen)
    subst this
    simp [rangeOrder]
  | succ n ih =>
    intro seed xs hlen
    unfold rangeOrder
    cases xs with
    | nil => simp
    | cons a rest =>
      have hlt : seed % (a :: rest).length < (a :: rest).length :=
        Nat.mod_lt _ (by simp)
      cases hx : (a :: rest).get? (seed % (a :: rest).length) with
      | none =>
        rw [List.get?_eq_none] at hx
        omega
      | some x =>
        simp only
        have hlen' : ((a :: rest).eraseIdx (seed % (a :: rest).length)).length ≤ n := by
          rw [List.length_eraseIdx]
          simp only [hlt, if_true]
          simp only [List.length_cons] at hlen ⊢
          omega
        exact (List.Perm.cons _ (ih _ _ hlen')).trans (perm_cons_eraseIdx _ _ _ hx)

/-- The iteration of a map visits the entries that reading finds. -/
theorem mem_mapRange_iff {α : Type} (seed : Nat) (xs : List (String × α)) (k : String)
    (v : α) : (k, v) ∈ mapRange seed xs ↔ xs.lookup k = some v := by
  unfold mapRange
  rw [(rangeOrder_perm _ seed _ (le_refl _)).mem_iff, mem_mapEntries_iff]

end Graphql

namespace Graphql

/-! ## Fields without a definition -/

/-- A field without a definition on the parent type: `resolveField` signals
`hasNoFieldDefs` with a nil value and leaves the state as it is. -/
theorem resolveField_missing (self : Completer) (rt : Runtime) (eCtx : executionContext)
    (parentType : Object) (source : Value) (fieldAST : Field) (rest : List Field)
    (path : responsePath) (s : ExecState)
    (hdef : getFieldDef rt eCtx.Schema (some parentType) (fieldAST.Name.getD "") = none) :
    resolveField self rt eCtx parentType source (fieldAST :: rest) path s =
      (.ok (.null, ⟨true⟩), s) := by
  simp only [resolveField, resolveFieldBody, hdef]

/-- The body of `resolveField` sets `hasNoFieldDefs` exactly when the first
field node names a field without a definition on the parent type. -/
theorem resolveFieldBody_state (self : Completer) (rt : Runtime) (eCtx : executionContext)
    (parentType : Object) (source : Value) (fieldASTs : List Field) (path : responsePath)
    (s : ExecState) :
    (resolveFieldBody self rt eCtx parentType source fieldASTs path s).1.2.resultState.hasNoFieldDefs
        = true ↔
      ∃ fieldAST rest, fieldASTs = fieldAST :: rest ∧
        getFieldDef rt eCtx.Schema (some parentType) (fieldAST.Name.getD "") = none := by
  unfold resolveFieldBody
  cases fieldASTs with
  | nil => simp
  | cons fieldAST rest =>
    simp only
    cases hdef : getFieldDef rt eCtx.Schema (some parentType) (fieldAST.Name.getD "") with
    | none => simp [hdef]
    | some fieldDef =>
      simp only
      have hno : ¬ ∃ fieldAST' rest', fieldAST :: rest = fieldAST' :: rest' ∧
          getFieldDef rt eCtx.Schema (some parentType) (fieldAST'.Name.getD "") = none := by
        rintro ⟨f, r, heq, hnone⟩
        obtain ⟨rfl, _⟩ := List.cons.inj heq
        rw [hdef] at hnone
        cases hnone
      rcases hres : (fieldDef.Resolve.getD (DefaultResolveFn rt))
        { Source := source,
          Args := rt.getArgumentValues fieldDef.Args fieldAST.Arguments eCtx.VariableValues,
          Info := { FieldName := fieldAST.Name.getD "", FieldASTs := fieldAST :: rest,
                    ReturnType := fieldDef.Type_, ParentType := parentType.Name },
          RootValue := eCtx.Root, VariableValues := eCtx.VariableValues } s.world with ⟨o, w⟩
      cases o with
      | aborts msg => simpa using hno
      | returns result err =>
        cases err with
        | some e => simpa using hno
        | none =>
          simp only
          rcases hs : self fieldDef.Type_ (fieldAST :: rest)
            { FieldName := fieldAST.Name.getD "", FieldASTs := fieldAST :: rest,
              ReturnType := fieldDef.Type_, ParentType := parentType.Name } path result
            { s with world := w, trace := s.trace ++ [.resolved path.AsArray] } with ⟨o2, s2⟩
          cases o2 <;> simpa using hno

/-- When `resolveField` returns, it signals `hasNoFieldDefs` exactly when the
first field node names a field without a definition on the parent type. -/
theorem resolveField_state (self : Completer) (rt : Runtime) (eCtx : executionContext)
    (parentType : Object) (source : Value) (fieldASTs : List Field) (path : responsePath)
    (s s' : ExecState) (resolved : Value) (state : resolveFieldResultState)
    (h : resolveField self rt eCtx parentType source fieldASTs path s =
      (.ok (resolved, state), s')) :
    state.hasNoFieldDefs = true ↔
      ∃ fieldAST rest, fieldASTs = fieldAST :: rest ∧
        getFieldDef rt eCtx.Schema (some parentType) (fieldAST.Name.getD "") = none := by
  rw [← resolveFieldBody_state self rt eCtx parentType source fieldASTs path s]
  unfold resolveField at h
  rcases hb : resolveFieldBody self rt eCtx parentType source fieldASTs path s with
    ⟨⟨o, vars⟩, s1⟩
  rw [hb] at h
  cases o with
  | ok u =>
    simp only [Prod.mk.injEq, Outcome.ok.injEq] at h
    rw [← h.1.2]
  | outOfFuel => simp at h
  | panic r =>
    simp only at h
    rcases hh : handleFieldError r (FieldASTsToNodeASTs fieldASTs) path vars.returnType s1 with
      ⟨o3, s3⟩
    rw [hh] at h
    cases o3 with
    | ok u =>
      simp only [Prod.mk.injEq, Outcome.ok.injEq] at h
      rw [← h.1.2]
    | panic r' => simp at h
    | outOfFuel => simp at h

/-- The keys of the map that the loop over the field map returns: the keys
it started with, and the response names of the entries whose field has a
definition on the parent type. -/
theorem executeFieldsLoop_keys (self : Completer) (rt : Runtime) (eCtx : executionContext)
    (parentType : Object) (source : Value) (path : responsePath) :
    ∀ (entries : List (String × List Field)) (finalResults m : List (String × Value))
      (s s' : ExecState),
      executeFieldsLoop self rt eCtx parentType source path entries finalResults s =
        (.ok m, s') →
      ∀ name, name ∈ m.map Prod.fst ↔
        name ∈ finalResults.map Prod.fst ∨
        ∃ fieldASTs, (name, fieldASTs) ∈ entries ∧
          ¬ ∃ fieldAST rest, fieldASTs = fieldAST :: rest ∧
            getFieldDef rt eCtx.Schema (some parentType) (fieldAST.Name.getD "") = none := by
  intro entries
  induction entries with
  | nil =>
    intro finalResults m s s' h name
    simp only [executeFieldsLoop] at h
    obtain ⟨rfl, _⟩ := Exec.pure_eq_ok h
    simp
  | cons e rest ih =>
    obtain ⟨responseName, fieldASTs⟩ := e
    intro finalResults m s s' h name
    unfold executeFieldsLoop at h
    rw [Exec.bind_apply] at h
    rcases hr : resolveField self rt eCtx parentType source fieldASTs
      (path.WithKey (.key responseName)) s with ⟨o, s1⟩
    rw [hr] at h
    cases o with
    | panic r => simp at h
    | outOfFuel => simp at h
    | ok x =>
      obtain ⟨resolved, state⟩ := x
      have hstate := resolveField_state self rt eCtx parentType source fieldASTs _ s s1
        resolved state hr
      simp only at h
      by_cases hno : state.hasNoFieldDefs = true
      · simp only [hno, if_true] at h
        rw [ih finalResults m s1 s' h name]
        constructor
        · rintro (h1 | ⟨fs, hmem, hdef⟩)
          · exact Or.inl h1
          · exact Or.inr ⟨fs, List.mem_cons_of_mem _ hmem, hdef⟩
        · rintro (h1 | ⟨fs, hmem, hdef⟩)
          · exact Or.inl h1
          · rcases List.mem_cons.1 hmem with heq | hmem
            · obtain ⟨_, rfl⟩ := Prod.mk.inj heq
              exact absurd (hstate.1 hno) hdef
            · exact Or.inr ⟨fs, hmem, hdef⟩
      · simp only [hno, Bool.false_eq_true, if_false] at h
        rw [ih _ m s1 s' h name, mem_keys_mapSet]
        constructor
        · rintro ((h1 | h1) | ⟨fs, hmem, hdef⟩)
          · subst h1
            exact Or.inr ⟨fieldASTs, List.mem_cons_self _ _, fun hex => hno (hstate.2 hex)⟩
          · exact Or.inl h1
          · exact Or.inr ⟨fs, List.mem_cons_of_mem _ hmem, hdef⟩
        · rintro (h1 | ⟨fs, hmem, hdef⟩)
          · exact Or.inl (Or.inr h1)
          · rcases List.mem_cons.1 hmem with heq | hmem
            · obtain ⟨rfl, _⟩ := Prod.mk.inj heq
              exact Or.inl (Or.inl rfl)
            · exact Or.inr ⟨fs, hmem, hdef⟩

end Graphql

namespace Graphql

/-! ## The dethunk pass keeps the keys of the response -/

theorem setChild_keys (root : Value) (k : PathKey) (c v : Value)
    (hc : root.child k = some c) : (root.setChild k v).keys = root.keys := by
  cases root <;> cases k <;> simp only [Value.child] at hc <;>
    simp only [Value.setChild, Value.keys]
  exact keys_mapSet_of_mem _ _ _
    ((lookup_isSome_iff_mem_keys _ _).1 (by rw [hc]; rfl))

theorem setAt_keys (root : Value) (position : List PathKey) (new : Value)
    (hroot : position = [] → new.keys = root.keys) :
    (root.setAt position new).keys = root.keys := by
  cases position with
  | nil => exact hroot rfl
  | cons k rest =>
    unfold Value.setAt
    cases hc : root.child k with
    | none => rfl
    | some c => exact setChild_keys root k c _ hc

theorem dethunkMapCalls_keys (fuel : Nat) (rt : Runtime) (eCtx : executionContext)
    (position : List PathKey) :
    ∀ (entries m m' : List (String × Value)) (s s' : ExecState),
      dethunkMapCalls fuel rt eCtx position entries m s = (.ok m', s') →
      (∀ e ∈ entries, e.1 ∈ m.map Prod.fst) → m'.map Prod.fst = m.map Prod.fst := by
  intro entries
  induction entries with
  | nil =>
    intro m m' s s' h _
    simp only [dethunkMapCalls] at h
    obtain ⟨rfl, _⟩ := Exec.pure_eq_ok h
    rfl
  | cons e rest ih =>
    obtain ⟨k, v⟩ := e
    intro m m' s s' h hkeys
    have hk : k ∈ m.map Prod.fst := hkeys (k, v) (List.mem_cons_self _ _)
    have hrest : ∀ e ∈ rest, e.1 ∈ m.map Prod.fst :=
      fun e he => hkeys e (List.mem_cons_of_mem _ he)
    unfold dethunkMapCalls at h
    by_cases hthunk : isThunk v = true
    · simp only [hthunk, if_true] at h
      rw [Exec.bind_apply] at h
      rcases hi : invokeThunk fuel rt eCtx (position ++ [.key k]) v s with ⟨o, s1⟩
      rw [hi] at h
      cases o with
      | panic r => simp at h
      | outOfFuel => simp at h
      | ok produced =>
        simp only at h
        rw [ih _ m' s1 s' h (by
          intro e he
          rw [keys_mapSet_of_mem _ _ _ hk]
          exact hrest e he)]
        exact keys_mapSet_of_mem _ _ _ hk
    · simp only [hthunk, Bool.false_eq_true, if_false] at h
      exact ih m m' s s' h hrest

theorem dethunkMap_root_keys (fuel : Nat) (rt : Runtime) (eCtx : executionContext)
    (position : List PathKey) (d d' : DethunkState) (s s' : ExecState)
    (h : dethunkMap fuel rt eCtx position d s = (.ok d', s')) :
    d'.root.keys = d.root.keys := by
  by_cases hm : ∃ m, d.root.getAt position = some (.map m)
  · obtain ⟨m, hm⟩ := hm
    rw [dethunkMap_of_map _ _ _ _ _ m hm] at h
    simp only [Exec.bind_apply, nextRange] at h
    rcases hc : dethunkMapCalls fuel rt eCtx position (mapRange (rt.rangeSeed s.ranges) m) m
      { s with ranges := s.ranges + 1 } with ⟨o, s1⟩
    rw [hc] at h
    cases o with
    | panic r => simp at h
    | outOfFuel => simp at h
    | ok m' =>
      simp only at h
      obtain ⟨rfl, _⟩ := Exec.pure_eq_ok h
      have hkeys := dethunkMapCalls_keys fuel rt eCtx position _ m m' _ s1 hc (by
        rintro ⟨k, v⟩ he
        exact (lookup_isSome_iff_mem_keys m k).1 (by
          rw [(mem_mapRange_iff _ m k v).1 he]
          rfl))
      apply setAt_keys
      intro hnil
      subst hnil
      simp only [Value.getAt, Option.some.injEq] at hm
      rw [hm]
      exact hkeys
  · rw [dethunkMap_of_other _ _ _ _ _ (fun m hm' => hm ⟨m, hm'⟩)] at h
    obtain ⟨rfl, _⟩ := Exec.pure_eq_ok h
    rfl

theorem dethunkList_root_keys (fuel : Nat) (rt : Runtime) (eCtx : executionContext)
    (position : List PathKey) (d d' : DethunkState) (s s' : ExecState)
    (h : dethunkList fuel rt eCtx position d s = (.ok d', s')) :
    d'.root.keys = d.root.keys := by
  by_cases hl : ∃ xs, d.root.getAt position = some (.list xs)
  · obtain ⟨xs, hl⟩ := hl
    rw [dethunkList_of_list _ _ _ _ _ xs hl] at h
    simp only [Exec.bind_apply] at h
    rcases hc : dethunkListCalls fuel rt eCtx position 0 xs s with ⟨o, s1⟩
    rw [hc] at h
    cases o with
    | panic r => simp at h
    | outOfFuel => simp at h
    | ok xs' =>
      simp only at h
      obtain ⟨rfl, _⟩ := Exec.pure_eq_ok h
      apply setAt_keys
      intro hnil
      subst hnil
      simp only [Value.getAt, Option.some.injEq] at hl
      rw [hl]
      rfl
  · rw [dethunkList_of_other _ _ _ _ _ (fun xs hl' => hl ⟨xs, hl'⟩)] at h
    obtain ⟨rfl, _⟩ := Exec.pure_eq_ok h
    rfl

theorem dethunkLoop_root_keys (fuel : Nat) (rt : Runtime) (eCtx : executionContext) :
    ∀ (steps : Nat) (d d' : DethunkState) (s s' : ExecState),
      dethunkLoop fuel rt eCtx steps d s = (.ok d', s') → d'.root.keys = d.root.keys := by
  intro steps
  induction steps with
  | zero =>
    intro d d' s s' h
    cases hq : d.DethunkFuncs with
    | nil =>
      rw [dethunkLoop_nil _ _ _ _ _ hq] at h
      obtain ⟨rfl, _⟩ := Exec.pure_eq_ok h
      rfl
    | cons f rest =>
      rw [dethunkLoop_zero _ _ _ _ f rest hq] at h
      simp [outOfFuel] at h
  | succ steps ih =>
    intro d d' s s' h
    cases hq : d.DethunkFuncs with
    | nil =>
      rw [dethunkLoop_nil _ _ _ _ _ hq] at h
      obtain ⟨rfl, _⟩ := Exec.pure_eq_ok h
      rfl
    | cons f rest =>
      rw [dethunkLoop_succ _ _ _ _ _ f rest hq, Exec.bind_apply] at h
      rcases hr : runTask fuel rt eCtx f { d with DethunkFuncs := rest } s with ⟨o, s1⟩
      rw [hr] at h
      cases o with
      | panic r => simp at h
      | outOfFuel => simp at h
      | ok d1 =>
        simp only at h
        rw [ih d1 d' s1 s' h]
        cases f with
        | map position =>
          exact dethunkMap_root_keys fuel rt eCtx position { d with DethunkFuncs := rest } d1 s
            s1 hr
        | list position =>
          exact dethunkList_root_keys fuel rt eCtx position { d with DethunkFuncs := rest } d1 s
            s1 hr

/-- The dethunk pass returns a map with the keys of the map it was given. -/
theorem dethunkWithBreadthFirstSearch_keys (fuel : Nat) (rt : Runtime)
    (eCtx : executionContext) (finalResults m : List (String × Value)) (s s' : ExecState)
    (h : dethunkWithBreadthFirstSearch fuel rt eCtx finalResults s = (.ok m, s')) :
    m.map Prod.fst = finalResults.map Prod.fst := by
  unfold dethunkWithBreadthFirstSearch at h
  rw [Exec.bind_apply] at h
  rcases h1 : dethunkMap fuel rt eCtx [] { root := .map finalResults, DethunkFuncs := [] } s
    with ⟨o, s1⟩
  rw [h1] at h
  cases o with
  | panic r => simp at h
  | outOfFuel => simp at h
  | ok d =>
    simp only at h
    rw [Exec.bind_apply] at h
    rcases h2 : dethunkLoop fuel rt eCtx fuel d s1 with ⟨o2, s2⟩
    rw [h2] at h
    cases o2 with
    | panic r => simp at h
    | outOfFuel => simp at h
    | ok d' =>
      simp only at h
      have hk1 := dethunkMap_root_keys fuel rt eCtx [] _ d s s1 h1
      have hk2 := dethunkLoop_root_keys fuel rt eCtx fuel d d' s1 s2 h2
      rw [hk1] at hk2
      cases hroot : d'.root with
      | map m' =>
        rw [hroot] at h hk2
        simp only at h
        obtain ⟨rfl, _⟩ := Exec.pure_eq_ok h
        exact hk2
      | _ =>
        rw [hroot] at h
        simp only at h
        obtain ⟨rfl, _⟩ := Exec.pure_eq_ok h
        rfl

end Graphql

namespace Graphql

/-! ## The keys of the maps that the field loops return -/

theorem KeysOfDefined.of_loop (rt : Runtime) (schema : Schema) (parentType : Object)
    (fields : List (String × List Field)) (m : List (String × Value))
    (h : ∀ name, name ∈ m.map Prod.fst ↔
      ∃ fieldASTs, fields.lookup name = some fieldASTs ∧
        ¬ ∃ fieldAST rest, fieldASTs = fieldAST :: rest ∧
          getFieldDef rt schema (some parentType) (fieldAST.Name.getD "") = none) :
    KeysOfDefined rt schema parentType fields m := by
  constructor
  · intro name hname
    obtain ⟨fieldASTs, hlookup, _⟩ := (h name).1 hname
    rw [hlookup]
    rfl
  · intro name fieldAST rest hlookup
    rw [h name]
    constructor
    · rintro ⟨fieldASTs, hl, hdef⟩ hnone
      rw [hlookup] at hl
      exact hdef ⟨fieldAST, rest, (Option.some.inj hl).symm, hnone⟩
    · intro hdef
      refine ⟨_, hlookup, ?_⟩
      rintro ⟨f, r, heq, hnone⟩
      obtain ⟨rfl, _⟩ := List.cons.inj heq
      exact hdef hnone

theorem KeysOfDefined.of_keys {rt : Runtime} {schema : Schema} {parentType : Object}
    {fields : List (String × List Field)} {m m' : List (String × Value)}
    (h : KeysOfDefined rt schema parentType fields m)
    (hkeys : m'.map Prod.fst = m.map Prod.fst) :
    KeysOfDefined rt schema parentType fields m' := by
  unfold KeysOfDefined
  rw [hkeys]
  exact h

theorem executeFieldsLoop_keysOfDefined (self : Completer) (rt : Runtime)
    (eCtx : executionContext) (parentType : Object) (source : Value) (path : responsePath)
    (seed : Nat) (fields : List (String × List Field)) (m : List (String × Value))
    (s s' : ExecState)
    (h : executeFieldsLoop self rt eCtx parentType source path (mapRange seed fields) [] s =
      (.ok m, s')) :
    KeysOfDefined rt eCtx.Schema parentType fields m := by
  apply KeysOfDefined.of_loop
  intro name
  rw [executeFieldsLoop_keys self rt eCtx parentType source path _ [] m s s' h name]
  simp only [List.map_nil, List.not_mem_nil, false_or, mem_mapRange_iff]

theorem executeSubFields_keys (self : Completer) (rt : Runtime) (eCtx : executionContext)
    (p : executeFieldsParams) (m : List (String × Value)) (s s' : ExecState)
    (h : executeSubFields self rt eCtx p s = (.ok m, s')) :
    KeysOfDefined rt eCtx.Schema p.ParentType p.Fields m := by
  simp only [executeSubFields, Exec.bind_apply, nextRange] at h
  exact executeFieldsLoop_keysOfDefined self rt eCtx _ _ _ _ _ m _ s' h

theorem executeFields_keys (fuel : Nat) (rt : Runtime) (eCtx : executionContext)
    (p : executeFieldsParams) (result : Result) (s s' : ExecState)
    (h : executeFields fuel rt eCtx p s = (.ok result, s')) :
    ∃ m, result.Data = .map m ∧ KeysOfDefined rt eCtx.Schema p.ParentType p.Fields m := by
  unfold executeFields at h
  rw [Exec.bind_apply] at h
  rcases h1 : executeSubFields (completeValueCatchingError rt eCtx fuel) rt eCtx p s with
    ⟨o, s1⟩
  rw [h1] at h
  cases o with
  | panic r => simp at h
  | outOfFuel => simp at h
  | ok m1 =>
    simp only at h
    rw [Exec.bind_apply] at h
    rcases h2 : dethunkWithBreadthFirstSearch fuel rt eCtx m1 s1 with ⟨o2, s2⟩
    rw [h2] at h
    cases o2 with
    | panic r => simp at h
    | outOfFuel => simp at h
    | ok m2 =>
      simp only [resultOf, Prod.mk.injEq, Outcome.ok.injEq] at h
      refine ⟨m2, by rw [← h.1], ?_⟩
      exact (executeSubFields_keys _ rt eCtx p m1 s s1 h1).of_keys
        (dethunkWithBreadthFirstSearch_keys fuel rt eCtx m1 m2 s1 s2 h2)

theorem executeFieldsSerially_keys (fuel : Nat) (rt : Runtime) (eCtx : executionContext)
    (p : executeFieldsParams) (result : Result) (s s' : ExecState)
    (h : executeFieldsSerially fuel rt eCtx p s = (.ok result, s')) :
    ∃ m, result.Data = .map m ∧ KeysOfDefined rt eCtx.Schema p.ParentType p.Fields m := by
  unfold executeFieldsSerially at h
  simp only [Exec.bind_apply, nextRange] at h
  rcases h1 : executeFieldsLoop (completeValueCatchingError rt eCtx fuel) rt eCtx p.ParentType
    (sourceOrEmpty p.Source) p.Path (mapRange (rt.rangeSeed s.ranges) p.Fields) []
    { s with ranges := s.ranges + 1 } with ⟨o, s1⟩
  rw [h1] at h
  cases o with
  | panic r => simp at h
  | outOfFuel => simp at h
  | ok m1 =>
    simp only at h
    rcases h2 : dethunkWithBreadthFirstSearch fuel rt eCtx m1 s1 with ⟨o2, s2⟩
    rw [h2] at h
    cases o2 with
    | panic r => simp at h
    | outOfFuel => simp at h
    | ok m2 =>
      simp only [resultOf, Prod.mk.injEq, Outcome.ok.injEq] at h
      refine ⟨m2, by rw [← h.1], ?_⟩
      exact (executeFieldsLoop_keysOfDefined _ rt eCtx _ _ _ _ _ m1 _ s1 h1).of_keys
        (dethunkWithBreadthFirstSearch_keys fuel rt eCtx m1 m2 s1 s2 h2)

/-- C13: a field without a definition is left out of the response.  For a
collected entry whose first field node names a field for which `getFieldDef`
finds no definition on the parent type, `resolveField` signals
`hasNoFieldDefs` with a nil value and leaves the state, the errors list
included, as it is.  When `executeSubFields` returns a map, and when
`executeFieldsSerially` returns a result, whose data is then a map, the map
has no key besides the response names of the field map, and the response name
of an entry is a key of the map (with a value that may be nil) iff its field
has a definition. -/
theorem missing_field_definition_omitted (rt : Runtime) (eCtx : executionContext) :
    (∀ (self : Completer) (parentType : Object) (source : Value) (fieldAST : Field)
      (rest : List Field) (path : responsePath) (s : ExecState),
      getFieldDef rt eCtx.Schema (some parentType) (fieldAST.Name.getD "") = none →
      resolveField self rt eCtx parentType source (fieldAST :: rest) path s =
        (.ok (.null, { hasNoFieldDefs := true }), s)) ∧
    (∀ (self : Completer) (p : executeFieldsParams) (m : List (String × Value))
      (s s' : ExecState),
      executeSubFields self rt eCtx p s = (.ok m, s') →
      KeysOfDefined rt eCtx.Schema p.ParentType p.Fields m) ∧
    (∀ (fuel : Nat) (p : executeFieldsParams) (result : Result) (s s' : ExecState),
      executeFieldsSerially fuel rt eCtx p s = (.ok result, s') →
      ∃ m, result.Data = .map m ∧ KeysOfDefined rt eCtx.Schema p.ParentType p.Fields m) :=
  ⟨fun self parentType source fieldAST rest path s hdef =>
      resolveField_missing self rt eCtx parentType source fieldAST rest path s hdef,
    fun self p m s s' h => executeSubFields_keys self rt eCtx p m s s' h,
    fun fuel p result s s' h => executeFieldsSerially_keys fuel rt eCtx p result s s' h⟩

/-- C13, at a concrete input: the fields `a` and `missing` on the type
`Query`, which defines `a: Int` and `b: Int`; the map has the key `a` only. -/
theorem missing_field_definition_omitted_witness :
    KeysOfDefined testRuntime (queryContext oneAndTwo).Schema (queryType oneAndTwo)
      [("a", [fieldNode "a" 3 none]), ("missing", [fieldNode "missing" 5 none])]
      [("a", .int 1)] :=
  (missing_field_definition_omitted testRuntime (queryContext oneAndTwo)).2.1
    (completeValueCatchingError testRuntime (queryContext oneAndTwo) 1)
    { ParentType := queryType oneAndTwo, Source := .null,
      Fields := [("a", [fieldNode "a" 3 none]), ("missing", [fieldNode "missing" 5 none])],
      Path := .root }
    [("a", .int 1)] (initialState .null)
    { Errors := [], world := .null, ranges := 1, trace := [.resolved [.key "a"]] } rfl

/-- C11: `executeFieldsSerially` does not keep the document order.  The
top-level fields of `mutation { first second }` are resolved in the order in
which the field map, a map of the host language, is iterated, which is not
specified.  When the iteration visits the entry of `second` before the entry
of `first`, the delegate of `second` is called first and does not observe the
effect of the delegate of `first`: the data is `{second: "initial", first:
"done"}`.  When the iteration visits the entries in the order of their
insertion, the delegates are called in document order and the data is
`{first: "done", second: "written by first"}`. -/
theorem mutation_fields_in_iteration_order :
    (traceOf (runMutation secondFirstRuntime) =
        some [.resolved [.key "second"], .resolved [.key "first"]] ∧
      dataOf (runMutation secondFirstRuntime) =
        some (.map [("second", .str "initial"), ("first", .str "done")]) ∧
      errorsOf (runMutation secondFirstRuntime) = some []) ∧
    (traceOf (runMutation testRuntime) =
        some [.resolved [.key "first"], .resolved [.key "second"]] ∧
      dataOf (runMutation testRuntime) =
        some (.map [("first", .str "done"), ("second", .str "written by first")]) ∧
      errorsOf (runMutation testRuntime) = some []) :=
  ⟨⟨by decide!, dataOf_eq_of_dataIs _ _ (by decide!), by decide!⟩,
   ⟨by decide!, dataOf_eq_of_dataIs _ _ (by decide!), by decide!⟩⟩

end Graphql

namespace Graphql

/-! ## Calls that may abort -/

theorem Outcome.ok_bind {α β : Type} (a : α) (f : α → Outcome β) :
    (Outcome.ok a >>= f) = f a := rfl

theorem Outcome.panic_bind {α β : Type} (r : PanicValue) (f : α → Outcome β) :
    ((Outcome.panic r : Outcome α) >>= f) = .panic r := rfl

theorem Outcome.outOfFuel_bind {α β : Type} (f : α → Outcome β) :
    ((Outcome.outOfFuel : Outcome α) >>= f) = .outOfFuel := rfl

theorem Outcome.pure_is_ok {α : Type} (a : α) : (pure a : Outcome α) = .ok a := rfl

theorem Outcome.bind_pure_eq {α : Type} (m : Outcome α) :
    (m >>= fun a => (pure a : Outcome α)) = m := by
  cases m <;> rfl

theorem Outcome.bind_eq_ok {α β : Type} (m : Outcome α) (f : α → Outcome β) (b : β) :
    (m >>= f) = .ok b ↔ ∃ a, m = .ok a ∧ f a = .ok b := by
  cases m with
  | ok a =>
    rw [Outcome.ok_bind]
    constructor
    · intro h
      exact ⟨a, rfl, h⟩
    · rintro ⟨a', ha, h⟩
      cases ha
      exact h
  | panic r =>
    rw [Outcome.panic_bind]
    constructor
    · intro h
      cases h
    · rintro ⟨a', ha, _⟩
      cases ha
  | outOfFuel =>
    rw [Outcome.outOfFuel_bind]
    constructor
    · intro h
      cases h
    · rintro ⟨a', ha, _⟩
      cases ha

/-! ## Type conditions -/

/-- The test of a type condition needs no fuel. -/
theorem typeConditionMatches_ne_outOfFuel (rt : Runtime) (eCtx : executionContext)
    (typeCondition : Option String) (ttype : Object) :
    typeConditionMatches rt eCtx typeCondition ttype ≠ .outOfFuel := by
  unfold typeConditionMatches
  cases typeCondition with
  | none => intro h; cases h
  | some named =>
    simp only
    cases rt.typeFromAST eCtx.Schema named with
    | error err => intro h; cases h
    | ok t =>
      cases t with
      | none => intro h; cases h
      | some conditionalType =>
        simp only
        split
        · intro h; cases h
        · split
          · intro h; cases h
          · cases conditionalType <;> intro h <;> cases h

theorem doesFragmentConditionMatch_ne_outOfFuel (rt : Runtime) (eCtx : executionContext)
    (fragment : FragmentNode) (ttype : Object) :
    doesFragmentConditionMatch rt eCtx fragment ttype ≠ .outOfFuel := by
  cases fragment with
  | definition tc => exact typeConditionMatches_ne_outOfFuel rt eCtx tc ttype
  | inline tc => exact typeConditionMatches_ne_outOfFuel rt eCtx tc ttype
  | otherNode => intro h; cases h

/-! ## One selection at a time -/

theorem collectFields_nil (rt : Runtime) (eCtx : executionContext) (fuel : Nat)
    (runtimeType : Object) (acc : Collected) :
    collectFields rt eCtx (fuel + 1) runtimeType (some []) acc = .ok acc := rfl

/-- The collection of a list of selections is that of the first selection
followed by that of the rest. -/
theorem collectFields_cons (rt : Runtime) (eCtx : executionContext) (fuel : Nat)
    (runtimeType : Object) (iSelection : Selection) (rest : List Selection) (acc : Collected) :
    collectFields rt eCtx (fuel + 1) runtimeType (some (iSelection :: rest)) acc =
      (collectFields rt eCtx (fuel + 1) runtimeType (some [iSelection]) acc >>=
        fun acc1 => collectFields rt eCtx (fuel + 1) runtimeType (some rest) acc1) := by
  simp only [collectFields, List.foldlM_cons, List.foldlM_nil, Outcome.bind_pure_eq]

theorem collectFields_field (rt : Runtime) (eCtx : executionContext) (fuel : Nat)
    (runtimeType : Object) (selection : Field) (acc : Collected) :
    collectFields rt eCtx (fuel + 1) runtimeType (some [.field selection]) acc =
      if !shouldIncludeNode rt eCtx selection.Directives then .ok acc
      else
        .ok (mapSet
          (if (acc.1.lookup (getFieldEntryKey selection)).isNone then
            mapSet acc.1 (getFieldEntryKey selection) [] else acc.1)
          (getFieldEntryKey selection)
          (((if (acc.1.lookup (getFieldEntryKey selection)).isNone then
            mapSet acc.1 (getFieldEntryKey selection) [] else acc.1).lookup
              (getFieldEntryKey selection)).getD [] ++ [selection]), acc.2) := by
  simp only [collectFields, List.foldlM_cons, List.foldlM_nil, Outcome.bind_pure_eq]

/-- An inline fragment that its directives reject leaves the accumulator as
it is, and its type condition is not tested. -/
theorem collectFields_inlineFragment_rejected (rt : Runtime) (eCtx : executionContext)
    (fuel : Nat) (runtimeType : Object) (typeCondition : Option String)
    (directives : List Directive) (selectionSet : SelectionSet) (acc : Collected)
    (hinclude : shouldIncludeNode rt eCtx directives = false) :
    collectFields rt eCtx (fuel + 1) runtimeType
        (some [.inlineFragment typeCondition directives selectionSet]) acc = .ok acc := by
  simp only [collectFields, List.foldlM_cons, List.foldlM_nil, Outcome.bind_pure_eq, hinclude, Bool.not_false, if_true]

/-- An inline fragment whose type condition does not match leaves the
accumulator as it is. -/
theorem collectFields_inlineFragment_mismatch (rt : Runtime) (eCtx : executionContext)
    (fuel : Nat) (runtimeType : Object) (typeCondition : Option String)
    (directives : List Directive) (selectionSet : SelectionSet) (acc : Collected)
    (hinclude : shouldIncludeNode rt eCtx directives = true)
    (hmatch : doesFragmentConditionMatch rt eCtx (.inline typeCondition) runtimeType =
      .ok false) :
    collectFields rt eCtx (fuel + 1) runtimeType
        (some [.inlineFragment typeCondition directives selectionSet]) acc = .ok acc := by
  simp only [collectFields, List.foldlM_cons, List.foldlM_nil, Outcome.bind_pure_eq, hinclude, hmatch, Bool.not_true, Bool.false_eq_true, if_false]

/-- An inline fragment whose directives pass and whose type condition matches
is entered. -/
theorem collectFields_inlineFragment_enter (rt : Runtime) (eCtx : executionContext)
    (fuel : Nat) (runtimeType : Object) (typeCondition : Option String)
    (directives : List Directive) (selectionSet : SelectionSet) (acc : Collected)
    (hinclude : shouldIncludeNode rt eCtx directives = true)
    (hmatch : doesFragmentConditionMatch rt eCtx (.inline typeCondition) runtimeType =
      .ok true) :
    collectFields rt eCtx (fuel + 1) runtimeType
        (some [.inlineFragment typeCondition directives selectionSet]) acc =
      collectFields rt eCtx fuel runtimeType selectionSet acc := by
  simp only [collectFields, List.foldlM_cons, List.foldlM_nil, Outcome.bind_pure_eq, hinclude, hmatch, Bool.not_true, Bool.false_eq_true, if_false]

/-- An inline fragment whose directives pass and the test of whose type
condition aborts makes the collection abort. -/
theorem collectFields_inlineFragment_abort (rt : Runtime) (eCtx : executionContext)
    (fuel : Nat) (runtimeType : Object) (typeCondition : Option String)
    (directives : List Directive) (selectionSet : SelectionSet) (acc : Collected)
    (r : PanicValue)
    (hinclude : shouldIncludeNode rt eCtx directives = true)
    (hmatch : doesFragmentConditionMatch rt eCtx (.inline typeCondition) runtimeType =
      .panic r) :
    collectFields rt eCtx (fuel + 1) runtimeType
        (some [.inlineFragment typeCondition directives selectionSet]) acc = .panic r := by
  simp only [collectFields, List.foldlM_cons, List.foldlM_nil, Outcome.bind_pure_eq, hinclude, hmatch, Bool.not_true, Bool.false_eq_true, if_false]

/-- A spread whose name is visited, or that its directives reject, leaves
the accumulator as it is. -/
theorem collectFields_fragmentSpread_skip (rt : Runtime) (eCtx : executionContext) (fuel : Nat)
    (runtimeType : Object) (name : Option String) (directives : List Directive)
    (acc : Collected)
    (hskip : (acc.2.lookup (name.getD "") == some true ||
      !shouldIncludeNode rt eCtx directives) = true) :
    collectFields rt eCtx (fuel + 1) runtimeType (some [.fragmentSpread name directives]) acc =
      .ok acc := by
  simp only [collectFields, List.foldlM_cons, List.foldlM_nil, Outcome.bind_pure_eq, hskip, if_true]

/-- A spread that is not passed by and names no fragment of the document
marks its name. -/
theorem collectFields_fragmentSpread_missing (rt : Runtime) (eCtx : executionContext)
    (fuel : Nat) (runtimeType : Object) (name : Option String) (directives : List Directive)
    (acc : Collected)
    (hskip : (acc.2.lookup (name.getD "") == some true ||
      !shouldIncludeNode rt eCtx directives) = false)
    (hfrag : eCtx.Fragments.lookup (name.getD "") = none) :
    collectFields rt eCtx (fuel + 1) runtimeType (some [.fragmentSpread name directives]) acc =
      .ok (acc.1, mapSet acc.2 (name.getD "") true) := by
  simp only [collectFields, List.foldlM_cons, List.foldlM_nil, Outcome.bind_pure_eq, hskip, hfrag, Bool.false_eq_true, if_false]

/-- A spread that is not passed by and names a definition that is not a
fragment definition marks its name. -/
theorem collectFields_fragmentSpread_other (rt : Runtime) (eCtx : executionContext)
    (fuel : Nat) (runtimeType : Object) (name : Option String) (directives : List Directive)
    (acc : Collected) (definition : Definition)
    (hskip : (acc.2.lookup (name.getD "") == some true ||
      !shouldIncludeNode rt eCtx directives) = false)
    (hfrag : eCtx.Fragments.lookup (name.getD "") = some definition)
    (hother : ∀ fragment, definition ≠ .fragment fragment) :
    collectFields rt eCtx (fuel + 1) runtimeType (some [.fragmentSpread name directives]) acc =
      .ok (acc.1, mapSet acc.2 (name.getD "") true) := by
  cases definition with
  | fragment fragment => exact absurd rfl (hother fragment)
  | operation d =>
    simp only [collectFields, List.foldlM_cons, List.foldlM_nil, Outcome.bind_pure_eq, hskip, hfrag, Bool.false_eq_true, if_false]
  | other kind =>
    simp only [collectFields, List.foldlM_cons, List.foldlM_nil, Outcome.bind_pure_eq, hskip, hfrag, Bool.false_eq_true, if_false]

/-- A spread that is not passed by and names a fragment whose type condition
does not match marks its name. -/
theorem collectFields_fragmentSpread_mismatch (rt : Runtime) (eCtx : executionContext)
    (fuel : Nat) (runtimeType : Object) (name : Option String) (directives : List Directive)
    (acc : Collected) (fragment : FragmentDefinition)
    (hskip : (acc.2.lookup (name.getD "") == some true ||
      !shouldIncludeNode rt eCtx directives) = false)
    (hfrag : eCtx.Fragments.lookup (name.getD "") = some (.fragment fragment))
    (hmatch : doesFragmentConditionMatch rt eCtx (.definition fragment.TypeCondition)
      runtimeType = .ok false) :
    collectFields rt eCtx (fuel + 1) runtimeType (some [.fragmentSpread name directives]) acc =
      .ok (acc.1, mapSet acc.2 (name.getD "") true) := by
  simp only [collectFields, List.foldlM_cons, List.foldlM_nil, Outcome.bind_pure_eq, hskip, hfrag, hmatch, Bool.false_eq_true, if_false]

/-- A spread that is not passed by and names a fragment whose type condition
matches marks its name and enters the selection set of the fragment. -/
theorem collectFields_fragmentSpread_enter (rt : Runtime) (eCtx : executionContext)
    (fuel : Nat) (runtimeType : Object) (name : Option String) (directives : List Directive)
    (acc : Collected) (fragment : FragmentDefinition)
    (hskip : (acc.2.lookup (name.getD "") == some true ||
      !shouldIncludeNode rt eCtx directives) = false)
    (hfrag : eCtx.Fragments.lookup (name.getD "") = some (.fragment fragment))
    (hmatch : doesFragmentConditionMatch rt eCtx (.definition fragment.TypeCondition)
      runtimeType = .ok true) :
    collectFields rt eCtx (fuel + 1) runtimeType (some [.fragmentSpread name directives]) acc =
      collectFields rt eCtx fuel runtimeType fragment.SelectionSet
        (acc.1, mapSet acc.2 (name.getD "") true) := by
  simp only [collectFields, List.foldlM_cons, List.foldlM_nil, Outcome.bind_pure_eq, hskip, hfrag, hmatch, Bool.false_eq_true, if_false]

/-- A spread that is not passed by and names a fragment the test of whose
type condition aborts makes the collection abort. -/
theorem collectFields_fragmentSpread_abort (rt : Runtime) (eCtx : executionContext)
    (fuel : Nat) (runtimeType : Object) (name : Option String) (directives : List Directive)
    (acc : Collected) (fragment : FragmentDefinition) (r : PanicValue)
    (hskip : (acc.2.lookup (name.getD "") == some true ||
      !shouldIncludeNode rt eCtx directives) = false)
    (hfrag : eCtx.Fragments.lookup (name.getD "") = some (.fragment fragment))
    (hmatch : doesFragmentConditionMatch rt eCtx (.definition fragment.TypeCondition)
      runtimeType = .panic r) :
    collectFields rt eCtx (fuel + 1) runtimeType (some [.fragmentSpread name directives]) acc =
      .panic r := by
  simp only [collectFields, List.foldlM_cons, List.foldlM_nil, Outcome.bind_pure_eq, hskip, hfrag, hmatch, Bool.false_eq_true, if_false]

end Graphql

namespace Graphql

/-! ## The field map against the traversal -/

theorem Collects.empty : Collects [] [] :=
  ⟨by simp, by intro name l h; simp [List.lookup] at h, by intro name _; rfl⟩

/-- Adding an included field node to the field map. -/
theorem Collects.add {fields : List (String × List Field)} {included : List Field}
    (h : Collects fields included) (selection : Field) :
    Collects
      (mapSet (if (fields.lookup (getFieldEntryKey selection)).isNone then
          mapSet fields (getFieldEntryKey selection) [] else fields)
        (getFieldEntryKey selection)
        (((if (fields.lookup (getFieldEntryKey selection)).isNone then
            mapSet fields (getFieldEntryKey selection) [] else fields).lookup
          (getFieldEntryKey selection)).getD [] ++ [selection]))
      (included ++ [selection]) := by
  obtain ⟨hnd, hsome, hnone⟩ := h
  have hold : ((if (fields.lookup (getFieldEntryKey selection)).isNone then
      mapSet fields (getFieldEntryKey selection) [] else fields).lookup
        (getFieldEntryKey selection)).getD [] =
      included.filter (fun f => getFieldEntryKey f = getFieldEntryKey selection) := by
    cases hl : fields.lookup (getFieldEntryKey selection) with
    | none =>
      simp only [Option.isNone_none, if_true, lookup_mapSet_self, Option.getD_some]
      exact (hnone _ hl).symm
    | some l =>
      simp only [Option.isNone_some, Bool.false_eq_true, if_false, hl, Option.getD_some]
      exact (hsome _ l hl).2
  have hother : ∀ name, name ≠ getFieldEntryKey selection →
      (if (fields.lookup (getFieldEntryKey selection)).isNone then
        mapSet fields (getFieldEntryKey selection) [] else fields).lookup name =
        fields.lookup name := by
    intro name hne
    split
    · exact lookup_mapSet_ne _ _ _ _ hne
    · rfl
  rw [hold]
  refine ⟨?_, ?_, ?_⟩
  · apply keys_mapSet_nodup
    split
    · exact keys_mapSet_nodup _ _ _ hnd
    · exact hnd
  · intro name l hl
    by_cases hname : name = getFieldEntryKey selection
    · subst hname
      rw [lookup_mapSet_self] at hl
      have hl := Option.some.inj hl
      subst hl
      refine ⟨by simp, ?_⟩
      simp [List.filter_append]
    · rw [lookup_mapSet_ne _ _ _ _ hname, hother name hname] at hl
      obtain ⟨h1, h2⟩ := hsome name l hl
      refine ⟨h1, ?_⟩
      rw [h2, List.filter_append]
      have : ([selection].filter (fun f => decide (getFieldEntryKey f = name))) = [] := by
        have hne : ¬ getFieldEntryKey selection = name := fun h => hname h.symm
        simp [List.filter_cons, hne]
      rw [this, List.append_nil]
  · intro name hl
    by_cases hname : name = getFieldEntryKey selection
    · subst hname
      rw [lookup_mapSet_self] at hl
      cases hl
    · rw [lookup_mapSet_ne _ _ _ _ hname, hother name hname] at hl
      rw [List.filter_append, hnone name hl]
      have hne : ¬ getFieldEntryKey selection = name := fun h => hname h.symm
      simp [List.filter_cons, hne]

/-- The field map that `collectFields` returns holds, on top of what it held,
the field nodes of the traversal, and the visited names are those of the
traversal. -/
theorem collectFields_collects (rt : Runtime) (eCtx : executionContext) :
    ∀ (fuel : Nat) (runtimeType : Object) (selectionSet : SelectionSet)
      (fields0 : List (String × List Field)) (visited0 : List (String × Bool))
      (included0 : List Field) (fields : List (String × List Field))
      (visited : List (String × Bool)),
      Collects fields0 included0 →
      collectFields rt eCtx fuel runtimeType selectionSet (fields0, visited0) =
        .ok (fields, visited) →
      ∃ included, includedFields rt eCtx fuel runtimeType selectionSet (included0, visited0) =
          some (included, visited) ∧ Collects fields included := by
  intro fuel
  induction fuel with
  | zero =>
    intro runtimeType selectionSet fields0 visited0 included0 fields visited hc h
    cases selectionSet with
    | none =>
      simp only [collectFields, Outcome.ok.injEq, Prod.mk.injEq] at h
      obtain ⟨rfl, rfl⟩ := h
      exact ⟨included0, by simp only [includedFields], hc⟩
    | some selections => simp [collectFields] at h
  | succ fuel ih =>
    intro runtimeType selectionSet fields0 visited0 included0 fields visited hc h
    cases selectionSet with
    | none =>
      simp only [collectFields, Outcome.ok.injEq, Prod.mk.injEq] at h
      obtain ⟨rfl, rfl⟩ := h
      exact ⟨included0, by simp only [includedFields], hc⟩
    | some selections =>
      simp only [collectFields] at h
      simp only [includedFields]
      induction selections generalizing fields0 visited0 included0 with
      | nil =>
        simp only [List.foldlM_nil, Outcome.pure_is_ok, Outcome.ok.injEq, Prod.mk.injEq] at h
        obtain ⟨rfl, rfl⟩ := h
        exact ⟨included0, rfl, hc⟩
      | cons iSelection rest ihs =>
        simp only [List.foldlM_cons] at h
        rw [Outcome.bind_eq_ok] at h
        obtain ⟨⟨fields1, visited1⟩, hstep, hrest⟩ := h
        simp only [List.foldlM_cons, Option.bind_eq_bind]
        cases iSelection with
        | field selection =>
          simp only at hstep
          by_cases hinc : shouldIncludeNode rt eCtx selection.Directives = true
          · simp only [hinc, Bool.not_true, Bool.false_eq_true, if_false, Outcome.ok.injEq,
              Prod.mk.injEq] at hstep
            obtain ⟨rfl, rfl⟩ := hstep
            simp only [hinc, if_true, Option.some_bind]
            exact ihs _ _ _ (hc.add selection) hrest
          · simp only [hinc, Bool.not_false, if_true, Outcome.ok.injEq, Prod.mk.injEq] at hstep
            obtain ⟨rfl, rfl⟩ := hstep
            simp only [hinc, Bool.false_eq_true, if_false, Option.some_bind]
            exact ihs _ _ _ hc hrest
        | inlineFragment typeCondition directives selectionSet =>
          simp only at hstep
          cases hinc : shouldIncludeNode rt eCtx directives with
          | false =>
            simp only [hinc, Bool.not_false, if_true, Outcome.ok.injEq, Prod.mk.injEq] at hstep
            obtain ⟨rfl, rfl⟩ := hstep
            simp only [hinc, Bool.not_false, if_true, Option.some_bind]
            exact ihs _ _ _ hc hrest
          | true =>
            simp only [hinc, Bool.not_true, Bool.false_eq_true, if_false] at hstep
            simp only [hinc, Bool.not_true, Bool.false_eq_true, if_false]
            cases hm : doesFragmentConditionMatch rt eCtx (.inline typeCondition)
                runtimeType with
            | ok b =>
              cases b with
              | true =>
                simp only [hm] at hstep
                obtain ⟨included1, hinc1, hc1⟩ := ih _ _ _ _ included0 _ _ hc hstep
                simp only [hinc1, Option.some_bind]
                exact ihs _ _ _ hc1 hrest
              | false =>
                simp only [hm, Outcome.ok.injEq, Prod.mk.injEq] at hstep
                obtain ⟨rfl, rfl⟩ := hstep
                simp only [Option.some_bind]
                exact ihs _ _ _ hc hrest
            | panic r => simp [hm] at hstep
            | outOfFuel => simp [hm] at hstep
        | fragmentSpread name directives =>
          simp only at hstep
          by_cases hskip : (visited0.lookup (name.getD "") == some true ||
              !shouldIncludeNode rt eCtx directives) = true
          · simp only [hskip, if_true, Outcome.ok.injEq, Prod.mk.injEq] at hstep
            obtain ⟨rfl, rfl⟩ := hstep
            simp only [hskip, if_true, Option.some_bind]
            exact ihs _ _ _ hc hrest
          · simp only [hskip, Bool.false_eq_true, if_false] at hstep
            simp only [hskip, Bool.false_eq_true, if_false]
            cases hfrag : eCtx.Fragments.lookup (name.getD "") with
            | none =>
              simp only [hfrag, Outcome.ok.injEq, Prod.mk.injEq] at hstep
              obtain ⟨rfl, rfl⟩ := hstep
              simp only [Option.some_bind]
              exact ihs _ _ _ hc hrest
            | some definition =>
              cases definition with
              | fragment fragment =>
                simp only [hfrag] at hstep
                simp only
                cases hm : doesFragmentConditionMatch rt eCtx
                    (.definition fragment.TypeCondition) runtimeType with
                | ok b =>
                  cases b with
                  | true =>
                    simp only [hm] at hstep
                    obtain ⟨included1, hinc1, hc1⟩ := ih _ _ _ _ included0 _ _ hc hstep
                    simp only [hinc1, Option.some_bind]
                    exact ihs _ _ _ hc1 hrest
                  | false =>
                    simp only [hm, Outcome.ok.injEq, Prod.mk.injEq] at hstep
                    obtain ⟨rfl, rfl⟩ := hstep
                    simp only [Option.some_bind]
                    exact ihs _ _ _ hc hrest
                | panic r => simp [hm] at hstep
                | outOfFuel => simp [hm] at hstep
              | operation d =>
                simp only [hfrag, Outcome.ok.injEq, Prod.mk.injEq] at hstep
                obtain ⟨rfl, rfl⟩ := hstep
                simp only [Option.some_bind]
                exact ihs _ _ _ hc hrest
              | other kind =>
                simp only [hfrag, Outcome.ok.injEq, Prod.mk.injEq] at hstep
                obtain ⟨rfl, rfl⟩ := hstep
                simp only [Option.some_bind]
                exact ihs _ _ _ hc hrest

/-- The field map that the loop of `completeObjectValue` over the merged
field nodes returns holds some list of included field nodes. -/
theorem collectSubFields_collects (fuel : Nat) (rt : Runtime) (eCtx : executionContext)
    (returnType : Object) :
    ∀ (fieldASTs : List Field) (fields0 : List (String × List Field))
      (visited0 : List (String × Bool)) (included0 : List Field)
      (fields : List (String × List Field)) (visited : List (String × Bool)),
      Collects fields0 included0 →
      collectSubFields fuel rt eCtx returnType fieldASTs (fields0, visited0) =
        .ok (fields, visited) →
      ∃ included, Collects fields included := by
  intro fieldASTs
  induction fieldASTs with
  | nil =>
    intro fields0 visited0 included0 fields visited hc h
    simp only [collectSubFields, Outcome.ok.injEq, Prod.mk.injEq] at h
    obtain ⟨rfl, rfl⟩ := h
    exact ⟨included0, hc⟩
  | cons fieldAST rest ih =>
    intro fields0 visited0 included0 fields visited hc h
    unfold collectSubFields at h
    cases hss : fieldAST.SelectionSet with
    | none =>
      rw [hss] at h
      exact ih _ _ _ _ _ hc h
    | some selectionSet =>
      rw [hss] at h
      simp only at h
      cases hcol : collectFields rt eCtx fuel returnType (some selectionSet)
          (fields0, visited0) with
      | outOfFuel =>
        rw [hcol] at h
        cases h
      | panic r =>
        rw [hcol] at h
        cases h
      | ok c =>
        obtain ⟨fields1, visited1⟩ := c
        rw [hcol] at h
        obtain ⟨included1, _, hc1⟩ := collectFields_collects rt eCtx fuel returnType
          (some selectionSet) fields0 visited0 included0 fields1 visited1 hc hcol
        exact ih _ _ _ _ _ hc1 h

/-- The field map collected from an empty accumulator has distinct keys and
no empty list. -/
theorem collectFields_nonempty (rt : Runtime) (eCtx : executionContext) (fuel : Nat)
    (runtimeType : Object) (selectionSet : SelectionSet)
    (fields : List (String × List Field)) (visited : List (String × Bool))
    (h : collectFields rt eCtx fuel runtimeType selectionSet ([], []) =
      .ok (fields, visited)) :
    (fields.map Prod.fst).Nodup ∧
    ∀ name fieldASTs, fields.lookup name = some fieldASTs →
      ∃ fieldAST rest, fieldASTs = fieldAST :: rest := by
  obtain ⟨included, _, hnd, hsome, _⟩ :=
    collectFields_collects rt eCtx fuel runtimeType selectionSet [] [] [] fields visited
      Collects.empty h
  refine ⟨hnd, ?_⟩
  intro name fieldASTs hl
  have hne := (hsome name fieldASTs hl).1
  cases fieldASTs with
  | nil => exact absurd rfl hne
  | cons fieldAST rest => exact ⟨fieldAST, rest, rfl⟩

end Graphql

namespace Graphql

/-! ## The contract of the field collector -/

/-- C17: the field map of `collectFields`, started from an empty accumulator.
The keys of the returned map are distinct; the list of every key is not empty
(so that the read of its first node by `resolveField` is in bounds) and every
node in it has the key as its response name, which is the alias when present
and not empty and the field name otherwise; and with the field nodes that the
traversal of the selection sets includes, in document order, the list of a
key is made of the included nodes with that response name, in that order, and
every included node is in the list of its response name.  The lists of the
field map that `completeObjectValue` collects from the merged field nodes are
not empty either. -/
theorem collectFields_response_names (rt : Runtime) (eCtx : executionContext) (fuel : Nat)
    (runtimeType : Object) (selectionSet : SelectionSet)
    (fields : List (String × List Field)) (visited : List (String × Bool))
    (h : collectFields rt eCtx fuel runtimeType selectionSet ([], []) =
      .ok (fields, visited)) :
    (fields.map Prod.fst).Nodup ∧
    (∀ name fieldASTs, (name, fieldASTs) ∈ fields →
      (∃ fieldAST rest, fieldASTs = fieldAST :: rest) ∧
      ∀ f ∈ fieldASTs, getFieldEntryKey f = name ∧
        (∀ a, f.Alias = some a → a ≠ "" → name = a) ∧
        (f.Alias = none ∨ f.Alias = some "" → name = f.Name.getD "")) ∧
    ∃ included,
      includedFields rt eCtx fuel runtimeType selectionSet ([], []) = some (included, visited) ∧
      (∀ name fieldASTs, (name, fieldASTs) ∈ fields →
        fieldASTs = included.filter (fun f => getFieldEntryKey f = name)) ∧
      (∀ f ∈ included, ∃ fieldASTs, (getFieldEntryKey f, fieldASTs) ∈ fields ∧
        f ∈ fieldASTs) ∧
      ∀ (merged : List Field) (subFieldASTs : List (String × List Field))
        (subVisited : List (String × Bool)),
        collectSubFields fuel rt eCtx runtimeType merged ([], []) =
          .ok (subFieldASTs, subVisited) →
        ∀ name fieldASTs, (name, fieldASTs) ∈ subFieldASTs →
          ∃ fieldAST rest, fieldASTs = fieldAST :: rest := by
  obtain ⟨included, hinc, hnd, hsome, hnone⟩ :=
    collectFields_collects rt eCtx fuel runtimeType selectionSet [] [] [] fields visited
      Collects.empty h
  have hmem : ∀ name fieldASTs, (name, fieldASTs) ∈ fields →
      fields.lookup name = some fieldASTs :=
    fun name fieldASTs hm => (lookup_eq_some_iff_mem_of_nodup fields hnd name fieldASTs).2 hm
  refine ⟨hnd, ?_, included, hinc, ?_, ?_, ?_⟩
  · intro name fieldASTs hm
    obtain ⟨hne, hfilter⟩ := hsome name fieldASTs (hmem name fieldASTs hm)
    constructor
    · cases fieldASTs with
      | nil => exact absurd rfl hne
      | cons fieldAST rest => exact ⟨fieldAST, rest, rfl⟩
    · intro f hf
      rw [hfilter] at hf
      have hkey : getFieldEntryKey f = name := by simpa using (List.mem_filter.1 hf).2
      refine ⟨hkey, ?_, ?_⟩
      · intro a ha hane
        rw [← hkey]
        simp only [getFieldEntryKey, ha, hane, ne_eq, not_false_eq_true, if_true]
      · rintro (ha | ha) <;> rw [← hkey] <;> simp [getFieldEntryKey, ha]
  · intro name fieldASTs hm
    exact (hsome name fieldASTs (hmem name fieldASTs hm)).2
  · intro f hf
    have hin : f ∈ included.filter (fun g => decide (getFieldEntryKey g = getFieldEntryKey f)) :=
      List.mem_filter.2 ⟨hf, by simp⟩
    cases hl : fields.lookup (getFieldEntryKey f) with
    | none =>
      rw [hnone _ hl] at hin
      exact absurd hin (List.not_mem_nil _)
    | some fieldASTs =>
      refine ⟨fieldASTs, (lookup_eq_some_iff_mem_of_nodup fields hnd _ _).1 hl, ?_⟩
      rw [(hsome _ _ hl).2]
      exact hin
  · intro merged subFieldASTs subVisited hsub name fieldASTs hm
    obtain ⟨subIncluded, hnd', hsome', _⟩ := collectSubFields_collects fuel rt eCtx runtimeType
      merged [] [] [] subFieldASTs subVisited Collects.empty hsub
    have hne := (hsome' name fieldASTs
      ((lookup_eq_some_iff_mem_of_nodup subFieldASTs hnd' name fieldASTs).2 hm)).1
    cases fieldASTs with
    | nil => exact absurd rfl hne
    | cons fieldAST rest => exact ⟨fieldAST, rest, rfl⟩

/-- C17, at a concrete input: the selection set `{ x: a ...F a ...F }` with
`fragment F on Query { x: b }`; the second spread of `F` is passed by. -/
theorem collectFields_response_names_witness :
    (([("x", [aliasedX "a" 3, aliasedX "b" 40]), ("a", [fieldNode "a" 14 none])] :
      List (String × List Field)).map Prod.fst).Nodup ∧
    includedFields testRuntime fragmentContext 2 (queryType oneAndTwo) (some spreadSelections)
        ([], []) =
      some ([aliasedX "a" 3, aliasedX "b" 40, fieldNode "a" 14 none], [("F", true)]) := by
  obtain ⟨hnd, _, included, hinc, _, _, _⟩ :=
    collectFields_response_names testRuntime fragmentContext 2 (queryType oneAndTwo)
      (some spreadSelections)
      [("x", [aliasedX "a" 3, aliasedX "b" 40]), ("a", [fieldNode "a" 14 none])]
      [("F", true)] rfl
  exact ⟨hnd, rfl⟩

end Graphql

namespace Graphql

/-! ## The keys of the response data -/

theorem buildExecutionContext_operation (rt : Runtime) (p : ExecuteParams)
    (eCtx : executionContext) (h : buildExecutionContext rt p = .ok eCtx) :
    ∃ operation, eCtx.Operation = some operation := by
  unfold buildExecutionContext at h
  rcases hscan : scanDefinitions p.OperationName p.AST none [] with err | ⟨found, fragments⟩
  · rw [hscan] at h
    cases h
  · rw [hscan] at h
    cases found with
    | none =>
      simp only at h
      split at h <;> cases h
    | some operation =>
      simp only at h
      cases hvv : rt.getVariableValues p.Schema operation p.Args with
      | error err =>
        rw [hvv] at h
        cases h
      | ok variableValues =>
        rw [hvv] at h
        simp only [Except.ok.injEq] at h
        exact ⟨operation, by rw [← h]⟩

theorem executeOperation_keys (fuel : Nat) (rt : Runtime) (eCtx : executionContext)
    (root : Value) (operation : OperationDefinition) (operationType : Object)
    (fields : List (String × List Field)) (visited : List (String × Bool))
    (result : Result) (s s' : ExecState)
    (hroot : getOperationRootType eCtx.Schema (some operation) = .ok (.ok operationType))
    (hcollect : collectFields rt eCtx fuel operationType operation.SelectionSet ([], []) =
      .ok (fields, visited))
    (h : executeOperation fuel rt eCtx root (some operation) s = (.ok result, s')) :
    ∃ m, result.Data = .map m ∧ KeysOfDefined rt eCtx.Schema operationType fields m := by
  simp only [executeOperation, hroot, hcollect] at h
  split at h
  · exact executeFieldsSerially_keys fuel rt eCtx _ result s s' h
  · exact executeFields_keys fuel rt eCtx _ result s s' h

/-- C12, an execution for which the claim fails: for the query
`{ a missing }` on the type `Query` with the fields `a: Int` and `b: Int`,
the top-level field collection produces the response names `a` and
`missing`, and the execution returns, without errors, the data `{a: 1}`,
which has no key `missing`. -/
theorem collected_name_without_key :
    collectedNames (collectFields testRuntime (queryContext oneAndTwo) 1 (queryType oneAndTwo)
      (some [.field (fieldNode "a" 3 none), .field (fieldNode "missing" 5 none)]) ([], [])) =
      some ["a", "missing"] ∧
    dataOf (runQuery 2 oneAndTwo [("a", 3), ("missing", 5)]) = some (.map [("a", .int 1)]) ∧
    errorsOf (runQuery 2 oneAndTwo [("a", 3), ("missing", 5)]) = some [] :=
  ⟨by decide, dataOf_eq_of_dataIs _ _ (by decide!), by decide!⟩

/-- C12: the keys of the response data.  When `Execute`, with a context that
was built, returns a result whose data is a map, the operation has a root
type and a top-level field collection, and the keys of the data are exactly
the collected response names whose field has a definition on the root type
(`getFieldDef` finds one for the field that the first node of the entry
names): every such response name is a key, and the data has no other key. -/
theorem data_keys_are_defined_response_names (fuel : Nat) (rt : Runtime) (p : ExecuteParams)
    (world : World) (eCtx : executionContext) (result : Result) (s : ExecState)
    (m : List (String × Value))
    (hctx : buildExecutionContext rt p = .ok eCtx)
    (hrun : Execute fuel rt p world = some (result, s))
    (hdata : result.Data = .map m) :
    ∃ operation operationType fields visited,
      eCtx.Operation = some operation ∧
      getOperationRootType eCtx.Schema (some operation) = .ok (.ok operationType) ∧
      collectFields rt eCtx fuel operationType operation.SelectionSet ([], []) =
        .ok (fields, visited) ∧
      ∀ name, name ∈ m.map Prod.fst ↔
        ∃ fieldAST rest, (name, fieldAST :: rest) ∈ fields ∧
          getFieldDef rt eCtx.Schema (some operationType) (fieldAST.Name.getD "") ≠ none := by
  obtain ⟨operation, hop⟩ := buildExecutionContext_operation rt p eCtx hctx
  simp only [Execute, hctx, hop] at hrun
  rcases hex : executeOperation fuel rt eCtx p.Root (some operation) (initialState world) with
    ⟨o, s1⟩
  rw [hex] at hrun
  cases o with
  | outOfFuel => simp at hrun
  | panic r =>
    simp only [Option.some.injEq, Prod.mk.injEq] at hrun
    rw [← hrun.1] at hdata
    cases hdata
  | ok result' =>
    simp only [Option.some.injEq, Prod.mk.injEq] at hrun
    obtain ⟨rfl, rfl⟩ := hrun
    cases hroot : getOperationRootType eCtx.Schema (some operation) with
    | outOfFuel =>
      simp only [executeOperation, hroot, outOfFuel] at hex
      cases hex
    | panic r =>
      simp only [executeOperation, hroot, raise] at hex
      cases hex
    | ok rootType =>
    cases rootType with
    | error err =>
      simp only [executeOperation, hroot] at hex
      obtain ⟨hres, _⟩ := Exec.pure_eq_ok hex
      rw [← hres] at hdata
      cases hdata
    | ok operationType =>
      cases hcollect : collectFields rt eCtx fuel operationType operation.SelectionSet
          ([], []) with
      | outOfFuel =>
        simp only [executeOperation, hroot, hcollect, outOfFuel] at hex
        cases hex
      | panic r =>
        simp only [executeOperation, hroot, hcollect, raise] at hex
        cases hex
      | ok c =>
        obtain ⟨fields, visited⟩ := c
        obtain ⟨m', hm', hkeys, hdefined⟩ := executeOperation_keys fuel rt eCtx p.Root operation
          operationType fields visited result' _ s1 hroot hcollect hex
        rw [hm'] at hdata
        obtain rfl := Value.map.inj hdata
        obtain ⟨hnd, hlists⟩ := collectFields_nonempty rt eCtx fuel operationType
          operation.SelectionSet fields visited hcollect
        refine ⟨operation, operationType, fields, visited, hop, hroot, hcollect, ?_⟩
        intro name
        constructor
        · intro hname
          cases hl : fields.lookup name with
          | none =>
            have := hkeys name hname
            rw [hl] at this
            cases this
          | some fieldASTs =>
            have hmem := (lookup_eq_some_iff_mem_of_nodup fields hnd name fieldASTs).1 hl
            obtain ⟨fieldAST, rest, rfl⟩ := hlists name fieldASTs hl
            exact ⟨fieldAST, rest, hmem, (hdefined name fieldAST rest hl).1 hname⟩
        · rintro ⟨fieldAST, rest, hmem, hdef⟩
          exact (hdefined name fieldAST rest
            ((lookup_eq_some_iff_mem_of_nodup fields hnd name _).2 hmem)).2 hdef

/-- C12, at a concrete input: the query `{ a missing }` on `a: Int` and
`b: Int`; the key `a` is the one collected response name with a definition. -/
theorem data_keys_are_defined_response_names_witness :
    ∃ (operation : OperationDefinition) (operationType : Object)
      (fields : List (String × List Field)) (visited : List (String × Bool)),
      some (⟨.query, none, some [.field (fieldNode "a" 3 none),
        .field (fieldNode "missing" 5 none)]⟩ : OperationDefinition) = some operation ∧
      getOperationRootType (querySchema oneAndTwo) (some operation) = .ok (.ok operationType) ∧
      collectFields testRuntime
        { Schema := querySchema oneAndTwo, Fragments := [], Root := .null,
          Operation := some ⟨.query, none, some [.field (fieldNode "a" 3 none),
            .field (fieldNode "missing" 5 none)]⟩,
          VariableValues := [] } 2 operationType operation.SelectionSet ([], []) =
        .ok (fields, visited) ∧
      ∀ name, name ∈ ([("a", Value.int 1)] : List (String × Value)).map Prod.fst ↔
        ∃ fieldAST rest, (name, fieldAST :: rest) ∈ fields ∧
          getFieldDef testRuntime (querySchema oneAndTwo) (some operationType)
            (fieldAST.Name.getD "") ≠ none :=
  data_keys_are_defined_response_names 2 testRuntime
    (queryParams oneAndTwo [("a", 3), ("missing", 5)]) .null
    { Schema := querySchema oneAndTwo, Fragments := [], Root := .null,
      Operation := some ⟨.query, none, some [.field (fieldNode "a" 3 none),
        .field (fieldNode "missing" 5 none)]⟩,
      VariableValues := [] }
    { Data := .map [("a", .int 1)], Errors := [] }
    { Errors := [], world := .null, ranges := 3, trace := [.resolved [.key "a"]] }
    [("a", .int 1)] rfl rfl rfl

end Graphql

namespace Graphql

/-! ## The default resolver -/

theorem resolveMember_first (rt : Runtime) (fieldName : String) :
    ∀ (pre : List (String × String × String × Value)) (member : String × String × String × Value)
      (post : List (String × String × String × Value)),
      (∀ m ∈ pre, memberMatches rt fieldName m = false) →
      memberMatches rt fieldName member = true →
      resolveMember rt fieldName (pre ++ member :: post) =
        memberInterface rt member.1 member.2.2.2 := by
  intro pre
  induction pre with
  | nil =>
    intro member post _ hmatch
    obtain ⟨name, json, graphql, value⟩ := member
    simp only [memberMatches, Bool.or_eq_true] at hmatch
    simp only [List.nil_append, resolveMember]
    by_cases h1 : rt.EqualFold name fieldName = true
    · simp only [h1, if_true]
    · have h2 : (checkTag json fieldName || checkTag graphql fieldName) = true := by
        rcases hmatch with (h | h) | h
        · exact absurd h h1
        · simp [h]
        · simp [h]
      simp only [h1, Bool.false_eq_true, if_false, h2, if_true]
  | cons m rest ih =>
    intro member post hpre hmatch
    obtain ⟨name, json, graphql, value⟩ := m
    have hm := hpre _ (List.mem_cons_self _ _)
    simp only [memberMatches, Bool.or_eq_false_iff] at hm
    simp only [List.cons_append, resolveMember, hm.1.1, hm.1.2, hm.2, Bool.false_eq_true,
      if_false, Bool.or_self]
    exact ih member post (fun x hx => hpre x (List.mem_cons_of_mem _ hx)) hmatch

theorem resolveMember_none (rt : Runtime) (fieldName : String) :
    ∀ (members : List (String × String × String × Value)),
      (∀ m ∈ members, memberMatches rt fieldName m = false) →
      resolveMember rt fieldName members = .ok .null := by
  intro members
  induction members with
  | nil => intro _; rfl
  | cons m rest ih =>
    intro hall
    obtain ⟨name, json, graphql, value⟩ := m
    have hm := hall _ (List.mem_cons_self _ _)
    simp only [memberMatches, Bool.or_eq_false_iff] at hm
    simp only [resolveMember, hm.1.1, hm.1.2, hm.2, Bool.false_eq_true, if_false, Bool.or_self]
    exact ih (fun x hx => hall x (List.mem_cons_of_mem _ hx))

/-- `DefaultResolveFn` on a record, or a pointer to one, without the
`FieldResolver` capability. -/
theorem DefaultResolveFn_of_record (rt : Runtime) (p : ResolveParams) (world : World)
    (typeName : String) (members : List (String × String × String × Value))
    (hsource : p.Source = .struct typeName members ∨ p.Source = .ptr (.struct typeName members))
    (hresolver : rt.fieldResolver p.Source = none) :
    DefaultResolveFn rt p world = resolveRecord rt p.Info.FieldName members world := by
  rcases hsource with h | h <;> rw [h] at hresolver <;>
    simp only [DefaultResolveFn, h, hresolver]

/-- C21 (code bug): `DefaultResolveFn` on a structured record.  For a
record, or a pointer to one, without the `FieldResolver` capability, and the
first member, in declaration order, that matches the field name (by its
declared name, as `strings.EqualFold` compares it with the field name, or by
the first component of its `json` or `graphql` tag): when the name of that
member is an exported name its value is returned without error, and when no
member matches nil is returned without error; but when the name of that
member is not an exported name the call aborts, because `Interface()` is
called on it.  For the record `struct { test int }` holding 1 and the field
name `test`, the call aborts instead of returning 1. -/
theorem DefaultResolveFn_record :
    outcomeOf (DefaultResolveFn testRuntime
      (paramsOf (.struct "Data" [("test", "", "", .int 1)]) "test") .null) =
      .aborts unexportedMessage ∧
    outcomeOf (DefaultResolveFn testRuntime
      (paramsOf (.struct "Data" [("Test", "", "", .int 1)]) "test") .null) =
      .returns (.int 1) none ∧
    ∀ (rt : Runtime) (p : ResolveParams) (world : World) (typeName : String)
      (members : List (String × String × String × Value)),
      (p.Source = .struct typeName members ∨ p.Source = .ptr (.struct typeName members)) →
      rt.fieldResolver p.Source = none →
      (∀ pre member post, members = pre ++ member :: post →
        (∀ m ∈ pre, memberMatches rt p.Info.FieldName m = false) →
        memberMatches rt p.Info.FieldName member = true →
        (rt.isExported member.1 = true →
          DefaultResolveFn rt p world = (.returns member.2.2.2 none, world)) ∧
        (rt.isExported member.1 = false →
          DefaultResolveFn rt p world = (.aborts unexportedMessage, world))) ∧
      ((∀ m ∈ members, memberMatches rt p.Info.FieldName m = false) →
        DefaultResolveFn rt p world = (.returns .null none, world)) := by
  refine ⟨rfl, rfl, ?_⟩
  intro rt p world typeName members hsource hresolver
  rw [DefaultResolveFn_of_record rt p world typeName members hsource hresolver]
  constructor
  · intro pre member post hmembers hpre hmatch
    rw [hmembers]
    constructor
    · intro hexp
      simp only [resolveRecord, resolveMember_first rt _ pre member post hpre hmatch,
        memberInterface, hexp, if_true]
    · intro hexp
      simp only [resolveRecord, resolveMember_first rt _ pre member post hpre hmatch,
        memberInterface, hexp, Bool.false_eq_true, if_false]
      rfl
  · intro hnone
    simp only [resolveRecord, resolveMember_none rt _ members hnone]

/-- C22: `DefaultResolveFn` on a map keyed by string, without the
`FieldResolver` capability, with `S[N]` the value that the map holds for the
field name, nil when the key is absent.  When `S[N]` is a zero-argument
producer of the thunk signature that returns a value, that value is returned
without error, as it is (a producer that it returns is not invoked in turn);
when `S[N]` is a function of any other signature, or is not a function, it is
returned without error, as it is.  In the harness of the list tests, the
data `{"test": func}` whose producer returns nil gives, for `test: [Int]`,
the response `{nest: {test: nil}}` without errors. -/
theorem DefaultResolveFn_map (rt : Runtime) (p : ResolveParams) (world : World)
    (sourceMap : List (String × Value)) (hsource : p.Source = .map sourceMap)
    (hresolver : rt.fieldResolver p.Source = none) :
    (∀ body, mapGet sourceMap p.Info.FieldName = .func body →
      DefaultResolveFn rt p world = (.returns body none, world)) ∧
    (∀ signature, mapGet sourceMap p.Info.FieldName = .otherFunc signature →
      DefaultResolveFn rt p world = (.returns (.otherFunc signature) none, world)) ∧
    (isFunc (mapGet sourceMap p.Info.FieldName) = false →
      DefaultResolveFn rt p world =
        (.returns (mapGet sourceMap p.Info.FieldName) none, world)) ∧
    (sourceMap.lookup p.Info.FieldName = none →
      DefaultResolveFn rt p world = (.returns .null none, world)) ∧
    dataOf (checkList 5 (.list IntType) (.func .null)) =
      some (.map [("nest", .map [("test", .null)])]) ∧
    errorsOf (checkList 5 (.list IntType) (.func .null)) = some [] := by
  rw [hsource] at hresolver
  refine ⟨?_, ?_, ?_, ?_, dataOf_eq_of_dataIs _ _ (by decide!), by decide!⟩
  · intro body h
    simp only [DefaultResolveFn, hsource, hresolver, h]
  · intro signature h
    simp only [DefaultResolveFn, hsource, hresolver, h]
  · intro h
    simp only [DefaultResolveFn, hsource, hresolver]
    cases hv : mapGet sourceMap p.Info.FieldName <;> rw [hv] at h <;>
      first | rfl | (simp [isFunc] at h)
  · intro h
    have hv : mapGet sourceMap p.Info.FieldName = .null := by simp only [mapGet, h]; rfl
    simp only [DefaultResolveFn, hsource, hresolver, hv]

/-- C22, at a concrete input: the map `{"test": func}` whose producer returns
a producer of 1; the inner producer is returned, not invoked. -/
theorem DefaultResolveFn_map_witness :
    DefaultResolveFn testRuntime (paramsOf (.map [("test", .func (.func (.int 1)))]) "test")
      .null = (.returns (.func (.int 1)) none, .null) :=
  (DefaultResolveFn_map testRuntime (paramsOf (.map [("test", .func (.func (.int 1)))]) "test")
    .null [("test", .func (.func (.int 1)))] rfl rfl).1 (.func (.int 1)) rfl

/-- C23: `DefaultResolveFn` on a source that is neither a record, nor a
pointer to one, nor a map keyed by string, and has no `FieldResolver`
capability.  For the absent (nil) source the call aborts: `Interface()` is
called on the zero `reflect.Value` before the test `IsValid()`.  For every
other such source, a nil pointer and a plain scalar included, nil is returned
without error. -/
theorem DefaultResolveFn_other_source :
    outcomeOf (DefaultResolveFn testRuntime (paramsOf .null "test") .null) =
      .aborts "reflect: call of reflect.Value.Interface on zero Value" ∧
    outcomeOf (DefaultResolveFn testRuntime (paramsOf .nilPtr "test") .null) =
      .returns .null none ∧
    outcomeOf (DefaultResolveFn testRuntime (paramsOf (.int 3) "test") .null) =
      .returns .null none ∧
    ∀ (rt : Runtime) (p : ResolveParams) (world : World),
      rt.fieldResolver p.Source = none →
      (p.Source = .null →
        DefaultResolveFn rt p world =
          (.aborts "reflect: call of reflect.Value.Interface on zero Value", world)) ∧
      (p.Source ≠ .null →
        (∀ typeName members, p.Source ≠ .struct typeName members) →
        (∀ typeName members, p.Source ≠ .ptr (.struct typeName members)) →
        (∀ sourceMap, p.Source ≠ .map sourceMap) →
        DefaultResolveFn rt p world = (.returns .null none, world)) := by
  refine ⟨rfl, rfl, rfl, ?_⟩
  intro rt p world hresolver
  constructor
  · intro h
    simp only [DefaultResolveFn, h]
  · intro hnull hstruct hptr hmap
    cases hs : p.Source with
    | null => exact absurd hs hnull
    | struct typeName members => exact absurd hs (hstruct typeName members)
    | map sourceMap => exact absurd hs (hmap sourceMap)
    | ptr target =>
      rw [hs] at hresolver
      cases target with
      | struct typeName members => exact absurd hs (hptr typeName members)
      | _ => simp only [DefaultResolveFn, hs, hresolver]
    | _ =>
      rw [hs] at hresolver
      simp only [DefaultResolveFn, hs, hresolver]

end Graphql

namespace Graphql

/-! ## The errors list is append-only -/

theorem AppendOnly.of_accounts {α : Type} {quiet : Bool} {m : Exec α}
    (h : Exec.Accounts quiet m) : AppendOnly m := by
  intro s
  obtain ⟨es, _, hes, _⟩ := h s
  exact ⟨es, hes.symm⟩

/-- C29: the errors list of the execution context is append-only.  For every
call of `handleFieldError`, `resolveField`, `completeValueCatchingError`,
`completeThunkValueCatchingError` and `executeSubFields`, however the call
ends, the errors list before the call is a prefix of the list after it.
`handleFieldError` appends exactly one entry, the located error, when the
return type is not non-null, and appends nothing, aborting again with the
located error, when it is non-null. -/
theorem errors_append_only (rt : Runtime) (eCtx : executionContext) (fuel : Nat) :
    (∀ r fieldNodes path returnType,
      AppendOnly (handleFieldError r fieldNodes path returnType)) ∧
    (∀ r fieldNodes path returnType s, isNonNull returnType = false →
      handleFieldError r fieldNodes path returnType s =
        (.ok (), { s with Errors := s.Errors ++
          [FormatError (NewLocatedErrorWithPath r fieldNodes path.AsArray)] })) ∧
    (∀ r fieldNodes path T s,
      handleFieldError r fieldNodes path (some (.nonNull T)) s =
        (.panic (NewLocatedErrorWithPath r fieldNodes path.AsArray), s)) ∧
    (∀ parentType source fieldASTs path,
      AppendOnly (resolveField (completeValueCatchingError rt eCtx fuel) rt eCtx parentType
        source fieldASTs path)) ∧
    (∀ returnType fieldASTs info path result,
      AppendOnly (completeValueCatchingError rt eCtx fuel returnType fieldASTs info path
        result)) ∧
    (∀ returnType fieldASTs info path result,
      AppendOnly (completeThunkValueCatchingError fuel rt eCtx returnType fieldASTs info path
        result)) ∧
    (∀ p, AppendOnly (executeSubFields (completeValueCatchingError rt eCtx fuel) rt eCtx p)) := by
  refine ⟨?_, ?_, ?_, ?_, ?_, ?_, ?_⟩
  · intro r fieldNodes path returnType s
    by_cases h : isNonNull returnType = true
    · simp only [handleFieldError, h, if_true, reraise]
      exact List.prefix_refl _
    · have h' : isNonNull returnType = false := by simpa using h
      rw [handleFieldError_nullable r fieldNodes path returnType s h']
      exact List.prefix_append _ _
  · intro r fieldNodes path returnType s h
    exact handleFieldError_nullable r fieldNodes path returnType s h
  · intro r fieldNodes path T s
    rfl
  · intro parentType source fieldASTs path
    exact AppendOnly.of_accounts (resolveField_accounts
      (completeValueCatchingError_accounts rt eCtx fuel) rt eCtx parentType source fieldASTs
      path)
  · intro returnType fieldASTs info path result
    exact AppendOnly.of_accounts
      (completeValueCatchingError_accounts rt eCtx fuel returnType fieldASTs info path result)
  · intro returnType fieldASTs info path result
    exact AppendOnly.of_accounts
      (completeThunkValueCatchingError_accounts fuel rt eCtx result returnType fieldASTs info
        path)
  · intro p
    exact AppendOnly.of_accounts (executeSubFields_accounts
      (completeValueCatchingError_accounts rt eCtx fuel) rt eCtx p)

end Graphql

namespace Graphql

/-! ## Collecting twice -/

/-- One more unit of fuel does not change how the collection of one
selection ends, when it ends. -/
theorem collectFields_one_succ_fuel (rt : Runtime) (eCtx : executionContext) (fuel : Nat)
    (runtimeType : Object)
    (ih : ∀ (selectionSet : SelectionSet) (acc : Collected) (r : Outcome Collected),
      collectFields rt eCtx fuel runtimeType selectionSet acc = r → r ≠ .outOfFuel →
      collectFields rt eCtx (fuel + 1) runtimeType selectionSet acc = r)
    (iSelection : Selection) (acc : Collected) (r : Outcome Collected)
    (h : collectFields rt eCtx (fuel + 1) runtimeType (some [iSelection]) acc = r)
    (hr : r ≠ .outOfFuel) :
    collectFields rt eCtx (fuel + 2) runtimeType (some [iSelection]) acc = r := by
  cases iSelection with
  | field selection =>
    rw [collectFields_field] at h ⊢
    exact h
  | inlineFragment typeCondition directives selectionSet =>
    cases hinc : shouldIncludeNode rt eCtx directives with
    | false =>
      rw [collectFields_inlineFragment_rejected _ _ _ _ _ _ _ _ hinc] at h ⊢
      exact h
    | true =>
      cases hm : doesFragmentConditionMatch rt eCtx (.inline typeCondition) runtimeType with
      | ok b =>
        cases b with
        | true =>
          rw [collectFields_inlineFragment_enter _ _ _ _ _ _ _ _ hinc hm] at h ⊢
          exact ih _ _ _ h hr
        | false =>
          rw [collectFields_inlineFragment_mismatch _ _ _ _ _ _ _ _ hinc hm] at h ⊢
          exact h
      | panic p =>
        rw [collectFields_inlineFragment_abort _ _ _ _ _ _ _ _ _ hinc hm] at h ⊢
        exact h
      | outOfFuel => exact absurd hm (doesFragmentConditionMatch_ne_outOfFuel _ _ _ _)
  | fragmentSpread name directives =>
    cases hskip : (acc.2.lookup (name.getD "") == some true ||
        !shouldIncludeNode rt eCtx directives) with
    | true =>
      rw [collectFields_fragmentSpread_skip _ _ _ _ _ _ _ hskip] at h ⊢
      exact h
    | false =>
      cases hfrag : eCtx.Fragments.lookup (name.getD "") with
      | none =>
        rw [collectFields_fragmentSpread_missing _ _ _ _ _ _ _ hskip hfrag] at h ⊢
        exact h
      | some definition =>
        by_cases hdef : ∃ fragment, definition = .fragment fragment
        · obtain ⟨fragment, rfl⟩ := hdef
          cases hm : doesFragmentConditionMatch rt eCtx (.definition fragment.TypeCondition)
              runtimeType with
          | ok b =>
            cases b with
            | true =>
              rw [collectFields_fragmentSpread_enter _ _ _ _ _ _ _ _ hskip hfrag hm] at h ⊢
              exact ih _ _ _ h hr
            | false =>
              rw [collectFields_fragmentSpread_mismatch _ _ _ _ _ _ _ _ hskip hfrag hm] at h ⊢
              exact h
          | panic p =>
            rw [collectFields_fragmentSpread_abort _ _ _ _ _ _ _ _ _ hskip hfrag hm] at h ⊢
            exact h
          | outOfFuel => exact absurd hm (doesFragmentConditionMatch_ne_outOfFuel _ _ _ _)
        · have hother : ∀ fragment, definition ≠ .fragment fragment :=
            fun fragment hd => hdef ⟨fragment, hd⟩
          rw [collectFields_fragmentSpread_other _ _ _ _ _ _ _ _ hskip hfrag hother] at h ⊢
          exact h

/-- More fuel does not change how a collection ends, when it ends. -/
theorem collectFields_succ_fuel (rt : Runtime) (eCtx : executionContext) :
    ∀ (fuel : Nat) (runtimeType : Object) (selectionSet : SelectionSet)
      (acc : Collected) (r : Outcome Collected),
      collectFields rt eCtx fuel runtimeType selectionSet acc = r → r ≠ .outOfFuel →
      collectFields rt eCtx (fuel + 1) runtimeType selectionSet acc = r := by
  intro fuel
  induction fuel with
  | zero =>
    intro runtimeType selectionSet acc r h hr
    cases selectionSet with
    | none =>
      simp only [collectFields] at h ⊢
      exact h
    | some selections =>
      simp only [collectFields] at h
      exact absurd h.symm hr
  | succ fuel ih =>
    intro runtimeType selectionSet acc r h hr
    cases selectionSet with
    | none =>
      simp only [collectFields] at h ⊢
      exact h
    | some selections =>
      induction selections generalizing acc r with
      | nil =>
        rw [collectFields_nil] at h ⊢
        exact h
      | cons iSelection rest ihs =>
        rw [collectFields_cons] at h ⊢
        cases hone : collectFields rt eCtx (fuel + 1) runtimeType (some [iSelection]) acc with
        | outOfFuel =>
          rw [hone, Outcome.outOfFuel_bind] at h
          exact absurd h.symm hr
        | panic p =>
          rw [hone, Outcome.panic_bind] at h
          rw [collectFields_one_succ_fuel rt eCtx fuel runtimeType (ih runtimeType) iSelection
            acc _ hone (by intro hp; cases hp), Outcome.panic_bind]
          exact h
        | ok acc1 =>
          rw [hone, Outcome.ok_bind] at h
          rw [collectFields_one_succ_fuel rt eCtx fuel runtimeType (ih runtimeType) iSelection
            acc _ hone (by intro hp; cases hp), Outcome.ok_bind]
          exact ihs acc1 r hr h

theorem collectFields_more_fuel (rt : Runtime) (eCtx : executionContext) (fuel : Nat)
    (runtimeType : Object) (selectionSet : SelectionSet) (acc : Collected)
    (r : Outcome Collected)
    (h : collectFields rt eCtx fuel runtimeType selectionSet acc = r) (hr : r ≠ .outOfFuel) :
    ∀ extra, collectFields rt eCtx (fuel + extra) runtimeType selectionSet acc = r := by
  intro extra
  induction extra with
  | zero => exact h
  | succ n ih =>
    exact collectFields_succ_fuel rt eCtx (fuel + n) runtimeType selectionSet acc r ih hr

/-- C30: idempotence of field collection.  Two collections of the same
selection set against the same runtime type, with the same execution context
and each with a fresh accumulator and a fresh set of visited names, that
return, whatever the fuel of each, return the same merged field map: the same
keys, each with the same list of field nodes in the same order, and the same
visited names. -/
theorem collectFields_idempotent (rt : Runtime) (eCtx : executionContext)
    (runtimeType : Object) (selectionSet : SelectionSet) (fuel fuel' : Nat)
    (fields fields' : List (String × List Field)) (visited visited' : List (String × Bool))
    (h : collectFields rt eCtx fuel runtimeType selectionSet ([], []) = .ok (fields, visited))
    (h' : collectFields rt eCtx fuel' runtimeType selectionSet ([], []) =
      .ok (fields', visited')) :
    fields = fields' ∧ visited = visited' := by
  have h1 := collectFields_more_fuel rt eCtx fuel runtimeType selectionSet _ _ h
    (by intro hp; cases hp) fuel'
  have h2 := collectFields_more_fuel rt eCtx fuel' runtimeType selectionSet _ _ h'
    (by intro hp; cases hp) fuel
  rw [Nat.add_comm] at h2
  rw [h1] at h2
  simp only [Outcome.ok.injEq, Prod.mk.injEq] at h2
  exact h2

/-- C30, at a concrete input: the selection set `{ x: a ...F a ...F }`,
collected with fuel 2 and with fuel 5. -/
theorem collectFields_idempotent_witness :
    ([("x", [aliasedX "a" 3, aliasedX "b" 40]), ("a", [fieldNode "a" 14 none])] :
        List (String × List Field)) =
      [("x", [aliasedX "a" 3, aliasedX "b" 40]), ("a", [fieldNode "a" 14 none])] ∧
    ([("F", true)] : List (String × Bool)) = [("F", true)] :=
  collectFields_idempotent testRuntime fragmentContext (queryType oneAndTwo)
    (some spreadSelections) 2 5 _ _ _ _ rfl rfl

end Graphql

namespace Graphql

/-! ## The rules on variable definitions, arguments and directives -/

/-- C26: `DefaultValuesOfCorrectTypeRule` on a variable definition reports at
most one error.  When the input type of the variable is non-null and a
default value is present, it reports 'Variable "$name" of type "T!" is
required and will not use the default value. Perhaps you meant to use type
"T".', whether the default is a valid literal or not.  Otherwise, when a
default value is present, the type is known and the default is not a valid
literal for it, it reports 'Variable "$name" of type "T" has invalid default
value: ...'.  In every other case (no default value, an unknown type, a
valid default) it reports nothing. -/
theorem DefaultValuesOfCorrectTypeRule_cases (v : Validation) (context : ValidationContext)
    (ancestors : List Node) (varDefAST : VariableDefinition) :
    (∀ ofType defaultValue, context.GetInputType = some (.nonNull ofType) →
      varDefAST.DefaultValue = some defaultValue →
      DefaultValuesOfCorrectTypeRule v context ⟨.variableDefinition varDefAST, ancestors⟩ =
        some { Message := "Variable \"$" ++ varDefAST.name ++ "\" of type \"" ++
                 (Ty.nonNull ofType).toString ++
                 "\" is required and will not use the default value. Perhaps you meant to use type \"" ++
                 ofType.toString ++ "\".",
               Nodes := [.value defaultValue] }) ∧
    (∀ ttype defaultValue, context.GetInputType = some ttype →
      (∀ ofType, ttype ≠ .nonNull ofType) →
      varDefAST.DefaultValue = some defaultValue →
      (isValidLiteralValue v ttype (some defaultValue) = false →
        DefaultValuesOfCorrectTypeRule v context ⟨.variableDefinition varDefAST, ancestors⟩ =
          some { Message := "Variable \"$" ++ varDefAST.name ++ "\" of type \"" ++
                   ttype.toString ++ "\" has invalid default value: " ++
                   v.Print defaultValue ++ ".",
                 Nodes := [.value defaultValue] }) ∧
      (isValidLiteralValue v ttype (some defaultValue) = true →
        DefaultValuesOfCorrectTypeRule v context ⟨.variableDefinition varDefAST, ancestors⟩ =
          none)) ∧
    (varDefAST.DefaultValue = none →
      DefaultValuesOfCorrectTypeRule v context ⟨.variableDefinition varDefAST, ancestors⟩ =
        none) ∧
    (context.GetInputType = none →
      DefaultValuesOfCorrectTypeRule v context ⟨.variableDefinition varDefAST, ancestors⟩ =
        none) := by
  refine ⟨?_, ?_, ?_, ?_⟩
  · intro ofType defaultValue htype hdefault
    simp only [DefaultValuesOfCorrectTypeRule, htype, hdefault]
    rfl
  · intro ttype defaultValue htype hnn hdefault
    constructor <;> intro hvalid
    · cases ttype <;>
        first
        | exact absurd rfl (hnn _)
        | (simp only [DefaultValuesOfCorrectTypeRule, htype, hdefault, hvalid]; rfl)
    · cases ttype <;>
        first
        | exact absurd rfl (hnn _)
        | (simp only [DefaultValuesOfCorrectTypeRule, htype, hdefault, hvalid]; rfl)
  · intro hdefault
    cases htype : context.GetInputType with
    | none => simp only [DefaultValuesOfCorrectTypeRule, hdefault, htype]
    | some t => cases t <;> simp only [DefaultValuesOfCorrectTypeRule, hdefault, htype]
  · intro htype
    cases hdefault : varDefAST.DefaultValue <;>
      simp only [DefaultValuesOfCorrectTypeRule, hdefault, htype]

/-- C26, at a concrete input: the variable `$n: Int!` with the default value
`1`, a valid literal, gets the one error that the default will not be
used. -/
theorem DefaultValuesOfCorrectTypeRule_cases_witness :
    messageOf (DefaultValuesOfCorrectTypeRule testValidation
      { emptyValidationContext with GetInputType := some (.nonNull IntType) }
      ⟨.variableDefinition ⟨some (some "n"), some (.intValue "1")⟩, []⟩) =
      some ("Variable \"$n\" of type \"Int!\" is required and will not use the default value. " ++
        "Perhaps you meant to use type \"Int\".") := by
  rw [(DefaultValuesOfCorrectTypeRule_cases testValidation
    { emptyValidationContext with GetInputType := some (.nonNull IntType) } []
    ⟨some (some "n"), some (.intValue "1")⟩).1 IntType (.intValue "1") rfl rfl]
  decide

theorem foldl_last_eq_none {α : Type} (key : α → String) (name : String) :
    ∀ (l : List α) (init : Option α),
      l.foldl (fun found a => if key a = name then some a else found) init = none ↔
        init = none ∧ ∀ a ∈ l, key a ≠ name := by
  intro l
  induction l with
  | nil => intro init; simp
  | cons x rest ih =>
    intro init
    simp only [List.foldl_cons, ih, List.mem_cons, forall_eq_or_imp]
    by_cases hx : key x = name
    · simp [hx]
    · simp [hx]

theorem foldl_last_eq_some {α : Type} (key : α → String) (name : String) :
    ∀ (l : List α) (init : Option α) (d : α),
      l.foldl (fun found a => if key a = name then some a else found) init = some d →
        (d ∈ l ∧ key d = name) ∨ init = some d := by
  intro l
  induction l with
  | nil => intro init d h; exact Or.inr h
  | cons x rest ih =>
    intro init d h
    simp only [List.foldl_cons] at h
    rcases ih _ d h with ⟨hmem, hkey⟩ | hinit
    · exact Or.inl ⟨List.mem_cons_of_mem _ hmem, hkey⟩
    · by_cases hx : key x = name
      · simp only [hx, if_true, Option.some.injEq] at hinit
        subst hinit
        exact Or.inl ⟨List.mem_cons_self _ _, hx⟩
      · simp only [hx, if_false] at hinit
        exact Or.inr hinit

theorem findArgument_eq_none_iff (args : List ArgumentDef) (nodeName : String) :
    findArgument args nodeName = none ↔ ∀ arg ∈ args, arg.PrivateName ≠ nodeName := by
  unfold findArgument
  rw [foldl_last_eq_none (fun a : ArgumentDef => a.PrivateName) nodeName args none]
  simp

theorem findDirective_eq_none_iff (directives : List DirectiveDef) (nodeName : String) :
    findDirective directives nodeName = none ↔ ∀ d ∈ directives, d.Name ≠ nodeName := by
  unfold findDirective
  rw [foldl_last_eq_none (fun d : DirectiveDef => d.Name) nodeName directives none]
  simp

theorem findDirective_eq_some (directives : List DirectiveDef) (nodeName : String)
    (d : DirectiveDef) (h : findDirective directives nodeName = some d) :
    d ∈ directives ∧ d.Name = nodeName := by
  unfold findDirective at h
  rcases foldl_last_eq_some (fun d : DirectiveDef => d.Name) nodeName directives none d h with
    h | h
  · exact h
  · cases h

/-- C27, inputs for which the claim fails: for the argument `x` of a field
`f` of the type `Query`, where `f` defines the argument `known` only, the
message names the parent type too; for the argument `x` of the directive
`skip`, which defines the argument `if` only, the message writes the
directive with its `@`. -/
theorem KnownArgumentNamesRule_messages :
    messageOf (KnownArgumentNamesRule
      { emptyValidationContext with
        GetFieldDef := some fieldWithArgument, GetParentType := some (.object "Query") }
      ⟨.argument (argumentNode "x"), [.other "Field"]⟩) =
      some "Unknown argument \"x\" on field \"f\" of type \"Query\"." ∧
    messageOf (KnownArgumentNamesRule
      { emptyValidationContext with GetDirective := some directiveRuntime.SkipDirective }
      ⟨.argument (argumentNode "x"), [.other "Field", .other "Directive"]⟩) =
      some "Unknown argument \"x\" on directive \"@skip\"." ∧
    messageOf (KnownArgumentNamesRule
      { emptyValidationContext with
        GetFieldDef := some fieldWithArgument, GetParentType := some (.object "Query") }
      ⟨.argument (argumentNode "x"), [.other "Field"]⟩) ≠
      some "Unknown argument \"x\" on field \"f\"." ∧
    messageOf (KnownArgumentNamesRule
      { emptyValidationContext with GetDirective := some directiveRuntime.SkipDirective }
      ⟨.argument (argumentNode "x"), [.other "Field", .other "Directive"]⟩) ≠
      some "Unknown argument \"x\" on directive \"skip\"." :=
  ⟨by decide, by decide, by decide, by decide⟩

/-- C27: `KnownArgumentNamesRule` on an argument node named X.  When the
nearest ancestor is a field whose definition Y is known, it reports an error
iff Y defines no argument named X, and the message is 'Unknown argument "X"
on field "Y" of type "T".', with T the name of the parent type, empty when
unknown.  When the nearest ancestor is a directive whose definition Y is
known, it reports iff Y defines no argument named X, and the message is
'Unknown argument "X" on directive "@Y".'.  It reports nothing when there is
no ancestor, when the nearest ancestor is neither a field nor a directive,
and when the definition is unknown. -/
theorem KnownArgumentNamesRule_cases (context : ValidationContext) (node : Argument)
    (ancestors : List Node) :
    (∀ argumentOf fieldDef, ancestors.getLast? = some argumentOf →
      argumentOf.GetKind = "Field" → context.GetFieldDef = some fieldDef →
      ((∀ arg ∈ fieldDef.Args, arg.PrivateName ≠ node.Name.getD "") →
        KnownArgumentNamesRule context ⟨.argument node, ancestors⟩ =
          some { Message := "Unknown argument \"" ++ node.Name.getD "" ++ "\" on field \"" ++
                   fieldDef.Name ++ "\" of type \"" ++ context.parentTypeName ++ "\".",
                 Nodes := [.argument node] }) ∧
      ((∃ arg ∈ fieldDef.Args, arg.PrivateName = node.Name.getD "") →
        KnownArgumentNamesRule context ⟨.argument node, ancestors⟩ = none)) ∧
    (∀ argumentOf directive, ancestors.getLast? = some argumentOf →
      argumentOf.GetKind = "Directive" → context.GetDirective = some directive →
      ((∀ arg ∈ directive.Args, arg.PrivateName ≠ node.Name.getD "") →
        KnownArgumentNamesRule context ⟨.argument node, ancestors⟩ =
          some { Message := "Unknown argument \"" ++ node.Name.getD "" ++
                   "\" on directive \"@" ++ directive.Name ++ "\".",
                 Nodes := [.argument node] }) ∧
      ((∃ arg ∈ directive.Args, arg.PrivateName = node.Name.getD "") →
        KnownArgumentNamesRule context ⟨.argument node, ancestors⟩ = none)) ∧
    (ancestors = [] → KnownArgumentNamesRule context ⟨.argument node, ancestors⟩ = none) ∧
    (∀ argumentOf, ancestors.getLast? = some argumentOf →
      (argumentOf.GetKind ≠ "Field" ∧ argumentOf.GetKind ≠ "Directive") ∨
      (argumentOf.GetKind = "Field" ∧ context.GetFieldDef = none) ∨
      (argumentOf.GetKind = "Directive" ∧ context.GetDirective = none) →
      KnownArgumentNamesRule context ⟨.argument node, ancestors⟩ = none) := by
  refine ⟨?_, ?_, ?_, ?_⟩
  · intro argumentOf fieldDef hlast hkind hdef
    constructor
    · intro hnone
      have hfind := (findArgument_eq_none_iff fieldDef.Args (node.Name.getD "")).2 hnone
      simp only [KnownArgumentNamesRule, hlast, hkind, if_true, hdef, hfind]
      rfl
    · rintro ⟨arg, harg, hname⟩
      cases hfind : findArgument fieldDef.Args (node.Name.getD "") with
      | none =>
        exact absurd hname ((findArgument_eq_none_iff _ _).1 hfind arg harg)
      | some found => simp only [KnownArgumentNamesRule, hlast, hkind, if_true, hdef, hfind]
  · intro argumentOf directive hlast hkind hdef
    have hne : ¬ ("Directive" = "Field") := by decide
    constructor
    · intro hnone
      have hfind := (findArgument_eq_none_iff directive.Args (node.Name.getD "")).2 hnone
      simp only [KnownArgumentNamesRule, hlast, hkind, hne, if_false, if_true, hdef, hfind]
    · rintro ⟨arg, harg, hname⟩
      cases hfind : findArgument directive.Args (node.Name.getD "") with
      | none =>
        exact absurd hname ((findArgument_eq_none_iff _ _).1 hfind arg harg)
      | some found =>
        simp only [KnownArgumentNamesRule, hlast, hkind, hne, if_false, if_true, hdef, hfind]
  · intro hnil
    simp only [KnownArgumentNamesRule, hnil, List.getLast?_nil]
  · intro argumentOf hlast hcases
    rcases hcases with ⟨h1, h2⟩ | ⟨h1, h2⟩ | ⟨h1, h2⟩
    · simp only [KnownArgumentNamesRule, hlast, h1, h2, if_false]
    · simp only [KnownArgumentNamesRule, hlast, h1, if_true, h2]
    · have hne : ¬ ("Directive" = "Field") := by decide
      simp only [KnownArgumentNamesRule, hlast, h1, hne, if_false, if_true, h2]

/-- C28: `KnownDirectivesRule` on a directive node named N reports at most
one error.  When the schema registers no directive named N it reports
'Unknown directive "N".'.  Otherwise, with the registered directive of that
name (the last one, should several be registered), it reports 'Directive "N"
may not be used on "operation".' iff the nearest ancestor is an operation
definition and the directive does not allow operations, '... on "field".'
iff the nearest ancestor is a field and the directive does not allow fields,
'... on "fragment".' iff the nearest ancestor is a fragment spread, an inline
fragment or a fragment definition and the directive does not allow
fragments; and nothing in every other case. -/
theorem KnownDirectivesRule_cases (context : ValidationContext) (node : Directive)
    (ancestors : List Node) :
    ((∀ d ∈ context.GetDirectives, d.Name ≠ node.Name.getD "") →
      KnownDirectivesRule context ⟨.directive node, ancestors⟩ =
        some { Message := "Unknown directive \"" ++ node.Name.getD "" ++ "\".",
               Nodes := [.directive node] }) ∧
    ((∃ d ∈ context.GetDirectives, d.Name = node.Name.getD "") →
      ∃ directiveDef ∈ context.GetDirectives, directiveDef.Name = node.Name.getD "" ∧
        (ancestors = [] → KnownDirectivesRule context ⟨.directive node, ancestors⟩ = none) ∧
        ∀ appliedTo, ancestors.getLast? = some appliedTo →
          (appliedTo.GetKind = kinds.OperationDefinition →
            (directiveDef.OnOperation = false →
              KnownDirectivesRule context ⟨.directive node, ancestors⟩ =
                some { Message := "Directive \"" ++ node.Name.getD "" ++
                         "\" may not be used on \"operation\".",
                       Nodes := [.directive node] }) ∧
            (directiveDef.OnOperation = true →
              KnownDirectivesRule context ⟨.directive node, ancestors⟩ = none)) ∧
          (appliedTo.GetKind = kinds.Field →
            (directiveDef.OnField = false →
              KnownDirectivesRule context ⟨.directive node, ancestors⟩ =
                some { Message := "Directive \"" ++ node.Name.getD "" ++
                         "\" may not be used on \"field\".",
                       Nodes := [.directive node] }) ∧
            (directiveDef.OnField = true →
              KnownDirectivesRule context ⟨.directive node, ancestors⟩ = none)) ∧
          (appliedTo.GetKind = kinds.FragmentSpread ∨
              appliedTo.GetKind = kinds.InlineFragment ∨
              appliedTo.GetKind = kinds.FragmentDefinition →
            (directiveDef.OnFragment = false →
              KnownDirectivesRule context ⟨.directive node, ancestors⟩ =
                some { Message := "Directive \"" ++ node.Name.getD "" ++
                         "\" may not be used on \"fragment\".",
                       Nodes := [.directive node] }) ∧
            (directiveDef.OnFragment = true →
              KnownDirectivesRule context ⟨.directive node, ancestors⟩ = none)) ∧
          (appliedTo.GetKind ≠ kinds.OperationDefinition → appliedTo.GetKind ≠ kinds.Field →
            appliedTo.GetKind ≠ kinds.FragmentSpread →
            appliedTo.GetKind ≠ kinds.InlineFragment →
            appliedTo.GetKind ≠ kinds.FragmentDefinition →
            KnownDirectivesRule context ⟨.directive node, ancestors⟩ = none)) := by
  constructor
  · intro hnone
    have hfind := (findDirective_eq_none_iff _ _).2 hnone
    simp only [KnownDirectivesRule, hfind]
  · rintro ⟨d, hd, hname⟩
    cases hfind : findDirective context.GetDirectives (node.Name.getD "") with
    | none => exact absurd hname ((findDirective_eq_none_iff _ _).1 hfind d hd)
    | some directiveDef =>
      obtain ⟨hmem, hdname⟩ := findDirective_eq_some _ _ _ hfind
      refine ⟨directiveDef, hmem, hdname, ?_, ?_⟩
      · intro hnil
        simp only [KnownDirectivesRule, hfind, hnil, List.getLast?_nil]
      · intro appliedTo hlast
        have hOF : ¬ (kinds.Field = kinds.OperationDefinition) := by decide
        have hSO : ¬ (kinds.FragmentSpread = kinds.OperationDefinition) := by decide
        have hSF : ¬ (kinds.FragmentSpread = kinds.Field) := by decide
        have hIO : ¬ (kinds.InlineFragment = kinds.OperationDefinition) := by decide
        have hIF : ¬ (kinds.InlineFragment = kinds.Field) := by decide
        have hDO : ¬ (kinds.FragmentDefinition = kinds.OperationDefinition) := by decide
        have hDF : ¬ (kinds.FragmentDefinition = kinds.Field) := by decide
        refine ⟨?_, ?_, ?_, ?_⟩
        · intro hkind
          constructor <;> intro hon <;>
            simp [KnownDirectivesRule, hfind, hlast, hkind, hon, kinds.OperationDefinition,
              kinds.Field, kinds.FragmentSpread, kinds.InlineFragment, kinds.FragmentDefinition]
        · intro hkind
          constructor <;> intro hon <;>
            simp [KnownDirectivesRule, hfind, hlast, hkind, hon, kinds.OperationDefinition,
              kinds.Field, kinds.FragmentSpread, kinds.InlineFragment, kinds.FragmentDefinition]
        · intro hkind
          constructor <;> intro hon <;> rcases hkind with hkind | hkind | hkind <;>
            simp [KnownDirectivesRule, hfind, hlast, hkind, hon, kinds.OperationDefinition,
              kinds.Field, kinds.FragmentSpread, kinds.InlineFragment, kinds.FragmentDefinition]
        · intro h1 h2 h3 h4 h5
          simp only [KnownDirectivesRule, hfind, hlast, h1, h2, h3, h4, h5, false_and, or_self,
            if_false]

/-- C28, at concrete inputs: `@unknown` is not registered; `@skip`, which
does not allow operations, on an operation definition. -/
theorem KnownDirectivesRule_cases_witness :
    messageOf (KnownDirectivesRule emptyValidationContext
      ⟨.directive (ifDirective "unknown" true), [.other kinds.Field]⟩) =
      some "Unknown directive \"unknown\"." ∧
    messageOf (KnownDirectivesRule emptyValidationContext
      ⟨.directive (ifDirective "skip" true), [.other kinds.OperationDefinition]⟩) =
      some "Directive \"skip\" may not be used on \"operation\"." := by
  constructor
  · rw [(KnownDirectivesRule_cases emptyValidationContext (ifDirective "unknown" true)
      [.other kinds.Field]).1 (by decide)]
    rfl
  · decide

end Graphql

namespace Graphql

/-! ## The literal check -/

theorem isValidLiteralValue_variable (v : Validation) :
    ∀ (ttype : Ty) (name : String), isValidLiteralValue v ttype (some (.variable name)) = true := by
  intro ttype
  induction ttype with
  | nonNull ofType ih =>
    intro name
    rw [isValidLiteralValue]
    exact ih name
  | _ =>
    intro name
    rw [isValidLiteralValue]
    intro ofType h
    cases h

theorem isValidLiteralValue_absent (v : Validation) (ttype : Ty)
    (hnn : ∀ ofType, ttype ≠ .nonNull ofType) : isValidLiteralValue v ttype none = true := by
  rw [isValidLiteralValue]
  intro ofType h
  exact hnn ofType h

theorem isValidLiteralValue_nonNull_absent (v : Validation) (ofType : Ty) :
    isValidLiteralValue v (.nonNull ofType) none = false := by
  rw [isValidLiteralValue]

theorem isValidLiteralValue_listValue (v : Validation) (itemType : Ty)
    (values : List AstValue) :
    isValidLiteralValue v (.list itemType) (some (.listValue values)) =
      values.all (fun item => isValidLiteralValue v itemType (some item)) := by
  rw [isValidLiteralValue]
  rw [Bool.eq_iff_iff]
  simp only [List.all_eq_true, List.mem_attach, true_implies, Subtype.forall]

/-- C24: the literal check at a list type, for a present literal that is not
a variable reference.  A list literal is valid for `List(T)` iff every one of
its elements is a valid literal for `T`, so that the empty list literal is
valid for every list type, a list of non-null items included; a literal that
is not a list literal is valid for `List(T)` iff it is a valid literal for
`T`. -/
theorem isValidLiteralValue_list (v : Validation) (itemType : Ty) (value : AstValue)
    (hvariable : ∀ name, value ≠ .variable name) :
    (∀ values, value = .listValue values →
      (isValidLiteralValue v (.list itemType) (some value) = true ↔
        ∀ item ∈ values, isValidLiteralValue v itemType (some item) = true)) ∧
    ((∀ values, value ≠ .listValue values) →
      isValidLiteralValue v (.list itemType) (some value) =
        isValidLiteralValue v itemType (some value)) ∧
    isValidLiteralValue v (.list itemType) (some (.listValue [])) = true ∧
    isValidLiteralValue v (.list (.nonNull itemType)) (some (.listValue [])) = true := by
  refine ⟨?_, ?_, ?_, ?_⟩
  · intro values hvalue
    rw [hvalue, isValidLiteralValue_listValue, List.all_eq_true]
  · intro hlist
    rw [isValidLiteralValue]
    · intro name h
      exact hvariable name h
    · intro values h
      exact hlist values h
  · rw [isValidLiteralValue_listValue]
    rfl
  · rw [isValidLiteralValue_listValue]
    rfl

/-- C24, at a concrete input: the integer literal `1`, valid for `Int`, is
valid for `[Int]`. -/
theorem isValidLiteralValue_list_witness :
    isValidLiteralValue testValidation (.list IntType) (some (.intValue "1")) =
      isValidLiteralValue testValidation IntType (some (.intValue "1")) :=
  (isValidLiteralValue_list testValidation IntType (.intValue "1")
    (by intro name h; cases h)).2.1 (by intro values h; cases h)

end Graphql

namespace Graphql

/-! ## The literal check at input object types -/

/-- Reading a map filled from a list, each element under its key: the last
element of that key, else what the map held. -/
theorem lookup_foldl_mapSet {β : Type} (key : β → String) (k : String) :
    ∀ (l : List β) (m0 : List (String × β)),
      (l.foldl (fun m x => mapSet m (key x) x) m0).lookup k =
        match l.reverse.find? (fun x => key x == k) with
        | some x => some x
        | none => m0.lookup k := by
  intro l
  induction l with
  | nil => intro m0; rfl
  | cons x rest ih =>
    intro m0
    simp only [List.foldl_cons, ih, List.reverse_cons, List.find?_append]
    cases hrest : rest.reverse.find? (fun x => key x == k) with
    | some y => rfl
    | none =>
      by_cases hx : key x = k
      · subst hx
        simp [lookup_mapSet_self]
      · have hne : (key x == k) = false := by simpa using hx
        simp only [Option.none_or, List.find?_cons, hne, List.find?_nil]
        exact lookup_mapSet_ne m0 (key x) k x (fun h => hx h.symm)

/-- For a literal without repeated field names, the map of its fields holds,
for a name, the value that the literal provides for it. -/
theorem fieldASTMap_lookup (fieldASTs : List (Option String × AstValue)) (fieldName : String)
    (hnames : (fieldASTs.map (fun f => f.1.getD "")).Nodup) :
    ((fieldASTs.attach.foldl (fun m fieldAST => mapSet m (fieldAST.1.1.getD "") fieldAST)
      []).lookup fieldName).map (fun fieldAST => fieldAST.1.2) =
      providedValue fieldASTs fieldName := by
  rw [lookup_foldl_mapSet (fun fieldAST : { x // x ∈ fieldASTs } => fieldAST.1.1.getD "")
    fieldName fieldASTs.attach []]
  unfold providedValue
  cases hlast : fieldASTs.attach.reverse.find?
      (fun x => x.1.1.getD "" == fieldName) with
  | some y =>
    have hy := List.find?_some hlast
    simp only [beq_iff_eq] at hy
    cases hfirst : fieldASTs.find? (fun fieldAST => fieldAST.1.getD "" == fieldName) with
    | none =>
      have := List.find?_eq_none.1 hfirst y.1 y.2
      simp only [beq_iff_eq] at this
      exact absurd hy this
    | some f =>
      have hf := List.find?_some hfirst
      simp only [beq_iff_eq] at hf
      have hmem := List.mem_of_find?_eq_some hfirst
      have heq : y.1 = f := List.inj_on_of_nodup_map hnames y.2 hmem (hy.trans hf.symm)
      simp only [Option.map_some', heq]
  | none =>
    have hnone := List.find?_eq_none.1 hlast
    cases hfirst : fieldASTs.find? (fun fieldAST => fieldAST.1.getD "" == fieldName) with
    | none => rfl
    | some f =>
      have hf := List.find?_some hfirst
      have hmem := List.mem_of_find?_eq_some hfirst
      exact absurd hf (hnone ⟨f, hmem⟩ (List.mem_reverse.2 (List.mem_attach _ _)))

theorem isValidLiteralValue_objectValue (v : Validation) (name : String)
    (fieldASTs : List (Option String × AstValue))
    (hnames : (fieldASTs.map (fun f => f.1.getD "")).Nodup) :
    isValidLiteralValue v (.inputObject name) (some (.objectValue fieldASTs)) = true ↔
      (∀ fieldAST ∈ fieldASTs,
        ((v.GetFields name).lookup (fieldAST.1.getD "")).isSome = true) ∧
      (∀ fieldName fieldType, (v.GetFields name).lookup fieldName = some fieldType →
        isValidLiteralValue v fieldType (providedValue fieldASTs fieldName) = true) := by
  rw [isValidLiteralValue]
  simp only [Bool.and_eq_true, List.all_eq_true]
  have hentry : ∀ (field : String × Ty),
      (match (fieldASTs.attach.foldl
          (fun m fieldAST => mapSet m (fieldAST.1.1.getD "") fieldAST) []).lookup field.1 with
        | some fieldAST => isValidLiteralValue v field.2 (some fieldAST.1.2)
        | none => isValidLiteralValue v field.2 none) =
      isValidLiteralValue v field.2 (providedValue fieldASTs field.1) := by
    intro field
    rw [← fieldASTMap_lookup fieldASTs field.1 hnames]
    cases (fieldASTs.attach.foldl
      (fun m fieldAST => mapSet m (fieldAST.1.1.getD "") fieldAST) []).lookup field.1 <;> rfl
  constructor
  · rintro ⟨hdefined, hvalid⟩
    refine ⟨hdefined, ?_⟩
    intro fieldName fieldType hlookup
    exact Eq.trans (hentry (fieldName, fieldType)).symm
      (hvalid (fieldName, fieldType) ((mem_mapEntries_iff _ _ _).2 hlookup))
  · rintro ⟨hdefined, hvalid⟩
    refine ⟨hdefined, ?_⟩
    rintro ⟨fieldName, fieldType⟩ hmem
    exact Eq.trans (hentry (fieldName, fieldType))
      (hvalid fieldName fieldType ((mem_mapEntries_iff _ _ _).1 hmem))

/-- C25: the literal check at an input object type, for a present literal
that is not a variable reference and, when it is an object literal, has no
repeated field names.  The literal is valid iff it is an object literal,
every field it provides is defined by the type, and every field that the type
defines validates against the value that the literal provides for it, or
against the absent literal when the literal does not provide it.  So a
literal with an unknown field is invalid, a literal that misses a non-null
field is invalid, and the absent literal is valid for every field whose type
is not non-null. -/
theorem isValidLiteralValue_inputObject (v : Validation) (name : String) (value : AstValue)
    (hvariable : ∀ n, value ≠ .variable n)
    (hnames : ∀ fieldASTs, value = .objectValue fieldASTs →
      (fieldASTs.map (fun f => f.1.getD "")).Nodup) :
    (isValidLiteralValue v (.inputObject name) (some value) = true ↔
      ∃ fieldASTs, value = .objectValue fieldASTs ∧
        (∀ fieldAST ∈ fieldASTs,
          ((v.GetFields name).lookup (fieldAST.1.getD "")).isSome = true) ∧
        (∀ fieldName fieldType, (v.GetFields name).lookup fieldName = some fieldType →
          isValidLiteralValue v fieldType (providedValue fieldASTs fieldName) = true)) ∧
    (∀ fieldASTs, value = .objectValue fieldASTs →
      (∃ fieldAST ∈ fieldASTs, (v.GetFields name).lookup (fieldAST.1.getD "") = none) →
      isValidLiteralValue v (.inputObject name) (some value) = false) ∧
    (∀ fieldASTs fieldName ofType, value = .objectValue fieldASTs →
      (v.GetFields name).lookup fieldName = some (.nonNull ofType) →
      providedValue fieldASTs fieldName = none →
      isValidLiteralValue v (.inputObject name) (some value) = false) ∧
    (∀ fieldType, (∀ ofType, fieldType ≠ .nonNull ofType) →
      isValidLiteralValue v fieldType none = true) := by
  have hiff : isValidLiteralValue v (.inputObject name) (some value) = true ↔
      ∃ fieldASTs, value = .objectValue fieldASTs ∧
        (∀ fieldAST ∈ fieldASTs,
          ((v.GetFields name).lookup (fieldAST.1.getD "")).isSome = true) ∧
        (∀ fieldName fieldType, (v.GetFields name).lookup fieldName = some fieldType →
          isValidLiteralValue v fieldType (providedValue fieldASTs fieldName) = true) := by
    by_cases hobject : ∃ fieldASTs, value = .objectValue fieldASTs
    · obtain ⟨fieldASTs, hvalue⟩ := hobject
      have hnd := hnames fieldASTs hvalue
      subst hvalue
      rw [isValidLiteralValue_objectValue v name fieldASTs hnd]
      constructor
      · intro h
        exact ⟨fieldASTs, rfl, h⟩
      · rintro ⟨fieldASTs', heq, h⟩
        obtain rfl := AstValue.objectValue.inj heq
        exact h
    · have hfalse : isValidLiteralValue v (.inputObject name) (some value) = false := by
        rw [isValidLiteralValue]
        · intro n h
          exact hvariable n h
        · intro fieldASTs h
          exact hobject ⟨fieldASTs, h⟩
      rw [hfalse]
      constructor
      · intro h
        cases h
      · rintro ⟨fieldASTs, heq, _⟩
        exact absurd ⟨fieldASTs, heq⟩ hobject
  refine ⟨hiff, ?_, ?_, ?_⟩
  · rintro fieldASTs hvalue ⟨fieldAST, hmem, hnone⟩
    rw [← Bool.not_eq_true, hiff]
    rintro ⟨fieldASTs', heq, hdefined, _⟩
    rw [hvalue] at heq
    obtain rfl := AstValue.objectValue.inj heq
    have := hdefined fieldAST hmem
    rw [hnone] at this
    cases this
  · intro fieldASTs fieldName ofType hvalue hlookup hprovided
    rw [← Bool.not_eq_true, hiff]
    rintro ⟨fieldASTs', heq, _, hvalid⟩
    rw [hvalue] at heq
    obtain rfl := AstValue.objectValue.inj heq
    have := hvalid fieldName _ hlookup
    rw [hprovided, isValidLiteralValue_nonNull_absent] at this
    cases this
  · intro fieldType hnn
    exact isValidLiteralValue_absent v fieldType hnn

/-- C25, at a concrete input: the literal `{y: 1}` misses the non-null field
`x` of `Point` and is invalid. -/
theorem isValidLiteralValue_inputObject_witness :
    isValidLiteralValue testValidation (.inputObject "Point")
      (some (.objectValue [(some "y", .intValue "1")])) = false :=
  (isValidLiteralValue_inputObject testValidation "Point"
    (.objectValue [(some "y", .intValue "1")]) (by intro n h; cases h)
    (by
      intro fieldASTs h
      obtain rfl := AstValue.objectValue.inj h
      simp)).2.2.1 [(some "y", .intValue "1")] "x" IntType rfl rfl rfl

end Graphql

namespace Graphql

/-! ## Producers in lists of non-null items -/

/-- C31 (code bug): `Query.nest: DataType`, `DataType.test` of type `[Int!]`
or `[Int!]!`, and the value of `test` is the list of the three producers of
1, nil and 2, as in `TestLists_NullableListOfNonNullArrayOfFunc_ContainsNulls`
and `TestLists_NonNullListOfNonNullArrayOfFunc_ContainsNulls`, which expect
the data `{nest: {test: [1, nil, 2]}}` and no error.  The response has no
data at all and one error, 'Cannot return null for non-nullable field
DataType.test.' at the path `nest.test.1`: the producer of nil is invoked by
the dethunk, its completion at `Int!` aborts, and the abort reaches the
driver.  With the producers of 1 and 2 only, the response holds what they
produce, in order, without error. -/
theorem producers_in_nonNull_list_abort :
    (dataOf (checkList 5 (.list (.nonNull IntType))
        (.list [.func (.int 1), .func .null, .func (.int 2)])) = some .null ∧
     errorsOf (checkList 5 (.list (.nonNull IntType))
        (.list [.func (.int 1), .func .null, .func (.int 2)])) =
       some [cannotReturnNull [.key "nest", .key "test", .index 1]]) ∧
    (dataOf (checkList 5 (.nonNull (.list (.nonNull IntType)))
        (.list [.func (.int 1), .func .null, .func (.int 2)])) = some .null ∧
     errorsOf (checkList 5 (.nonNull (.list (.nonNull IntType)))
        (.list [.func (.int 1), .func .null, .func (.int 2)])) =
       some [cannotReturnNull [.key "nest", .key "test", .index 1]]) ∧
    (dataOf (checkList 5 (.list (.nonNull IntType))
        (.list [.func (.int 1), .func (.int 2)])) =
       some (.map [("nest", .map [("test", .list [.int 1, .int 2])])]) ∧
     errorsOf (checkList 5 (.list (.nonNull IntType))
        (.list [.func (.int 1), .func (.int 2)])) = some []) ∧
    (dataOf (checkList 5 (.nonNull (.list (.nonNull IntType)))
        (.list [.func (.int 1), .func (.int 2)])) =
       some (.map [("nest", .map [("test", .list [.int 1, .int 2])])]) ∧
     errorsOf (checkList 5 (.nonNull (.list (.nonNull IntType)))
        (.list [.func (.int 1), .func (.int 2)])) = some []) :=
  ⟨⟨dataOf_eq_of_dataIs _ _ (by decide!), by decide!⟩,
   ⟨dataOf_eq_of_dataIs _ _ (by decide!), by decide!⟩,
   ⟨dataOf_eq_of_dataIs _ _ (by decide!), by decide!⟩,
   ⟨dataOf_eq_of_dataIs _ _ (by decide!), by decide!⟩⟩

/-! ## Aborts that reach the driver -/

/-- C33: an abort that reaches the top-level driver.  When the context was
built and `executeOperation` ends by an abort, `Execute` returns a result
without data whose errors list holds exactly the error of that abort; the
errors list of the execution context, with the errors that completed nullable
fields appended before, is not part of the result.  In `{ a b }` with
`a: Int` failing by the error "boom" and then `b: Int!` resolving to nil, or
to a producer of nil, the result has no data and the one error of `b`, and
the error "boom" is in the errors list of the execution context only. -/
theorem abort_at_driver_is_the_only_error :
    (∀ (fuel : Nat) (rt : Runtime) (p : ExecuteParams) (world : World)
      (eCtx : executionContext) (r : PanicValue) (s : ExecState),
      buildExecutionContext rt p = .ok eCtx →
      executeOperation fuel rt eCtx p.Root eCtx.Operation (initialState world) =
        (.panic r, s) →
      Execute fuel rt p world = some ({ Data := .null, Errors := [FormatError r] }, s)) ∧
    (dataOf (runQuery 3 twoFailures [("a", 3), ("b", 5)]) = some .null ∧
     errorsOf (runQuery 3 twoFailures [("a", 3), ("b", 5)]) =
       some [{ Message := "Cannot return null for non-nullable field Query.b.",
               Locations := [5], Path := [.key "b"] }] ∧
     contextErrorsOf (runQuery 3 twoFailures [("a", 3), ("b", 5)]) =
       some [{ Message := "boom", Locations := [3], Path := [.key "a"] }]) ∧
    (dataOf (runQuery 3 failureThenProducer [("a", 3), ("b", 5)]) = some .null ∧
     errorsOf (runQuery 3 failureThenProducer [("a", 3), ("b", 5)]) =
       some [{ Message := "Cannot return null for non-nullable field Query.b.",
               Locations := [5], Path := [.key "b"] }] ∧
     contextErrorsOf (runQuery 3 failureThenProducer [("a", 3), ("b", 5)]) =
       some [{ Message := "boom", Locations := [3], Path := [.key "a"] }] ∧
     (traceOf (runQuery 3 failureThenProducer [("a", 3), ("b", 5)])).map invokedPositions =
       some [[.key "b"]]) := by
  refine ⟨?_, ⟨dataOf_eq_of_dataIs _ _ (by decide!), by decide!, by decide!⟩,
    ⟨dataOf_eq_of_dataIs _ _ (by decide!), by decide!, by decide!, by decide!⟩⟩
  intro fuel rt p world eCtx r s hctx hop
  unfold Execute
  rw [hctx]
  simp only [hop]

end Graphql

namespace Graphql

/-! ## Termination of the collection -/

theorem VisitedGrows.of_same (visited : List (String × Bool)) : VisitedGrows visited visited :=
  fun _ h => h

theorem VisitedGrows.chain {v1 v2 v3 : List (String × Bool)} (h12 : VisitedGrows v1 v2)
    (h23 : VisitedGrows v2 v3) : VisitedGrows v1 v3 :=
  fun name h => h23 name (h12 name h)

theorem VisitedGrows.of_mark (visited : List (String × Bool)) (k : String) :
    VisitedGrows visited (mapSet visited k true) := by
  intro name h
  by_cases hk : name = k
  · subst hk
    exact lookup_mapSet_self _ _ _
  · rw [lookup_mapSet_ne _ _ _ _ hk]
    exact h

theorem length_filter_le_of_imp {α : Type} (p q : α → Bool)
    (himp : ∀ a, p a = true → q a = true) (l : List α) :
    (l.filter p).length ≤ (l.filter q).length :=
  (List.monotone_filter_right l himp).length_le

theorem length_filter_lt_of_mem {α : Type} (p q : α → Bool)
    (himp : ∀ a, p a = true → q a = true) :
    ∀ (l : List α) (k : α), k ∈ l → q k = true → p k = false →
      (l.filter p).length < (l.filter q).length := by
  intro l
  induction l with
  | nil => intro k hk; cases hk
  | cons x rest ih =>
    intro k hk hq hp
    have hle := length_filter_le_of_imp p q himp rest
    by_cases hx : k = x
    · subst hx
      rw [List.filter_cons, List.filter_cons, if_pos hq, if_neg (by rw [hp]; decide),
        List.length_cons]
      omega
    · have hmem : k ∈ rest := by
        rcases List.mem_cons.1 hk with h | h
        · exact absurd h hx
        · exact h
      have hlt := ih k hmem hq hp
      cases hpx : p x with
      | true =>
        simp only [List.filter_cons, hpx, himp x hpx, if_true, List.length_cons]
        omega
      | false =>
        cases hqx : q x with
        | true =>
          simp only [List.filter_cons, hpx, hqx, if_true, Bool.false_eq_true, if_false,
            List.length_cons]
          omega
        | false =>
          simp only [List.filter_cons, hpx, hqx, Bool.false_eq_true, if_false]
          exact hlt

/-- Visited names that grow leave no more names to visit. -/
theorem unvisitedFragments_le (eCtx : executionContext) {visited visited' : List (String × Bool)}
    (h : VisitedGrows visited visited') :
    (unvisitedFragments eCtx visited').length ≤ (unvisitedFragments eCtx visited).length := by
  unfold unvisitedFragments
  apply length_filter_le_of_imp
  intro name hname
  simp only [Bool.not_eq_true', beq_eq_false_iff_ne, ne_eq] at hname ⊢
  intro hv
  exact hname (h name hv)

/-- Marking a name of the fragment map that was not visited leaves fewer
names to visit. -/
theorem unvisitedFragments_mark_lt (eCtx : executionContext) (visited : List (String × Bool))
    (k : String) (definition : Definition)
    (hfrag : eCtx.Fragments.lookup k = some definition)
    (hnot : (visited.lookup k == some true) = false) :
    (unvisitedFragments eCtx (mapSet visited k true)).length <
      (unvisitedFragments eCtx visited).length := by
  unfold unvisitedFragments
  apply length_filter_lt_of_mem _ _ _ _ k
  · apply (lookup_isSome_iff_mem_keys _ _).1
    rw [hfrag]
    rfl
  · rw [hnot]
    rfl
  · rw [lookup_mapSet_self]
    rfl
  · intro name hname
    simp only [Bool.not_eq_true', beq_eq_false_iff_ne, ne_eq] at hname ⊢
    intro hv
    exact hname (VisitedGrows.of_mark visited k name hv)

/-- The collection of a list of selections ends, with enough fuel, when the
collections that it enters do: those of the selection sets of its inline
fragments, and those of the fragments of the document from visited names with
fewer names left to visit.  When it returns, the visited names have only
grown. -/
theorem collectFields_list_ends (rt : Runtime) (eCtx : executionContext)
    (runtimeType : Object) (n : Nat)
    (hspread : ∀ (selectionSet : SelectionSet) (acc : Collected),
      (unvisitedFragments eCtx acc.2).length < n →
      ∃ fuel r, collectFields rt eCtx fuel runtimeType selectionSet acc = r ∧
        r ≠ .outOfFuel ∧ ∀ acc', r = .ok acc' → VisitedGrows acc.2 acc'.2) :
    ∀ (selections : List Selection),
      (∀ typeCondition directives selectionSet,
        Selection.inlineFragment typeCondition directives selectionSet ∈ selections →
        ∀ acc : Collected, (unvisitedFragments eCtx acc.2).length ≤ n →
        ∃ fuel r, collectFields rt eCtx fuel runtimeType selectionSet acc = r ∧
          r ≠ .outOfFuel ∧ ∀ acc', r = .ok acc' → VisitedGrows acc.2 acc'.2) →
      ∀ acc : Collected, (unvisitedFragments eCtx acc.2).length ≤ n →
      ∃ fuel r, collectFields rt eCtx fuel runtimeType (some selections) acc = r ∧
        r ≠ .outOfFuel ∧ ∀ acc', r = .ok acc' → VisitedGrows acc.2 acc'.2 := by
  have hsame : ∀ acc : Collected, ∀ acc', (Outcome.ok acc : Outcome Collected) = .ok acc' →
      VisitedGrows acc.2 acc'.2 := by
    intro acc acc' h
    cases h
    exact VisitedGrows.of_same _
  have hmark : ∀ (acc : Collected) (k : String), ∀ acc',
      (Outcome.ok (acc.1, mapSet acc.2 k true) : Outcome Collected) = .ok acc' →
      VisitedGrows acc.2 acc'.2 := by
    intro acc k acc' h
    cases h
    exact VisitedGrows.of_mark _ _
  have hok : ∀ acc : Collected, (Outcome.ok acc : Outcome Collected) ≠ .outOfFuel := by
    intro acc h
    cases h
  have hpanic : ∀ p : PanicValue, (Outcome.panic p : Outcome Collected) ≠ .outOfFuel := by
    intro p h
    cases h
  have hvacuous : ∀ (p : PanicValue) (v : List (String × Bool)), ∀ acc' : Collected,
      (Outcome.panic p : Outcome Collected) = .ok acc' → VisitedGrows v acc'.2 := by
    intro p v acc' h
    cases h
  intro selections
  induction selections with
  | nil =>
    intro _ acc _
    exact ⟨1, .ok acc, rfl, hok acc, hsame acc⟩
  | cons iSelection rest ih =>
    intro hinline acc hacc
    have hfirst : ∃ fuel r,
        collectFields rt eCtx (fuel + 1) runtimeType (some [iSelection]) acc = r ∧
          r ≠ .outOfFuel ∧ ∀ acc', r = .ok acc' → VisitedGrows acc.2 acc'.2 := by
      cases iSelection with
      | field selection =>
        by_cases hinc : (!shouldIncludeNode rt eCtx selection.Directives) = true
        · refine ⟨0, .ok acc, ?_, hok acc, hsame acc⟩
          rw [collectFields_field, if_pos hinc]
        · refine ⟨0, _, (collectFields_field rt eCtx 0 runtimeType selection acc).trans
            (if_neg hinc), hok _, ?_⟩
          intro acc' h
          cases h
          exact VisitedGrows.of_same _
      | inlineFragment typeCondition directives selectionSet =>
        cases hinc : shouldIncludeNode rt eCtx directives with
        | false =>
          exact ⟨0, .ok acc, collectFields_inlineFragment_rejected _ _ _ _ _ _ _ _ hinc,
            hok acc, hsame acc⟩
        | true =>
          cases hm : doesFragmentConditionMatch rt eCtx (.inline typeCondition)
              runtimeType with
          | ok b =>
            cases b with
            | true =>
              obtain ⟨fuel, r, hr, hne, hg⟩ := hinline typeCondition directives selectionSet
                (List.mem_cons_self _ _) acc hacc
              refine ⟨fuel, r, ?_, hne, hg⟩
              rw [collectFields_inlineFragment_enter _ _ _ _ _ _ _ _ hinc hm]
              exact hr
            | false =>
              exact ⟨0, .ok acc, collectFields_inlineFragment_mismatch _ _ _ _ _ _ _ _ hinc hm,
                hok acc, hsame acc⟩
          | panic p =>
            exact ⟨0, .panic p, collectFields_inlineFragment_abort _ _ _ _ _ _ _ _ _ hinc hm,
              hpanic p, hvacuous p _⟩
          | outOfFuel => exact absurd hm (doesFragmentConditionMatch_ne_outOfFuel _ _ _ _)
      | fragmentSpread name directives =>
        cases hskip : (acc.2.lookup (name.getD "") == some true ||
            !shouldIncludeNode rt eCtx directives) with
        | true =>
          exact ⟨0, .ok acc, collectFields_fragmentSpread_skip rt eCtx 0 runtimeType name
            directives acc hskip, hok acc, hsame acc⟩
        | false =>
          cases hfrag : eCtx.Fragments.lookup (name.getD "") with
          | none =>
            exact ⟨0, _, collectFields_fragmentSpread_missing rt eCtx 0 runtimeType name
              directives acc hskip hfrag, hok _, hmark acc _⟩
          | some definition =>
            by_cases hdef : ∃ fragment, definition = .fragment fragment
            · obtain ⟨fragment, rfl⟩ := hdef
              cases hm : doesFragmentConditionMatch rt eCtx
                  (.definition fragment.TypeCondition) runtimeType with
              | ok b =>
                cases b with
                | false =>
                  exact ⟨0, _, collectFields_fragmentSpread_mismatch rt eCtx 0 runtimeType name
                    directives acc fragment hskip hfrag hm, hok _, hmark acc _⟩
                | true =>
                  have hvisited : (acc.2.lookup (name.getD "") == some true) = false := by
                    simp only [Bool.or_eq_false_iff] at hskip
                    exact hskip.1
                  have hlt := unvisitedFragments_mark_lt eCtx acc.2 (name.getD "") _ hfrag
                    hvisited
                  obtain ⟨fuel, r, hr, hne, hg⟩ := hspread fragment.SelectionSet
                    (acc.1, mapSet acc.2 (name.getD "") true) (lt_of_lt_of_le hlt hacc)
                  refine ⟨fuel, r, ?_, hne, ?_⟩
                  · rw [collectFields_fragmentSpread_enter rt eCtx fuel runtimeType name
                      directives acc fragment hskip hfrag hm]
                    exact hr
                  · intro acc' h
                    exact (VisitedGrows.of_mark _ _).chain (hg acc' h)
              | panic p =>
                exact ⟨0, .panic p, collectFields_fragmentSpread_abort rt eCtx 0 runtimeType
                  name directives acc fragment p hskip hfrag hm, hpanic p, hvacuous p _⟩
              | outOfFuel =>
                exact absurd hm (doesFragmentConditionMatch_ne_outOfFuel _ _ _ _)
            · exact ⟨0, _, collectFields_fragmentSpread_other rt eCtx 0 runtimeType name
                directives acc definition hskip hfrag (fun fragment h => hdef ⟨fragment, h⟩),
                hok _, hmark acc _⟩
    obtain ⟨fuel1, r1, h1, hne1, g1⟩ := hfirst
    cases r1 with
    | outOfFuel => exact absurd rfl hne1
    | panic p =>
      refine ⟨fuel1 + 1, .panic p, ?_, hpanic p, hvacuous p _⟩
      rw [collectFields_cons, h1, Outcome.panic_bind]
    | ok acc1 =>
      have g1' := g1 acc1 rfl
      have hr1 : (unvisitedFragments eCtx acc1.2).length ≤ n :=
        le_trans (unvisitedFragments_le eCtx g1') hacc
      obtain ⟨fuel2, r2, h2, hne2, g2⟩ := ih
        (fun typeCondition directives selectionSet hmem =>
          hinline typeCondition directives selectionSet (List.mem_cons_of_mem _ hmem)) acc1 hr1
      refine ⟨fuel1 + fuel2 + 1, r2, ?_, hne2, fun acc' h => g1'.chain (g2 acc' h)⟩
      have h1' := collectFields_more_fuel rt eCtx _ _ _ _ _ h1 hne1 fuel2
      have h2' := collectFields_more_fuel rt eCtx _ _ _ _ _ h2 hne2 (fuel1 + 1)
      have e1 : fuel1 + 1 + fuel2 = fuel1 + fuel2 + 1 := by omega
      have e2 : fuel2 + (fuel1 + 1) = fuel1 + fuel2 + 1 := by omega
      rw [e1] at h1'
      rw [e2] at h2'
      rw [collectFields_cons, h1', Outcome.ok_bind, h2']

/-- The collection of a selection set ends, with enough fuel, when the
collections of the fragments that it enters do. -/
theorem collectFields_set_ends (rt : Runtime) (eCtx : executionContext)
    (runtimeType : Object) (n : Nat)
    (hspread : ∀ (selectionSet : SelectionSet) (acc : Collected),
      (unvisitedFragments eCtx acc.2).length < n →
      ∃ fuel r, collectFields rt eCtx fuel runtimeType selectionSet acc = r ∧
        r ≠ .outOfFuel ∧ ∀ acc', r = .ok acc' → VisitedGrows acc.2 acc'.2) :
    ∀ (size : Nat) (selectionSet : SelectionSet), sizeOf selectionSet ≤ size →
      ∀ acc : Collected, (unvisitedFragments eCtx acc.2).length ≤ n →
      ∃ fuel r, collectFields rt eCtx fuel runtimeType selectionSet acc = r ∧
        r ≠ .outOfFuel ∧ ∀ acc', r = .ok acc' → VisitedGrows acc.2 acc'.2 := by
  have hnone : ∀ acc : Collected,
      ∃ fuel r, collectFields rt eCtx fuel runtimeType none acc = r ∧
        r ≠ .outOfFuel ∧ ∀ acc', r = .ok acc' → VisitedGrows acc.2 acc'.2 := by
    intro acc
    have hzero : collectFields rt eCtx 0 runtimeType none acc = .ok acc := by
      simp only [collectFields]
    refine ⟨0, .ok acc, hzero, ?_, ?_⟩
    · intro h
      cases h
    · intro acc' h
      cases h
      exact VisitedGrows.of_same _
  intro size
  induction size with
  | zero =>
    intro selectionSet hsize acc _
    cases selectionSet with
    | none => exact hnone acc
    | some selections =>
      simp only [Option.some.sizeOf_spec] at hsize
      omega
  | succ size ih =>
    intro selectionSet hsize acc hacc
    cases selectionSet with
    | none => exact hnone acc
    | some selections =>
      apply collectFields_list_ends rt eCtx runtimeType n hspread selections _ acc hacc
      intro typeCondition directives inner hmem acc' hacc'
      apply ih inner _ acc' hacc'
      have h1 := List.sizeOf_lt_of_mem hmem
      simp only [Option.some.sizeOf_spec, Selection.inlineFragment.sizeOf_spec] at hsize h1
      omega

/-- The collection of a selection set ends with enough fuel, whatever the
fragment map: it returns or it aborts, and when it returns its visited names
have only grown. -/
theorem collectFields_ends (rt : Runtime) (eCtx : executionContext) (runtimeType : Object) :
    ∀ (n : Nat) (selectionSet : SelectionSet) (acc : Collected),
      (unvisitedFragments eCtx acc.2).length ≤ n →
      ∃ fuel r, collectFields rt eCtx fuel runtimeType selectionSet acc = r ∧
        r ≠ .outOfFuel ∧ ∀ acc', r = .ok acc' → VisitedGrows acc.2 acc'.2 := by
  intro n
  induction n using Nat.strong_induction_on with
  | _ n ih =>
    intro selectionSet acc hacc
    exact collectFields_set_ends rt eCtx runtimeType n
      (fun selectionSet' acc' hlt => ih _ hlt selectionSet' acc' (le_refl _))
      (sizeOf selectionSet) selectionSet (le_refl _) acc hacc

/-! ## Collections that do not abort -/

/-- When `typeFromAST` returns no nil type without error, the test of a type
condition returns. -/
theorem typeConditionMatches_returns (rt : Runtime) (eCtx : executionContext)
    (hresolves : ∀ named, rt.typeFromAST eCtx.Schema named ≠ .ok none)
    (typeCondition : Option String) (ttype : Object) :
    ∃ b, typeConditionMatches rt eCtx typeCondition ttype = .ok b := by
  unfold typeConditionMatches
  cases typeCondition with
  | none => exact ⟨true, rfl⟩
  | some named =>
    simp only
    cases hty : rt.typeFromAST eCtx.Schema named with
    | error err => exact ⟨false, rfl⟩
    | ok t =>
      cases t with
      | none => exact absurd hty (hresolves named)
      | some conditionalType =>
        simp only
        split
        · exact ⟨true, rfl⟩
        · split
          · exact ⟨true, rfl⟩
          · cases conditionalType <;> exact ⟨_, rfl⟩

theorem doesFragmentConditionMatch_returns (rt : Runtime) (eCtx : executionContext)
    (hresolves : ∀ named, rt.typeFromAST eCtx.Schema named ≠ .ok none)
    (fragment : FragmentNode) (ttype : Object) :
    ∃ b, doesFragmentConditionMatch rt eCtx fragment ttype = .ok b := by
  cases fragment with
  | definition tc => exact typeConditionMatches_returns rt eCtx hresolves tc ttype
  | inline tc => exact typeConditionMatches_returns rt eCtx hresolves tc ttype
  | otherNode => exact ⟨false, rfl⟩

/-- When `typeFromAST` returns no nil type without error, a collection does
not abort. -/
theorem collectFields_not_panic (rt : Runtime) (eCtx : executionContext)
    (hresolves : ∀ named, rt.typeFromAST eCtx.Schema named ≠ .ok none) :
    ∀ (fuel : Nat) (runtimeType : Object) (selectionSet : SelectionSet) (acc : Collected)
      (p : PanicValue), collectFields rt eCtx fuel runtimeType selectionSet acc ≠ .panic p := by
  intro fuel
  induction fuel with
  | zero =>
    intro runtimeType selectionSet acc p h
    cases selectionSet with
    | none => simp [collectFields] at h
    | some selections => simp [collectFields] at h
  | succ fuel ih =>
    intro runtimeType selectionSet acc p h
    cases selectionSet with
    | none => simp [collectFields] at h
    | some selections =>
      induction selections generalizing acc with
      | nil =>
        rw [collectFields_nil] at h
        cases h
      | cons iSelection rest ihs =>
        rw [collectFields_cons] at h
        cases hone : collectFields rt eCtx (fuel + 1) runtimeType (some [iSelection]) acc with
        | outOfFuel =>
          rw [hone, Outcome.outOfFuel_bind] at h
          cases h
        | ok acc1 =>
          rw [hone, Outcome.ok_bind] at h
          exact ihs acc1 h
        | panic q =>
          cases iSelection with
          | field selection =>
            rw [collectFields_field] at hone
            split at hone <;> cases hone
          | inlineFragment typeCondition directives selectionSet =>
            cases hinc : shouldIncludeNode rt eCtx directives with
            | false =>
              rw [collectFields_inlineFragment_rejected _ _ _ _ _ _ _ _ hinc] at hone
              cases hone
            | true =>
              obtain ⟨b, hm⟩ := doesFragmentConditionMatch_returns rt eCtx hresolves
                (.inline typeCondition) runtimeType
              cases b with
              | true =>
                rw [collectFields_inlineFragment_enter _ _ _ _ _ _ _ _ hinc hm] at hone
                exact ih _ _ _ _ hone
              | false =>
                rw [collectFields_inlineFragment_mismatch _ _ _ _ _ _ _ _ hinc hm] at hone
                cases hone
          | fragmentSpread name directives =>
            cases hskip : (acc.2.lookup (name.getD "") == some true ||
                !shouldIncludeNode rt eCtx directives) with
            | true =>
              rw [collectFields_fragmentSpread_skip _ _ _ _ _ _ _ hskip] at hone
              cases hone
            | false =>
              cases hfrag : eCtx.Fragments.lookup (name.getD "") with
              | none =>
                rw [collectFields_fragmentSpread_missing _ _ _ _ _ _ _ hskip hfrag] at hone
                cases hone
              | some definition =>
                by_cases hdef : ∃ fragment, definition = .fragment fragment
                · obtain ⟨fragment, rfl⟩ := hdef
                  obtain ⟨b, hm⟩ := doesFragmentConditionMatch_returns rt eCtx hresolves
                    (.definition fragment.TypeCondition) runtimeType
                  cases b with
                  | true =>
                    rw [collectFields_fragmentSpread_enter _ _ _ _ _ _ _ _ hskip hfrag
                      hm] at hone
                    exact ih _ _ _ _ hone
                  | false =>
                    rw [collectFields_fragmentSpread_mismatch _ _ _ _ _ _ _ _ hskip hfrag
                      hm] at hone
                    cases hone
                · have hother : ∀ fragment, definition ≠ .fragment fragment :=
                    fun fragment hd => hdef ⟨fragment, hd⟩
                  rw [collectFields_fragmentSpread_other _ _ _ _ _ _ _ _ hskip hfrag
                    hother] at hone
                  cases hone

end Graphql

namespace Graphql

/-- C34: `collectFields` terminates.  For every fragment map, runtime type,
selection set and accumulator there is a fuel from which on the collection
ends, always in the same way: it returns a field map and visited names, or it
aborts because the test of a type condition does; and it returns when
`typeFromAST` returns no nil type without error.  The measure behind:
entering the selection set of a fragment marks a name of the fragment map
that was not visited, which leaves strictly fewer names of the map to visit,
and the selection set of an inline fragment is structurally smaller than the
selection set that holds it.  So with the fragments `A { a ...B }` and
`B { b ...A }`, the selection `{ ...A }` collects `a` and `b` and visits `A`
and `B`, and with `S { a ...S }`, the selection `{ ...S }` collects `a` and
visits `S`. -/
theorem collectFields_terminates (rt : Runtime) (eCtx : executionContext)
    (runtimeType : Object) (selectionSet : SelectionSet) (acc : Collected) :
    (∃ fuel r, r ≠ .outOfFuel ∧ ∀ extra,
      collectFields rt eCtx (fuel + extra) runtimeType selectionSet acc = r) ∧
    ((∀ named, rt.typeFromAST eCtx.Schema named ≠ .ok none) →
      ∃ fuel r, ∀ extra,
        collectFields rt eCtx (fuel + extra) runtimeType selectionSet acc = .ok r) ∧
    (∀ name definition, eCtx.Fragments.lookup name = some definition →
      (acc.2.lookup name == some true) = false →
      (unvisitedFragments eCtx (mapSet acc.2 name true)).length <
        (unvisitedFragments eCtx acc.2).length) ∧
    (∀ selections typeCondition directives inner, selectionSet = some selections →
      Selection.inlineFragment typeCondition directives inner ∈ selections →
      sizeOf inner < sizeOf selectionSet) ∧
    collectFields testRuntime cyclicContext 3 (queryType oneAndTwo)
        (some [.fragmentSpread (some "A") []]) ([], []) =
      .ok ([("a", [fieldNode "a" 30 none]), ("b", [fieldNode "b" 60 none])],
        [("A", true), ("B", true)]) ∧
    collectFields testRuntime cyclicContext 2 (queryType oneAndTwo)
        (some [.fragmentSpread (some "S") []]) ([], []) =
      .ok ([("a", [fieldNode "a" 90 none])], [("S", true)]) := by
  obtain ⟨fuel, r, hr, hne, _⟩ := collectFields_ends rt eCtx runtimeType _ selectionSet acc
    (le_refl _)
  have hmore := collectFields_more_fuel rt eCtx fuel runtimeType selectionSet acc r hr hne
  refine ⟨⟨fuel, r, hne, hmore⟩, ?_, ?_, ?_, rfl, rfl⟩
  · intro hresolves
    cases r with
    | ok acc' => exact ⟨fuel, acc', hmore⟩
    | panic p => exact absurd hr (collectFields_not_panic rt eCtx hresolves _ _ _ _ p)
    | outOfFuel => exact absurd rfl hne
  · intro name definition hfrag hnot
    exact unvisitedFragments_mark_lt eCtx acc.2 name definition hfrag hnot
  · intro selections typeCondition directives inner hset hmem
    subst hset
    have h1 := List.sizeOf_lt_of_mem hmem
    simp only [Option.some.sizeOf_spec, Selection.inlineFragment.sizeOf_spec] at h1 ⊢
    omega

end Graphql

namespace Graphql

/-! ## Literals that repeat a field name -/

/-- The map of the fields of a literal holds, for a name, the value that the
literal provides last for it. -/
theorem fieldASTMap_lookup_last (fieldASTs : List (Option String × AstValue))
    (fieldName : String) :
    ((fieldASTs.attach.foldl (fun m fieldAST => mapSet m (fieldAST.1.1.getD "") fieldAST)
      []).lookup fieldName).map (fun fieldAST => fieldAST.1.2) =
      lastProvidedValue fieldASTs fieldName := by
  rw [lookup_foldl_mapSet (fun fieldAST : { x // x ∈ fieldASTs } => fieldAST.1.1.getD "")
    fieldName fieldASTs.attach []]
  unfold lastProvidedValue
  have hrev : fieldASTs.reverse = fieldASTs.attach.reverse.map Subtype.val := by
    rw [List.map_reverse, List.attach_map_subtype_val]
  rw [hrev, List.find?_map]
  show _ = Option.map (fun f : Option String × AstValue => f.2) (Option.map Subtype.val
    (List.find? (fun x : { x // x ∈ fieldASTs } => x.1.1.getD "" == fieldName)
      fieldASTs.attach.reverse))
  cases fieldASTs.attach.reverse.find?
      (fun x => x.1.1.getD "" == fieldName) <;> rfl

/-- The literal check of an object literal at an input object type: every
field of the literal is defined, and every defined field validates against
the value that the literal provides last for it. -/
theorem isValidLiteralValue_objectValue_last (v : Validation) (name : String)
    (fieldASTs : List (Option String × AstValue)) :
    isValidLiteralValue v (.inputObject name) (some (.objectValue fieldASTs)) =
      (fieldASTs.all (fun fieldAST =>
          ((v.GetFields name).lookup (fieldAST.1.getD "")).isSome) &&
        (mapEntries (v.GetFields name)).all (fun field =>
          isValidLiteralValue v field.2 (lastProvidedValue fieldASTs field.1))) := by
  rw [isValidLiteralValue]
  congr 1
  have hentry : ∀ (field : String × Ty),
      (match (fieldASTs.attach.foldl
          (fun m fieldAST => mapSet m (fieldAST.1.1.getD "") fieldAST) []).lookup field.1 with
        | some fieldAST => isValidLiteralValue v field.2 (some fieldAST.1.2)
        | none => isValidLiteralValue v field.2 none) =
      isValidLiteralValue v field.2 (lastProvidedValue fieldASTs field.1) := by
    intro field
    rw [← fieldASTMap_lookup_last fieldASTs field.1]
    cases (fieldASTs.attach.foldl
      (fun m fieldAST => mapSet m (fieldAST.1.1.getD "") fieldAST) []).lookup field.1 <;> rfl
  rw [Bool.eq_iff_iff]
  simp only [List.all_eq_true]
  constructor
  · intro h field hmem
    exact Eq.trans (hentry field).symm (h field hmem)
  · intro h field hmem
    exact Eq.trans (hentry field) (h field hmem)

/-- The value that a literal provides last for a name is the value of one of
its fields of that name. -/
theorem lastProvidedValue_mem (fieldASTs : List (Option String × AstValue))
    (fieldName : String) (value : AstValue)
    (h : lastProvidedValue fieldASTs fieldName = some value) :
    ∃ fieldAST ∈ fieldASTs, fieldAST.1.getD "" = fieldName ∧ fieldAST.2 = value := by
  unfold lastProvidedValue at h
  cases hfind : fieldASTs.reverse.find? (fun fieldAST => fieldAST.1.getD "" == fieldName) with
  | none =>
    rw [hfind] at h
    cases h
  | some fieldAST =>
    rw [hfind] at h
    simp only [Option.map_some', Option.some.injEq] at h
    have hmem := List.mem_reverse.1 (List.mem_of_find?_eq_some hfind)
    have hname := List.find?_some hfind
    simp only [beq_iff_eq] at hname
    exact ⟨fieldAST, hmem, hname, h⟩

end Graphql

namespace Graphql

/-! ## Termination of the literal check -/

/-- C35: `isValidLiteralValue` terminates.  It is a total function of the
type and the literal, defined by recursion on the literal and then on the
type, and these are all the calls it makes.  At `NonNull(T)` the absent
literal is invalid at once and a present literal is checked against `T`, the
same literal with one wrapper less.  The absent literal is valid at once for
every other type.  At `List(T)` a list literal is checked element by element,
each element a strictly smaller literal, and another literal is checked
against `T`, one wrapper less.  At an input object type an object literal is
checked, for every field that the type defines, against the value that the
literal provides for the field, a strictly smaller literal, or against the
absent literal.  So the check returns for the input object type `Node` with
the field `next: Node`, which refers to itself: it accepts
`{value: 1, next: {next: {}}}` and rejects `{next: {value: "x"}}`. -/
theorem isValidLiteralValue_terminates (v : Validation) :
    (∀ ofType, isValidLiteralValue v (.nonNull ofType) none = false) ∧
    (∀ ofType value, isValidLiteralValue v (.nonNull ofType) (some value) =
      isValidLiteralValue v ofType (some value)) ∧
    (∀ ttype, (∀ ofType, ttype ≠ .nonNull ofType) →
      isValidLiteralValue v ttype none = true) ∧
    (∀ itemType values,
      isValidLiteralValue v (.list itemType) (some (.listValue values)) =
        values.all (fun item => isValidLiteralValue v itemType (some item)) ∧
      ∀ item ∈ values, sizeOf item < sizeOf (AstValue.listValue values)) ∧
    (∀ itemType value, (∀ name, value ≠ .variable name) →
      (∀ values, value ≠ .listValue values) →
      isValidLiteralValue v (.list itemType) (some value) =
        isValidLiteralValue v itemType (some value)) ∧
    (∀ name fieldASTs,
      isValidLiteralValue v (.inputObject name) (some (.objectValue fieldASTs)) =
        (fieldASTs.all (fun fieldAST =>
            ((v.GetFields name).lookup (fieldAST.1.getD "")).isSome) &&
          (mapEntries (v.GetFields name)).all (fun field =>
            isValidLiteralValue v field.2 (lastProvidedValue fieldASTs field.1))) ∧
      ∀ fieldName value, lastProvidedValue fieldASTs fieldName = some value →
        sizeOf value < sizeOf (AstValue.objectValue fieldASTs)) ∧
    isValidLiteralValue nodeValidation (.inputObject "Node")
      (some (.objectValue [(some "value", .intValue "1"),
        (some "next", .objectValue [(some "next", .objectValue [])])])) = true ∧
    isValidLiteralValue nodeValidation (.inputObject "Node")
      (some (.objectValue [(some "next", .objectValue [(some "value", .stringValue "x")])])) =
        false := by
  refine ⟨?_, ?_, ?_, ?_, ?_, ?_, ?_, ?_⟩
  · intro ofType
    exact isValidLiteralValue_nonNull_absent v ofType
  · intro ofType value
    rw [isValidLiteralValue]
  · intro ttype hnn
    exact isValidLiteralValue_absent v ttype hnn
  · intro itemType values
    refine ⟨isValidLiteralValue_listValue v itemType values, ?_⟩
    intro item hmem
    have h1 := List.sizeOf_lt_of_mem hmem
    simp only [AstValue.listValue.sizeOf_spec]
    omega
  · intro itemType value hvariable hlist
    rw [isValidLiteralValue]
    · intro name h
      exact hvariable name h
    · intro values h
      exact hlist values h
  · intro name fieldASTs
    refine ⟨isValidLiteralValue_objectValue_last v name fieldASTs, ?_⟩
    intro fieldName value hlast
    obtain ⟨fieldAST, hmem, _, hvalue⟩ := lastProvidedValue_mem fieldASTs fieldName value hlast
    have h1 := List.sizeOf_lt_of_mem hmem
    obtain ⟨fieldASTName, fieldASTValue⟩ := fieldAST
    simp only at hvalue
    subst hvalue
    simp only [AstValue.objectValue.sizeOf_spec, Prod.mk.sizeOf_spec] at h1 ⊢
    omega
  · simp [isValidLiteralValue_objectValue_last, isValidLiteralValue, IntType, nodeValidation,
      isNullish, mapEntries, lastProvidedValue]
  · simp [isValidLiteralValue_objectValue_last, isValidLiteralValue, IntType, nodeValidation,
      isNullish, mapEntries, lastProvidedValue]

/-! ## Literals that repeat a field name -/

/-- C40: an object literal that repeats a field name.  An object literal is
valid for an input object type iff every one of its fields, each occurrence
included, is defined by the type, and every field that the type defines
validates against the value of the last occurrence of its name in the
literal, or against the absent literal when the literal has none.  With the
input object type `A` of the one field `a: Int`: the string literal "x" is
not a valid `Int` literal and `1` is one; the literal `{a: "x", a: 1}` is
accepted; `{a: "x"}` and `{a: 1, a: "x"}` are rejected; and `{b: 1, a: 1}` is
rejected, `b` not being defined. -/
theorem isValidLiteralValue_repeated_field :
    (∀ (v : Validation) (name : String) (fieldASTs : List (Option String × AstValue)),
      isValidLiteralValue v (.inputObject name) (some (.objectValue fieldASTs)) = true ↔
        (∀ fieldAST ∈ fieldASTs,
          ((v.GetFields name).lookup (fieldAST.1.getD "")).isSome = true) ∧
        (∀ fieldName fieldType, (v.GetFields name).lookup fieldName = some fieldType →
          isValidLiteralValue v fieldType (lastProvidedValue fieldASTs fieldName) = true)) ∧
    nodeValidation.GetFields "A" = [("a", IntType)] ∧
    isValidLiteralValue nodeValidation IntType (some (.stringValue "x")) = false ∧
    isValidLiteralValue nodeValidation IntType (some (.intValue "1")) = true ∧
    isValidLiteralValue nodeValidation (.inputObject "A")
      (some (.objectValue [(some "a", .stringValue "x"), (some "a", .intValue "1")])) = true ∧
    isValidLiteralValue nodeValidation (.inputObject "A")
      (some (.objectValue [(some "a", .stringValue "x")])) = false ∧
    isValidLiteralValue nodeValidation (.inputObject "A")
      (some (.objectValue [(some "a", .intValue "1"), (some "a", .stringValue "x")])) = false ∧
    isValidLiteralValue nodeValidation (.inputObject "A")
      (some (.objectValue [(some "b", .intValue "1"), (some "a", .intValue "1")])) = false := by
  refine ⟨?_, rfl, ?_, ?_, ?_, ?_, ?_, ?_⟩
  · intro v name fieldASTs
    rw [isValidLiteralValue_objectValue_last]
    simp only [Bool.and_eq_true, List.all_eq_true]
    constructor
    · rintro ⟨hdefined, hvalid⟩
      refine ⟨hdefined, ?_⟩
      intro fieldName fieldType hlookup
      exact hvalid (fieldName, fieldType) ((mem_mapEntries_iff _ _ _).2 hlookup)
    · rintro ⟨hdefined, hvalid⟩
      refine ⟨hdefined, ?_⟩
      rintro ⟨fieldName, fieldType⟩ hmem
      exact hvalid fieldName fieldType ((mem_mapEntries_iff _ _ _).1 hmem)
  · simp [isValidLiteralValue, IntType, nodeValidation, isNullish]
  · simp [isValidLiteralValue, IntType, nodeValidation, isNullish]
  · simp [isValidLiteralValue_objectValue_last, isValidLiteralValue, IntType, nodeValidation,
      isNullish, mapEntries, lastProvidedValue]
  · simp [isValidLiteralValue_objectValue_last, isValidLiteralValue, IntType, nodeValidation,
      isNullish, mapEntries, lastProvidedValue]
  · simp [isValidLiteralValue_objectValue_last, isValidLiteralValue, IntType, nodeValidation,
      isNullish, mapEntries, lastProvidedValue]
  · simp [isValidLiteralValue_objectValue_last, isValidLiteralValue, IntType, nodeValidation,
      isNullish, mapEntries, lastProvidedValue]

end Graphql

namespace Graphql

/-! ## Type conditions -/

/-- The body of the two cases of `doesFragmentConditionMatch`, case by
case. -/
theorem typeConditionMatches_iff (rt : Runtime) (eCtx : executionContext)
    (typeCondition : Option String) (ttype : Object) :
    typeConditionMatches rt eCtx typeCondition ttype = .ok true ↔
      typeCondition = none ∨
      ∃ named conditionalType, typeCondition = some named ∧
        rt.typeFromAST eCtx.Schema named = .ok (some conditionalType) ∧
        (conditionalType = .object ttype.PrivateName ∨
         conditionalType.Name = ttype.Name ∨
         ∃ n, (conditionalType = .interface n ∨ conditionalType = .union n) ∧
           eCtx.Schema.IsPossibleType n ttype.PrivateName = true) := by
  cases typeCondition with
  | none => simp [typeConditionMatches]
  | some named =>
    cases hty : rt.typeFromAST eCtx.Schema named with
    | error err => simp [typeConditionMatches, hty]
    | ok t =>
      cases t with
      | none => simp [typeConditionMatches, hty]
      | some conditionalType =>
        simp only [typeConditionMatches, hty, false_or, Option.some.injEq, exists_and_left,
          exists_eq_left', reduceCtorEq, Except.ok.injEq]
        by_cases hid : conditionalType = .object ttype.PrivateName
        · simp [hid]
        · by_cases hname : conditionalType.Name = ttype.Name
          · simp [hid, hname]
          · simp only [hid, hname, if_false, false_or]
            cases conditionalType <;> simp

/-- The test of a type condition aborts only when `typeFromAST` returns the
nil type without error, and then with the nil dereference. -/
theorem typeConditionMatches_panic_iff (rt : Runtime) (eCtx : executionContext)
    (typeCondition : Option String) (ttype : Object) (r : PanicValue) :
    typeConditionMatches rt eCtx typeCondition ttype = .panic r ↔
      r = nilDereference ∧
        ∃ named, typeCondition = some named ∧ rt.typeFromAST eCtx.Schema named = .ok none := by
  cases typeCondition with
  | none => simp [typeConditionMatches]
  | some named =>
    cases hty : rt.typeFromAST eCtx.Schema named with
    | error err => simp [typeConditionMatches, hty]
    | ok t =>
      cases t with
      | none =>
        simp only [typeConditionMatches, hty, Outcome.panic.injEq, Option.some.injEq,
          exists_eq_left', and_true]
        exact eq_comm
      | some conditionalType =>
        constructor
        · intro h
          exfalso
          simp only [typeConditionMatches, hty] at h
          split at h
          · cases h
          · split at h
            · cases h
            · cases conditionalType <;> cases h
        · rintro ⟨_, named', hn, hnil⟩
          cases hn
          rw [hty] at hnil
          cases hnil

/-- C37 (code bug): `doesFragmentConditionMatch`.  A fragment definition
matches the runtime type iff it has no type condition, or its type condition
resolves to a type that is the runtime type itself, or has the name of the
runtime type, or is an interface or a union of which `Schema.IsPossibleType`
says that the runtime type is a possible type.  An inline fragment ends as
the fragment definition with the same type condition does.  The answer is
false when `typeFromAST` returns an error, when the type condition resolves
to a type that is none of these, and for a node that is neither an inline
fragment nor a fragment definition.  But when `typeFromAST` returns the nil
type without error, as it does for a name that the schema does not know, the
call does not return false: it aborts with the nil dereference of the
runtime, at `conditionalType.Name()`, and it aborts in no other case.  With
the union `Pet` of `Dog` and `Cat` and the runtime type `Dog`: no type
condition, `Dog` and `Pet` match, `Cat` does not, and `Unknown` aborts; the
query `{ ... on Unknown { a } }` has no data and the one error of the nil
dereference. -/
theorem doesFragmentConditionMatch_iff (rt : Runtime) (eCtx : executionContext)
    (ttype : Object) :
    (∀ typeCondition,
      doesFragmentConditionMatch rt eCtx (.definition typeCondition) ttype = .ok true ↔
        typeCondition = none ∨
        ∃ named conditionalType, typeCondition = some named ∧
          rt.typeFromAST eCtx.Schema named = .ok (some conditionalType) ∧
          (conditionalType = .object ttype.PrivateName ∨
           conditionalType.Name = ttype.Name ∨
           ∃ n, (conditionalType = .interface n ∨ conditionalType = .union n) ∧
             eCtx.Schema.IsPossibleType n ttype.PrivateName = true)) ∧
    (∀ typeCondition,
      doesFragmentConditionMatch rt eCtx (.inline typeCondition) ttype =
        doesFragmentConditionMatch rt eCtx (.definition typeCondition) ttype) ∧
    (∀ named err, rt.typeFromAST eCtx.Schema named = .error err →
      doesFragmentConditionMatch rt eCtx (.definition (some named)) ttype = .ok false) ∧
    (∀ named conditionalType,
      rt.typeFromAST eCtx.Schema named = .ok (some conditionalType) →
      conditionalType ≠ .object ttype.PrivateName → conditionalType.Name ≠ ttype.Name →
      (∀ n, conditionalType = .interface n ∨ conditionalType = .union n →
        eCtx.Schema.IsPossibleType n ttype.PrivateName = false) →
      doesFragmentConditionMatch rt eCtx (.definition (some named)) ttype = .ok false) ∧
    doesFragmentConditionMatch rt eCtx .otherNode ttype = .ok false ∧
    (∀ named, rt.typeFromAST eCtx.Schema named = .ok none →
      doesFragmentConditionMatch rt eCtx (.definition (some named)) ttype =
        .panic nilDereference) ∧
    (∀ typeCondition r,
      doesFragmentConditionMatch rt eCtx (.definition typeCondition) ttype = .panic r →
      ∃ named, typeCondition = some named ∧ rt.typeFromAST eCtx.Schema named = .ok none) ∧
    (doesFragmentConditionMatch petRuntime petContext (.definition none)
        (pickyType "Dog" true) = .ok true ∧
     doesFragmentConditionMatch petRuntime petContext (.definition (some "Dog"))
        (pickyType "Dog" true) = .ok true ∧
     doesFragmentConditionMatch petRuntime petContext (.inline (some "Pet"))
        (pickyType "Dog" true) = .ok true ∧
     doesFragmentConditionMatch petRuntime petContext (.definition (some "Cat"))
        (pickyType "Dog" true) = .ok false ∧
     doesFragmentConditionMatch petRuntime petContext (.inline (some ""))
        (pickyType "Dog" true) = .ok false ∧
     doesFragmentConditionMatch petRuntime petContext (.inline (some "Unknown"))
        (pickyType "Dog" true) = .panic nilDereference) ∧
    (dataOf (Execute 3 petRuntime
        { Schema := querySchema oneAndTwo, Root := .null,
          AST := [.operation ⟨.query, none,
            some [.inlineFragment (some "Unknown") [] (some [.field (fieldNode "a" 20 none)])]⟩],
          OperationName := "", Args := [] } .null) = some .null ∧
     errorsOf (Execute 3 petRuntime
        { Schema := querySchema oneAndTwo, Root := .null,
          AST := [.operation ⟨.query, none,
            some [.inlineFragment (some "Unknown") [] (some [.field (fieldNode "a" 20 none)])]⟩],
          OperationName := "", Args := [] } .null) =
       some [{ Message := "runtime error: invalid memory address or nil pointer dereference",
               Locations := [], Path := [] }]) := by
  refine ⟨?_, ?_, ?_, ?_, rfl, ?_, ?_,
    ⟨rfl, rfl, rfl, rfl, rfl, rfl⟩,
    ⟨dataOf_eq_of_dataIs _ _ (by decide!), by decide!⟩⟩
  · intro typeCondition
    exact typeConditionMatches_iff rt eCtx typeCondition ttype
  · intro typeCondition
    rfl
  · intro named err herr
    show typeConditionMatches rt eCtx (some named) ttype = .ok false
    simp only [typeConditionMatches, herr]
  · intro named conditionalType hsome hid hname hpossible
    show typeConditionMatches rt eCtx (some named) ttype = .ok false
    simp only [typeConditionMatches, hsome, hid, hname, if_false]
    cases conditionalType with
    | interface n => simp only [hpossible n (Or.inl rfl)]
    | union n => simp only [hpossible n (Or.inr rfl)]
    | _ => rfl
  · intro named hnil
    show typeConditionMatches rt eCtx (some named) ttype = .panic nilDereference
    simp only [typeConditionMatches, hnil]
  · intro typeCondition r h
    exact ((typeConditionMatches_panic_iff rt eCtx typeCondition ttype r).1 h).2

end Graphql

namespace Graphql

/-! ## The two modes of evaluating a selection set -/

/-- C38: serial and parallel evaluation are the same computation.  For the
same parameters and from the same state, which fixes what the resolve
delegates do and the order in which the field map is traversed,
`executeFieldsSerially` and `executeFields` end in the same way, with the
same result (the same data map and the same errors list) and the same state.
Both are: the loop over the entries of the field map in the order of the
traversal, then the breadth-first dethunk of the map of the results, once,
then the result built from that map and the errors list.  The loop resolves
the field of every entry through `resolveField` and puts what it returns in
the map under the response name, unless the field has no definition. -/
theorem executeFieldsSerially_eq_executeFields (fuel : Nat) (rt : Runtime)
    (eCtx : executionContext) (p : executeFieldsParams) :
    executeFieldsSerially fuel rt eCtx p = executeFields fuel rt eCtx p ∧
    (∀ s, executeFields fuel rt eCtx p s =
      (executeFieldsLoop (completeValueCatchingError rt eCtx fuel) rt eCtx p.ParentType
          (sourceOrEmpty p.Source) p.Path (mapRange (rt.rangeSeed s.ranges) p.Fields) [] >>=
        fun finalResults =>
          dethunkWithBreadthFirstSearch fuel rt eCtx finalResults >>= resultOf)
        { s with ranges := s.ranges + 1 }) ∧
    (∀ (self : Completer) (parentType : Object) (source : Value) (path : responsePath)
      (finalResults : List (String × Value)),
      executeFieldsLoop self rt eCtx parentType source path [] finalResults =
        pure finalResults) ∧
    (∀ (self : Completer) (parentType : Object) (source : Value) (path : responsePath)
      (responseName : String) (fieldASTs : List Field) (rest : List (String × List Field))
      (finalResults : List (String × Value)),
      executeFieldsLoop self rt eCtx parentType source path
          ((responseName, fieldASTs) :: rest) finalResults =
        (resolveField self rt eCtx parentType source fieldASTs
            (path.WithKey (.key responseName)) >>=
          fun resolved =>
            if resolved.2.hasNoFieldDefs then
              executeFieldsLoop self rt eCtx parentType source path rest finalResults
            else
              executeFieldsLoop self rt eCtx parentType source path rest
                (mapSet finalResults responseName resolved.1))) := by
  refine ⟨?_, ?_, ?_, ?_⟩
  · funext s
    rfl
  · intro s
    rfl
  · intro self parentType source path finalResults
    rfl
  · intro self parentType source path responseName fieldASTs rest finalResults
    rfl

end Graphql

namespace Graphql

/-! ## Object values -/

/-- More fuel does not change how the loop over the merged field nodes ends,
when it ends. -/
theorem collectSubFields_more_fuel (rt : Runtime) (eCtx : executionContext)
    (returnType : Object) (fuel extra : Nat) :
    ∀ (fieldASTs : List Field) (acc : Collected) (r : Outcome Collected),
      collectSubFields fuel rt eCtx returnType fieldASTs acc = r → r ≠ .outOfFuel →
      collectSubFields (fuel + extra) rt eCtx returnType fieldASTs acc = r := by
  intro fieldASTs
  induction fieldASTs with
  | nil =>
    intro acc r h _
    simp only [collectSubFields] at h ⊢
    exact h
  | cons fieldAST rest ih =>
    intro acc r h hr
    unfold collectSubFields at h ⊢
    cases hss : fieldAST.SelectionSet with
    | none =>
      rw [hss] at h
      exact ih acc r h hr
    | some selectionSet =>
      rw [hss] at h
      simp only at h ⊢
      cases hcol : collectFields rt eCtx fuel returnType (some selectionSet) acc with
      | outOfFuel =>
        rw [hcol] at h
        exact absurd h.symm hr
      | panic p =>
        rw [hcol] at h
        rw [collectFields_more_fuel rt eCtx fuel returnType (some selectionSet) acc _ hcol
          (by intro hp; cases hp) extra]
        exact h
      | ok acc1 =>
        rw [hcol] at h
        rw [collectFields_more_fuel rt eCtx fuel returnType (some selectionSet) acc _ hcol
          (by intro hp; cases hp) extra]
        exact ih acc1 r h hr

/-- The loop over the merged field nodes ends with enough fuel: it returns,
or it aborts. -/
theorem collectSubFields_ends (rt : Runtime) (eCtx : executionContext)
    (returnType : Object) :
    ∀ (fieldASTs : List Field) (acc : Collected),
      ∃ fuel r, collectSubFields fuel rt eCtx returnType fieldASTs acc = r ∧
        r ≠ .outOfFuel := by
  intro fieldASTs
  induction fieldASTs with
  | nil =>
    intro acc
    have hzero : collectSubFields 0 rt eCtx returnType [] acc = .ok acc := by
      simp only [collectSubFields]
    exact ⟨0, .ok acc, hzero, fun h => Outcome.noConfusion h⟩
  | cons fieldAST rest ih =>
    intro acc
    cases hss : fieldAST.SelectionSet with
    | none =>
      obtain ⟨fuel, r, hr, hne⟩ := ih acc
      refine ⟨fuel, r, ?_, hne⟩
      unfold collectSubFields
      rw [hss]
      exact hr
    | some selectionSet =>
      obtain ⟨fuel1, r1, h1, hne1, _⟩ := collectFields_ends rt eCtx returnType _
        (some selectionSet) acc (le_refl _)
      cases r1 with
      | outOfFuel => exact absurd rfl hne1
      | panic p =>
        refine ⟨fuel1, .panic p, ?_, fun h => Outcome.noConfusion h⟩
        unfold collectSubFields
        rw [hss]
        simp only [h1]
      | ok acc1 =>
        obtain ⟨fuel2, r, h2, hne2⟩ := ih acc1
        refine ⟨fuel1 + fuel2, r, ?_, hne2⟩
        unfold collectSubFields
        rw [hss]
        simp only
        rw [collectFields_more_fuel rt eCtx fuel1 returnType (some selectionSet) acc _ h1 hne1
          fuel2]
        have h2' := collectSubFields_more_fuel rt eCtx returnType fuel2 fuel1 rest acc1 r h2
          hne2
        rw [Nat.add_comm] at h2'
        exact h2'

/-- When `typeFromAST` returns no nil type without error, the loop over the
merged field nodes does not abort. -/
theorem collectSubFields_not_panic (fuel : Nat) (rt : Runtime) (eCtx : executionContext)
    (hresolves : ∀ named, rt.typeFromAST eCtx.Schema named ≠ .ok none)
    (returnType : Object) :
    ∀ (fieldASTs : List Field) (acc : Collected) (p : PanicValue),
      collectSubFields fuel rt eCtx returnType fieldASTs acc ≠ .panic p := by
  intro fieldASTs
  induction fieldASTs with
  | nil =>
    intro acc p h
    simp only [collectSubFields] at h
    cases h
  | cons fieldAST rest ih =>
    intro acc p h
    unfold collectSubFields at h
    cases hss : fieldAST.SelectionSet with
    | none =>
      rw [hss] at h
      exact ih acc p h
    | some selectionSet =>
      rw [hss] at h
      simp only at h
      cases hcol : collectFields rt eCtx fuel returnType (some selectionSet) acc with
      | outOfFuel =>
        rw [hcol] at h
        cases h
      | panic q => exact collectFields_not_panic rt eCtx hresolves _ _ _ _ q hcol
      | ok acc1 =>
        rw [hcol] at h
        exact ih acc1 p h

/-- A value that `IsTypeOf` refuses makes `completeObjectValue` abort at
once, whatever the fuel. -/
theorem completeObjectValue_rejected (fuel : Nat) (self : Completer) (rt : Runtime)
    (eCtx : executionContext) (returnType : Object) (fieldASTs : List Field)
    (info : ResolveInfo) (path : responsePath) (result : Value)
    (isTypeOf : IsTypeOfParams → Bool) (hdef : returnType.IsTypeOf = some isTypeOf)
    (hfalse : isTypeOf { Value := result, Info := info } = false) (s : ExecState) :
    completeObjectValue fuel self rt eCtx returnType fieldASTs info path result s =
      (.panic ⟨expectedValueOfType rt returnType result, none⟩,
        { s with trace := s.trace ++ [.raised (expectedValueOfType rt returnType result)] }) := by
  unfold completeObjectValue
  simp only [hdef, hfalse, Bool.not_false, if_true]
  rfl

/-- An abort of the collection of the sub-fields is the abort of
`completeObjectValue`. -/
theorem completeObjectValue_aborted (fuel : Nat) (self : Completer) (rt : Runtime)
    (eCtx : executionContext) (returnType : Object) (fieldASTs : List Field)
    (info : ResolveInfo) (path : responsePath) (result : Value) (p : PanicValue)
    (hType : ∀ isTypeOf, returnType.IsTypeOf = some isTypeOf →
      isTypeOf { Value := result, Info := info } = true)
    (hcollect : collectSubFields fuel rt eCtx returnType fieldASTs ([], []) = .panic p) :
    completeObjectValue fuel self rt eCtx returnType fieldASTs info path result = raise p := by
  unfold completeObjectValue
  cases h : returnType.IsTypeOf with
  | none => simp only [hcollect]; rfl
  | some f => simp only [hType f h, hcollect]; rfl

/-- C39: `completeObjectValue` and `IsTypeOf`.  When the object type defines
`IsTypeOf` and `IsTypeOf` returns false for the result, `completeObjectValue`
aborts with 'Expected value of type "T" but got: ' followed by the dynamic
type of the result and a full stop, whatever the fuel: nothing is collected,
no resolve delegate is called, and the state is left as it was but for the
record of the abort.  When `IsTypeOf` is absent or returns true, the
collection of the sub-fields ends with enough fuel; when it returns, which
it does whenever `typeFromAST` returns no nil type without error,
`completeObjectValue` is the execution of the collected sub-fields, and when
that returns a map of results, `completeObjectValue` returns that map; when
the collection aborts, on the test of a type condition, `completeObjectValue`
aborts with it and no resolve delegate is called.  With the type `Dog`, whose
`IsTypeOf` takes the integers: the string "x" aborts with 'Expected value of
type "Dog" but got: string.', and the integer 1 completes to the empty map. -/
theorem completeObjectValue_isTypeOf (self : Completer) (rt : Runtime)
    (eCtx : executionContext) (returnType : Object) (fieldASTs : List Field)
    (info : ResolveInfo) (path : responsePath) (result : Value) :
    (∀ isTypeOf fuel s, returnType.IsTypeOf = some isTypeOf →
      isTypeOf { Value := result, Info := info } = false →
      completeObjectValue fuel self rt eCtx returnType fieldASTs info path result s =
        (.panic ⟨"Expected value of type \"" ++ returnType.Name ++ "\" but got: " ++
            rt.formatType result ++ ".", none⟩,
          { s with trace := s.trace ++ [.raised (expectedValueOfType rt returnType result)] })) ∧
    ((∀ named, rt.typeFromAST eCtx.Schema named ≠ .ok none) →
      (∀ isTypeOf, returnType.IsTypeOf = some isTypeOf →
        isTypeOf { Value := result, Info := info } = true) →
      ∃ fuel subFieldASTs visited, ∀ extra,
        collectSubFields (fuel + extra) rt eCtx returnType fieldASTs ([], []) =
          .ok (subFieldASTs, visited) ∧
        completeObjectValue (fuel + extra) self rt eCtx returnType fieldASTs info path result =
          (executeSubFields self rt eCtx
            { ParentType := returnType, Source := result, Fields := subFieldASTs,
              Path := path } >>=
            fun finalResults => pure (.map finalResults)) ∧
        ∀ s finalResults s',
          executeSubFields self rt eCtx
            { ParentType := returnType, Source := result, Fields := subFieldASTs,
              Path := path } s = (.ok finalResults, s') →
          completeObjectValue (fuel + extra) self rt eCtx returnType fieldASTs info path
            result s = (.ok (.map finalResults), s')) ∧
    ((∀ isTypeOf, returnType.IsTypeOf = some isTypeOf →
        isTypeOf { Value := result, Info := info } = true) →
      ∃ fuel r, r ≠ .outOfFuel ∧ ∀ extra,
        collectSubFields (fuel + extra) rt eCtx returnType fieldASTs ([], []) = r ∧
        (∀ subFieldASTs visited, r = .ok (subFieldASTs, visited) →
          completeObjectValue (fuel + extra) self rt eCtx returnType fieldASTs info path
              result =
            (executeSubFields self rt eCtx
              { ParentType := returnType, Source := result, Fields := subFieldASTs,
                Path := path } >>=
              fun finalResults => pure (.map finalResults)) ∧
          ∀ s finalResults s',
            executeSubFields self rt eCtx
              { ParentType := returnType, Source := result, Fields := subFieldASTs,
                Path := path } s = (.ok finalResults, s') →
            completeObjectValue (fuel + extra) self rt eCtx returnType fieldASTs info path
              result s = (.ok (.map finalResults), s')) ∧
        (∀ p, r = .panic p → ∀ s,
          completeObjectValue (fuel + extra) self rt eCtx returnType fieldASTs info path
              result s =
            (.panic p, { s with trace := s.trace ++ [.raised p.message] }))) ∧
    (completeObjectValue 0 (completeValueCatchingError petRuntime petContext 0) petRuntime
        petContext (pickyType "Dog" true) [fieldNode "pet" 3 (some [])] petInfo
        (responsePath.root.WithKey (.key "pet")) (.str "x") (initialState .null) =
      (.panic ⟨"Expected value of type \"Dog\" but got: string.", none⟩,
        { initialState .null with
          trace := [.raised "Expected value of type \"Dog\" but got: string."] }) ∧
     completeObjectValue 1 (completeValueCatchingError petRuntime petContext 1) petRuntime
        petContext (pickyType "Dog" true) [fieldNode "pet" 3 (some [])] petInfo
        (responsePath.root.WithKey (.key "pet")) (.int 1) (initialState .null) =
      (.ok (.map []), { initialState .null with ranges := 1 })) := by
  refine ⟨?_, ?_, ?_, ?_⟩
  · intro isTypeOf fuel s hdef hfalse
    exact completeObjectValue_rejected fuel self rt eCtx returnType fieldASTs info path result
      isTypeOf hdef hfalse s
  · intro hresolves hType
    obtain ⟨fuel, r, hr, hne⟩ := collectSubFields_ends rt eCtx returnType fieldASTs ([], [])
    cases r with
    | outOfFuel => exact absurd rfl hne
    | panic p => exact absurd hr (collectSubFields_not_panic fuel rt eCtx hresolves _ _ _ p)
    | ok c =>
      obtain ⟨subFieldASTs, visited⟩ := c
      refine ⟨fuel, subFieldASTs, visited, ?_⟩
      intro extra
      have hcollect := collectSubFields_more_fuel rt eCtx returnType fuel extra fieldASTs _ _
        hr hne
      have heq := completeObjectValue_accepted (fuel + extra) self rt eCtx returnType fieldASTs
        info path result subFieldASTs visited hType hcollect
      refine ⟨hcollect, heq, ?_⟩
      intro s finalResults s' hsub
      rw [heq, Exec.bind_ok _ _ _ _ _ hsub]
      rfl
  · intro hType
    obtain ⟨fuel, r, hr, hne⟩ := collectSubFields_ends rt eCtx returnType fieldASTs ([], [])
    refine ⟨fuel, r, hne, ?_⟩
    intro extra
    have hcollect := collectSubFields_more_fuel rt eCtx returnType fuel extra fieldASTs _ _
      hr hne
    refine ⟨hcollect, ?_, ?_⟩
    · intro subFieldASTs visited hok
      rw [hok] at hcollect
      have heq := completeObjectValue_accepted (fuel + extra) self rt eCtx returnType fieldASTs
        info path result subFieldASTs visited hType hcollect
      refine ⟨heq, ?_⟩
      intro s finalResults s' hsub
      rw [heq, Exec.bind_ok _ _ _ _ _ hsub]
      rfl
    · intro p hp s
      rw [hp] at hcollect
      rw [completeObjectValue_aborted (fuel + extra) self rt eCtx returnType fieldASTs info
        path result p hType hcollect]
      rfl
  · exact ⟨rfl, rfl⟩

end Graphql

namespace Graphql

/-! ## The expansions of a collection -/

theorem Expands.of_nothing {expanded : List String} {visited : List (String × Bool)}
    (h : ExpandedOnce expanded visited) : Expands expanded visited expanded visited :=
  ⟨h, VisitedGrows.of_same visited, [], (List.append_nil _).symm, fun _ hmem => by cases hmem⟩

theorem Expands.compose {e0 e1 e2 : List String} {v0 v1 v2 : List (String × Bool)}
    (h1 : Expands e0 v0 e1 v1) (h2 : Expands e1 v1 e2 v2) : Expands e0 v0 e2 v2 := by
  obtain ⟨_, g1, new1, rfl, hnew1⟩ := h1
  obtain ⟨once2, g2, new2, rfl, hnew2⟩ := h2
  refine ⟨once2, g1.chain g2, new1 ++ new2, List.append_assoc _ _ _, ?_⟩
  intro name hmem
  rcases List.mem_append.1 hmem with h | h
  · exact hnew1 name h
  · intro hv
    exact hnew2 name h (g1 name hv)

/-- Marking a name without entering a fragment. -/
theorem Expands.of_marking {expanded : List String} {visited : List (String × Bool)}
    (h : ExpandedOnce expanded visited) (k : String) :
    Expands expanded visited expanded (mapSet visited k true) :=
  ⟨⟨h.1, fun name hmem => VisitedGrows.of_mark visited k name (h.2 name hmem)⟩,
    VisitedGrows.of_mark visited k, [], (List.append_nil _).symm, fun _ hmem => by cases hmem⟩

/-- Marking a name that was not visited and entering its fragment. -/
theorem Expands.of_entering {expanded : List String} {visited : List (String × Bool)}
    (h : ExpandedOnce expanded visited) (k : String)
    (hk : (visited.lookup k == some true) = false) :
    Expands expanded visited (expanded ++ [k]) (mapSet visited k true) := by
  have hne : visited.lookup k ≠ some true := by
    intro hv
    rw [hv] at hk
    exact absurd hk (by decide)
  refine ⟨⟨?_, ?_⟩, VisitedGrows.of_mark visited k, [k], rfl, ?_⟩
  · rw [List.nodup_append]
    refine ⟨h.1, List.nodup_singleton k, ?_⟩
    intro name hmem hk'
    rw [List.mem_singleton] at hk'
    subst hk'
    exact hne (h.2 name hmem)
  · intro name hmem
    rcases List.mem_append.1 hmem with h' | h'
    · exact VisitedGrows.of_mark visited k name (h.2 name h')
    · rw [List.mem_singleton] at h'
      subst h'
      exact lookup_mapSet_self _ _ _
  · intro name hmem
    rw [List.mem_singleton] at hmem
    subst hmem
    exact hne

/-- The traversal of the expansions follows `collectFields`: it returns the
same visited names, and the fragments that it enters are entered once. -/
theorem collectFields_expands (rt : Runtime) (eCtx : executionContext) :
    ∀ (fuel : Nat) (runtimeType : Object) (selectionSet : SelectionSet)
      (fields0 : List (String × List Field)) (visited0 : List (String × Bool))
      (expanded0 : List String) (fields : List (String × List Field))
      (visited : List (String × Bool)),
      ExpandedOnce expanded0 visited0 →
      collectFields rt eCtx fuel runtimeType selectionSet (fields0, visited0) =
        .ok (fields, visited) →
      ∃ expanded, expandedFragments rt eCtx fuel runtimeType selectionSet
          (expanded0, visited0) = some (expanded, visited) ∧
        Expands expanded0 visited0 expanded visited := by
  intro fuel
  induction fuel with
  | zero =>
    intro runtimeType selectionSet fields0 visited0 expanded0 fields visited hc h
    cases selectionSet with
    | none =>
      simp only [collectFields, Outcome.ok.injEq, Prod.mk.injEq] at h
      obtain ⟨rfl, rfl⟩ := h
      exact ⟨expanded0, by simp only [expandedFragments], Expands.of_nothing hc⟩
    | some selections => simp [collectFields] at h
  | succ fuel ih =>
    intro runtimeType selectionSet fields0 visited0 expanded0 fields visited hc h
    cases selectionSet with
    | none =>
      simp only [collectFields, Outcome.ok.injEq, Prod.mk.injEq] at h
      obtain ⟨rfl, rfl⟩ := h
      exact ⟨expanded0, by simp only [expandedFragments], Expands.of_nothing hc⟩
    | some selections =>
      simp only [collectFields] at h
      simp only [expandedFragments]
      induction selections generalizing fields0 visited0 expanded0 with
      | nil =>
        simp only [List.foldlM_nil, Outcome.pure_is_ok, Outcome.ok.injEq, Prod.mk.injEq] at h
        obtain ⟨rfl, rfl⟩ := h
        exact ⟨expanded0, rfl, Expands.of_nothing hc⟩
      | cons iSelection rest ihs =>
        simp only [List.foldlM_cons] at h
        rw [Outcome.bind_eq_ok] at h
        obtain ⟨⟨fields1, visited1⟩, hstep, hrest⟩ := h
        simp only [List.foldlM_cons, Option.bind_eq_bind]
        cases iSelection with
        | field selection =>
          simp only at hstep
          have hv : visited1 = visited0 := by
            by_cases hinc : shouldIncludeNode rt eCtx selection.Directives = true
            · simp only [hinc, Bool.not_true, Bool.false_eq_true, if_false, Outcome.ok.injEq,
                Prod.mk.injEq] at hstep
              exact hstep.2.symm
            · simp only [hinc, Bool.not_false, if_true, Outcome.ok.injEq,
                Prod.mk.injEq] at hstep
              exact hstep.2.symm
          subst hv
          simp only [Option.some_bind]
          exact ihs _ _ _ hc hrest
        | inlineFragment typeCondition directives selectionSet =>
          simp only at hstep
          cases hinc : shouldIncludeNode rt eCtx directives with
          | false =>
            simp only [hinc, Bool.not_false, if_true, Outcome.ok.injEq, Prod.mk.injEq] at hstep
            obtain ⟨rfl, rfl⟩ := hstep
            simp only [hinc, Bool.not_false, if_true, Option.some_bind]
            exact ihs _ _ _ hc hrest
          | true =>
            simp only [hinc, Bool.not_true, Bool.false_eq_true, if_false] at hstep
            simp only [hinc, Bool.not_true, Bool.false_eq_true, if_false]
            cases hm : doesFragmentConditionMatch rt eCtx (.inline typeCondition)
                runtimeType with
            | ok b =>
              cases b with
              | true =>
                simp only [hm] at hstep
                obtain ⟨expanded1, hexp1, hE1⟩ := ih _ _ _ _ expanded0 _ _ hc hstep
                simp only [hexp1, Option.some_bind]
                obtain ⟨expanded, hexp, hE⟩ := ihs _ _ _ hE1.1 hrest
                exact ⟨expanded, hexp, hE1.compose hE⟩
              | false =>
                simp only [hm, Outcome.ok.injEq, Prod.mk.injEq] at hstep
                obtain ⟨rfl, rfl⟩ := hstep
                simp only [Option.some_bind]
                exact ihs _ _ _ hc hrest
            | panic r => simp [hm] at hstep
            | outOfFuel => simp [hm] at hstep
        | fragmentSpread name directives =>
          simp only at hstep
          by_cases hskip : (visited0.lookup (name.getD "") == some true ||
              !shouldIncludeNode rt eCtx directives) = true
          · simp only [hskip, if_true, Outcome.ok.injEq, Prod.mk.injEq] at hstep
            obtain ⟨rfl, rfl⟩ := hstep
            simp only [hskip, if_true, Option.some_bind]
            exact ihs _ _ _ hc hrest
          · have hvisited : (visited0.lookup (name.getD "") == some true) = false := by
              simp only [Bool.or_eq_true, not_or, Bool.not_eq_true] at hskip
              exact hskip.1
            simp only [hskip, Bool.false_eq_true, if_false] at hstep
            simp only [hskip, Bool.false_eq_true, if_false]
            cases hfrag : eCtx.Fragments.lookup (name.getD "") with
            | none =>
              simp only [hfrag, Outcome.ok.injEq, Prod.mk.injEq] at hstep
              obtain ⟨rfl, rfl⟩ := hstep
              simp only [Option.some_bind]
              obtain ⟨expanded, hexp, hE⟩ := ihs _ _ _ (Expands.of_marking hc (name.getD "")).1 hrest
              exact ⟨expanded, hexp, (Expands.of_marking hc (name.getD "")).compose hE⟩
            | some definition =>
              cases definition with
              | fragment fragment =>
                simp only [hfrag] at hstep
                simp only
                cases hm : doesFragmentConditionMatch rt eCtx
                    (.definition fragment.TypeCondition) runtimeType with
                | ok b =>
                  cases b with
                  | true =>
                    simp only [hm] at hstep
                    have hE0 := Expands.of_entering hc (name.getD "") hvisited
                    obtain ⟨expanded1, hexp1, hE1⟩ := ih _ _ _ _ (expanded0 ++ [name.getD ""])
                      _ _ hE0.1 hstep
                    simp only [hexp1, Option.some_bind]
                    obtain ⟨expanded, hexp, hE⟩ := ihs _ _ _ hE1.1 hrest
                    exact ⟨expanded, hexp, (hE0.compose hE1).compose hE⟩
                  | false =>
                    simp only [hm, Outcome.ok.injEq, Prod.mk.injEq] at hstep
                    obtain ⟨rfl, rfl⟩ := hstep
                    simp only [Option.some_bind]
                    obtain ⟨expanded, hexp, hE⟩ := ihs _ _ _
                      (Expands.of_marking hc (name.getD "")).1 hrest
                    exact ⟨expanded, hexp, (Expands.of_marking hc (name.getD "")).compose hE⟩
                | panic r => simp [hm] at hstep
                | outOfFuel => simp [hm] at hstep
              | operation d =>
                simp only [hfrag, Outcome.ok.injEq, Prod.mk.injEq] at hstep
                obtain ⟨rfl, rfl⟩ := hstep
                simp only [Option.some_bind]
                obtain ⟨expanded, hexp, hE⟩ := ihs _ _ _ (Expands.of_marking hc (name.getD "")).1
                  hrest
                exact ⟨expanded, hexp, (Expands.of_marking hc (name.getD "")).compose hE⟩
              | other kind =>
                simp only [hfrag, Outcome.ok.injEq, Prod.mk.injEq] at hstep
                obtain ⟨rfl, rfl⟩ := hstep
                simp only [Option.some_bind]
                obtain ⟨expanded, hexp, hE⟩ := ihs _ _ _ (Expands.of_marking hc (name.getD "")).1
                  hrest
                exact ⟨expanded, hexp, (Expands.of_marking hc (name.getD "")).compose hE⟩

/-- The expansions of the loop over the merged field nodes follow
`collectSubFields`. -/
theorem collectSubFields_expands (fuel : Nat) (rt : Runtime) (eCtx : executionContext)
    (returnType : Object) :
    ∀ (fieldASTs : List Field) (fields0 : List (String × List Field))
      (visited0 : List (String × Bool)) (expanded0 : List String)
      (fields : List (String × List Field)) (visited : List (String × Bool)),
      ExpandedOnce expanded0 visited0 →
      collectSubFields fuel rt eCtx returnType fieldASTs (fields0, visited0) =
        .ok (fields, visited) →
      ∃ expanded, expandedSubFragments fuel rt eCtx returnType fieldASTs
          (expanded0, visited0) = some (expanded, visited) ∧
        Expands expanded0 visited0 expanded visited := by
  intro fieldASTs
  induction fieldASTs with
  | nil =>
    intro fields0 visited0 expanded0 fields visited hc h
    simp only [collectSubFields, Outcome.ok.injEq, Prod.mk.injEq] at h
    obtain ⟨rfl, rfl⟩ := h
    exact ⟨expanded0, by simp only [expandedSubFragments], Expands.of_nothing hc⟩
  | cons fieldAST rest ih =>
    intro fields0 visited0 expanded0 fields visited hc h
    unfold collectSubFields at h
    unfold expandedSubFragments
    cases hss : fieldAST.SelectionSet with
    | none =>
      rw [hss] at h
      exact ih _ _ _ _ _ hc h
    | some selectionSet =>
      rw [hss] at h
      simp only at h ⊢
      cases hcol : collectFields rt eCtx fuel returnType (some selectionSet)
          (fields0, visited0) with
      | outOfFuel =>
        rw [hcol] at h
        cases h
      | panic p =>
        rw [hcol] at h
        cases h
      | ok c =>
        obtain ⟨fields1, visited1⟩ := c
        rw [hcol] at h
        obtain ⟨expanded1, hexp1, hE1⟩ := collectFields_expands rt eCtx fuel returnType
          (some selectionSet) fields0 visited0 expanded0 fields1 visited1 hc hcol
        rw [hexp1]
        obtain ⟨expanded, hexp, hE⟩ := ih _ _ _ _ _ hE1.1 h
        exact ⟨expanded, hexp, hE1.compose hE⟩

end Graphql

namespace Graphql

/-- C36: each named fragment is expanded at most once in one collection
pass.  For a collection that returns: in the loop of `completeObjectValue` over the merged field nodes, from
a fresh set of visited names, and in one call of `collectFields` with its
nested calls, from any set of visited names, the fragments whose selection
set is entered are distinct, each is a visited name afterwards, none was a
visited name before, and the visited names only grow.  A spread whose name is
visited leaves the field map and the visited names as they are.  A spread
that is not passed by marks its name even when the document has no fragment
of that name or the type condition of the fragment does not match.  A spread
that its directives reject leaves the visited names as they are, so that the
collection goes on as if the spread were not there: in
`{ ...F @skip(if: true) ...F ...F }` the fragment `F { x: b }` is expanded,
once, and `{ ...F @skip(if: true) }` alone visits nothing. -/
theorem fragment_expanded_at_most_once (rt : Runtime) (eCtx : executionContext)
    (runtimeType : Object) :
    (∀ fuel fieldASTs fields visited,
      collectSubFields fuel rt eCtx runtimeType fieldASTs ([], []) = .ok (fields, visited) →
      ∃ expanded, expandedSubFragments fuel rt eCtx runtimeType fieldASTs ([], []) =
          some (expanded, visited) ∧
        expanded.Nodup ∧ ∀ name ∈ expanded, visited.lookup name = some true) ∧
    (∀ fuel selectionSet fields0 visited0 fields visited,
      collectFields rt eCtx fuel runtimeType selectionSet (fields0, visited0) =
        .ok (fields, visited) →
      ∃ expanded, expandedFragments rt eCtx fuel runtimeType selectionSet ([], visited0) =
          some (expanded, visited) ∧
        expanded.Nodup ∧ (∀ name ∈ expanded, visited.lookup name = some true) ∧
        (∀ name ∈ expanded, visited0.lookup name ≠ some true) ∧
        VisitedGrows visited0 visited) ∧
    (∀ fuel name directives (acc : Collected), acc.2.lookup (name.getD "") = some true →
      collectFields rt eCtx (fuel + 1) runtimeType (some [.fragmentSpread name directives])
        acc = .ok acc) ∧
    (∀ fuel name directives (acc : Collected), acc.2.lookup (name.getD "") ≠ some true →
      shouldIncludeNode rt eCtx directives = true →
      (eCtx.Fragments.lookup (name.getD "") = none ∨
        ∃ fragment, eCtx.Fragments.lookup (name.getD "") = some (.fragment fragment) ∧
          doesFragmentConditionMatch rt eCtx (.definition fragment.TypeCondition)
            runtimeType = .ok false) →
      collectFields rt eCtx (fuel + 1) runtimeType (some [.fragmentSpread name directives])
        acc = .ok (acc.1, mapSet acc.2 (name.getD "") true)) ∧
    (∀ fuel name directives rest (acc : Collected),
      shouldIncludeNode rt eCtx directives = false →
      collectFields rt eCtx (fuel + 1) runtimeType
          (some [.fragmentSpread name directives]) acc = .ok acc ∧
      collectFields rt eCtx (fuel + 1) runtimeType
          (some (.fragmentSpread name directives :: rest)) acc =
        collectFields rt eCtx (fuel + 1) runtimeType (some rest) acc) ∧
    (collectFields directiveRuntime fragmentContext 2 (queryType oneAndTwo)
        (some [spreadOf [ifDirective "skip" true], spreadOf [], spreadOf []]) ([], []) =
      .ok ([("x", [aliasedX "b" 40])], [("F", true)]) ∧
     expandedFragments directiveRuntime fragmentContext 2 (queryType oneAndTwo)
        (some [spreadOf [ifDirective "skip" true], spreadOf [], spreadOf []]) ([], []) =
      some (["F"], [("F", true)]) ∧
     collectFields directiveRuntime fragmentContext 2 (queryType oneAndTwo)
        (some [spreadOf [ifDirective "skip" true]]) ([], []) = .ok ([], [])) := by
  have hempty : ∀ visited : List (String × Bool), ExpandedOnce [] visited :=
    fun _ => ⟨List.nodup_nil, fun _ hmem => by cases hmem⟩
  refine ⟨?_, ?_, ?_, ?_, ?_, ⟨rfl, rfl, rfl⟩⟩
  · intro fuel fieldASTs fields visited h
    obtain ⟨expanded, hexp, hE⟩ := collectSubFields_expands fuel rt eCtx runtimeType fieldASTs
      [] [] [] fields visited (hempty _) h
    exact ⟨expanded, hexp, hE.1.1, hE.1.2⟩
  · intro fuel selectionSet fields0 visited0 fields visited h
    obtain ⟨expanded, hexp, hE⟩ := collectFields_expands rt eCtx fuel runtimeType selectionSet
      fields0 visited0 [] fields visited (hempty _) h
    obtain ⟨hOnce, hGrows, new, hnew, hfresh⟩ := hE
    rw [List.nil_append] at hnew
    subst hnew
    exact ⟨expanded, hexp, hOnce.1, hOnce.2, hfresh, hGrows⟩
  · intro fuel name directives acc hvisited
    apply collectFields_fragmentSpread_skip
    rw [hvisited]
    rfl
  · intro fuel name directives acc hvisited hinclude hfrag
    have hskip : (acc.2.lookup (name.getD "") == some true ||
        !shouldIncludeNode rt eCtx directives) = false := by
      rw [hinclude, Bool.not_true, Bool.or_false]
      simpa using hvisited
    rcases hfrag with hnone | ⟨fragment, hsome, hmatch⟩
    · exact collectFields_fragmentSpread_missing rt eCtx fuel runtimeType name directives acc
        hskip hnone
    · exact collectFields_fragmentSpread_mismatch rt eCtx fuel runtimeType name directives acc
        fragment hskip hsome hmatch
  · intro fuel name directives rest acc hreject
    have hskip : (acc.2.lookup (name.getD "") == some true ||
        !shouldIncludeNode rt eCtx directives) = true := by
      rw [hreject, Bool.not_false, Bool.or_true]
    have hone := collectFields_fragmentSpread_skip rt eCtx fuel runtimeType name directives acc
      hskip
    refine ⟨hone, ?_⟩
    rw [collectFields_cons, hone, Outcome.ok_bind]

end Graphql
